import Mathlib

set_option autoImplicit false

/-!
VP3/Theora and Dirac decoder core: a shallow embedding.

C arrays are total functions from indices, pointers into a shared buffer are
offsets into one flat function, `int` variables are `Int`, unsigned ones `Nat`
with an explicit modulus where the source can wrap.
-/

namespace Vp3

/-! ## Bit reader (`get_bits.h` is not part of the sources: the reader is a
stream of bits with a cursor; what lies past the end of a packet is whatever
the stream holds there). -/

/-- Bit reader state: the bits of the packet and the read cursor. -/
structure GetBitContext where
  buffer : Nat → Bool
  index : Nat

/-- Modelled from the spec: `get_bits1` reads one bit at the cursor and advances it. -/
def get_bits1 (gb : GetBitContext) : Nat × GetBitContext :=
  ((if gb.buffer gb.index then 1 else 0), { gb with index := gb.index + 1 })

/-- Big-endian accumulation of `n` bits starting at position `i`. -/
def read_bits (buffer : Nat → Bool) : Nat → Nat → Nat → Nat
  | 0, _, acc => acc
  | n + 1, i, acc => read_bits buffer n (i + 1) (2 * acc + (if buffer i then 1 else 0))

/-- Modelled from the spec: `get_bits(gb, n)` reads a fixed-width big-endian field. -/
def get_bits (gb : GetBitContext) (n : Nat) : Nat × GetBitContext :=
  (read_bits gb.buffer n gb.index 0, { gb with index := gb.index + n })

/-- Modelled from the spec: `skip_bits(gb, n)` advances the cursor. -/
def skip_bits (gb : GetBitContext) (n : Nat) : GetBitContext :=
  { gb with index := gb.index + n }

/-- Result of `get_vlc2` on a table that is not part of the sources: the decoded
symbol and the number of bits the code word took, as a function of the stream
and the cursor. -/
abbrev VLC := (Nat → Bool) → Nat → Nat × Nat

/-- Read one symbol with `get_vlc2`. -/
def get_vlc2 (gb : GetBitContext) (table : VLC) : Nat × GetBitContext :=
  ((table gb.buffer gb.index).1, { gb with index := gb.index + (table gb.buffer gb.index).2 })

/-! ## Decoder context -/

/-- `struct vp3_block`: `dc` is `int16_t`, `mb_mode` is `uint8_t`, `qpi` and
`coded` are two-bit fields. -/
structure vp3_block where
  dc : Int
  mb_mode : Nat
  qpi : Nat
  coded : Nat
deriving DecidableEq

/-- The fields of `Vp3DecodeContext` used by the unpacking and set-up code.
`superblock_coding`, `coded_blocks`, `all_blocks` and `blocks` are the buffers
allocated for plane 0; the per-plane pointers are offsets into them. `blocks`
is indexed by the `int` entries of `coded_blocks` and `all_blocks`.
`num_coded_blocks` is the array `int [3][64]` laid out flat;
`dct_tokens[plane][zzi]` is an offset into the buffer `dct_tokens_base`. -/
structure Vp3DecodeContext where
  theora : Int
  keyframe : Bool
  linesize : Nat → Int
  superblock_count : Nat → Nat
  num_superblocks : Nat
  block_width : Nat → Nat
  block_height : Nat → Nat
  superblock_coding : Nat → Nat
  superblock_coding_off : Nat → Nat
  coded_blocks : Nat → Int
  coded_blocks_off : Nat → Nat
  all_blocks : Nat → Int
  all_blocks_off : Nat → Nat
  blocks : Int → vp3_block
  blocks_off : Nat → Nat
  num_coded_blocks : Nat → Int
  dct_tokens_base : Nat → Int
  dct_tokens : Nat → Nat → Nat
  qmat : Nat → Nat → Nat → Nat → Int
  idct_permutation : Nat → Nat
  coded_dc_scale_factor : Nat → Nat
  coded_ac_scale_factor : Nat → Nat
  base_matrix : Nat → Nat → Nat
  qr_count : Nat → Nat → Nat
  qr_size : Nat → Nat → Nat → Nat
  qr_base : Nat → Nat → Nat → Nat
  qps : Nat → Int
  nqps : Nat
  last_qps : Nat → Int
  width : Nat := 0
  height : Nat := 0
  superblock_width : Nat → Nat := fun _ => 0
  superblock_height : Nat → Nat := fun _ => 0
  num_blocks : Nat := 0
  num_mvs : Int := 0

/-- `s->num_coded_blocks[plane][i]`. -/
def num_coded (s : Vp3DecodeContext) (plane i : Nat) : Int :=
  s.num_coded_blocks (64 * plane + i)

/-! ## Dequantizer set-up -/

/-- Modelled from the spec: `av_clip` clamps its first argument to `[amin, amax]`. -/
def av_clip (a amin amax : Int) : Int :=
  if a < amin then amin else if a > amax then amax else a

/-- The ramp scan of `init_dequantizer`: `for(qri=0; qri<qr_count; qri++){ sum+= size[qri];
if(qi <= sum) break; }`. The first argument counts the iterations left
(`qr_count - qri`); the result is the final `(qri, sum)`. -/
def ramp_scan (size : Nat → Nat) (qi : Int) : Nat → Nat → Int → Nat × Int
  | 0, qri, sum => (qri, sum)
  | k + 1, qri, sum =>
    if qi ≤ sum + (size qri : Int) then (qri, sum + (size qri : Int))
    else ramp_scan size qi k (qri + 1) (sum + (size qri : Int))

/-- Pointwise store into `qmat[plane][inter][qpi][coeff]`. -/
def qmat_set (q : Nat → Nat → Nat → Nat → Int) (plane inter qpi c : Nat) (v : Int) :
    Nat → Nat → Nat → Nat → Int :=
  fun p i k j => if p = plane ∧ i = inter ∧ k = qpi ∧ j = c then v else q p i k j

/-- The value `init_dequantizer` computes for coefficient `i` (before the
permutation), with C's truncating division. -/
def dequant_coeff (s : Vp3DecodeContext) (qpi inter plane i : Nat) : Int :=
  let qi := s.qps qpi
  let ac_scale_factor : Int := s.coded_ac_scale_factor qi.toNat
  let dc_scale_factor : Int := s.coded_dc_scale_factor qi.toNat
  let scan := ramp_scan (s.qr_size inter plane) qi (s.qr_count inter plane) 0 0
  let qri := scan.1
  let sum := scan.2
  let size : Int := s.qr_size inter plane qri
  let qistart := sum - size
  let bmi := s.qr_base inter plane qri
  let bmj := s.qr_base inter plane (qri + 1)
  let coeff := Int.tdiv (2 * (sum - qi) * (s.base_matrix bmi i : Int)
                 - 2 * (qistart - qi) * (s.base_matrix bmj i : Int) + size) (2 * size)
  let qmin : Int := 8 <<< (inter + (if i = 0 then 1 else 0))
  let qscale := if i ≠ 0 then ac_scale_factor else dc_scale_factor
  av_clip (Int.tdiv (qscale * coeff) 100 * 4) qmin 4096

/-- Body of the `plane` loop of `init_dequantizer`: the 64 stores through
`idct_permutation`, then the DC entry is overwritten with that of `qpi` 0. -/
def init_dequantizer_plane (s : Vp3DecodeContext) (qpi inter plane : Nat) : Vp3DecodeContext :=
  let s1 := (List.range 64).foldl
    (fun (t : Vp3DecodeContext) i =>
      { t with qmat := qmat_set t.qmat plane inter qpi (t.idct_permutation i)
                         (dequant_coeff t qpi inter plane i) }) s
  { s1 with qmat := qmat_set s1.qmat plane inter qpi 0 (s1.qmat plane inter 0 0) }

/-- `init_dequantizer(s, qpi)`: `for(inter=0; inter<2; inter++) for(plane=0; plane<3; plane++)`. -/
def init_dequantizer (s : Vp3DecodeContext) (qpi : Nat) : Vp3DecodeContext :=
  (List.range 2).foldl
    (fun t inter => (List.range 3).foldl (fun u plane => init_dequantizer_plane u qpi inter plane) t) s

/-- The quality-index loop of `vp3_decode_frame`:
`do{ qps[nqps++]= get_bits(6); } while(theora >= 0x030200 && nqps<3 && get_bits1())`.
The first argument bounds the iterations left (`3 - nqps`). -/
def read_qps (theora : Int) : Nat → Vp3DecodeContext → GetBitContext → Vp3DecodeContext × GetBitContext
  | 0, s, gb => (s, gb)
  | k + 1, s, gb =>
    let r := get_bits gb 6
    let s1 := { s with qps := Function.update s.qps s.nqps (r.1 : Int), nqps := s.nqps + 1 }
    if theora ≥ 0x030200 ∧ s1.nqps < 3 then
      let b := get_bits1 r.2
      if b.1 ≠ 0 then read_qps theora k s1 b.2 else (s1, b.2)
    else (s1, r.2)

/-- One step of `for (i = 0; i < nqps; i++) if (qps[i] != last_qps[i] || qps[0] != last_qps[0])
init_dequantizer(s, i);`. -/
def reinit_dequantizer (s : Vp3DecodeContext) (i : Nat) : Vp3DecodeContext :=
  if s.qps i ≠ s.last_qps i ∨ s.qps 0 ≠ s.last_qps 0 then init_dequantizer s i else s

/-- `for (i = 0; i < 3; i++) s->last_qps[i] = s->qps[i];` -/
def save_last_qps (s : Vp3DecodeContext) : Vp3DecodeContext :=
  { s with last_qps := fun i => if i < 3 then s.qps i else s.last_qps i }

/-- `for (i = s->nqps; i < 3; i++) s->qps[i] = -1;` -/
def clear_unused_qps (s : Vp3DecodeContext) : Vp3DecodeContext :=
  { s with qps := fun i => if s.nqps ≤ i ∧ i < 3 then -1 else s.qps i }

/-- Lines 1323-1344 of `vp3_decode_frame`: remember the previous quality
indices, read the new ones, mark the unused levels with `-1` and rebuild the
dequantizers that changed. (`init_loop_filter` only writes
`bounding_values_array`, which is not carried here.) -/
def setup_dequantizers (s : Vp3DecodeContext) (gb : GetBitContext) :
    Vp3DecodeContext × GetBitContext :=
  let s2 := save_last_qps s
  let r := read_qps s2.theora 3 { s2 with nqps := 0 } gb
  let s4 := clear_unused_qps r.1
  ((List.range s4.nqps).foldl reinit_dequantizer s4, r.2)

/-- The head of `vp3_decode_frame`, up to and including the dequantizer set-up.
`none` is the early `return -1` for a header packet; the context is then
untouched. -/
def vp3_decode_frame_setup (s : Vp3DecodeContext) (gb : GetBitContext) :
    Option (Vp3DecodeContext × GetBitContext) :=
  let hdr := if s.theora ≠ 0 then get_bits1 gb else (0, gb)
  if s.theora ≠ 0 ∧ hdr.1 ≠ 0 then none
  else
    let k := get_bits1 hdr.2
    let gb1 := if s.theora = 0 then skip_bits k.2 1 else k.2
    some (setup_dequantizers { s with keyframe := (k.1 = 0) } gb1)

/-- A sequence of packets handed to `vp3_decode_frame`; a rejected packet leaves
the context as it was. -/
def decode_frames (s : Vp3DecodeContext) (packets : List GetBitContext) : Vp3DecodeContext :=
  packets.foldl (fun t gb => match vp3_decode_frame_setup t gb with
    | some r => r.1
    | none => t) s

/-! ## Block quantizer indices -/

/-- How a modelled C function ends: normal completion with a value (`return 0`),
the error return (`return -1`), or the iteration bound of the model used up. -/
inductive Ret (α : Type) where
  | done : α → Ret α
  | fail : Ret α
  | diverge : Ret α

/-- One run length of the long-run code:
`run_length = get_vlc2(...) + 1; if (run_length == 34) run_length += get_bits(gb, 12);` -/
def get_long_run (gb : GetBitContext) (table : VLC) : Nat × GetBitContext :=
  let v := get_vlc2 gb table
  if v.1 + 1 = 34 then ((v.1 + 1) + (get_bits v.2 12).1, (get_bits v.2 12).2) else (v.1 + 1, v.2)

/-- `s->blocks[0][idx].qpi += bit` on the two-bit field. -/
def block_qpi_add (s : Vp3DecodeContext) (idx : Int) (bit : Nat) : Vp3DecodeContext :=
  let b := s.blocks idx
  { s with blocks := Function.update s.blocks idx ({ b with qpi := (b.qpi + bit) % 4 }) }

/-- `s->coded_blocks[0][i]`. -/
def coded_block (s : Vp3DecodeContext) (i : Nat) : Int :=
  s.coded_blocks (s.coded_blocks_off 0 + i)

/-- The loop `for (j = 0; j < run_length; i++)` of `unpack_block_qpis`. The last
argument is `run_length - j`; the first bounds the iterations left and is
`num_coded_blocks + 1 - i`, so it is 0 only when `i > num_coded_blocks`.
`none` is `return -1`; otherwise the context and the final `i`. -/
def qpi_run (n : Int) (qpi bit : Nat) :
    Nat → Vp3DecodeContext → Nat → Nat → Option (Vp3DecodeContext × Nat)
  | _, s, i, 0 => some (s, i)
  | 0, _, _, _ + 1 => none
  | d + 1, s, i, rem + 1 =>
    if (i : Int) > n then none
    else if (s.blocks (coded_block s i)).qpi = qpi then
      qpi_run n qpi bit d (block_qpi_add s (coded_block s i) bit) (i + 1) rem
    else qpi_run n qpi bit d s (i + 1) (rem + 1)

/-- The `do ... while (blocks_decoded < num_blocks)` loop of `unpack_block_qpis`
for one level. The first argument bounds the iterations; every iteration adds
at least 1 to `blocks_decoded`, so `num_blocks` iterations are enough. The
result carries `num_blocks_at_qpi`. -/
def qpi_runs (table : VLC) (n num_blocks : Int) (qpi : Nat) :
    Nat → Vp3DecodeContext → GetBitContext → Nat → Int → Int → Nat →
      Ret (Vp3DecodeContext × GetBitContext × Int)
  | 0, _, _, _, _, _, _ => Ret.diverge
  | k + 1, s, gb, i, blocks_decoded, num_blocks_at_qpi, bit =>
    let r := get_long_run gb table
    let at_qpi := if bit = 0 then num_blocks_at_qpi + (r.1 : Int) else num_blocks_at_qpi
    match qpi_run n qpi bit (n + 1 - (i : Int)).toNat s i r.1 with
    | none => Ret.fail
    | some (s1, i1) =>
      let b := if r.1 = 4129 then get_bits1 r.2 else (bit ^^^ 1, r.2)
      if blocks_decoded + (r.1 : Int) < num_blocks then
        qpi_runs table n num_blocks qpi k s1 b.2 i1 (blocks_decoded + (r.1 : Int)) at_qpi b.1
      else Ret.done (s1, b.2, at_qpi)

/-- The loop `for (qpi = 0; qpi < s->nqps-1 && num_blocks > 0; qpi++)`; the first
argument is the number of levels left, `nqps - 1 - qpi`. -/
def qpi_levels (table : VLC) (n : Int) :
    Nat → Vp3DecodeContext → GetBitContext → Nat → Int → Ret (Vp3DecodeContext × GetBitContext)
  | 0, s, gb, _, _ => Ret.done (s, gb)
  | k + 1, s, gb, qpi, num_blocks =>
    if num_blocks > 0 then
      match qpi_runs table n num_blocks qpi num_blocks.toNat s (get_bits1 gb).2 0 0 0 (get_bits1 gb).1 with
      | Ret.done (s1, gb1, at_qpi) => qpi_levels table n k s1 gb1 (qpi + 1) (num_blocks - at_qpi)
      | Ret.fail => Ret.fail
      | Ret.diverge => Ret.diverge
    else Ret.done (s, gb)

/-- `unpack_block_qpis`, reading the runs with the long-run VLC `table`. -/
def unpack_block_qpis (s : Vp3DecodeContext) (gb : GetBitContext) (table : VLC) :
    Ret (Vp3DecodeContext × GetBitContext) :=
  let num_coded_blocks := num_coded s 0 0 + num_coded s 1 0 + num_coded s 2 0
  qpi_levels table num_coded_blocks (s.nqps - 1) s gb 0 num_coded_blocks

/-! ## Block coding flags -/

/-- `memset(base + start, v, len)` on a byte array. -/
def memset (a : Nat → Nat) (start v len : Nat) : Nat → Nat :=
  fun i => if start ≤ i ∧ i < start + len then v else a i

/-- Result of the superblock passes of `unpack_block_coding`: the context, the
reader, and the locals `bit` and `run_length` that the block pass goes on with. -/
structure SbCoding where
  s : Vp3DecodeContext
  gb : GetBitContext
  bit : Nat
  run_length : Nat

/-- First pass of `unpack_block_coding` (partially coded superblocks): the loop
`do { ... } while (superblocks_decoded < s->num_superblocks)`. The first
argument bounds the iterations (each adds at least 1 to
`superblocks_decoded`). The result carries `num_partially_coded`. -/
def sb_partial_runs (table : VLC) :
    Nat → Vp3DecodeContext → GetBitContext → Nat → Nat → Nat → Ret (SbCoding × Nat)
  | 0, _, _, _, _, _ => Ret.diverge
  | k + 1, s, gb, superblocks_decoded, num_partially_coded, bit =>
    let r := get_long_run gb table
    if superblocks_decoded + r.1 > s.num_superblocks then Ret.fail
    else
      let coding := memset s.superblock_coding (s.superblock_coding_off 0 + superblocks_decoded)
        (1 * bit) r.1
      let s1 := { s with superblock_coding := coding }
      let npc := if bit ≠ 0 then num_partially_coded + r.1 else num_partially_coded
      let b := if r.1 = 4129 then get_bits1 r.2 else (bit ^^^ 1, r.2)
      if superblocks_decoded + r.1 < s.num_superblocks then
        sb_partial_runs table k s1 b.2 (superblocks_decoded + r.1) npc b.1
      else Ret.done (⟨s1, b.2, b.1, r.1⟩, npc)

/-- The loop `for (j = 0; j < run_length; i++)` of the second pass. The last
argument is `run_length - j`; the first bounds the iterations left and is
`num_superblocks + 1 - i`, so it is 0 only when `i > num_superblocks`. -/
def sb_full_run (bit : Nat) : Nat → Vp3DecodeContext → Nat → Nat → Option (Vp3DecodeContext × Nat)
  | _, s, i, 0 => some (s, i)
  | 0, _, _, _ + 1 => none
  | d + 1, s, i, rem + 1 =>
    if i > s.num_superblocks then none
    else if s.superblock_coding (s.superblock_coding_off 0 + i) = 0 then
      let coding := Function.update s.superblock_coding (s.superblock_coding_off 0 + i) (2 * bit)
      sb_full_run bit d { s with superblock_coding := coding } (i + 1) rem
    else sb_full_run bit d s (i + 1) (rem + 1)

/-- Second pass (fully coded superblocks): the loop
`do { ... } while (superblocks_decoded < s->num_superblocks - num_partially_coded)`. -/
def sb_full_runs (table : VLC) (num_partially_coded : Nat) :
    Nat → Vp3DecodeContext → GetBitContext → Nat → Nat → Nat → Ret SbCoding
  | 0, _, _, _, _, _ => Ret.diverge
  | k + 1, s, gb, i, superblocks_decoded, bit =>
    let r := get_long_run gb table
    match sb_full_run bit (s.num_superblocks + 1 - i) s i r.1 with
    | none => Ret.fail
    | some (s1, i1) =>
      let b := if r.1 = 4129 then get_bits1 r.2 else (bit ^^^ 1, r.2)
      if ((superblocks_decoded + r.1 : Nat) : Int) < (s.num_superblocks : Int) - (num_partially_coded : Int) then
        sb_full_runs table num_partially_coded k s1 b.2 i1 (superblocks_decoded + r.1) b.1
      else Ret.done ⟨s1, b.2, b.1, r.1⟩

/-- Lines 377-432 of `unpack_block_coding`: both superblock passes and the
initial bit of the block runs. -/
def unpack_superblock_coding (s : Vp3DecodeContext) (gb : GetBitContext) (table : VLC) :
    Ret SbCoding :=
  match sb_partial_runs table (s.num_superblocks + 1) s (get_bits1 gb).2 0 0 (get_bits1 gb).1 with
  | Ret.fail => Ret.fail
  | Ret.diverge => Ret.diverge
  | Ret.done (p, num_partially_coded) =>
    let q :=
      if p.s.num_superblocks > num_partially_coded then
        sb_full_runs table num_partially_coded (p.s.num_superblocks + 1) p.s (get_bits1 p.gb).2 0 0
          (get_bits1 p.gb).1
      else Ret.done p
    match q with
    | Ret.fail => Ret.fail
    | Ret.diverge => Ret.diverge
    | Ret.done c =>
      if num_partially_coded ≠ 0 then
        Ret.done { c with gb := (get_bits1 c.gb).2, bit := (get_bits1 c.gb).1 ^^^ 1, run_length := 0 }
      else Ret.done c

/-- State of the block loops of `unpack_block_coding`: the context, the reader
and the locals `bit`, `run_length` and `num_coded_blocks`. -/
structure BlockCoding where
  s : Vp3DecodeContext
  gb : GetBitContext
  bit : Nat
  run_length : Nat
  num_coded_blocks : Nat

/-- `(struct vp3_block){ .coded = coded }`: the other members are 0 and the
two-bit field keeps `coded` modulo 4. -/
def block_of_coded (coded : Nat) : vp3_block := ⟨0, 0, 0, coded % 4⟩

/-- Body of the loop `for (j = 0; j < 16; j++)` for the entry `k = 16*i + j`
of `all_blocks[plane]` in a superblock whose flag is `sb_coded`. -/
def code_block (frag : VLC) (plane sb_coded : Nat) (st : BlockCoding) (k : Nat) : BlockCoding :=
  let block_i := st.s.all_blocks (st.s.all_blocks_off plane + k)
  if block_i < 0 then st
  else
    let st1 : BlockCoding :=
      if sb_coded = 1 then
        if st.run_length = 0 then
          let v := get_vlc2 st.gb frag
          { st with run_length := v.1, gb := v.2, bit := st.bit ^^^ 1 }
        else { st with run_length := st.run_length - 1 }
      else st
    let coded := if sb_coded = 1 then st1.bit else sb_coded
    let s2 := { st1.s with blocks := Function.update st1.s.blocks block_i (block_of_coded coded) }
    if coded ≠ 0 then
      let list := Function.update s2.coded_blocks
        (s2.coded_blocks_off plane + st1.num_coded_blocks) block_i
      { st1 with s := { s2 with coded_blocks := list }, num_coded_blocks := st1.num_coded_blocks + 1 }
    else { st1 with s := s2 }

/-- Body of the loop `for (i = 0; i < s->superblock_count[plane]; i++)`. -/
def code_superblock (frag : VLC) (plane : Nat) (st : BlockCoding) (i : Nat) : BlockCoding :=
  (List.range 16).foldl
    (fun t j => code_block frag plane (st.s.superblock_coding (st.s.superblock_coding_off plane + i))
      t (16 * i + j)) st

/-- Body of the loop `for (plane = 0; plane < 3; plane++)`: the blocks of the
plane, then `num_coded_blocks[plane][i]` and the start of the next plane's list. -/
def code_plane (frag : VLC) (st : BlockCoding) (plane : Nat) : BlockCoding :=
  let t := (List.range (st.s.superblock_count plane)).foldl (code_superblock frag plane)
    { st with num_coded_blocks := 0 }
  let counts : Nat → Int := fun k =>
    if 64 * plane ≤ k ∧ k < 64 * plane + 64 then (t.num_coded_blocks : Int)
    else t.s.num_coded_blocks k
  let s1 := { t.s with num_coded_blocks := counts }
  let next := Function.update s1.coded_blocks_off (plane + 1)
    (s1.coded_blocks_off plane + t.num_coded_blocks)
  { t with s := if plane < 2 then { s1 with coded_blocks_off := next } else s1 }

/-- Lines 434-468 of `unpack_block_coding`: the block coded flags. -/
def unpack_block_flags (frag : VLC) (c : SbCoding) : Vp3DecodeContext × GetBitContext :=
  let t := (List.range 3).foldl (code_plane frag) ⟨c.s, c.gb, c.bit, c.run_length, 0⟩
  (t.s, t.gb)

/-- `unpack_block_coding`, with the long-run and the short-run VLC tables. -/
def unpack_block_coding (s : Vp3DecodeContext) (gb : GetBitContext) (table frag : VLC) :
    Ret (Vp3DecodeContext × GetBitContext) :=
  match unpack_superblock_coding s gb table with
  | Ret.fail => Ret.fail
  | Ret.diverge => Ret.diverge
  | Ret.done c => Ret.done (unpack_block_flags frag c)

/-! ## DC prediction -/

/-- Conversion of an `int` to `int16_t` (two's complement wrap-around). -/
def wrap16 (v : Int) : Int := (v + 32768) % 65536 - 32768

/-- Modelled from the spec: `FFABS` is the absolute value. -/
def FFABS (a : Int) : Int := if a ≥ 0 then a else -a

/-- The table `predictor_transform[16][4]`: weights of the up-left, up,
up-right and left neighbours for each neighbour mask. -/
def predictor_transform (transform i : Nat) : Int :=
  ([[0, 0, 0, 0], [0, 0, 0, 128], [0, 0, 128, 0], [0, 0, 53, 75],
    [0, 128, 0, 0], [0, 64, 0, 64], [0, 128, 0, 0], [0, 0, 53, 75],
    [128, 0, 0, 0], [0, 0, 0, 128], [64, 0, 64, 0], [0, 0, 53, 75],
    [0, 128, 0, 0], [-104, 116, 0, 116], [24, 80, 24, 0], [-104, 116, 0, 116]].getD transform
      []).getD i 0

/-- The table `mode_bin[8]`: 0 for intra, 1 for the inter modes, 2 for the
golden modes (`mb_mode` is always one of the eight `MODE_*` values). -/
def mode_bin (mb_mode : Nat) : Nat := [1, 0, 1, 1, 1, 2, 2, 1].getD mb_mode 0

/-- The locals of `reverse_dc_prediction` that live across blocks. -/
structure DcVars where
  last_dc : Nat → Int
  vl : Int
  vul : Int
  vu : Int
  vur : Int

/-- `BLOCK_I(x,y)` as an index into `s->blocks[plane]`, whose offset in the
block buffer is `base`. -/
def BLOCK_I (width : Nat) (base : Int) (x y : Nat) : Int :=
  base + ((y * width + x : Nat) : Int)

/-- `BLOCK_CODED(x,y)`. -/
def BLOCK_CODED (keyframe : Bool) (width : Nat) (base : Int) (blocks : Int → vp3_block)
    (x y : Nat) : Bool :=
  keyframe || decide ((blocks (BLOCK_I width base x y)).coded ≠ 0)

/-- `BLOCK_MODE(x,y)`. -/
def BLOCK_MODE (width : Nat) (base : Int) (blocks : Int → vp3_block) (x y : Nat) : Nat :=
  mode_bin (blocks (BLOCK_I width base x y)).mb_mode

/-- `BLOCK_DC(x,y)`. -/
def BLOCK_DC (width : Nat) (base : Int) (blocks : Int → vp3_block) (x y : Nat) : Int :=
  (blocks (BLOCK_I width base x y)).dc

/-- The prediction rule of `reverse_dc_prediction` for the coded block `(x, y)`:
the neighbour values are loaded (a variable whose neighbour lies outside the
plane keeps its old value), the mask `transform` is formed, and the predicted DC
is the last DC of the bin (mask 0) or the weighted sum divided by 128 with the
out-of-range check of masks 13 and 15. Returns the locals (with `last_dc`
untouched) and `predicted_dc`. -/
def dc_prediction (keyframe : Bool) (width : Nat) (base : Int) (blocks : Int → vp3_block)
    (x y : Nat) (v : DcVars) : DcVars × Int :=
  let current_bin := BLOCK_MODE width base blocks x y
  let usable := fun (nx ny : Nat) =>
    BLOCK_CODED keyframe width base blocks nx ny ∧ BLOCK_MODE width base blocks nx ny = current_bin
  let vl := if x ≠ 0 then BLOCK_DC width base blocks (x - 1) y else v.vl
  let pl := if x ≠ 0 ∧ usable (x - 1) y then 1 else 0
  let vu := if y ≠ 0 then BLOCK_DC width base blocks x (y - 1) else v.vu
  let pu := if y ≠ 0 ∧ usable x (y - 1) then 4 else 0
  let vul := if y ≠ 0 ∧ x ≠ 0 then BLOCK_DC width base blocks (x - 1) (y - 1) else v.vul
  let pul := if y ≠ 0 ∧ x ≠ 0 ∧ usable (x - 1) (y - 1) then 8 else 0
  let vur := if y ≠ 0 ∧ x + 1 < width then BLOCK_DC width base blocks (x + 1) (y - 1) else v.vur
  let pur := if y ≠ 0 ∧ x + 1 < width ∧ usable (x + 1) (y - 1) then 2 else 0
  let transform := pl ||| pu ||| pul ||| pur
  let weighted := Int.tdiv
    (predictor_transform transform 0 * vul + predictor_transform transform 1 * vu +
      predictor_transform transform 2 * vur + predictor_transform transform 3 * vl) 128
  let predicted_dc :=
    if transform = 0 then v.last_dc current_bin
    else if transform = 13 ∨ transform = 15 then
      if FFABS (weighted - vu) > 128 then vu
      else if FFABS (weighted - vl) > 128 then vl
      else if FFABS (weighted - vul) > 128 then vul
      else weighted
    else weighted
  ({ v with vl := vl, vul := vul, vu := vu, vur := vur }, predicted_dc)

/-- Store into the `dc` member of one block. -/
def set_dc (blocks : Int → vp3_block) (i : Int) (dc : Int) : Int → vp3_block :=
  Function.update blocks i { (blocks i) with dc := dc }

/-- Body of the `x` loop of `reverse_dc_prediction`: a block that is not coded is
skipped; otherwise `BLOCK_DC(x,y) += predicted_dc` in `int16_t` and the result is
saved as the last DC of the bin. -/
def reverse_dc_block (keyframe : Bool) (width : Nat) (base : Int) (x y : Nat)
    (st : (Int → vp3_block) × DcVars) : (Int → vp3_block) × DcVars :=
  if BLOCK_CODED keyframe width base st.1 x y then
    let current_bin := BLOCK_MODE width base st.1 x y
    let p := dc_prediction keyframe width base st.1 x y st.2
    let dc := wrap16 (BLOCK_DC width base st.1 x y + p.2)
    (set_dc st.1 (BLOCK_I width base x y) dc,
      { p.1 with last_dc := Function.update p.1.last_dc current_bin dc })
  else st

/-- `reverse_dc_prediction(s, plane)`: all blocks of the plane in raster order,
starting with `last_dc = {0}` and `vul = vu = vur = vl = 0`. -/
def reverse_dc_prediction (s : Vp3DecodeContext) (plane : Nat) : Vp3DecodeContext :=
  let width := s.block_width plane
  let height := s.block_height plane
  let r := (List.range height).foldl
    (fun st y => (List.range width).foldl
      (fun t x => reverse_dc_block s.keyframe width (s.blocks_off plane) x y t) st)
    (s.blocks, (⟨fun _ => 0, 0, 0, 0, 0⟩ : DcVars))
  { s with blocks := r.1 }

/-- Encoder side of the DC prediction, following the claim's words: for a
coded block the residual is its DC minus the prediction that the rule of
`reverse_dc_prediction` computes from the reconstructed (that is, original)
neighbours, stored as `int16_t`; the reconstructed DC becomes the last DC of
the bin. `orig` holds the original DCs, `st.1` the residuals formed so far. -/
def dc_residual_block (keyframe : Bool) (width : Nat) (base : Int) (orig : Int → vp3_block)
    (x y : Nat) (st : (Int → vp3_block) × DcVars) : (Int → vp3_block) × DcVars :=
  if BLOCK_CODED keyframe width base orig x y then
    let current_bin := BLOCK_MODE width base orig x y
    let p := dc_prediction keyframe width base orig x y st.2
    let residual := wrap16 (BLOCK_DC width base orig x y - p.2)
    let last := Function.update p.1.last_dc current_bin (BLOCK_DC width base orig x y)
    (set_dc st.1 (BLOCK_I width base x y) residual, { p.1 with last_dc := last })
  else st

/-- The residuals of a whole plane, formed in raster order. -/
def dc_residuals (s : Vp3DecodeContext) (plane : Nat) : Vp3DecodeContext :=
  let width := s.block_width plane
  let height := s.block_height plane
  let r := (List.range height).foldl
    (fun st y => (List.range width).foldl
      (fun t x => dc_residual_block s.keyframe width (s.blocks_off plane) s.blocks x y t) st)
    (s.blocks, (⟨fun _ => 0, 0, 0, 0, 0⟩ : DcVars))
  { s with blocks := r.1 }

/-! ## Loop filter -/

/-- The four call sites of the loop filters in `apply_loop_filter`. -/
inductive FilterSite where
  | left
  | top
  | right
  | bottom
deriving DecidableEq

/-- One call of `vp3_h_loop_filter` (`horizontal = true`, it filters across a
vertical edge) or `vp3_v_loop_filter`: the plane, the pointer passed as an
offset from `dst`, and the block and call site that made it. -/
structure FilterCall where
  plane : Nat
  horizontal : Bool
  offset : Int
  x : Nat
  site : FilterSite
deriving DecidableEq

/-- `BLOCK_CODED(x, y)` inside `apply_loop_filter`. -/
def lf_coded (s : Vp3DecodeContext) (plane y x : Nat) : Bool :=
  BLOCK_CODED s.keyframe (s.block_width plane) (s.blocks_off plane) s.blocks x y

/-- Body of the loop `for (x = 0; x < s->block_width[plane]; x++)` of
`apply_loop_filter`: the filter calls made for block `(x, y)`, in order. -/
def loop_filter_block (s : Vp3DecodeContext) (plane y x : Nat) : List FilterCall :=
  if lf_coded s plane y x then
    (if x > 0 then [⟨plane, true, (x : Int) * 8, x, FilterSite.left⟩] else []) ++
    (if y > 0 then [⟨plane, false, (x : Int) * 8, x, FilterSite.top⟩] else []) ++
    (if (x : Int) < (s.block_width plane : Int) - 1 ∧ ¬ lf_coded s plane y (x + 1) then
      [⟨plane, true, ((x : Int) + 1) * 8, x, FilterSite.right⟩] else []) ++
    (if (y : Int) < (s.block_height plane : Int) - 1 ∧ ¬ lf_coded s plane (y + 1) x then
      [⟨plane, false, (x : Int) * 8 + 8 * s.linesize plane, x, FilterSite.bottom⟩] else [])
  else []

/-- The filter calls of one block row of a plane. -/
def loop_filter_row (s : Vp3DecodeContext) (plane y : Nat) : List FilterCall :=
  (List.range (s.block_width plane)).flatMap (loop_filter_block s plane y)

/-- `apply_loop_filter(s, y)`: the filter calls it makes, in order. After each
plane the function returns if `y` is odd and halves `y` otherwise. -/
def apply_loop_filter (s : Vp3DecodeContext) (y : Nat) : List FilterCall :=
  loop_filter_row s 0 y ++
  (if y % 2 = 1 then []
   else loop_filter_row s 1 (y / 2) ++
    (if (y / 2) % 2 = 1 then [] else loop_filter_row s 2 (y / 2 / 2)))

/-- The token tables of `vp3data.h`, which is not part of the sources. -/
structure TokenTables where
  eob_run_base : Nat → Nat
  eob_run_get_bits : Nat → Nat
  zero_run_base : Nat → Nat
  zero_run_get_bits : Nat → Nat
  coeff_get_bits : Nat → Nat
  coeff_tables : Nat → Nat → Int

/-- The table `token_to_type[32]` of `unpack_vlcs`. -/
def token_to_type (token : Nat) : Nat :=
  [0, 0, 0, 0, 0, 0, 0, 1, 1, 2, 2, 2, 2, 2, 2, 2, 2, 2, 2, 2, 2, 2, 2,
   3, 3, 3, 3, 3, 3, 3, 3, 3].getD token 0

/-- The locals of `unpack_vlcs` with the context and the reader. `eob_runs`
is not in the source: it records the EOB run lengths decoded from the
bitstream, in order. -/
structure VlcState where
  s : Vp3DecodeContext
  gb : GetBitContext
  j : Nat
  coeff_i : Int
  blocks_ended : Int
  eob_run : Int
  eob_runs : List Int

/-- `dct_tokens[j++] = v` with `dct_tokens = s->dct_tokens[plane][zzi]` at `off`;
the store converts to `int16_t`. -/
def put_token (st : VlcState) (off : Nat) (v : Int) : VlcState :=
  let buffer := Function.update st.s.dct_tokens_base (off + st.j) (wrap16 v)
  { st with s := { st.s with dct_tokens_base := buffer }, j := st.j + 1 }

/-- `coeff = coeff_tables[token][...]` with its optional extra bits. -/
def get_coeff (tt : TokenTables) (gb : GetBitContext) (token : Nat) : Int × GetBitContext :=
  if tt.coeff_get_bits token = 0 then (tt.coeff_tables token 0, gb)
  else (tt.coeff_tables token (get_bits gb (tt.coeff_get_bits token)).1,
        (get_bits gb (tt.coeff_get_bits token)).2)

/-- `eob_run = eob_run_base[token]; if (eob_run_get_bits[token]) eob_run += get_bits(...)`. -/
def get_eob_run (tt : TokenTables) (gb : GetBitContext) (token : Nat) : Int × GetBitContext :=
  if tt.eob_run_get_bits token ≠ 0 then
    ((tt.eob_run_base token : Int) + ((get_bits gb (tt.eob_run_get_bits token)).1 : Int),
      (get_bits gb (tt.eob_run_get_bits token)).2)
  else ((tt.eob_run_base token : Int), gb)

/-- `zero_run = zero_run_base[token]; if (zero_run_get_bits[token]) zero_run += get_bits(...)`. -/
def get_zero_run (tt : TokenTables) (gb : GetBitContext) (token : Nat) : Int × GetBitContext :=
  if tt.zero_run_get_bits token ≠ 0 then
    ((tt.zero_run_base token : Int) + ((get_bits gb (tt.zero_run_get_bits token)).1 : Int),
      (get_bits gb (tt.zero_run_get_bits token)).2)
  else ((tt.zero_run_base token : Int), gb)

/-- The tail of the loop body for a token that is not an EOB token: clamp the
zero run, `for (i = zzi+1; i <= zzi+zero_run; i++) s->num_coded_blocks[plane][i]--;`
and `coeff_i++`. -/
def skip_zero_run (st : VlcState) (zzi plane : Nat) (zero_run : Int) : VlcState :=
  let run := if (zzi : Int) + zero_run > 64 then 64 - (zzi : Int) else zero_run
  let counts : Nat → Int := fun k =>
    if 64 * plane + zzi + 1 ≤ k ∧ (k : Int) ≤ ((64 * plane + zzi : Nat) : Int) + run
    then st.s.num_coded_blocks k - 1 else st.s.num_coded_blocks k
  { st with s := { st.s with num_coded_blocks := counts }, coeff_i := st.coeff_i + 1 }

/-- Body of the loop `while (coeff_i < num_coeffs)` of `unpack_vlcs`. -/
def vlc_token (tt : TokenTables) (table : VLC) (zzi plane : Nat) (num_coeffs : Int) (off : Nat)
    (st : VlcState) : VlcState :=
  let t := get_vlc2 st.gb table
  let token := t.1
  let token_type := token_to_type token
  if token_type = 0 then
    let e := get_eob_run tt t.2 token
    let eob_run := e.1
    let st1 := { st with gb := e.2, eob_runs := st.eob_runs ++ [eob_run] }
    if eob_run > num_coeffs - st.coeff_i then
      { put_token st1 off ((num_coeffs - st.coeff_i) * 4) with
        blocks_ended := st.blocks_ended + (num_coeffs - st.coeff_i)
        eob_run := eob_run - (num_coeffs - st.coeff_i)
        coeff_i := num_coeffs }
    else
      { put_token st1 off (eob_run * 4) with
        blocks_ended := st.blocks_ended + eob_run
        coeff_i := st.coeff_i + eob_run
        eob_run := 0 }
  else if token_type = 1 then
    let z := get_bits t.2 (tt.zero_run_get_bits token)
    let st1 := put_token { st with gb := z.2 } off ((z.1 : Int) * 4 + 1)
    skip_zero_run st1 zzi plane (z.1 : Int)
  else if token_type = 2 then
    let c := get_coeff tt t.2 token
    let b := st.s.coded_blocks (st.s.coded_blocks_off plane + st.coeff_i.toNat)
    let blocks := if zzi = 0 then set_dc st.s.blocks b (wrap16 c.1) else st.s.blocks
    let st1 := put_token { st with gb := c.2, s := { st.s with blocks := blocks } } off
      (wrap16 c.1 * 4 + 2)
    skip_zero_run st1 zzi plane 0
  else
    let c := get_coeff tt t.2 token
    let z := get_zero_run tt c.2 token
    let st1 := put_token { st with gb := z.2 } off (wrap16 c.1 * 512 + z.1 * 4 + 1)
    skip_zero_run st1 zzi plane z.1

/-- The loop `while (coeff_i < num_coeffs)`; the first argument bounds the
number of tokens read, `none` means the bound was used up. -/
def vlc_loop (tt : TokenTables) (table : VLC) (zzi plane : Nat) (num_coeffs : Int) (off : Nat) :
    Nat → VlcState → Option VlcState
  | 0, st => if st.coeff_i < num_coeffs then none else some st
  | k + 1, st =>
    if st.coeff_i < num_coeffs then
      vlc_loop tt table zzi plane num_coeffs off k (vlc_token tt table zzi plane num_coeffs off st)
    else some st

/-- The entry of `unpack_vlcs`: split the incoming `eob_run` and insert the fake
EOB token that covers the split between planes or levels. -/
def vlc_start (s : Vp3DecodeContext) (gb : GetBitContext) (num_coeffs : Int) (off : Nat)
    (eob_run : Int) : VlcState :=
  let ended := if eob_run > num_coeffs then num_coeffs else eob_run
  let rest := if eob_run > num_coeffs then eob_run - num_coeffs else 0
  let st : VlcState := ⟨s, gb, 0, ended, ended, rest, []⟩
  if ended ≠ 0 then put_token st off (ended * 4) else st

/-- The exit of `unpack_vlcs`: the later levels lose the blocks ended here, and
the token stream of the next plane (or level) starts behind the tokens written. -/
def vlc_finish (st : VlcState) (zzi plane off : Nat) : VlcState :=
  let counts : Nat → Int := fun k =>
    if st.blocks_ended ≠ 0 ∧ 64 * plane + zzi + 1 ≤ k ∧ k < 64 * plane + 64
    then st.s.num_coded_blocks k - st.blocks_ended else st.s.num_coded_blocks k
  let streams : Nat → Nat → Nat := fun p z =>
    if plane < 2 ∧ p = plane + 1 ∧ z = zzi then off + st.j
    else if ¬ plane < 2 ∧ zzi < 63 ∧ p = 0 ∧ z = zzi + 1 then off + st.j
    else st.s.dct_tokens p z
  { st with s := { st.s with num_coded_blocks := counts, dct_tokens := streams } }

/-- `unpack_vlcs(s, gb, table, zzi, plane, eob_run)`; the returned residual run
is the field `eob_run` of the result. -/
def unpack_vlcs (tt : TokenTables) (table : VLC) (fuel : Nat) (s : Vp3DecodeContext)
    (gb : GetBitContext) (zzi plane : Nat) (eob_run : Int) : Option VlcState :=
  let num_coeffs := num_coded s plane zzi
  let off := s.dct_tokens plane zzi
  (vlc_loop tt table zzi plane num_coeffs off fuel (vlc_start s gb num_coeffs off eob_run)).map
    (fun st => vlc_finish st zzi plane off)

/-- The tokens a call has written: the first `j` entries of its stream. -/
def tokens_written (st : VlcState) (off : Nat) : List Int :=
  (List.range st.j).map (fun k => st.s.dct_tokens_base (off + k))

/-- The number of coded blocks a packed token accounts for at its level: the
run length `token >> 2` of an EOB token (type `token & 3 = 0`), one block for
any other token. -/
def token_blocks (token : Int) : Int :=
  if token % 4 = 0 then token / 4 else 1

/-! ## Decoder initialisation and the block mapping -/

/-- Modelled from the spec: `FFALIGN(x, a)` rounds `x` up to a multiple of
`a` (the macro of `libavutil/common.h`, for `a` a power of two). -/
def FFALIGN (x a : Nat) : Nat := (x + a - 1) / a * a

/-- The table `hilbert_offset[16][2]`. -/
def hilbert_offset (i k : Nat) : Nat :=
  ([[0, 0], [1, 0], [1, 1], [0, 1], [0, 2], [0, 3], [1, 3], [1, 2],
    [2, 2], [2, 3], [3, 3], [3, 2], [3, 1], [2, 1], [2, 0], [3, 0]].getD i []).getD k 0

/-- The locals of `init_block_mapping` together with the context: `j` is the
write position in `all_blocks[0]`, `start` the raster index of the plane's
first block. -/
structure BlockMapping where
  s : Vp3DecodeContext
  j : Nat
  start : Int

/-- Body of the loop `for (i = 0; i < 16; i++)` of `init_block_mapping`. -/
def map_block (plane sb_x sb_y : Nat) (st : BlockMapping) (i : Nat) : BlockMapping :=
  let x := 4 * sb_x + hilbert_offset i 0
  let y := 4 * sb_y + hilbert_offset i 1
  let v : Int :=
    if x < st.s.block_width plane ∧ y < st.s.block_height plane then
      st.start + ((y * st.s.block_width plane + x : Nat) : Int)
    else -1
  { st with
    s := { st.s with
           all_blocks := Function.update st.s.all_blocks (st.s.all_blocks_off 0 + st.j) v }
    j := st.j + 1 }

/-- Body of the loop `for (plane = 0; plane < 3; plane++)` of
`init_block_mapping`: the superblocks of the plane in raster order, then the
next plane's list pointer and `start`. -/
def map_plane (st : BlockMapping) (plane : Nat) : BlockMapping :=
  let t := (List.range (st.s.superblock_height plane)).foldl
    (fun u sb_y => (List.range (u.s.superblock_width plane)).foldl
      (fun w sb_x => (List.range 16).foldl (map_block plane sb_x sb_y) w) u) st
  let off := Function.update t.s.all_blocks_off (plane + 1) (t.s.all_blocks_off 0 + t.j)
  { t with
    s := if plane < 2 then { t.s with all_blocks_off := off } else t.s
    start := t.start + ((t.s.block_width plane * t.s.block_height plane : Nat) : Int) }

/-- `init_block_mapping`. -/
def init_block_mapping (s : Vp3DecodeContext) : Vp3DecodeContext :=
  ((List.range 3).foldl map_plane ⟨s, 0, 0⟩).s

/-- Body of the loop `for (i = 0; i < 3; i++)` of `vp3_decode_init` that sets
the plane geometry (4:2:0). -/
def init_plane_geometry (s : Vp3DecodeContext) (i : Nat) : Vp3DecodeContext :=
  let c := if i ≠ 0 then 1 else 0
  let sbw := FFALIGN (s.width >>> c) 32 / 32
  let sbh := FFALIGN (s.height >>> c) 32 / 32
  let bw := FFALIGN s.width 16 >>> (3 + c)
  let bh := FFALIGN s.height 16 >>> (3 + c)
  { s with
    superblock_width := Function.update s.superblock_width i sbw
    superblock_height := Function.update s.superblock_height i sbh
    superblock_count := Function.update s.superblock_count i (sbw * sbh)
    num_superblocks := s.num_superblocks + sbw * sbh
    block_width := Function.update s.block_width i bw
    block_height := Function.update s.block_height i bh
    num_blocks := s.num_blocks + bw * bh }

/-- Body of the loop `for (i = 1; i < 3; i++)` of `vp3_decode_init` that sets
the chroma pointers into the `blocks` and `superblock_coding` buffers. -/
def init_plane_pointers (s : Vp3DecodeContext) (i : Nat) : Vp3DecodeContext :=
  { s with
    blocks_off := Function.update s.blocks_off i
      (s.blocks_off (i - 1) + s.block_width (i - 1) * s.block_height (i - 1))
    superblock_coding_off := Function.update s.superblock_coding_off i
      (s.superblock_coding_off (i - 1) + s.superblock_count (i - 1)) }

/-- Lines 1145-1169 of `vp3_decode_init`, for a picture of
`avctx_width x avctx_height` pixels: the aligned size, `qps[i] = -1`, the plane
geometry, the freshly allocated buffers (each pointer of plane 0 is the start
of its buffer) and the chroma pointers. -/
def init_planes (avctx_width avctx_height : Nat) (s : Vp3DecodeContext) : Vp3DecodeContext :=
  let s1 := { s with width := FFALIGN avctx_width 16, height := FFALIGN avctx_height 16,
                     qps := fun i => if i < 3 then -1 else s.qps i,
                     num_superblocks := 0, num_blocks := 0 }
  let s2 := (List.range 3).foldl init_plane_geometry s1
  let s3 := { s2 with blocks_off := Function.update s2.blocks_off 0 0,
                      coded_blocks_off := Function.update s2.coded_blocks_off 0 0,
                      all_blocks_off := Function.update s2.all_blocks_off 0 0,
                      superblock_coding_off := Function.update s2.superblock_coding_off 0 0 }
  (List.range' 1 2).foldl init_plane_pointers s3

/-- `vp3_decode_init` up to and including the call of `init_block_mapping`
(line 1171). The tables and VLCs set up afterwards are not carried here. -/
def vp3_decode_init (avctx_width avctx_height : Nat) (s : Vp3DecodeContext) : Vp3DecodeContext :=
  init_block_mapping (init_planes avctx_width avctx_height s)

/-! ## Macroblock coding modes -/

/-- `#define MODE_INTER_NO_MV 0`. -/
abbrev MODE_INTER_NO_MV : Nat := 0

/-- `#define MODE_INTER_PLUS_MV 2`. -/
abbrev MODE_INTER_PLUS_MV : Nat := 2

/-- `#define MODE_GOLDEN_MV 6`. -/
abbrev MODE_GOLDEN_MV : Nat := 6

/-- `#define MODE_INTER_FOURMV 7`. -/
abbrev MODE_INTER_FOURMV : Nat := 7

/-- The table `ModeAlphabet[6][CODING_MODE_COUNT]`. -/
def ModeAlphabet (scheme i : Nat) : Nat :=
  ([[3, 4, 2, 0, 1, 5, 6, 7], [3, 4, 0, 2, 1, 5, 6, 7], [3, 2, 4, 0, 1, 5, 6, 7],
    [3, 2, 0, 4, 1, 5, 6, 7], [0, 3, 4, 2, 1, 5, 6, 7], [0, 5, 3, 4, 2, 1, 6, 7]].getD scheme
      []).getD i 0

/-- `s->all_blocks[0][4*mb_i + j]`: luma block `j` of macroblock `mb_i`. -/
def mb_block (s : Vp3DecodeContext) (mb_i j : Nat) : Int :=
  s.all_blocks (s.all_blocks_off 0 + (4 * mb_i + j))

/-- `set_macroblock_mode(s, mb_i, mb_mode)`: the loop over the four luma blocks
(`mb_mode` is a `uint8_t`). -/
def set_macroblock_mode (s : Vp3DecodeContext) (mb_i mb_mode : Nat) : Vp3DecodeContext :=
  (List.range 4).foldl
    (fun t j =>
      let b := t.blocks (mb_block t mb_i j)
      { t with blocks := Function.update t.blocks (mb_block t mb_i j)
                 ({ b with mb_mode := mb_mode % 256 }) }) s

/-- The context, the bit reader and the local `num_mvs` of `unpack_modes`. -/
structure ModeState where
  s : Vp3DecodeContext
  gb : GetBitContext
  num_mvs : Int

/-- `for (i = 0; i < 8; i++) custom_mode_alphabet[get_bits(gb, 3)] = i;` on the
zero-initialised array. -/
def read_mode_alphabet (gb : GetBitContext) : (Nat → Nat) × GetBitContext :=
  (List.range 8).foldl
    (fun (a : (Nat → Nat) × GetBitContext) i =>
      (Function.update a.1 (get_bits a.2 3).1 i, (get_bits a.2 3).2)) (fun _ => 0, gb)

/-- The test `for (i = 0; i < 4; i++) if (...coded) break; if (i == 4) continue;`:
true when one of the four luma blocks of the macroblock is coded. -/
def mb_coded (s : Vp3DecodeContext) (mb_i : Nat) : Bool :=
  (List.range 4).any (fun i => decide ((s.blocks (mb_block s mb_i i)).coded ≠ 0))

/-- Body of the loop `for (mb_i = 0; mb_i < num_macroblocks; mb_i++)` of
`unpack_modes`; `mode_tbl` is the alphabet selected by `scheme`, `mode_vlc` the
table `mode_code_vlc`. -/
def unpack_mode (mode_vlc : VLC) (scheme : Nat) (mode_tbl : Nat → Nat) (st : ModeState)
    (mb_i : Nat) : ModeState :=
  if mb_block st.s mb_i 0 < 0 then st
  else if mb_coded st.s mb_i = false then st
  else
    let r := if scheme = 7 then get_bits st.gb 3
             else (mode_tbl (get_vlc2 st.gb mode_vlc).1, (get_vlc2 st.gb mode_vlc).2)
    let coding_mode := r.1
    let num_mvs : Int :=
      if coding_mode = MODE_INTER_PLUS_MV ∨ coding_mode = MODE_GOLDEN_MV then st.num_mvs + 1
      else if coding_mode = MODE_INTER_FOURMV then
        st.num_mvs + (((List.range 4).filter
          (fun i => decide ((st.s.blocks (mb_block st.s mb_i i)).coded ≠ 0))).length : Int)
      else st.num_mvs
    { s := set_macroblock_mode st.s mb_i coding_mode, gb := r.2, num_mvs := num_mvs }

/-- `int scheme = get_bits(gb, 3);` in `unpack_modes`. -/
def mode_scheme (gb : GetBitContext) : Nat := (get_bits gb 3).1

/-- The alphabet `mode_tbl` selected in `unpack_modes` and the reader behind the
header: the custom alphabet read from the stream when `scheme` is 0, else
`ModeAlphabet[scheme-1]`. -/
def mode_alphabet (gb : GetBitContext) : (Nat → Nat) × GetBitContext :=
  if mode_scheme gb = 0 then read_mode_alphabet (get_bits gb 3).2
  else (ModeAlphabet (mode_scheme gb - 1), (get_bits gb 3).2)

/-- State of `unpack_modes` after the header and the first `n` iterations of the
loop `for (mb_i = 0; mb_i < num_macroblocks; mb_i++)`. -/
def modes_upto (mode_vlc : VLC) (s : Vp3DecodeContext) (gb : GetBitContext) (n : Nat) :
    ModeState :=
  (List.range n).foldl (unpack_mode mode_vlc (mode_scheme gb) (mode_alphabet gb).1)
    ⟨s, (mode_alphabet gb).2, 0⟩

/-- `unpack_modes`. -/
def unpack_modes (mode_vlc : VLC) (s : Vp3DecodeContext) (gb : GetBitContext) :
    Vp3DecodeContext × GetBitContext :=
  let num_macroblocks := s.block_width 0 * s.block_height 0 / 4
  let st := modes_upto mode_vlc s gb num_macroblocks
  ({ st.s with num_mvs := st.num_mvs }, st.gb)

/-- The macroblock part of an inter frame in `vp3_decode_frame`:
`unpack_block_coding` followed, when it returns 0, by `unpack_modes`. -/
def unpack_coding_and_modes (table frag mode_vlc : VLC) (s : Vp3DecodeContext)
    (gb : GetBitContext) : Ret (Vp3DecodeContext × GetBitContext) :=
  match unpack_block_coding s gb table frag with
  | Ret.done r => Ret.done (unpack_modes mode_vlc r.1 r.2)
  | Ret.fail => Ret.fail
  | Ret.diverge => Ret.diverge

/-! ## Long runs -/

/-- The lines `if (run_length == 4129) bit = get_bits1(gb); else bit ^= 1;`
that end each iteration of the three long-run loops: the next `bit` and the
reader. -/
def next_run_bit (bit run_length : Nat) (gb : GetBitContext) : Nat × GetBitContext :=
  if run_length = 4129 then get_bits1 gb else (bit ^^^ 1, gb)

/-- The loop filter pass of `vp3_decode_frame`:
`for (i = 0; i < s->block_height[0]; i++) apply_loop_filter(s, i);`, as the
list of the filter calls made. -/
def loop_filter_pass (s : Vp3DecodeContext) : List FilterCall :=
  (List.range (s.block_height 0)).flatMap (apply_loop_filter s)

/-- Where `render_slice` puts block `(x, y)` of a plane, as an offset from
`data[plane] + data_offset[plane]`: with `x = 4*sb_x + hx` and
`y = 4*sb_y + hy` it writes the block at
`32*sb_y*linesize + 32*sb_x + 8*hx + 8*hy*linesize`. -/
def block_offset (s : Vp3DecodeContext) (plane x y : Nat) : Int :=
  8 * (x : Int) + 8 * (y : Int) * s.linesize plane

/-! ## Dequantization (`dequant`) -/

/-- `token & 3`, the type of a packed token. -/
def token_type (token : Int) : Int := token % 4

/-- `token >> 2`, the coefficient of a token of type 2 (`>>` on a negative
`int` is the arithmetic shift). -/
def token_coeff (token : Int) : Int := token / 4

/-- `(token >> 2) & 0x7f`, the zero run of a token of type 1. -/
def token_zero_run (token : Int) : Int := (token / 4) % 128

/-- `token >> 9`, the coefficient of a token of type 1. -/
def token_run_coeff (token : Int) : Int := token / 512

/-- `s->dct_tokens[plane][i]++`. -/
def advance_tokens (s : Vp3DecodeContext) (plane i : Nat) : Vp3DecodeContext :=
  { s with dct_tokens := fun p z =>
      if p = plane ∧ z = i then s.dct_tokens p z + 1 else s.dct_tokens p z }

/-- `case 0` of the switch of `dequant`, with `token = *s->dct_tokens[plane][i]`:
`if (--token < 4) s->dct_tokens[plane][i]++; else *s->dct_tokens[plane][i] = token & ~3;`
(the store converts to `int16_t`). -/
def end_of_block (s : Vp3DecodeContext) (plane i : Nat) : Vp3DecodeContext :=
  let token := s.dct_tokens_base (s.dct_tokens plane i) - 1
  if token < 4 then advance_tokens s plane i
  else
    { s with dct_tokens_base :=
        Function.update s.dct_tokens_base (s.dct_tokens plane i) (wrap16 (token - token % 4)) }

/-- The context, the coefficient block `s->block` (`DCTELEM`, 16 bits) and the
local `i` of `dequant`. -/
structure DequantState where
  s : Vp3DecodeContext
  block : Nat → Int
  i : Nat

/-- How one pass through the loop body of `dequant` ends: at the loop test
(`break`), at the label `end` (`goto end`), or with the `return` of the
`default` case. -/
inductive DequantStep where
  | next (st : DequantState)
  | finish (st : DequantState)
  | invalid (st : DequantState)

/-- Body of the loop of `dequant`: the switch on the type of the token at the
head of `s->dct_tokens[plane][i]`. -/
def dequant_token (perm : Nat → Nat) (dequantizer : Nat → Int) (plane : Nat)
    (st : DequantState) : DequantStep :=
  let token := st.s.dct_tokens_base (st.s.dct_tokens plane st.i)
  if token_type token = 0 then
    DequantStep.finish { st with s := end_of_block st.s plane st.i }
  else if token_type token = 1 then
    let i := st.i + (token_zero_run token).toNat
    DequantStep.next
      { s := advance_tokens st.s plane st.i
        block := Function.update st.block (perm i)
          (wrap16 (token_run_coeff token * dequantizer (perm i)))
        i := i + 1 }
  else if token_type token = 2 then
    DequantStep.next
      { s := advance_tokens st.s plane st.i
        block := Function.update st.block (perm st.i)
          (wrap16 (token_coeff token * dequantizer (perm st.i)))
        i := st.i + 1 }
  else DequantStep.invalid st

/-- The loop `do { ... } while (i < 64)` of `dequant`; the first argument bounds
the number of passes, `none` means the bound was used up. The result is
`finish` when the label `end` is reached, `invalid` for the `return`. -/
def dequant_loop (perm : Nat → Nat) (dequantizer : Nat → Int) (plane : Nat) :
    Nat → DequantState → Option DequantStep
  | 0, _ => none
  | k + 1, st =>
    match dequant_token perm dequantizer plane st with
    | DequantStep.next st1 =>
      if st1.i < 64 then dequant_loop perm dequantizer plane k st1
      else some (DequantStep.finish st1)
    | r => some r

/-- The start of a call of `dequant`: `i = 0` and `clear_block(s->block)`. -/
def dequant_start (s : Vp3DecodeContext) (block : Nat → Int) : DequantState :=
  ⟨s, fun j => if j < 64 then 0 else block j, 0⟩

/-- `dequant(s, plane, inter, block_i)`: the context and `s->block` it leaves.
`perm` is `s->scantable.permutated`; the store into `s->block[perm[0]]` at the
label `end` converts the product to `DCTELEM`. Each pass through the loop raises `i`, so
64 passes are enough. -/
def dequant (perm : Nat → Nat) (s : Vp3DecodeContext) (block : Nat → Int)
    (plane inter block_i : Nat) : Option (Vp3DecodeContext × (Nat → Int)) :=
  let b := s.coded_blocks (s.coded_blocks_off plane + block_i)
  match dequant_loop perm (s.qmat plane inter (s.blocks b).qpi) plane 64
      (dequant_start s block) with
  | none => none
  | some (DequantStep.invalid st) => some (st.s, st.block)
  | some (DequantStep.finish st) =>
    some (st.s, Function.update st.block (perm 0)
      (wrap16 ((st.s.blocks b).dc * st.s.qmat plane inter 0 0)))
  | some (DequantStep.next st) =>
    some (st.s, Function.update st.block (perm 0)
      (wrap16 ((st.s.blocks b).dc * st.s.qmat plane inter 0 0)))

/-! ## Huffman trees of the Theora header (`read_huffman_tree`) -/

/-- The fields of `Vp3DecodeContext` that `read_huffman_tree` uses: `hbits` is
`unsigned int`, `entries` and `huff_code_size` are `int`, `huffman_table` is
`uint16_t [80][32][2]`. -/
structure HuffmanState where
  hti : Nat
  hbits : Nat
  entries : Int
  huff_code_size : Int
  huffman_table : Nat → Nat → Nat → Nat

/-- The two stores `s->huffman_table[s->hti][token][0] = s->hbits;` and
`s->huffman_table[s->hti][token][1] = s->huff_code_size;`, each converted to
`uint16_t`. -/
def store_code (s : HuffmanState) (token : Nat) : Nat → Nat → Nat → Nat :=
  fun h t k =>
    if h = s.hti ∧ t = token ∧ k = 0 then s.hbits % 65536
    else if h = s.hti ∧ t = token ∧ k = 1 then (s.huff_code_size % 65536).toNat
    else s.huffman_table h t k

/-- `read_huffman_tree(avctx, gb)`: the return value, the context and the
reader. The first argument bounds the depth of the recursion, `none` means it
was used up; an inner node is turned down at `huff_code_size >= 32`, so
`33 - huff_code_size` levels are enough. -/
def read_huffman_tree : Nat → HuffmanState → GetBitContext →
    Option (Int × HuffmanState × GetBitContext)
  | 0, _, _ => none
  | k + 1, s, gb =>
    if (get_bits1 gb).1 ≠ 0 then
      if s.entries ≥ 32 then some (-1, s, (get_bits1 gb).2)
      else
        let t := get_bits (get_bits1 gb).2 5
        some (0, { s with huffman_table := store_code s t.1, entries := s.entries + 1 }, t.2)
    else
      if s.huff_code_size ≥ 32 then some (-1, s, (get_bits1 gb).2)
      else
        let s1 := { s with huff_code_size := s.huff_code_size + 1,
                           hbits := (s.hbits * 2) % 4294967296 }
        match read_huffman_tree k s1 (get_bits1 gb).2 with
        | none => none
        | some (r1, s2, gb2) =>
          if r1 ≠ 0 then some (-1, s2, gb2)
          else
            match read_huffman_tree k { s2 with hbits := s2.hbits ||| 1 } gb2 with
            | none => none
            | some (r2, s4, gb4) =>
              if r2 ≠ 0 then some (-1, s4, gb4)
              else
                some (0, { s4 with hbits := s4.hbits / 2,
                                   huff_code_size := s4.huff_code_size - 1 }, gb4)

/-! ## Quantizer ranges (`theora_decode_tables`) -/

/-- The shift loop of `av_log2`; the first argument bounds the number of
halvings. -/
def log2_loop : Nat → Nat → Nat
  | 0, _ => 0
  | k + 1, v => if v ≥ 2 then log2_loop k (v / 2) + 1 else 0

/-- Modelled from the spec: `av_log2(v)` is the position of the highest set bit
of the 32-bit value `v`, and 0 for `v = 0` (`libavutil/common.h`). -/
def av_log2 (v : Nat) : Nat := log2_loop 32 v

/-- Pointwise store into `qr_size[inter][plane][q]` or `qr_base[inter][plane][q]`. -/
def set_range_entry (f : Nat → Nat → Nat → Nat) (inter plane q v : Nat) : Nat → Nat → Nat → Nat :=
  fun a b c => if a = inter ∧ b = plane ∧ c = q then v else f a b c

/-- The locals `qri` and `qi` of the range loop with the context and the
reader. -/
structure RangeState where
  s : Vp3DecodeContext
  gb : GetBitContext
  qri : Nat
  qi : Nat

/-- `i= get_bits(gb, av_log2(matrices-1)+1)`, the base matrix index read at
the head of a pass of the range loop. -/
def range_base_bits (matrices : Nat) (st : RangeState) : Nat × GetBitContext :=
  get_bits st.gb (av_log2 (matrices - 1) + 1)

/-- `get_bits(gb, av_log2(63-qi)+1)`, the bits of the range size read after
the base matrix index. -/
def range_size_bits (matrices : Nat) (st : RangeState) : Nat × GetBitContext :=
  get_bits (range_base_bits matrices st).2 (av_log2 (63 - st.qi) + 1)

/-- `s->qr_base[inter][plane][qri]= i;` (the store converts to `uint16_t`). -/
def store_range_base (s : Vp3DecodeContext) (inter plane qri i : Nat) : Vp3DecodeContext :=
  { s with qr_base := set_range_entry s.qr_base inter plane qri (i % 65536) }

/-- `s->qr_size[inter][plane][qri]= i;` (the store converts to `uint8_t`). -/
def store_range_size (s : Vp3DecodeContext) (inter plane qri i : Nat) : Vp3DecodeContext :=
  { s with qr_size := set_range_entry s.qr_size inter plane qri (i % 256) }

/-- The loop `for(;;)` of `theora_decode_tables` that reads the ranges of one
`(inter, plane)`: `some none` is the `return -1` for a base matrix index that is
not below `matrices`; the first argument bounds the number of passes, `none`
means the bound was used up. -/
def read_quant_range (matrices inter plane : Nat) : Nat → RangeState → Option (Option RangeState)
  | 0, _ => none
  | k + 1, st =>
    if (range_base_bits matrices st).1 ≥ matrices then some none
    else if st.qi ≥ 63 then
      some (some ⟨store_range_base st.s inter plane st.qri (range_base_bits matrices st).1,
        (range_base_bits matrices st).2, st.qri, st.qi⟩)
    else
      read_quant_range matrices inter plane k
        ⟨store_range_size
          (store_range_base st.s inter plane st.qri (range_base_bits matrices st).1)
          inter plane st.qri ((range_size_bits matrices st).1 + 1),
         (range_size_bits matrices st).2, st.qri + 1,
         st.qi + ((range_size_bits matrices st).1 + 1)⟩

/-- `s->qr_count[inter][plane]= qri;` (the store converts to `uint8_t`). -/
def store_range_count (s : Vp3DecodeContext) (inter plane qri : Nat) : Vp3DecodeContext :=
  { s with qr_count := fun a b => if a = inter ∧ b = plane then qri % 256 else s.qr_count a b }

/-- The branch `if (!newqr)`: the ranges of `(inter, plane)` are copied from
those of `(qtj, plj)` (`qr_count`, and the 64 entries of `qr_size` and of
`qr_base`). -/
def copy_quant_range (s : Vp3DecodeContext) (inter plane qtj plj : Nat) : Vp3DecodeContext :=
  { s with
    qr_count := fun a b => if a = inter ∧ b = plane then s.qr_count qtj plj else s.qr_count a b
    qr_size := fun a b q =>
      if a = inter ∧ b = plane ∧ q < 64 then s.qr_size qtj plj q else s.qr_size a b q
    qr_base := fun a b q =>
      if a = inter ∧ b = plane ∧ q < 64 then s.qr_base qtj plj q else s.qr_base a b q }

/-- Body of the loops over `inter` and `plane` of `theora_decode_tables`; each
pass of the range loop raises `qi`, which ends the loop from 63 on, so 64
passes are enough. -/
def decode_quant_range (matrices : Nat) (st : Vp3DecodeContext × GetBitContext)
    (inter plane : Nat) : Option (Option (Vp3DecodeContext × GetBitContext)) :=
  let n := if inter ≠ 0 ∨ plane > 0 then get_bits1 st.2 else (1, st.2)
  if n.1 = 0 then
    let c := if inter ≠ 0 then get_bits1 n.2 else (0, n.2)
    if inter ≠ 0 ∧ c.1 ≠ 0 then some (some (copy_quant_range st.1 inter plane 0 plane, c.2))
    else some (some (copy_quant_range st.1 inter plane ((3 * inter + plane - 1) / 3)
      ((plane + 2) % 3), c.2))
  else
    (read_quant_range matrices inter plane 64 ⟨st.1, n.2, 0, 0⟩).map (fun r =>
      r.bind (fun t =>
        if t.qi > 63 then none else some (store_range_count t.s inter plane t.qri, t.gb)))

/-- One more `(inter, plane)` after what has been decoded so far. -/
def quant_range_step (matrices : Nat) (acc : Option (Option (Vp3DecodeContext × GetBitContext)))
    (inter plane : Nat) : Option (Option (Vp3DecodeContext × GetBitContext)) :=
  acc.bind (fun r =>
    match r with
    | none => some none
    | some st => decode_quant_range matrices st inter plane)

/-- The loops `for (inter = 0; inter <= 1; inter++) for (plane = 0; plane <= 2; plane++)`
of `theora_decode_tables`. -/
def decode_quant_ranges (matrices : Nat) (st : Vp3DecodeContext × GetBitContext) :
    Option (Option (Vp3DecodeContext × GetBitContext)) :=
  (List.range 2).foldl
    (fun acc inter => (List.range 3).foldl
      (fun acc2 plane => quant_range_step matrices acc2 inter plane) acc) (some (some st))

/-- `s->base_matrix[n][i]= v`. -/
def store_base_matrix (s : Vp3DecodeContext) (n i v : Nat) : Vp3DecodeContext :=
  { s with base_matrix := fun a b => if a = n ∧ b = i then v else s.base_matrix a b }

/-- The base matrix loops of `theora_decode_tables`:
`for(n=0; n<matrices; n++) for (i = 0; i < 64; i++) s->base_matrix[n][i]= get_bits(gb, 8);`. -/
def read_base_matrices (matrices : Nat) (st : Vp3DecodeContext × GetBitContext) :
    Vp3DecodeContext × GetBitContext :=
  (List.range matrices).foldl
    (fun t n => (List.range 64).foldl
      (fun u i => (store_base_matrix u.1 n i (get_bits u.2 8).1, (get_bits u.2 8).2)) t) st

/-- The part of `theora_decode_tables` from the number of base matrices to the
quantizer ranges (lines 1632-1686); `some none` is `return -1`. The result
carries `matrices`. -/
def decode_quant_tables (s : Vp3DecodeContext) (gb : GetBitContext) :
    Option (Option (Vp3DecodeContext × GetBitContext × Nat)) :=
  let m := if s.theora ≥ 0x030200 then ((get_bits gb 9).1 + 1, (get_bits gb 9).2) else (3, gb)
  if m.1 > 384 then some none
  else
    (decode_quant_ranges m.1 (read_base_matrices m.1 (s, m.2))).map
      (fun r => r.map (fun t => (t.1, t.2, m.1)))

/-! ## Rendering a keyframe (`render_slice`) -/

/-- A call `dequant(s, plane, 0, block_i)` of `render_slice` with the values of
the locals at the call: the superblock `(sb_x, sb_y)` of the plane, the index
`i` into `hilbert_offset` and the pointer `dst`, as an offset from
`s->current_frame.data[plane]`. -/
structure RenderCall where
  plane : Nat
  sb_x : Nat
  sb_y : Nat
  i : Nat
  block_i : Nat
  dst : Int
deriving DecidableEq

/-- What `render_slice` uses beyond the fields of the context model:
`s->scantable.permutated`, `s->data_offset` and `s->dsp.idct_put`, which
writes the frame (of a type the sources do not define). -/
structure RenderEnv (F : Type) where
  permutated : Nat → Nat
  data_offset : Nat → Int
  idct_put : F → Nat → Int → Int → (Nat → Int) → F

/-- The context, `s->block`, the frame and the local `block_i` of
`render_slice`; `calls` is not in the source: it records the calls of
`dequant`, in order. -/
structure RenderState (F : Type) where
  s : Vp3DecodeContext
  block : Nat → Int
  frame : F
  block_i : Nat
  calls : List RenderCall

/-- The table `mb_offset[4][2]` of `render_slice`. -/
def mb_offset (mb_i k : Nat) : Nat :=
  ([[0, 0], [0, 1], [1, 1], [1, 0]].getD mb_i []).getD k 0

/-- The innermost statements of `render_slice`, for entry `i` of
`hilbert_offset`: `dst = 8*hilbert_offset[i][0] + sb_dst + 8*hilbert_offset[i][1] * s->linesize[plane];
dequant(s, plane, 0, block_i++); s->dsp.idct_put(dst, s->linesize[plane], s->block);`.
`dequant` always returns (64 passes are enough for its loop). -/
def render_block {F : Type} (env : RenderEnv F) (plane sb_x sb_y : Nat) (sb_dst : Int)
    (st : RenderState F) (i : Nat) : RenderState F :=
  let dst := 8 * (hilbert_offset i 0 : Int) + sb_dst
    + 8 * (hilbert_offset i 1 : Int) * st.s.linesize plane
  let d := (dequant env.permutated st.s st.block plane 0 st.block_i).getD (st.s, st.block)
  { s := d.1, block := d.2,
    frame := env.idct_put st.frame plane dst (d.1.linesize plane) d.2,
    block_i := st.block_i + 1,
    calls := st.calls ++ [⟨plane, sb_x, sb_y, i, st.block_i, dst⟩] }

/-- Body of the loop over `mb_i` of the luma part of `render_slice`. -/
def render_macroblock {F : Type} (env : RenderEnv F) (sb_x sb_y : Nat) (sb_dst : Int)
    (st : RenderState F) (mb_i : Nat) : RenderState F :=
  if 4 * sb_x + 2 * mb_offset mb_i 0 ≥ st.s.block_width 0 ∨
      4 * sb_y + 2 * mb_offset mb_i 1 ≥ st.s.block_height 0 then st
  else (List.range 4).foldl
    (fun t i => render_block env 0 sb_x sb_y sb_dst t (4 * mb_i + i)) st

/-- Body of the loop over `sb_x` of the luma part of `render_slice`. -/
def render_luma_superblock {F : Type} (env : RenderEnv F) (sb_y : Nat) (st : RenderState F)
    (sb_x : Nat) : RenderState F :=
  (List.range 4).foldl
    (render_macroblock env sb_x sb_y
      (env.data_offset 0 + 32 * (sb_y : Int) * st.s.linesize 0 + 32 * (sb_x : Int))) st

/-- Body of the loop over `i` of the chroma part of `render_slice`. -/
def render_chroma_block {F : Type} (env : RenderEnv F) (plane sb_x sb_y : Nat) (sb_dst : Int)
    (st : RenderState F) (i : Nat) : RenderState F :=
  if 4 * sb_x + hilbert_offset i 0 ≥ st.s.block_width plane ∨
      4 * sb_y + hilbert_offset i 1 ≥ st.s.block_height plane then st
  else render_block env plane sb_x sb_y sb_dst st i

/-- Body of the loop over `sb_x` of the chroma part of `render_slice`. -/
def render_chroma_superblock {F : Type} (env : RenderEnv F) (plane sb_y : Nat)
    (st : RenderState F) (sb_x : Nat) : RenderState F :=
  (List.range 16).foldl
    (render_chroma_block env plane sb_x sb_y
      (env.data_offset plane + 32 * (sb_y : Int) * st.s.linesize plane + 32 * (sb_x : Int))) st

/-- Body of the loop `for (plane = 1; plane < 3; plane++)` of `render_slice`,
with `sb_y` already halved. -/
def render_chroma_plane {F : Type} (env : RenderEnv F) (sb_y : Nat) (st : RenderState F)
    (plane : Nat) : RenderState F :=
  (List.range (st.s.superblock_width plane)).foldl (render_chroma_superblock env plane sb_y)
    { st with block_i := sb_y * 4 * st.s.block_width plane }

/-- `render_slice(s, sb_y)`. -/
def render_slice {F : Type} (env : RenderEnv F) (st : RenderState F) (sb_y : Nat) :
    RenderState F :=
  let st1 := (List.range (st.s.superblock_width 0)).foldl (render_luma_superblock env sb_y)
    { st with block_i := sb_y * 4 * st.s.block_width 0 }
  if sb_y &&& 1 ≠ 0 then st1
  else (List.range' 1 2).foldl (render_chroma_plane env (sb_y >>> 1)) st1

/-- The locals of the block list copy of `vp3_decode_frame` with the context. -/
structure BlockCopy where
  s : Vp3DecodeContext
  j : Nat

/-- Body of the loop `for (i = 0, j = 0; i < 16*s->superblock_count[plane]; i++)`
of the keyframe branch: `if (s->all_blocks[plane][i] >= 0)
s->coded_blocks[plane][j++] = s->all_blocks[plane][i];`. -/
def copy_block_entry (plane : Nat) (st : BlockCopy) (i : Nat) : BlockCopy :=
  let b := st.s.all_blocks (st.s.all_blocks_off plane + i)
  let list := Function.update st.s.coded_blocks (st.s.coded_blocks_off plane + st.j) b
  if b ≥ 0 then ⟨{ st.s with coded_blocks := list }, st.j + 1⟩ else st

/-- Body of the loop over `plane` of the keyframe branch of `vp3_decode_frame`
(lines 1389-1399): the full block list without the non-existent blocks, the
next plane's list pointer, and the 64 counts of the plane. -/
def copy_block_list (s : Vp3DecodeContext) (plane : Nat) : Vp3DecodeContext :=
  let t := (List.range (16 * s.superblock_count plane)).foldl (copy_block_entry plane) ⟨s, 0⟩
  let off := if plane < 2 then
      Function.update t.s.coded_blocks_off (plane + 1) (t.s.coded_blocks_off plane + t.j)
    else t.s.coded_blocks_off
  { t.s with
    coded_blocks_off := off
    num_coded_blocks := fun k =>
      if 64 * plane ≤ k ∧ k < 64 * plane + 64 then (t.j : Int) else t.s.num_coded_blocks k }

/-- The block lists of a keyframe: `for (plane = 0; plane < 3; plane++)`. -/
def copy_block_lists (s : Vp3DecodeContext) : Vp3DecodeContext :=
  (List.range 3).foldl copy_block_list s

/-! ## Loop filter limits (`init_loop_filter`) -/

/-- The array `bounding_values_array` (`int [256+2]`) by index, and the indices
`init_loop_filter` has written, in order; the list is not in the C structure. -/
structure BoundingValues where
  array : Int → Int
  written : List Int

/-- `bounding_values[x] = v`, where `bounding_values` is
`s->bounding_values_array + 127`. -/
def set_bounding_value (b : BoundingValues) (x v : Int) : BoundingValues :=
  ⟨Function.update b.array (127 + x) v, b.written ++ [127 + x]⟩

/-- `memset(s->bounding_values_array, 0, 256 * sizeof(int))`. -/
def clear_bounding_values (b : BoundingValues) : BoundingValues :=
  ⟨fun k => if 0 ≤ k ∧ k < 256 then 0 else b.array k,
   b.written ++ (List.range 256).map (fun (k : Nat) => (k : Int))⟩

/-- Body of the loop `for (x = 0; x < filter_limit; x++)`. -/
def ramp_up_step (b : BoundingValues) (x : Nat) : BoundingValues :=
  set_bounding_value (set_bounding_value b (-(x : Int)) (-(x : Int))) x x

/-- The loop `for (x = value = filter_limit; x < 128 && value; x++, value--)`
from the values of `x` and `value` given; the result holds the final `value`.
The first argument bounds the number of passes, `none` means the bound was
used up. -/
def ramp_down : Nat → Int → Int → BoundingValues → Option (BoundingValues × Int)
  | 0, x, value, b => if x < 128 ∧ value ≠ 0 then none else some (b, value)
  | k + 1, x, value, b =>
    if x < 128 ∧ value ≠ 0 then
      ramp_down k (x + 1) (value - 1)
        (set_bounding_value (set_bounding_value b x value) (-x) (-value))
    else some (b, value)

/-- The product `filter_limit * 0x02020202` as an `int` of 32 bits. -/
def packed_limit (filter_limit : Int) : Int :=
  (filter_limit * 0x02020202 + 2147483648) % 4294967296 - 2147483648

/-- `init_loop_filter`: `filter_limit_values` is the table of the context (its
entries are `uint8_t`), `array` the content of `bounding_values_array` at the
call. The second loop moves `x` from `filter_limit` towards 128, so 128 passes
are enough. -/
def init_loop_filter (filter_limit_values : Int → Int) (s : Vp3DecodeContext)
    (array : Int → Int) : Option BoundingValues :=
  let filter_limit := filter_limit_values (s.qps 0)
  let b1 := (List.range filter_limit.toNat).foldl ramp_up_step (clear_bounding_values ⟨array, []⟩)
  match ramp_down 128 filter_limit filter_limit b1 with
  | none => none
  | some r =>
    let b3 := if r.2 ≠ 0 then set_bounding_value r.1 128 r.2 else r.1
    some (set_bounding_value (set_bounding_value b3 130 (packed_limit filter_limit)) 129
      (packed_limit filter_limit))

/-- What a dequantizer store leaves alone: every field but `qmat`, and every
row of `qmat` other than `[plane][inter][qpi]`. -/
def QFrame (plane inter qpi : Nat) (s t : Vp3DecodeContext) : Prop :=
  t.qps = s.qps ∧ t.last_qps = s.last_qps ∧ t.nqps = s.nqps ∧
  ∀ p i k c, (p ≠ plane ∨ i ≠ inter ∨ k ≠ qpi) → t.qmat p i k c = s.qmat p i k c

/-- The DC entries of level `k` agree with those of level 0. -/
def DcShared (s : Vp3DecodeContext) (k : Nat) : Prop :=
  ∀ p, p < 3 → ∀ i, i < 2 → s.qmat p i k 0 = s.qmat p i 0 0

/-- Every level in use (quality index not `-1`) shares the DC entry of level 0. -/
def DcInvariant (s : Vp3DecodeContext) : Prop :=
  ∀ k, k < 3 → s.qps k ≠ -1 → DcShared s k

/-- The effect of the quantizer-index unpacking on the context: the coded-block
list, its offsets and `nqps` are kept, and no block's `qpi` grows beyond
`max (old qpi) m`. -/
def QpiLe (m : Nat) (s t : Vp3DecodeContext) : Prop :=
  t.coded_blocks = s.coded_blocks ∧ t.coded_blocks_off = s.coded_blocks_off ∧ t.nqps = s.nqps ∧
  ∀ b, (t.blocks b).qpi ≤ max (s.blocks b).qpi m

/-- The superblock passes only write `superblock_coding`. -/
def SbFrame (s t : Vp3DecodeContext) : Prop :=
  t = { s with superblock_coding := t.superblock_coding }

/-- The entries of `all_blocks[plane]`, in order. -/
def plane_entries (s : Vp3DecodeContext) (plane : Nat) : List Int :=
  (List.range (16 * s.superblock_count plane)).map
    (fun k => s.all_blocks (s.all_blocks_off plane + k))

/-- The existing blocks of a plane: the non-negative entries of
`all_blocks[plane]`, in Hilbert order. -/
def plane_blocks (s : Vp3DecodeContext) (plane : Nat) : List Int :=
  (plane_entries s plane).filter (fun b => decide (0 ≤ b))

/-- The existing blocks of a plane whose `coded` field in `t` is non-zero. -/
def plane_coded (s t : Vp3DecodeContext) (plane : Nat) : List Int :=
  (plane_blocks s plane).filter (fun b => decide ((t.blocks b).coded ≠ 0))

/-- The first `n` entries of `coded_blocks[plane]`. -/
def coded_list (t : Vp3DecodeContext) (plane n : Nat) : List Int :=
  (List.range n).map (fun k => t.coded_blocks (t.coded_blocks_off plane + k))

/-- Loop invariant of the block loops of one plane, after the existing blocks
`pre` have been visited: only `blocks` and `coded_blocks` differ from the
context `s0` at the start of the plane, blocks outside `pre` and list entries
below `base` are untouched, and the list from `base` on holds the coded blocks
of `pre` in order. -/
def PlaneInv (base : Nat) (pre : List Int) (s0 : Vp3DecodeContext) (st : BlockCoding) : Prop :=
  st.s = { s0 with blocks := st.s.blocks, coded_blocks := st.s.coded_blocks } ∧
  st.bit ≤ 1 ∧
  (∀ b, b ∉ pre → st.s.blocks b = s0.blocks b) ∧
  (∀ j, j < base → st.s.coded_blocks j = s0.coded_blocks j) ∧
  (List.range st.num_coded_blocks).map (fun k => st.s.coded_blocks (base + k)) =
    pre.filter (fun b => decide ((st.s.blocks b).coded ≠ 0))

/-- The indices into `all_blocks[plane]` visited for superblock `i`. -/
def sb_slots (i : Nat) : List Nat := (List.range 16).map (fun j => 16 * i + j)

/-- The block pass only writes `blocks`, `coded_blocks`, `num_coded_blocks` and
the list offsets. -/
def BlockFrame (s t : Vp3DecodeContext) : Prop :=
  t = { s with blocks := t.blocks, coded_blocks := t.coded_blocks,
               num_coded_blocks := t.num_coded_blocks, coded_blocks_off := t.coded_blocks_off }

/-- What holds for plane `q` once its blocks are done: the counter, the list
and the start of the next list agree with the coded flags. -/
def PlaneDone (s t : Vp3DecodeContext) (q : Nat) : Prop :=
  (∀ i, i < 64 → num_coded t q i = ((plane_coded s t q).length : Int)) ∧
  coded_list t q (plane_coded s t q).length = plane_coded s t q ∧
  (q < 2 → t.coded_blocks_off (q + 1) = t.coded_blocks_off q + (plane_coded s t q).length)

/-- Invariant of the plane loop before plane `n`. -/
def PlanesInv (s : Vp3DecodeContext) (n : Nat) (st : BlockCoding) : Prop :=
  BlockFrame s st.s ∧ st.bit ≤ 1 ∧
  (∀ q, q < n → PlaneDone s st.s q) ∧
  (∀ q, q < n → n < 3 →
    st.s.coded_blocks_off q + (plane_coded s st.s q).length ≤ st.s.coded_blocks_off n)

/-- The block positions of a plane in raster order. -/
def raster (width height : Nat) : List (Nat × Nat) :=
  (List.range height).flatMap (fun y => (List.range width).map (fun x => (x, y)))

/-- The blocks accounted for by a list of tokens: EOB run lengths plus the
number of other tokens. -/
def blocks_accounted (tokens : List Int) : Int :=
  ((tokens.filter (fun t => decide (t % 4 = 0))).map (fun t => t / 4)).sum +
    ((tokens.filter (fun t => decide (t % 4 ≠ 0))).length : Int)

/-- Loop invariant of `unpack_vlcs`: the tokens written so far account for
`coeff_i` blocks, `coeff_i` is within `[0, num_coeffs]`, a residual run is only
pending once the level is full, and the residual fits the run field. -/
def VlcInv (num_coeffs : Int) (off : Nat) (st : VlcState) : Prop :=
  blocks_accounted (tokens_written st off) = st.coeff_i ∧
  0 ≤ st.coeff_i ∧ st.coeff_i ≤ num_coeffs ∧
  (st.coeff_i < num_coeffs → st.eob_run = 0) ∧
  0 ≤ st.eob_run ∧ st.eob_run < 8192

/-- The EOB run lengths the token tables can produce fit the run field. -/
def EobRunsFit (tt : TokenTables) : Prop :=
  ∀ token v, v < 2 ^ tt.eob_run_get_bits token → tt.eob_run_base token + v < 8192

/-- What one iteration of the token loop does to the locals and the token
stream: an EOB token of run `L` that is cut at the end of the level, one that
fits, or a token of another type. -/
def VlcStep (num_coeffs : Int) (off : Nat) (st st' : VlcState) : Prop :=
  (∃ L : Int, 0 ≤ L ∧ st'.eob_runs = st.eob_runs ++ [L] ∧
    L > num_coeffs - st.coeff_i ∧
    tokens_written st' off = tokens_written st off ++ [wrap16 ((num_coeffs - st.coeff_i) * 4)] ∧
    st'.blocks_ended = st.blocks_ended + (num_coeffs - st.coeff_i) ∧
    st'.eob_run = L - (num_coeffs - st.coeff_i) ∧ st'.coeff_i = num_coeffs) ∨
  (∃ L : Int, 0 ≤ L ∧ st'.eob_runs = st.eob_runs ++ [L] ∧
    L ≤ num_coeffs - st.coeff_i ∧
    tokens_written st' off = tokens_written st off ++ [wrap16 (L * 4)] ∧
    st'.blocks_ended = st.blocks_ended + L ∧
    st'.eob_run = 0 ∧ st'.coeff_i = st.coeff_i + L) ∨
  (∃ v : Int, v % 4 ≠ 0 ∧ st'.eob_runs = st.eob_runs ∧
    tokens_written st' off = tokens_written st off ++ [wrap16 v] ∧
    st'.blocks_ended = st.blocks_ended ∧
    st'.eob_run = st.eob_run ∧ st'.coeff_i = st.coeff_i + 1)

/-- Bookkeeping of EOB runs inside one call entered with the residual
`incoming`: a run is only pending once the level is full, and the blocks ended
plus the pending run are the incoming residual plus the runs decoded so far. -/
def ThreadInv (num_coeffs incoming : Int) (st : VlcState) : Prop :=
  (st.coeff_i < num_coeffs → st.eob_run = 0) ∧
  st.blocks_ended + st.eob_run = incoming + st.eob_runs.sum

/-- The state `t` differs from `st` in `all_blocks` and `j` only: `len` entries
were written from position `j` on, entry `r` of them being `g r`. -/
def Filled (st t : BlockMapping) (len : Nat) (g : Nat → Int) : Prop :=
  t.s = { st.s with all_blocks := t.s.all_blocks } ∧ t.j = st.j + len ∧ t.start = st.start ∧
  ∀ idx, t.s.all_blocks idx =
    if st.s.all_blocks_off 0 + st.j ≤ idx ∧ idx < st.s.all_blocks_off 0 + st.j + len then
      g (idx - (st.s.all_blocks_off 0 + st.j))
    else st.s.all_blocks idx

/-- The value `init_block_mapping` stores for Hilbert step `i` of superblock
`(sb_x, sb_y)` of a plane whose first block has raster index `start`. -/
def mapped_block (s : Vp3DecodeContext) (plane : Nat) (start : Int) (sb_x sb_y i : Nat) : Int :=
  if 4 * sb_x + hilbert_offset i 0 < s.block_width plane ∧
      4 * sb_y + hilbert_offset i 1 < s.block_height plane then
    start + (((4 * sb_y + hilbert_offset i 1) * s.block_width plane
      + (4 * sb_x + hilbert_offset i 0) : Nat) : Int)
  else -1

/-- Entry `r` of the list of a plane: superblock `r / 16` in raster order,
Hilbert step `r % 16`. -/
def mapped_entry (s : Vp3DecodeContext) (plane : Nat) (start : Int) (r : Nat) : Int :=
  mapped_block s plane start ((r / 16) % s.superblock_width plane)
    ((r / 16) / s.superblock_width plane) (r % 16)

/-- Number of blocks of the planes before `plane`. -/
def plane_start (s : Vp3DecodeContext) (plane : Nat) : Nat :=
  ((List.range plane).map (fun q => s.block_width q * s.block_height q)).sum

/-- Number of superblocks of the planes before `plane`. -/
def superblocks_before (s : Vp3DecodeContext) (plane : Nat) : Nat :=
  ((List.range plane).map (fun q => s.superblock_width q * s.superblock_height q)).sum

/-- State of `init_block_mapping` before plane `p`: the lists of the planes
below `p` are written, one behind the other, and the list pointers up to `p`
are set. -/
def Mapped (s : Vp3DecodeContext) (p : Nat) (st : BlockMapping) : Prop :=
  st.s = { s with all_blocks := st.s.all_blocks, all_blocks_off := st.s.all_blocks_off } ∧
  st.j = 16 * superblocks_before s p ∧ st.start = (plane_start s p : Int) ∧
  (∀ q, q < 3 → q ≤ p →
    st.s.all_blocks_off q = s.all_blocks_off 0 + 16 * superblocks_before s q) ∧
  (∀ q, q < p → ∀ r, r < 16 * (s.superblock_width q * s.superblock_height q) →
    st.s.all_blocks (s.all_blocks_off 0 + 16 * superblocks_before s q + r) =
      mapped_entry s q (plane_start s q) r)

/-- The grid position of entry `r` of a plane's list. -/
def entry_x (s : Vp3DecodeContext) (plane r : Nat) : Nat :=
  4 * ((r / 16) % s.superblock_width plane) + hilbert_offset (r % 16) 0

/-- The grid row of entry `r` of a plane's list. -/
def entry_y (s : Vp3DecodeContext) (plane r : Nat) : Nat :=
  4 * ((r / 16) / s.superblock_width plane) + hilbert_offset (r % 16) 1

/-- The superblock grid of each plane covers its block grid, and
`superblock_count` is the size of the superblock grid. -/
def GridCovered (s : Vp3DecodeContext) : Prop :=
  ∀ q, q < 3 → s.superblock_count q = s.superblock_width q * s.superblock_height q ∧
    s.block_width q ≤ 4 * s.superblock_width q ∧ s.block_height q ≤ 4 * s.superblock_height q

/-- The block `b` has `mb_mode` 0 in the state `st` of the block pass. -/
def ModeCleared (b : Int) (st : BlockCoding) : Prop := (st.s.blocks b).mb_mode = 0

/-- The context `u` differs from `t` at most in `blocks`, and there not in the
`coded` members. -/
def ModeFrame (t u : Vp3DecodeContext) : Prop :=
  u = { t with blocks := u.blocks } ∧ ∀ b, (u.blocks b).coded = (t.blocks b).coded

/-- The context `t` differs from `s` at most in `qmat`. -/
def QmatOnly (s t : Vp3DecodeContext) : Prop := t = { s with qmat := t.qmat }

/-- The entries of row `[c.1][c.2][qpi]` of `qmat` are in range: the AC entries
in `[8 << inter, 4096]`, and at level 0 the DC entry in `[16 << inter, 4096]`. -/
def RowRange (qpi : Nat) (perm : Nat → Nat) (c : Nat × Nat) (t : Vp3DecodeContext) : Prop :=
  (∀ i, 1 ≤ i → i < 64 →
    ((8 <<< c.2 : Nat) : Int) ≤ t.qmat c.1 c.2 qpi (perm i) ∧ t.qmat c.1 c.2 qpi (perm i) ≤ 4096) ∧
  (qpi = 0 → ((16 <<< c.2 : Nat) : Int) ≤ t.qmat c.1 c.2 0 0 ∧ t.qmat c.1 c.2 0 0 ≤ 4096)

/-- The context of `vp3_decode_frame` when it comes to the loop
`for (i = 0; i < s->nqps; i++)` that calls `init_dequantizer` (lines 1312-1331):
the header test, the keyframe bit, `last_qps`, the quality indices read and the
unused ones set to -1. `none` is the `return -1` for a header packet. -/
def dequantizer_loop_start (s : Vp3DecodeContext) (gb : GetBitContext) :
    Option Vp3DecodeContext :=
  let hdr := if s.theora ≠ 0 then get_bits1 gb else (0, gb)
  if s.theora ≠ 0 ∧ hdr.1 ≠ 0 then none
  else
    let k := get_bits1 hdr.2
    let gb1 := if s.theora = 0 then skip_bits k.2 1 else k.2
    let s2 := save_last_qps { s with keyframe := (k.1 = 0) }
    some (clear_unused_qps (read_qps s2.theora 3 { s2 with nqps := 0 } gb1).1)

/-- The calls `init_dequantizer(s, i)` that the loop
`for (i = 0; i < s->nqps; i++) if (s->qps[i] != s->last_qps[i] || s->qps[0] != s->last_qps[0])`
makes when it starts in the context `s`, in order: each with its `i` and the
context at the call, which is the one the passes before `i` have left. -/
def dequantizer_calls (s : Vp3DecodeContext) : List (Nat × Vp3DecodeContext) :=
  (List.range s.nqps).filterMap (fun i =>
    if ((List.range i).foldl reinit_dequantizer s).qps i ≠
          ((List.range i).foldl reinit_dequantizer s).last_qps i ∨
        ((List.range i).foldl reinit_dequantizer s).qps 0 ≠
          ((List.range i).foldl reinit_dequantizer s).last_qps 0
    then some (i, (List.range i).foldl reinit_dequantizer s) else none)

/-- The DC entries `qmat[plane][inter][0][0]` lie in `[16 << inter, 4096]`. -/
def DcInRange (s : Vp3DecodeContext) : Prop :=
  ∀ plane, plane < 3 → ∀ inter, inter < 2 →
    ((16 <<< inter : Nat) : Int) ≤ s.qmat plane inter 0 0 ∧ s.qmat plane inter 0 0 ≤ 4096

/-- Between frames: once a frame has been accepted (`qps[0]` is not -1) the DC
entries of level 0 are in range; `idct_permutation` is that of `s0`. -/
def DcReady (s0 s : Vp3DecodeContext) : Prop :=
  s.idct_permutation = s0.idct_permutation ∧ (s.qps 0 ≠ -1 → DcInRange s)

/-- The mask bit (`PUL` 8, `PU` 4, `PUR` 2, `PL` 1) of the neighbour whose
weight stands in column `i` of `predictor_transform` (0: up-left, 1: up,
2: up-right, 3: left). -/
def neighbour_bit (i : Nat) : Nat := [8, 4, 2, 1].getD i 0

/-- The test `BLOCK_CODED(nx, ny) && BLOCK_MODE(nx, ny) == current_bin` of
`reverse_dc_prediction`. -/
def neighbour_usable (keyframe : Bool) (width : Nat) (base : Int) (blocks : Int → vp3_block)
    (bin nx ny : Nat) : Prop :=
  BLOCK_CODED keyframe width base blocks nx ny = true ∧ BLOCK_MODE width base blocks nx ny = bin

instance (keyframe : Bool) (width : Nat) (base : Int) (blocks : Int → vp3_block)
    (bin nx ny : Nat) : Decidable (neighbour_usable keyframe width base blocks bin nx ny) := by
  unfold neighbour_usable
  infer_instance

/-- The mask `transform` that `reverse_dc_prediction` forms for the block
`(x, y)`. -/
def neighbour_mask (keyframe : Bool) (width : Nat) (base : Int) (blocks : Int → vp3_block)
    (x y : Nat) : Nat :=
  let bin := BLOCK_MODE width base blocks x y
  (if x ≠ 0 ∧ neighbour_usable keyframe width base blocks bin (x - 1) y then 1 else 0) |||
  (if y ≠ 0 ∧ neighbour_usable keyframe width base blocks bin x (y - 1) then 4 else 0) |||
  (if y ≠ 0 ∧ x ≠ 0 ∧ neighbour_usable keyframe width base blocks bin (x - 1) (y - 1)
    then 8 else 0) |||
  (if y ≠ 0 ∧ x + 1 < width ∧ neighbour_usable keyframe width base blocks bin (x + 1) (y - 1)
    then 2 else 0)

/-- The value `predicted_dc` as `reverse_dc_prediction` computes it from the
mask, the last DC of the bin and the four neighbour variables. -/
def predicted_from (transform : Nat) (last vul vu vur vl : Int) : Int :=
  let weighted := Int.tdiv
    (predictor_transform transform 0 * vul + predictor_transform transform 1 * vu +
      predictor_transform transform 2 * vur + predictor_transform transform 3 * vl) 128
  if transform = 0 then last
  else if transform = 13 ∨ transform = 15 then
    if FFABS (weighted - vu) > 128 then vu
    else if FFABS (weighted - vl) > 128 then vl
    else if FFABS (weighted - vul) > 128 then vul
    else weighted
  else weighted

/-- The value `coeff` that `init_dequantizer` interpolates for coefficient `i`
between the base matrices `bmi` and `bmj` of the ramp it has selected, with
C's truncating division. -/
def interpolated_coeff (s : Vp3DecodeContext) (qpi inter plane i : Nat) : Int :=
  let qi := s.qps qpi
  let scan := ramp_scan (s.qr_size inter plane) qi (s.qr_count inter plane) 0 0
  let qri := scan.1
  let sum := scan.2
  let size : Int := s.qr_size inter plane qri
  let qistart := sum - size
  let bmi := s.qr_base inter plane qri
  let bmj := s.qr_base inter plane (qri + 1)
  Int.tdiv (2 * (sum - qi) * (s.base_matrix bmi i : Int)
    - 2 * (qistart - qi) * (s.base_matrix bmj i : Int) + size) (2 * size)

/-- The default quantizer ranges that `vp3_decode_init` sets when the stream
brings no tables: `qr_count = 1`, `qr_size[..][0] = 63` and
`qr_base[..][0] = qr_base[..][1] = 2*inter + (!!plane)*!inter`, for `inter < 2`
and `plane < 3`. -/
def default_quant_ranges (s : Vp3DecodeContext) : Vp3DecodeContext :=
  { s with
    qr_count := fun inter plane => if inter < 2 ∧ plane < 3 then 1 else s.qr_count inter plane
    qr_size := fun inter plane q =>
      if inter < 2 ∧ plane < 3 ∧ q = 0 then 63 else s.qr_size inter plane q
    qr_base := fun inter plane q =>
      if inter < 2 ∧ plane < 3 ∧ (q = 0 ∨ q = 1) then
        2 * inter + (if plane ≠ 0 then 1 else 0) * (if inter = 0 then 1 else 0)
      else s.qr_base inter plane q }

/-- The first quality index of ramp `r`: the sum of the sizes of the ramps
before it. -/
def ramp_start (size : Nat → Nat) : Nat → Int
  | 0 => 0
  | r + 1 => ramp_start size r + (size r : Int)

/-- Following the claim's words: `n` times the linear interpolation between the
start value `a` (at `qistart`) and the end value `b` (at `qistart + n`) of a
ramp, at the quality index `qi`. -/
def ramp_interpolation (n qistart qi a b : Int) : Int :=
  (qistart + n - qi) * a + (qi - qistart) * b

/-- The state of a call of `dequant` after `k` passes through the loop body,
none of which has left the loop. -/
def dequant_passes (perm : Nat → Nat) (dequantizer : Nat → Int) (plane : Nat) :
    Nat → DequantState → Option DequantState
  | 0, st => some st
  | k + 1, st =>
    match dequant_token perm dequantizer plane st with
    | DequantStep.next st1 =>
      if st1.i < 64 then dequant_passes perm dequantizer plane k st1 else none
    | _ => none

/-- A binary tree with a token at each leaf. -/
inductive HTree where
  | leaf (token : Nat)
  | node (l r : HTree)

/-- The number of bits of a tree in the header: a flag per node and five bits
of token per leaf. -/
def HTree.bits : HTree → Nat
  | HTree.leaf _ => 6
  | HTree.node l r => 1 + l.bits + r.bits

/-- The stream holds the tree at position `i`: flag 1 and the token for a leaf,
flag 0 and the two subtrees for an inner node. -/
def HTree.held (buffer : Nat → Bool) : HTree → Nat → Prop
  | HTree.leaf t, i => buffer i = true ∧ read_bits buffer 5 (i + 1) 0 = t
  | HTree.node l r, i => buffer i = false ∧ l.held buffer (i + 1) ∧ r.held buffer (i + 1 + l.bits)

/-- The number of leaves. -/
def HTree.leaves : HTree → Nat
  | HTree.leaf _ => 1
  | HTree.node l r => l.leaves + r.leaves

/-- No inner node of the tree stands at a code size of 32 or more, the root
standing at `size`. -/
def HTree.depth_ok : HTree → Int → Prop
  | HTree.leaf _, _ => True
  | HTree.node l r, size => size < 32 ∧ l.depth_ok (size + 1) ∧ r.depth_ok (size + 1)

/-- Following the claim's words: the leaves of a tree in reading order, each
with its token, its code (the branch bits from the root, 0 for the first
subtree and 1 for the second, behind the bits `code` of the root) and its
depth below the root (plus `depth`). -/
def HTree.codes : HTree → Nat → Nat → List (Nat × Nat × Nat)
  | HTree.leaf t, code, depth => [(t, code, depth)]
  | HTree.node l r, code, depth =>
    l.codes (2 * code) (depth + 1) ++ r.codes (2 * code + 1) (depth + 1)

/-- The table entry written for a leaf with the code `e.2.1` at the depth
`e.2.2` below a root of code size `size`, as 16-bit values. -/
def store_leaf (hti : Nat) (size : Int) (table : Nat → Nat → Nat → Nat) (e : Nat × Nat × Nat) :
    Nat → Nat → Nat → Nat :=
  fun h t k =>
    if h = hti ∧ t = e.1 ∧ k = 0 then e.2.1 % 65536
    else if h = hti ∧ t = e.1 ∧ k = 1 then ((size + (e.2.2 : Int)) % 65536).toNat
    else table h t k

/-- The code `a` is a prefix of the code `b` (codes with their lengths). -/
def code_begins (a b : Nat × Nat × Nat) : Prop :=
  a.2.2 ≤ b.2.2 ∧ b.2.1 / 2 ^ (b.2.2 - a.2.2) = a.2.1

instance HTree.decidable_held (buffer : Nat → Bool) :
    ∀ (t : HTree) (i : Nat), Decidable (t.held buffer i)
  | HTree.leaf _, _ => by unfold HTree.held; infer_instance
  | HTree.node l r, i => by
    unfold HTree.held
    have := HTree.decidable_held buffer l (i + 1)
    have := HTree.decidable_held buffer r (i + 1 + l.bits)
    infer_instance

instance HTree.decidable_depth_ok : ∀ (t : HTree) (size : Int), Decidable (t.depth_ok size)
  | HTree.leaf _, _ => by unfold HTree.depth_ok; infer_instance
  | HTree.node l r, size => by
    unfold HTree.depth_ok
    have := HTree.decidable_depth_ok l (size + 1)
    have := HTree.decidable_depth_ok r (size + 1)
    infer_instance

instance (a b : Nat × Nat × Nat) : Decidable (code_begins a b) := by
  unfold code_begins
  infer_instance

/-- The tree is one that `read_huffman_tree` takes: no inner node stands at a
code size of 32 or more, and its leaves do not go beyond the 32nd entry. -/
def HTree.accepted (T : HTree) (size entries : Int) : Prop :=
  T.depth_ok size ∧ entries + (T.leaves : Int) ≤ 32

instance HTree.decidable_accepted (T : HTree) (size entries : Int) :
    Decidable (T.accepted size entries) := by
  unfold HTree.accepted
  infer_instance

/-- The ranges of `(inter, plane)` are well-formed for `matrices` base matrices:
at least one range, every size at least 1, the sizes add up to 63, and the base
matrix indices 0 .. `qr_count` are below `matrices`. -/
def ranges_valid (s : Vp3DecodeContext) (matrices inter plane : Nat) : Prop :=
  1 ≤ s.qr_count inter plane ∧
  (∀ q, q < s.qr_count inter plane → 1 ≤ s.qr_size inter plane q) ∧
  ramp_start (s.qr_size inter plane) (s.qr_count inter plane) = 63 ∧
  ∀ q, q ≤ s.qr_count inter plane → s.qr_base inter plane q < matrices

/-- What the range loop has stored so far for `(inter, plane)`. -/
def RangeLoop (matrices inter plane : Nat) (st : RangeState) : Prop :=
  (∀ q, q < st.qri → 1 ≤ st.s.qr_size inter plane q) ∧
  ramp_start (st.s.qr_size inter plane) st.qri = st.qi ∧
  ∀ q, q < st.qri → st.s.qr_base inter plane q < matrices

/-- The context `t` differs from `s` at most in the ranges of `(inter, plane)`. -/
def RangeFrame (inter plane : Nat) (s t : Vp3DecodeContext) : Prop :=
  (∀ a b, ¬ (a = inter ∧ b = plane) → t.qr_count a b = s.qr_count a b) ∧
  (∀ a b q, ¬ (a = inter ∧ b = plane) → t.qr_size a b q = s.qr_size a b q) ∧
  ∀ a b q, ¬ (a = inter ∧ b = plane) → t.qr_base a b q = s.qr_base a b q

/-- The pairs `(inter, plane)` before position `t` of the loops have well-formed
ranges. -/
def RangesDone (matrices t : Nat) (s : Vp3DecodeContext) : Prop :=
  ∀ a b, a < 2 → b < 3 → 3 * a + b < t → ranges_valid s matrices a b

/-- The context `t` differs from `s` at most in the token streams. -/
def SameGrid (s t : Vp3DecodeContext) : Prop :=
  t = { s with dct_tokens := t.dct_tokens, dct_tokens_base := t.dct_tokens_base }

/-- The pointer `render_slice` computes for a call: the base of the superblock,
`data_offset[plane] + 32*sb_y*stride + 32*sb_x`, plus 8 bytes for every
horizontal block step `hilbert_offset[i][0]` and 8 lines for every vertical
block step `hilbert_offset[i][1]`. -/
def block_dst (data_offset : Nat → Int) (linesize : Nat → Int) (c : RenderCall) : Int :=
  data_offset c.plane + 32 * (c.sb_y : Int) * linesize c.plane + 32 * (c.sb_x : Int)
    + 8 * (hilbert_offset c.i 0 : Int) + 8 * (hilbert_offset c.i 1 : Int) * linesize c.plane

/-- Following the claim's words: the superblock base + 8*Hx*stride + 8*Hy. -/
def claimed_dst (data_offset : Nat → Int) (linesize : Nat → Int) (c : RenderCall) : Int :=
  data_offset c.plane + 32 * (c.sb_y : Int) * linesize c.plane + 32 * (c.sb_x : Int)
    + 8 * (hilbert_offset c.i 0 : Int) * linesize c.plane + 8 * (hilbert_offset c.i 1 : Int)

/-- A state of `render_slice` reached from `st0`: the context differs at most in
the token streams, and every call recorded since has the pointer `block_dst`. -/
def RenderedFrom {F : Type} (env : RenderEnv F) (st0 st : RenderState F) : Prop :=
  SameGrid st0.s st.s ∧
  ∀ c ∈ st.calls, c ∈ st0.calls ∨ c.dst = block_dst env.data_offset st0.s.linesize c

/-- A packet given by its first bits; every later bit reads as 1. -/
def bits_of (l : List Bool) : Nat → Bool := fun i => l.getD i true

/-- A freshly initialised Theora context for a 16x16 frame, with flat base
matrices and one quantiser ramp per matrix. -/
def example_context : Vp3DecodeContext where
  theora := 0x030200
  keyframe := false
  linesize := fun p => if p = 0 then 32 else 16
  superblock_count := fun _ => 1
  num_superblocks := 3
  block_width := fun p => if p = 0 then 2 else 1
  block_height := fun p => if p = 0 then 2 else 1
  superblock_coding := fun _ => 0
  superblock_coding_off := fun p => p
  coded_blocks := fun _ => 0
  coded_blocks_off := fun _ => 0
  all_blocks := fun _ => -1
  all_blocks_off := fun p => 16 * p
  blocks := fun _ => ⟨0, 0, 0, 0⟩
  blocks_off := fun p => if p = 0 then 0 else 3 + p
  num_coded_blocks := fun _ => 0
  dct_tokens_base := fun _ => 0
  dct_tokens := fun _ _ => 0
  qmat := fun _ _ _ _ => 0
  idct_permutation := fun i => i
  coded_dc_scale_factor := fun _ => 100
  coded_ac_scale_factor := fun _ => 200
  base_matrix := fun _ _ => 16
  qr_count := fun _ _ => 1
  qr_size := fun _ _ i => if i = 0 then 63 else 0
  qr_base := fun inter plane _ => 2 * inter + (if plane ≠ 0 then 1 else 0) * (if inter = 0 then 1 else 0)
  qps := fun _ => -1
  nqps := 0
  last_qps := fun _ => -1

/-- A Theora data packet: not a header, inter frame, quality indices 10 and 20. -/
def example_packet : GetBitContext :=
  ⟨bits_of [false, true, false, false, true, false, true, false, true,
            false, true, false, true, false, false, false], 0⟩

/-- A Theora data packet with the single quality index 10. -/
def example_packet_one : GetBitContext :=
  ⟨bits_of [false, true, false, false, true, false, true, false, false], 0⟩

/-- A stand-in for a `get_vlc2` table: a one-bit code for symbol 0, otherwise
a three-bit code for the symbols 1..4. -/
def example_vlc : VLC := fun buffer i =>
  if buffer i then (1 + read_bits buffer 2 (i + 1) 0, 3) else (0, 1)

/-- An inter frame context: a 32x32 frame (16 luma and 4 + 4 chroma blocks, one
superblock per plane, `all_blocks` as `init_block_mapping` fills it), two
quality indices, the luma blocks 0 and 5 and the chroma block 16 coded. -/
def example_inter_context : Vp3DecodeContext :=
  { example_context with
    block_width := fun p => if p = 0 then 4 else 2
    block_height := fun p => if p = 0 then 4 else 2
    blocks_off := fun p => if p = 0 then 0 else 12 + 4 * p
    all_blocks := fun i =>
      [0, 1, 5, 4, 8, 12, 13, 9, 10, 14, 15, 11, 7, 6, 2, 3,
       16, 17, 19, 18, -1, -1, -1, -1, -1, -1, -1, -1, -1, -1, -1, -1,
       20, 21, 23, 22].getD i (-1)
    coded_blocks := fun i => if i = 0 then 0 else if i = 1 then 5 else if i = 2 then 16 else 7
    coded_blocks_off := fun p => if p = 0 then 0 else if p = 1 then 2 else 3
    num_coded_blocks := fun k => if k < 64 then 2 else if k < 128 then 1 else 0
    blocks := fun b => if b = 0 ∨ b = 5 ∨ b = 16 then ⟨0, 0, 0, 2⟩ else ⟨0, 0, 0, 0⟩
    qps := fun i => if i = 0 then 10 else if i = 1 then 20 else -1
    nqps := 2 }

/-- Bits for `unpack_block_qpis`: first bit 0, a run of 1, then a run of 2. -/
def example_qpi_bits : GetBitContext := ⟨bits_of [false, false, true, false, false], 0⟩

/-- Bits for `unpack_block_coding`: all three superblocks partially coded (first
bit 1, one run of 3), then the block runs. -/
def example_coding_bits : GetBitContext :=
  ⟨bits_of [true, true, false, true, true, false, true, true, true, false], 0⟩

/-- The 32x32 inter frame with DC values, modes and coded flags for its 24 blocks. -/
def example_dc_context : Vp3DecodeContext :=
  { example_inter_context with
    blocks := fun b =>
      ⟨[100, -50, 32767, 7, 90, -32768, 300, 12, 110, 95, 280, 0, 5, 120, 130, 260,
        32767, -32768, 42, -5, -7, -8, -9, -10].getD b.toNat 0,
       [0, 0, 1, 0, 0, 5, 0, 0, 3, 0, 0, 0, 0, 2, 0, 6, 1, 1, 1, 1, 0, 0, 0, 0].getD b.toNat 0,
       0,
       [2, 1, 1, 0, 1, 1, 1, 0, 1, 1, 1, 0, 0, 1, 1, 1, 1, 1, 0, 1, 0, 0, 0, 0].getD b.toNat 0⟩ }

/-- Stand-in values for the token tables of `vp3data.h`. -/
def example_token_tables : TokenTables where
  eob_run_base := fun t => if t < 4 then t + 1 else if t = 4 then 8 else if t = 5 then 16 else 0
  eob_run_get_bits := fun t => if t < 3 then 0 else if t < 6 then t - 1 else if t = 6 then 12
    else 0
  zero_run_base := fun t => if t < 23 then 0 else if t < 28 then t - 22 else if t = 28 then 6
    else if t = 29 then 10 else if t = 30 then 1 else 2
  zero_run_get_bits := fun t => if t = 7 then 3 else if t = 8 then 6 else if t = 28 then 2
    else if t = 29 then 3 else if t = 31 then 1 else 0
  coeff_get_bits := fun t => if t < 13 then 0 else if t < 17 then 1 else if t < 23 then t - 15
    else if t < 30 then 1 else 2
  coeff_tables := fun t i => if t = 9 then 1 else if t = 10 then -1 else if t = 11 then 2
    else if t = 12 then -2 else if i % 2 = 0 then (t : Int) - 10 else 10 - (t : Int)

/-- A stand-in for a token VLC: every token is a five-bit code. -/
def example_token_vlc : VLC := fun buffer i => (read_bits buffer 5 i 0, 5)

/-- Token bits: token 9 (the coefficient 1), then token 0 (an EOB run of 1). -/
def example_token_bits : GetBitContext :=
  ⟨bits_of [false, true, false, false, true, false, false, false, false, false], 0⟩

/-- Token bits: token 5 with the extra bits 0011, an EOB run of 16 + 3. -/
def example_eob_bits : GetBitContext :=
  ⟨bits_of [false, false, true, false, true, false, false, true, true], 0⟩

/-- The context of a 32x16 picture after `vp3_decode_init`: 4x2 luma blocks in
one superblock (the macroblocks in its Hilbert slots 0 and 3; the slots 1 and 2
lie below the picture), 2x1 blocks in each chroma plane. -/
def example_frame : Vp3DecodeContext := vp3_decode_init 32 16 example_context

/-- Bits of an inter frame for `example_frame`: all three superblocks fully
coded (first bit 0 and a run of 3, then bit 1 and a run of 3), mode scheme 7,
and one raw mode code, `MODE_INTRA`. -/
def example_mode_bits : GetBitContext :=
  ⟨bits_of [false, true, false, true, true, true, false, true, true, true, true, false, false,
    true], 0⟩

/-- Bits of an inter frame for `example_frame`: the luma superblock partially
coded, the chroma superblocks not coded; of the luma blocks the first four in
Hilbert order (macroblock 0) are not coded and the last four are; mode scheme 7. -/
def example_uncoded_bits : GetBitContext :=
  ⟨bits_of [true, false, true, false, false, false, true, false, false, false, true, true,
    false, true, true, false, true, true, true], 0⟩

/-- Bits for the superblock passes on `example_frame` (3 superblocks): first
pass bit 1 and a run of 1, then a run of 2; second pass bit 1 and a run of 3,
one more than the two superblocks that are not partially coded. -/
def example_overrun_bits : GetBitContext :=
  ⟨bits_of [true, false, true, false, false, true, true, false, true], 0⟩

/-- The context `example_frame` with a non-zero byte behind the end of
`superblock_coding[0]` (index `num_superblocks`). -/
def example_frame_nonzero : Vp3DecodeContext :=
  { example_frame with
    superblock_coding := Function.update example_frame.superblock_coding 3 1 }

/-- Bits for `unpack_block_qpis` on `example_inter_context` (3 coded blocks):
first bit 1 and a run of 4. -/
def example_qpi_overrun_bits : GetBitContext := ⟨bits_of [true, true, true, false], 0⟩

/-- The context `example_inter_context` where block 7, not a coded block but
the stale entry `coded_blocks[0][3]` behind the list of 3, has `qpi` 1. -/
def example_inter_stale : Vp3DecodeContext :=
  { example_inter_context with
    blocks := Function.update example_inter_context.blocks 7 ⟨0, 0, 1, 0⟩ }

/-- A stand-in for the long-run table with all 34 symbols: a fixed six-bit code,
the values above 33 folded onto 33. -/
def example_long_vlc : VLC := fun buffer i => (min (read_bits buffer 6 i 0) 33, 6)

/-- A reader on a stream of 1-bits. -/
def example_ones : GetBitContext := ⟨bits_of [], 0⟩

/-- A keyframe of 32x32 pixels: 4x4 luma blocks, 2x2 blocks in each chroma
plane. -/
def example_keyframe : Vp3DecodeContext :=
  { vp3_decode_init 32 32 example_context with keyframe := true }

/-- Blocks of a plane three blocks wide and two high, all of an inter mode but
block 2 (golden), block 0 not coded. -/
def example_dc_blocks : Int → vp3_block :=
  fun b => ⟨[500, 100, 700, 60, 5, 9].getD b.toNat 0, [0, 0, 5, 0, 0, 0].getD b.toNat 0, 0,
    [0, 1, 1, 1, 1, 1].getD b.toNat 0⟩

/-- Blocks of a plane three blocks wide and two high, all coded in one mode, the
first row and block 3 with the DC value 100. -/
def example_flat_blocks : Int → vp3_block :=
  fun b => ⟨[100, 100, 100, 100, 7, 3].getD b.toNat 0, 0, 0, 1⟩

/-- A context with two quantizer ramps, over the quality indices 0..20 and
20..63, between the base matrices 0, 1 and 2; the quality index is `qi`. -/
def example_ramp_context (qi : Int) : Vp3DecodeContext :=
  { example_context with
    qr_count := fun _ _ => 2
    qr_size := fun _ _ q => if q = 0 then 20 else if q = 1 then 43 else 0
    qr_base := fun _ _ q => q
    base_matrix := fun b i => 16 + 10 * b + i
    qps := fun _ => qi }

/-- A context with two token streams of plane 0: level 0 starts at 0 with the
coefficient token 14 (value 3), level 1 starts at 10 with the EOB token 8
(run 2); the blocks have the DC value 5, the DC dequantizer is 16. -/
def example_dequant_context : Vp3DecodeContext :=
  { example_context with
    dct_tokens_base := fun k => [14, 22, 0, 0, 0, 0, 0, 0, 0, 0, 8].getD k 0
    dct_tokens := fun p z => if p = 0 ∧ z = 1 then 10 else 0
    blocks := fun _ => ⟨5, 0, 0, 1⟩
    qmat := fun _ _ _ j => if j = 0 then 16 else 20 }

/-- The locals of `unpack_vlcs` at its entry, for `example_dequant_context`. -/
def example_vlc_state : VlcState := ⟨example_dequant_context, ⟨fun _ => false, 0⟩, 0, 0, 0, 0, []⟩

/-- The bits of a tree in the header: flag 0 and the two subtrees for an inner
node, flag 1 and the five bits of the token for a leaf. -/
def HTree.encode : HTree → List Bool
  | HTree.leaf t => [true, t.testBit 4, t.testBit 3, t.testBit 2, t.testBit 1, t.testBit 0]
  | HTree.node l r => false :: (l.encode ++ r.encode)

/-- A tree whose inner nodes each have a leaf as first subtree, `n` levels deep,
with the tokens `t`, `t + 1`, ... from the root down. -/
def example_chain : Nat → Nat → HTree
  | 0, t => HTree.leaf t
  | n + 1, t => HTree.node (HTree.leaf t) (example_chain n (t + 1))

/-- A tree with three leaves, for the tokens 5, 7 and 9. -/
def example_tree : HTree :=
  HTree.node (HTree.leaf 5) (HTree.node (HTree.leaf 7) (HTree.leaf 9))

/-- A tree whose two leaves carry the same token. -/
def example_twin_tree : HTree := HTree.node (HTree.leaf 5) (HTree.leaf 5)

/-- The context as `theora_decode_tables` sets it before the call for a
subtree of the root, whose branch bit is `hbits`: `entries = 0`,
`huff_code_size = 1`. -/
def example_huffman_state (hbits : Nat) : HuffmanState :=
  { hti := 3, hbits := hbits, entries := 0, huff_code_size := 1, huffman_table := fun _ _ _ => 0 }

/-- Table bits for a Theora 3.2 header: 9 zero bits (one base matrix), the 64
entries of the base matrix (all zero), then for `(0, 0)` the base index 0, the
size bits 111110 (a range of 63) and the base index 0; every later bit is 0,
which makes the other five `(inter, plane)` copies. -/
def example_range_bits : GetBitContext := ⟨fun i => decide (522 ≤ i ∧ i ≤ 526), 0⟩

/-- A rendering environment whose frame is not modelled: the identity
permutation and frames that start at offset 0. -/
def example_render_env : RenderEnv Unit :=
  { permutated := fun i => i, data_offset := fun _ => 0, idct_put := fun _ _ _ _ _ => () }

/-- The state before the first slice of a keyframe of 16x16 pixels (2x2 luma
blocks, one block for each chroma plane; the luma stride is 32). -/
def example_render_state : RenderState Unit :=
  { s := copy_block_lists (vp3_decode_init 16 16 example_context), block := fun _ => 0,
    frame := (), block_i := 0, calls := [] }

/-- A context in the state `unpack_dct_coeffs` has reached after level 0: one
coded block in every plane, whose level 0 tokens (the coefficient 1, packed as
6) are at the offsets 0, 1 and 2; the stream of level 1 of plane 0 starts at 3. -/
def example_run_context : Vp3DecodeContext :=
  { example_context with
    num_coded_blocks := fun _ => 1
    dct_tokens_base := fun k => [6, 6, 6].getD k 0
    dct_tokens := fun p z => if z = 0 then p else 3
    blocks := fun _ => ⟨1, 0, 0, 1⟩
    qmat := fun _ _ _ _ => 16 }

/-- Token bits for level 1: token 8, a zero run with the six extra bits 111111,
a run of 63. -/
def example_run_bits : GetBitContext :=
  ⟨bits_of [false, true, false, false, false, true, true, true, true, true, true], 0⟩

/-- The memory at `s->block`: beyond the 64 coefficients every cell holds 7. -/
def example_block_memory : Nat → Int := fun _ => 7

end Vp3

namespace Dirac

open Vp3 (GetBitContext)

/-! ## Arithmetic decoder (`dirac_arith.h`) -/

/-- `dirac_arith`: `low`, `range` and `counter` are `unsigned` (32 bits), the
two byte pointers are addresses into the input memory, `contexts` holds
`uint16_t` probabilities. -/
structure dirac_arith where
  low : Nat
  range : Nat
  counter : Nat
  bytestream : Nat
  bytestream_end : Nat
  contexts : Nat → Nat

/-- Modelled from the spec: `AV_RB16(p)` is the big-endian 16-bit value of the
two bytes at `p` and `p + 1`. -/
def AV_RB16 (mem : Nat → Nat) (p : Nat) : Nat :=
  (mem p % 256) * 256 + mem (p + 1) % 256

/-- Reduction of an `unsigned` result to 32 bits. -/
def wrap32 (x : Nat) : Nat := x % 4294967296

/-- Subtraction of `unsigned` values, modulo `2 ^ 32`. -/
def sub32 (x y : Nat) : Nat := (x + (4294967296 - y % 4294967296)) % 4294967296

/-- The refill branch of `renorm_arith_decoder`, entered when `--counter` is 0. -/
def renorm_refill (mem : Nat → Nat) (a : dirac_arith) : dirac_arith :=
  let low1 := wrap32 (a.low + AV_RB16 mem a.bytestream)
  let bytestream1 := a.bytestream + 2
  if bytestream1 > a.bytestream_end then
    let low2 := low1 ||| 0xff
    let low3 := if bytestream1 > a.bytestream_end + 1 then low2 ||| 0xff00 else low2
    { a with low := low3, bytestream := a.bytestream_end, counter := 16 }
  else
    { a with low := low1, bytestream := bytestream1, counter := 16 }

/-- One iteration of the loop of `renorm_arith_decoder`. -/
def renorm_step (mem : Nat → Nat) (a : dirac_arith) : dirac_arith :=
  let a1 := { a with low := wrap32 (a.low * 2), range := wrap32 (a.range * 2),
                     counter := sub32 a.counter 1 }
  if a1.counter = 0 then renorm_refill mem a1 else a1

/-- `renorm_arith_decoder`: `while (arith->range <= 0x4000) { ... }`. The first
argument bounds the number of iterations; `none` means the bound was reached
with the loop condition still true. -/
def renorm_arith_decoder (mem : Nat → Nat) : Nat → dirac_arith → Option dirac_arith
  | 0, a => if a.range ≤ 0x4000 then none else some a
  | k + 1, a =>
    if a.range ≤ 0x4000 then renorm_arith_decoder mem k (renorm_step mem a) else some a

/-- `dirac_get_arith_bit(arith, ctx)`; `prob` is the table `ff_dirac_prob`
(`uint16_t [256]`, declared but not defined in the sources), `fuel` bounds the
renormalisation loop. -/
def dirac_get_arith_bit (prob : Nat → Nat) (mem : Nat → Nat) (fuel : Nat) (a : dirac_arith)
    (ctx : Nat) : Option (Nat × dirac_arith) :=
  let prob_zero := a.contexts ctx
  let prob_index := a.contexts ctx / 256
  let range_times_prob := wrap32 (a.range * prob_zero) / 65536
  let ret := if a.low / 65536 ≥ range_times_prob then 1 else 0
  let a1 : dirac_arith :=
    if ret ≠ 0 then
      { a with low := sub32 a.low (range_times_prob * 65536),
               range := sub32 a.range range_times_prob,
               contexts := Function.update a.contexts ctx
                 ((a.contexts ctx + 65536 - prob prob_index % 65536) % 65536) }
    else
      { a with range := range_times_prob,
               contexts := Function.update a.contexts ctx
                 ((a.contexts ctx + prob (255 - prob_index) % 65536) % 65536) }
  (renorm_arith_decoder mem fuel a1).map (fun a2 => (ret, a2))

/-- The decode-bit step as the specification words it, over the integers: the
emitted bit and the new values of `low`, `range` and `contexts[c]`. -/
def decode_bit_spec (prob : Nat → Nat) (low range p : Int) : Nat × Int × Int × Int :=
  let r := (range * p) / 65536
  if low ≥ r * 65536 then (1, low - r * 65536, range - r, p - (prob (p / 256).toNat : Int))
  else (0, low, r, p + (prob (255 - p / 256).toNat : Int))

/-- The decoder state the specified step leaves: `low` and `range` as
computed, the 16-bit context `c` holding the new value, nothing else touched. -/
def spec_state (a : dirac_arith) (c : Nat) (r : Nat × Int × Int × Int) : dirac_arith :=
  { a with low := r.2.1.toNat, range := r.2.2.1.toNat,
           contexts := Function.update a.contexts c (r.2.2.2 % 65536).toNat }

/-! ## Subband unpacking (`diracdec.c`) -/

/-- The fields of `DiracContext` (declared in `dirac.h`, which is not part of
the sources) that the coefficient unpacking uses; `arith` is the state of the
arithmetic decoder `s->arith`, of a type the sources do not define. -/
structure DiracContext (A : Type) where
  gb : GetBitContext
  arith : A
  padded_width : Nat
  padded_height : Nat
  refs : Nat
  zero_res : Nat
  wavelet_depth : Nat
  codeblocksh : Nat → Nat
  codeblocksv : Nat → Nat

/-- The functions and constants `diracdec.c` uses without defining them
(`golomb.h`, `get_bits.h`, `dirac.h`, `dirac_arith.c`), as parameters. The
arithmetic decoder functions receive `&s->arith`, which reads through the bit
reader it was initialised with; the geometry and prediction helpers receive the
context (and the coefficient pointer, as the buffer and an index into it) and
return a value. `context_sign idx` is the `sign` member of
`ff_dirac_context_sets_waveletcoeff[idx]`. -/
structure DiracEnv (A : Type) where
  svq3_get_ue_golomb : GetBitContext → Nat × GetBitContext
  align_get_bits : GetBitContext → GetBitContext
  coeff_quant_factor : Nat → Nat
  coeff_quant_offset : DiracContext A → Nat → Nat
  dirac_arith_init : A → GetBitContext → Nat → A × GetBitContext
  dirac_arith_flush : A → GetBitContext → A × GetBitContext
  dirac_arith_get_bit : A → GetBitContext → Nat → Nat × A × GetBitContext
  dirac_arith_read_uint : A → GetBitContext → Nat → Nat × A × GetBitContext
  context_sign : Nat → Nat
  ARITH_CONTEXT_ZERO_BLOCK : Nat
  subband_ll : Nat
  subband_hh : Nat
  subband_width : DiracContext A → Nat → Nat
  subband_height : DiracContext A → Nat → Nat
  coeff_posx : DiracContext A → Nat → Nat → Nat → Nat
  coeff_posy : DiracContext A → Nat → Nat → Nat → Nat
  zero_neighbourhood : DiracContext A → (Nat → Int) → Nat → Nat → Nat → Nat
  sign_predict : DiracContext A → (Nat → Int) → Nat → Nat → Nat → Nat → Nat
  intra_dc_coeff_prediction : DiracContext A → (Nat → Int) → Nat → Nat → Nat → Int

/-- `coeff_dequant(coeff, qoffset, qfactor)`. -/
def coeff_dequant (coeff qoffset qfactor : Int) : Int :=
  if coeff = 0 then 0 else (coeff * qfactor + qoffset) / 4

/-- The index `hdata + vdata * s->padded_width` of the coefficient that
`coeff_unpack` writes. -/
def coeff_index {A : Type} (env : DiracEnv A) (s : DiracContext A) (level orientation v h : Nat) :
    Nat :=
  env.coeff_posx s level orientation h + env.coeff_posy s level orientation v * s.padded_width

/-- `coeff_unpack(s, data, level, orientation, v, h, qoffset, qfactor)`: the one
store is `*coeffp = coeff`, into an `int16_t`. -/
def coeff_unpack {A : Type} (env : DiracEnv A) (s : DiracContext A) (data : Nat → Int)
    (level orientation v h : Nat) (qoffset qfactor : Int) : DiracContext A × (Nat → Int) :=
  let coeffp := coeff_index env s level orientation v h
  let parent : Nat :=
    if level ≥ 2 then
      let x := env.coeff_posx s (level - 1) orientation (h / 2)
      let y := env.coeff_posy s (level - 1) orientation (v / 2)
      if data (s.padded_width * y + x) ≠ 0 then 1 else 0
    else 0
  let nhood := env.zero_neighbourhood s data coeffp v h
  let idx := parent * 6 + (if nhood = 0 then 1 else 0) * 3
              + env.sign_predict s data coeffp orientation v h
  let r := env.dirac_arith_read_uint s.arith s.gb idx
  let read_sign := r.1
  let coeff := coeff_dequant r.1 qoffset qfactor
  if read_sign ≠ 0 then
    let b := env.dirac_arith_get_bit r.2.1 r.2.2 (env.context_sign idx)
    let coeff1 := if b.1 ≠ 0 then -coeff else coeff
    ({ s with arith := b.2.1, gb := b.2.2 }, Function.update data coeffp (Vp3.wrap16 coeff1))
  else
    ({ s with arith := r.2.1, gb := r.2.2 }, Function.update data coeffp (Vp3.wrap16 coeff))

/-- A row of `coeff_unpack` calls: `for (h = left; h < right; h++)`. -/
def unpack_row {A : Type} (env : DiracEnv A) (level orientation v left right : Nat)
    (qoffset qfactor : Int) (st : DiracContext A × (Nat → Int)) : DiracContext A × (Nat → Int) :=
  (List.range' left (right - left)).foldl
    (fun t h => coeff_unpack env t.1 t.2 level orientation v h qoffset qfactor) st

/-- `codeblock(s, data, level, orientation, x, y, qoffset, qfactor)`. -/
def codeblock {A : Type} (env : DiracEnv A) (s : DiracContext A) (data : Nat → Int)
    (level orientation x y : Nat) (qoffset qfactor : Int) : DiracContext A × (Nat → Int) :=
  let blockcnt_one := s.codeblocksh level + s.codeblocksv level = 2
  let left := (env.subband_width s level * x) / s.codeblocksh level
  let right := (env.subband_width s level * (x + 1)) / s.codeblocksh level
  let top := (env.subband_height s level * y) / s.codeblocksv level
  let bottom := (env.subband_height s level * (y + 1)) / s.codeblocksv level
  let b := if blockcnt_one then (0, s.arith, s.gb)
           else env.dirac_arith_get_bit s.arith s.gb env.ARITH_CONTEXT_ZERO_BLOCK
  let s1 := { s with arith := b.2.1, gb := b.2.2 }
  if ¬ blockcnt_one ∧ b.1 ≠ 0 then (s1, data)
  else
    (List.range' top (bottom - top)).foldl
      (fun t v => unpack_row env level orientation v left right qoffset qfactor t) (s1, data)

/-- `intra_dc_prediction(s, data)`: `line[x] += intra_dc_coeff_prediction(s, &line[x], x, y)`
over the DC subband; `line` is `data + y * padded_width`. -/
def intra_dc_prediction {A : Type} (env : DiracEnv A) (s : DiracContext A) (data : Nat → Int) :
    Nat → Int :=
  (List.range (env.subband_height s 0)).foldl
    (fun d y => (List.range (env.subband_width s 0)).foldl
      (fun e x => Function.update e (x + y * s.padded_width)
        (Vp3.wrap16 (e (x + y * s.padded_width)
          + env.intra_dc_coeff_prediction s e (x + y * s.padded_width) x y))) d) data

/-- The codeblock loops of `subband`: `for (y = 0; y < s->codeblocksv[level]; y++)
for (x = 0; x < s->codeblocksh[level]; x++) codeblock(...)`. -/
def codeblocks {A : Type} (env : DiracEnv A) (level orientation : Nat) (qoffset qfactor : Int)
    (st : DiracContext A × (Nat → Int)) : DiracContext A × (Nat → Int) :=
  (List.range (st.1.codeblocksv level)).foldl
    (fun t y => (List.range (t.1.codeblocksh level)).foldl
      (fun u x => codeblock env u.1 u.2 level orientation x y qoffset qfactor) t) st

/-- The coefficient loops of `subband_dc`: `for (y = 0; y < height; y++)
for (x = 0; x < width; x++) coeff_unpack(s, data, 0, subband_ll, y, x, ...)`. -/
def dc_coeffs {A : Type} (env : DiracEnv A) (width height : Nat) (qoffset qfactor : Int)
    (st : DiracContext A × (Nat → Int)) : DiracContext A × (Nat → Int) :=
  (List.range height).foldl
    (fun t y => unpack_row env 0 env.subband_ll y 0 width qoffset qfactor t) st

/-- `subband(s, data, level, orientation)`. -/
def subband {A : Type} (env : DiracEnv A) (s : DiracContext A) (data : Nat → Int)
    (level orientation : Nat) : DiracContext A × (Nat → Int) :=
  let l := env.svq3_get_ue_golomb s.gb
  let length := l.1
  if length = 0 then
    ({ s with gb := env.align_get_bits l.2 }, data)
  else
    let q := env.svq3_get_ue_golomb l.2
    let quant := q.1
    let s1 := { s with gb := q.2 }
    let qfactor := env.coeff_quant_factor quant
    let qoffset := env.coeff_quant_offset s1 quant + 2
    let i := env.dirac_arith_init s1.arith s1.gb length
    let s2 := { s1 with arith := i.1, gb := i.2 }
    let r := codeblocks env level orientation qoffset qfactor (s2, data)
    let f := env.dirac_arith_flush r.1.arith r.1.gb
    ({ r.1 with arith := f.1, gb := f.2 }, r.2)

/-- The coefficient part of `subband_dc(s, data)`: everything before the
`if (s->refs == 0)`. -/
def subband_dc_coeffs {A : Type} (env : DiracEnv A) (s : DiracContext A) (data : Nat → Int) :
    DiracContext A × (Nat → Int) :=
  let width := env.subband_width s 0
  let height := env.subband_height s 0
  let l := env.svq3_get_ue_golomb s.gb
  let length := l.1
  if length = 0 then
    ({ s with gb := env.align_get_bits l.2 }, data)
  else
    let q := env.svq3_get_ue_golomb l.2
    let quant := q.1
    let s1 := { s with gb := q.2 }
    let qfactor := env.coeff_quant_factor quant
    let qoffset := env.coeff_quant_offset s1 quant + 2
    let i := env.dirac_arith_init s1.arith s1.gb length
    let s2 := { s1 with arith := i.1, gb := i.2 }
    let r := dc_coeffs env width height qoffset qfactor (s2, data)
    let f := env.dirac_arith_flush r.1.arith r.1.gb
    ({ r.1 with arith := f.1, gb := f.2 }, r.2)

/-- `subband_dc(s, data)`. -/
def subband_dc {A : Type} (env : DiracEnv A) (s : DiracContext A) (data : Nat → Int) :
    DiracContext A × (Nat → Int) :=
  let r := subband_dc_coeffs env s data
  if r.1.refs = 0 then (r.1, intra_dc_prediction env r.1 r.2) else r

/-- The subbands `decode_component` unpacks after the DC subband, in order:
`for (level = 1; level <= wavelet_depth; level++)
for (orientation = 1; orientation <= subband_hh; orientation++)`. -/
def subband_order {A : Type} (env : DiracEnv A) (s : DiracContext A) : List (Nat × Nat) :=
  (List.range' 1 s.wavelet_depth).flatMap
    (fun level => (List.range' 1 env.subband_hh).map (fun orientation => (level, orientation)))

/-- A run of `subband` calls. -/
def decode_subbands {A : Type} (env : DiracEnv A) (st : DiracContext A × (Nat → Int))
    (subbands : List (Nat × Nat)) : DiracContext A × (Nat → Int) :=
  subbands.foldl (fun t lo => subband env t.1 t.2 lo.1 lo.2) st

/-- `decode_component(s, coeffs)`. -/
def decode_component {A : Type} (env : DiracEnv A) (s : DiracContext A) (coeffs : Nat → Int) :
    DiracContext A × (Nat → Int) :=
  let s1 := { s with gb := env.align_get_bits s.gb }
  decode_subbands env (subband_dc env s1 coeffs) (subband_order env s1)

/-- The `memset(coeffs, 0, padded_width * padded_height * sizeof(int16_t))` of
`dirac_decode_frame_internal`. -/
def clear_coeffs {A : Type} (s : DiracContext A) (coeffs : Nat → Int) : Nat → Int :=
  fun i => if i < s.padded_width * s.padded_height then 0 else coeffs i

/-- The coefficient decoding of one component in `dirac_decode_frame_internal`:
`memset(coeffs, 0, ...); if (!s->zero_res) decode_component(s, coeffs);`. -/
def decode_coeffs {A : Type} (env : DiracEnv A) (s : DiracContext A) (coeffs : Nat → Int) :
    DiracContext A × (Nat → Int) :=
  if s.zero_res = 0 then decode_component env s (clear_coeffs s coeffs)
  else (s, clear_coeffs s coeffs)

/-- The set of coefficient indices of subband `(level, orientation)`. -/
def in_subband {A : Type} (env : DiracEnv A) (s : DiracContext A) (level orientation i : Nat) :
    Prop :=
  ∃ v h, v < env.subband_height s level ∧ h < env.subband_width s level ∧
    i = coeff_index env s level orientation v h

/-- The geometry helpers do not depend on the bit reader or on the state of
the arithmetic decoder. -/
def GeometryOnly {A : Type} (env : DiracEnv A) : Prop :=
  ∀ (s : DiracContext A) (gb : GetBitContext) (ar : A),
    (∀ l, env.subband_width { s with gb := gb, arith := ar } l = env.subband_width s l) ∧
    (∀ l, env.subband_height { s with gb := gb, arith := ar } l = env.subband_height s l) ∧
    (∀ l o x, env.coeff_posx { s with gb := gb, arith := ar } l o x = env.coeff_posx s l o x) ∧
    (∀ l o y, env.coeff_posy { s with gb := gb, arith := ar } l o y = env.coeff_posy s l o y)

/-! ## Reference frame table (`dirac_decode_frame`) -/

/-- The members of `AVFrame` that `dirac_decode_frame` reads or writes: `data[0]`
(0 is `NULL`), `reference` and `display_picture_number`. -/
structure AVFrame where
  data : Nat
  reference : Int
  display_picture_number : Int
deriving DecidableEq

/-- The members of `DiracContext` that the reference frame code of
`dirac_decode_frame` and `parse_frame` uses; `refframes i` is
`refframes[i].frame`. `released` is not in the C structure: it lists the
frames of the records that went through the release block of the retirement
loop (`release_buffer`, `av_free` of the half-pel planes, removal). -/
structure RefContext where
  refcnt : Int
  refframes : Nat → AVFrame
  retirecnt : Nat
  retireframe : Nat → Int
  picture : AVFrame
  picnum : Int
  refs : Nat
  released : List AVFrame

/-- What the sources do not define: the capacity `REFFRAME_CNT`,
`sizeof(AVFrame)`, the parse code `pc_seq_header`, the frame left by
`avcodec_get_frame_defaults`, and the lookup `dirac_reference_frame_idx`. -/
structure RefEnv where
  REFFRAME_CNT : Int
  sizeof_AVFrame : Int
  pc_seq_header : Nat
  frame_defaults : AVFrame
  dirac_reference_frame_idx : RefContext → Int → Int

/-- Modelled from the spec: `find(display_number)`, the index of the first record
of the table with that display number, -1 when there is none. -/
def find_frame (s : RefContext) (frameno : Int) : Int :=
  match (List.range s.refcnt.toNat).find?
      (fun i => decide ((s.refframes i).display_picture_number = frameno)) with
  | some i => (i : Int)
  | none => -1

/-- The lines of `parse_frame` that set `picnum` and the retire request:
`retire` is the value of `dirac_get_se_golomb`, read when the picture is a
reference. -/
def parse_frame (s : RefContext) (picnum retire : Int) : RefContext :=
  if s.picture.reference ≠ 0 ∧ retire ≠ 0 then
    { s with picnum := picnum, retireframe := Function.update s.retireframe 0 picnum,
             retirecnt := 1 }
  else { s with picnum := picnum, retirecnt := 0 }

/-- `s->refframes[s->refcnt++].frame = s->picture;`. -/
def insert_picture (s : RefContext) : RefContext :=
  { s with refframes := Function.update s.refframes s.refcnt.toNat s.picture,
           refcnt := s.refcnt + 1 }

/-- Lines 910-921 of `dirac_decode_frame`: a reference picture, or one that is
not the next to display, is stored; `none` is the `return -1` of the
"reference picture buffer overrun" branch. -/
def store_reference (env : RefEnv) (frame_number : Int) (s : RefContext) : Option RefContext :=
  if s.picture.reference ≠ 0 ∨ s.picture.display_picture_number ≠ frame_number then
    if s.refcnt + 1 = env.REFFRAME_CNT then none else some (insert_picture s)
  else some s

/-- Body of the first loop of the retirement phase (lines 925-932) for record
`i`: the display number of a displayed non-reference record is appended to
`retireframe`. -/
def mark_frame (frame_number : Int) (t : RefContext) (i : Nat) : RefContext :=
  if (t.refframes i).reference = 0 ∧ (t.refframes i).display_picture_number < frame_number then
    { t with retireframe := Function.update t.retireframe t.retirecnt
               (t.refframes i).display_picture_number,
             retirecnt := t.retirecnt + 1 }
  else t

/-- First loop of the retirement phase: `for (i = 0; i < s->refcnt; i++)`. -/
def mark_displayed (frame_number : Int) (s : RefContext) : RefContext :=
  (List.range s.refcnt.toNat).foldl (mark_frame frame_number) s

/-- Body of the second loop of the retirement phase (lines 934-964) for
`retireframe[i]`. -/
def retire_frame (env : RefEnv) (frame_number : Int) (t : RefContext) (i : Nat) : RefContext :=
  let idx := env.dirac_reference_frame_idx t (t.retireframe i)
  if idx = -1 then t
  else if (t.refframes idx.toNat).display_picture_number ≥ frame_number then
    { t with refframes := Function.update t.refframes idx.toNat
               ({ t.refframes idx.toNat with reference := 0 }) }
  else
    { t with released := t.released ++ [t.refframes idx.toNat],
             refcnt := t.refcnt - 1,
             refframes := fun j =>
               if idx ≤ (j : Int) ∧ (j : Int) < idx + (t.refcnt - 1) then t.refframes (j + 1)
               else t.refframes j }

/-- The retirement phase of `dirac_decode_frame` (lines 923-964): both loops. -/
def retire_frames (env : RefEnv) (frame_number : Int) (s : RefContext) : RefContext :=
  (List.range (mark_displayed frame_number s).retirecnt).foldl (retire_frame env frame_number)
    (mark_displayed frame_number s)

/-- Lines 966-989: the picture to output. A non-reference picture to be shown
later is stored (again) without a test of `refcnt`. The result is the context,
`*data_size` and `*picture` (`none`: not written). -/
def show_picture (env : RefEnv) (frame_number : Int) (s : RefContext) :
    RefContext × Int × Option AVFrame :=
  if s.picture.display_picture_number > frame_number then
    let s1 := if s.picture.reference = 0 then insert_picture s else s
    let idx := env.dirac_reference_frame_idx s1 frame_number
    if idx = -1 then (s1, 0, none)
    else (s1, env.sizeof_AVFrame, some (s1.refframes idx.toNat))
  else (s, env.sizeof_AVFrame, some s.picture)

/-- One input packet, and what the functions that are not in the sources return
for it: `ff_dirac_parse_sequence_header`, the picture number and the retire
value read by `parse_frame` and whether the rest of `parse_frame` succeeds,
`avcodec_check_dimensions`, `get_buffer` (the new `data[0]`, `none` on
failure), `dirac_decode_frame_internal`. -/
structure Packet where
  buf_size : Nat
  parse_code : Nat
  header_ok : Bool
  picnum : Int
  retire : Int
  parse_ok : Bool
  dimensions_ok : Bool
  buffer : Option Nat
  decode_ok : Bool

/-- What a call of `dirac_decode_frame` leaves: the context, the return value,
`*data_size` and `*picture` (`none`: not written). -/
structure DecodeResult where
  s : RefContext
  ret : Int
  data_size : Option Int
  picture : Option AVFrame

/-- Lines 906-995 of `dirac_decode_frame`, after `dirac_decode_frame_internal`
has returned 0. -/
def output_frame (env : RefEnv) (frame_number : Int) (buf_size : Nat) (s : RefContext) :
    DecodeResult :=
  let s1 := { s with picture := { s.picture with display_picture_number := s.picnum } }
  match store_reference env frame_number s1 with
  | none => ⟨s1, -1, none, none⟩
  | some s2 =>
    let r := show_picture env frame_number (retire_frames env frame_number s2)
    let s3 :=
      if r.1.picture.reference ≠ 0 ∨ r.1.picture.display_picture_number < frame_number then
        { r.1 with picture := env.frame_defaults }
      else r.1
    ⟨s3, buf_size, some r.2.1, r.2.2⟩

/-- The context of `dirac_decode_frame` after the parse code has been taken
apart and `parse_frame` has set the picture number and the retire request. -/
def parsed_picture (s : RefContext) (p : Packet) : RefContext :=
  parse_frame
    { s with refs := p.parse_code &&& 0x03,
             picture := { s.picture with
               reference := if p.parse_code &&& 0x0C = 0x0C then 1 else 0 } }
    p.picnum p.retire

/-- The context after `get_buffer` has returned the buffer `d` for
`s->picture`. -/
def with_buffer (s : RefContext) (d : Nat) : RefContext :=
  { s with picture := { s.picture with data := d } }

/-- `dirac_decode_frame`; `frame_number` is `avctx->frame_number`. -/
def dirac_decode_frame (env : RefEnv) (s : RefContext) (frame_number : Int) (p : Packet) :
    DecodeResult :=
  if p.buf_size = 0 then
    let idx := env.dirac_reference_frame_idx s frame_number
    if idx = -1 then ⟨s, 0, some 0, none⟩
    else ⟨s, 0, some env.sizeof_AVFrame, some (s.refframes idx.toNat)⟩
  else if p.parse_code = env.pc_seq_header then
    ⟨s, if p.header_ok then 0 else -1, none, none⟩
  else if p.parse_code &&& 0x08 ≠ 0x08 then ⟨s, 0, none, none⟩
  else if p.parse_ok = false then ⟨parsed_picture s p, -1, none, none⟩
  else if p.dimensions_ok = false then ⟨parsed_picture s p, -1, none, none⟩
  else
    match p.buffer with
    | none => ⟨with_buffer (parsed_picture s p) 0, -1, none, none⟩
    | some d =>
      if p.decode_ok = false then ⟨with_buffer (parsed_picture s p) d, -1, none, none⟩
      else output_frame env frame_number p.buf_size (with_buffer (parsed_picture s p) d)

/-- A sequence of calls of `dirac_decode_frame`, each with the value of
`avctx->frame_number` at the call; the result is the final context and the
return values. -/
def decode_calls (env : RefEnv) (s : RefContext) (calls : List (Int × Packet)) :
    RefContext × List Int :=
  calls.foldl
    (fun (st : RefContext × List Int) c =>
      ((dirac_decode_frame env st.1 c.1 c.2).s, st.2 ++ [(dirac_decode_frame env st.1 c.1 c.2).ret]))
    (s, [])

/-! ## Exp-Golomb values of the arithmetic decoder (`dirac_arith.h`) -/

/-- Reduction of an `int` result to 32 bits (two's complement). -/
def wrap_int (v : Int) : Int := (v + 2147483648) % 4294967296 - 2147483648

/-- The loop of `dirac_get_arith_uint`:
`while (!dirac_get_arith_bit(arith, follow_ctx)) { ret <<= 1; ret += dirac_get_arith_bit(arith, data_ctx); follow_ctx = ff_dirac_next_ctx[follow_ctx]; }`.
`next` is the table `ff_dirac_next_ctx` (declared but not defined in the
sources); the first `Nat` argument bounds the number of follow bits read,
`none` means a bound was used up. The result is `ret` at the exit of the loop
and the decoder state. -/
def arith_uint_loop (next : Nat → Nat) (prob : Nat → Nat) (mem : Nat → Nat) (fuel : Nat)
    (data_ctx : Nat) : Nat → Int → Nat → dirac_arith → Option (Int × dirac_arith)
  | 0, _, _, _ => none
  | n + 1, ret, follow_ctx, a =>
    match dirac_get_arith_bit prob mem fuel a follow_ctx with
    | none => none
    | some (b, a1) =>
      if b ≠ 0 then some (ret, a1)
      else
        match dirac_get_arith_bit prob mem fuel a1 data_ctx with
        | none => none
        | some (d, a2) =>
          arith_uint_loop next prob mem fuel data_ctx n (wrap_int (wrap_int (ret * 2) + (d : Int)))
            (next follow_ctx) a2

/-- `dirac_get_arith_uint(arith, follow_ctx, data_ctx)`: `int ret = 1;`, the
loop, `return ret-1;`. -/
def dirac_get_arith_uint (next : Nat → Nat) (prob : Nat → Nat) (mem : Nat → Nat) (fuel : Nat)
    (n : Nat) (a : dirac_arith) (follow_ctx data_ctx : Nat) : Option (Int × dirac_arith) :=
  (arith_uint_loop next prob mem fuel data_ctx n 1 follow_ctx a).map
    (fun r => (wrap_int (r.1 - 1), r.2))

/-- `dirac_get_arith_int(arith, follow_ctx, data_ctx)`. -/
def dirac_get_arith_int (next : Nat → Nat) (prob : Nat → Nat) (mem : Nat → Nat) (fuel : Nat)
    (n : Nat) (a : dirac_arith) (follow_ctx data_ctx : Nat) : Option (Int × dirac_arith) :=
  match dirac_get_arith_uint next prob mem fuel n a follow_ctx data_ctx with
  | none => none
  | some (ret, a1) =>
    if ret ≠ 0 then
      match dirac_get_arith_bit prob mem fuel a1 (data_ctx + 1) with
      | none => none
      | some (sign, a2) => some (if sign ≠ 0 then wrap_int (-ret) else ret, a2)
    else some (ret, a1)

/-! ## Inverse wavelet transform (`diracdec.c`) -/

/-- The buffers `coeffs` and `synth` of `dirac_decode_frame_internal`. -/
structure IdwtBuffers where
  coeffs : Nat → Int
  synth : Nat → Int

/-- What the picture decoding uses without defining it: the two subband
transforms (they work on `coeffs` and `synth`), `avcodec_check_dimensions`
(its return value), whether the two `av_malloc` calls succeed,
`dirac_motion_compensation` (its return value) and the padded plane sizes. -/
structure IdwtEnv (A : Type) where
  dirac_subband_idwt_97 : Nat → Nat → Nat → IdwtBuffers → Nat → IdwtBuffers
  dirac_subband_idwt_53 : Nat → Nat → Nat → IdwtBuffers → Nat → IdwtBuffers
  avcodec_check_dimensions : Int
  coeffs_allocated : Bool
  synth_allocated : Bool
  dirac_motion_compensation : DiracContext A → (Nat → Int) → Nat → Int
  padded_luma_width : Nat
  padded_luma_height : Nat
  padded_chroma_width : Nat
  padded_chroma_height : Nat

/-- The test of `parse_frame` on the wavelet index it has read:
`if (s->wavelet_idx > 6) return -1;`. -/
def wavelet_idx_accepted (wavelet_idx : Nat) : Bool :=
  !decide (wavelet_idx > 6)

/-- Body of the level loop of `dirac_idwt`: the `switch (s->wavelet_idx)`; the
`default` branch only writes a log line. -/
def idwt_level {A : Type} (env : DiracEnv A) (ienv : IdwtEnv A) (s : DiracContext A)
    (wavelet_idx : Nat) (b : IdwtBuffers) (level : Nat) : IdwtBuffers :=
  let width := env.subband_width s level
  let height := env.subband_height s level
  match wavelet_idx with
  | 0 => ienv.dirac_subband_idwt_97 width height s.padded_width b level
  | 1 => ienv.dirac_subband_idwt_53 width height s.padded_width b level
  | _ => b

/-- `dirac_idwt(s, coeffs, synth)`: the return value and the buffers. -/
def dirac_idwt {A : Type} (env : DiracEnv A) (ienv : IdwtEnv A) (s : DiracContext A)
    (wavelet_idx : Nat) (b : IdwtBuffers) : Int × IdwtBuffers :=
  (0, (List.range' 1 s.wavelet_depth).foldl (idwt_level env ienv s wavelet_idx) b)

/-- Body of the component loop of `dirac_decode_frame_internal` up to the motion
compensation; `none` is its `return -1`. The value returned by `dirac_idwt` is
not looked at. The copy of the component into the frame is not carried. -/
def decode_plane {A : Type} (env : DiracEnv A) (ienv : IdwtEnv A) (wavelet_idx : Nat)
    (st : DiracContext A × IdwtBuffers) (comp : Nat) : Option (DiracContext A × IdwtBuffers) :=
  let s1 : DiracContext A :=
    { st.1 with padded_width := (if comp = 0 then ienv.padded_luma_width
                                  else ienv.padded_chroma_width),
                padded_height := (if comp = 0 then ienv.padded_luma_height
                                  else ienv.padded_chroma_height) }
  let d := decode_coeffs env s1 st.2.coeffs
  let t := dirac_idwt env ienv d.1 wavelet_idx ⟨d.2, st.2.synth⟩
  if d.1.refs ≠ 0 ∧ ienv.dirac_motion_compensation d.1 t.2.coeffs comp ≠ 0 then none
  else some (d.1, t.2)

/-- `dirac_decode_frame_internal(s)`: the return value. -/
def dirac_decode_frame_internal {A : Type} (env : DiracEnv A) (ienv : IdwtEnv A)
    (s : DiracContext A) (wavelet_idx : Nat) (b : IdwtBuffers) : Int :=
  if ienv.avcodec_check_dimensions ≠ 0 then -1
  else if ienv.coeffs_allocated = false then -1
  else if ienv.synth_allocated = false then -1
  else
    match (decode_plane env ienv wavelet_idx (s, b) 0).bind
        (fun t => (decode_plane env ienv wavelet_idx t 1).bind
          (fun u => decode_plane env ienv wavelet_idx u 2)) with
    | none => -1
    | some _ => 0

/-! ## Motion data of a superblock (`diracdec.c`) -/

/-- The members of `struct dirac_blockmotion` (declared in `dirac.h`, which is
not part of the sources) that `diracdec.c` uses. -/
structure dirac_blockmotion where
  use_ref : Nat
  dc : Nat → Int
  vect : Nat → Nat → Int

/-- The fields of `DiracContext` that the motion data unpacking uses; `arith` is
the state of the arithmetic decoder, of a type the sources do not define. -/
structure MotionContext (A : Type) where
  arith : A
  refs : Nat
  globalmc_flag : Nat
  sbwidth : Nat
  sbheight : Nat
  blwidth : Nat
  blheight : Nat
  sbsplit : Nat → Nat
  blmotion : Nat → dirac_blockmotion

/-- What the block mode decoding uses without defining it: the decoder function
`dirac_arith_get_bit` (on `&s->arith`), `mode_prediction`, and the constants of
`dirac.h`. -/
structure MotionEnv (A : Type) where
  dirac_arith_get_bit : A → Nat → Nat × A
  mode_prediction : MotionContext A → Nat → Nat → Nat → Nat → Nat
  ARITH_CONTEXT_PMODE_REF1 : Nat
  ARITH_CONTEXT_PMODE_REF2 : Nat
  ARITH_CONTEXT_GLOBAL_BLOCK : Nat
  DIRAC_REF_MASK_REF1 : Nat
  DIRAC_REF_MASK_REF2 : Nat
  DIRAC_REF_MASK_GLOBAL : Nat

/-- `s->blmotion[y * s->blwidth + x].use_ref |= v`. -/
def or_use_ref {A : Type} (s : MotionContext A) (x y v : Nat) : MotionContext A :=
  let b := s.blmotion (y * s.blwidth + x)
  { s with blmotion := Function.update s.blmotion (y * s.blwidth + x)
             ({ b with use_ref := b.use_ref ||| v }) }

/-- `blockmode_prediction(s, x, y)`. -/
def blockmode_prediction {A : Type} (env : MotionEnv A) (s : MotionContext A) (x y : Nat) :
    MotionContext A :=
  let r := env.dirac_arith_get_bit s.arith env.ARITH_CONTEXT_PMODE_REF1
  let s1 := { s with arith := r.2 }
  let s2 := or_use_ref s1 x y (r.1 ^^^ env.mode_prediction s1 x y env.DIRAC_REF_MASK_REF1 0)
  if s2.refs = 2 then
    let r2 := env.dirac_arith_get_bit s2.arith env.ARITH_CONTEXT_PMODE_REF2
    let s3 := { s2 with arith := r2.2 }
    or_use_ref s3 x y ((r2.1 ^^^ env.mode_prediction s3 x y env.DIRAC_REF_MASK_REF2 1) <<< 1)
  else s2

/-- `blockglob_prediction(s, x, y)`. -/
def blockglob_prediction {A : Type} (env : MotionEnv A) (s : MotionContext A) (x y : Nat) :
    MotionContext A :=
  if s.globalmc_flag = 0 then s
  else if (s.blmotion (y * s.blwidth + x)).use_ref &&& 3 ≠ 0 then
    let r := env.dirac_arith_get_bit s.arith env.ARITH_CONTEXT_GLOBAL_BLOCK
    let s1 := { s with arith := r.2 }
    or_use_ref s1 x y ((r.1 ^^^ env.mode_prediction s1 x y env.DIRAC_REF_MASK_GLOBAL 2) <<< 2)
  else s

/-- Body of the loops of `propagate_block_data`:
`s->blmotion[j * s->blwidth + i] = s->blmotion[y * s->blwidth + x];`. -/
def copy_block {A : Type} (x y j : Nat) (u : MotionContext A) (i : Nat) : MotionContext A :=
  { u with blmotion := Function.update u.blmotion (j * u.blwidth + i)
             (u.blmotion (y * u.blwidth + x)) }

/-- `propagate_block_data(s, step, x, y)`. -/
def propagate_block_data {A : Type} (s : MotionContext A) (step x y : Nat) : MotionContext A :=
  (List.range' y step).foldl (fun t j => (List.range' x step).foldl (copy_block x y j) t) s

/-- Body of the superblock loops of `dirac_unpack_block_motion_data` and
`dirac_unpack_motion_vectors` for the superblock (x, y): the block at the
origin of every square is decoded by `unpack` (the calls before
`propagate_block_data` in the pass at hand) and copied over its square. -/
def unpack_superblock {A : Type} (unpack : MotionContext A → Nat → Nat → MotionContext A)
    (s : MotionContext A) (x y : Nat) : MotionContext A :=
  let blkcnt := 1 <<< s.sbsplit (y * s.sbwidth + x)
  let step := 4 >>> s.sbsplit (y * s.sbwidth + x)
  (List.range blkcnt).foldl
    (fun t q => (List.range blkcnt).foldl
      (fun u p => propagate_block_data (unpack u (4 * x + p * step) (4 * y + q * step)) step
        (4 * x + p * step) (4 * y + q * step)) t) s

/-- The block decoding of the prediction mode pass (lines 535-536):
`blockmode_prediction(s, xblk, yblk); blockglob_prediction(s, xblk, yblk);`. -/
def unpack_block_mode {A : Type} (env : MotionEnv A) (s : MotionContext A) (x y : Nat) :
    MotionContext A :=
  blockglob_prediction env (blockmode_prediction env s x y) x y

/-- The context `t` differs from `s` at most in the bit reader and the state of
the arithmetic decoder. -/
def SameGeom {A : Type} (s t : DiracContext A) : Prop :=
  t = { s with gb := t.gb, arith := t.arith }

/-- The state `t` reached from coefficient data `d`: same geometry as `s0`, and
coefficient `j` as it was. -/
def Kept {A : Type} (s0 : DiracContext A) (d : Nat → Int) (j : Nat)
    (t : DiracContext A × (Nat → Int)) : Prop :=
  SameGeom s0 t.1 ∧ t.2 j = d j

/-- No coefficient of subband `(l1, o1)` shares its index with one of subband
`(l2, o2)`. -/
abbrev SubbandsDisjoint {A : Type} (env : DiracEnv A) (s : DiracContext A) (l1 o1 l2 o2 : Nat) :
    Prop :=
  ∀ v1, v1 < env.subband_height s l1 → ∀ h1, h1 < env.subband_width s l1 →
    ∀ v2, v2 < env.subband_height s l2 → ∀ h2, h2 < env.subband_width s l2 →
      coeff_index env s l1 o1 v1 h1 ≠ coeff_index env s l2 o2 v2 h2

/-- No coefficient of subband `(l, o)` lies where `intra_dc_prediction` writes. -/
abbrev OutsidePrediction {A : Type} (env : DiracEnv A) (s : DiracContext A) (l o : Nat) : Prop :=
  ∀ v, v < env.subband_height s l → ∀ h, h < env.subband_width s l →
    ∀ y, y < env.subband_height s 0 → ∀ x, x < env.subband_width s 0 →
      coeff_index env s l o v h ≠ x + y * s.padded_width

/-- A decoder state with `range` at its initial value and every context at 0x2000. -/
def example_arith : dirac_arith :=
  { low := 0x10000000, range := 0xFFFF, counter := 16, bytestream := 0, bytestream_end := 2,
    contexts := fun _ => 0x2000 }

/-- A stand-in for the probability table. -/
def example_prob : Nat → Nat := fun i => 256 + i

/-- Input memory holding 0xAB at address 5 and zeros elsewhere. -/
def example_mem : Nat → Nat := fun i => if i = 5 then 0xAB else 0

/-- A state about to refill with one input byte left. -/
def example_one_byte_left : dirac_arith :=
  { low := 0x12348000, range := 0x2000, counter := 1, bytestream := 5, bytestream_end := 6,
    contexts := fun _ => 0x8000 }

/-- A state about to refill with no input byte left. -/
def example_no_byte_left : dirac_arith :=
  { low := 0x12348000, range := 0x2000, counter := 1, bytestream := 6, bytestream_end := 6,
    contexts := fun _ => 0x8000 }

/-- An instance of the helper functions for a plane with one wavelet level: the
four subbands are the quadrants of the plane, lengths and quantiser indices
are 4-bit fields, and the arithmetic decoder state is a bit position in the
packet from which symbols are read directly. -/
def example_dirac_env : DiracEnv Nat :=
  { svq3_get_ue_golomb := fun gb => Vp3.get_bits gb 4
    align_get_bits := fun gb => { gb with index := (gb.index + 7) / 8 * 8 }
    coeff_quant_factor := fun q => 4 + q
    coeff_quant_offset := fun _ _ => 1
    dirac_arith_init := fun _ gb length => (gb.index, { gb with index := gb.index + 8 * length })
    dirac_arith_flush := fun a gb => (a, gb)
    dirac_arith_get_bit := fun a gb _ => ((if gb.buffer a then 1 else 0), a + 1, gb)
    dirac_arith_read_uint := fun a gb _ => (Vp3.read_bits gb.buffer 2 a 0, a + 2, gb)
    context_sign := fun _ => 0
    ARITH_CONTEXT_ZERO_BLOCK := 0
    subband_ll := 0
    subband_hh := 3
    subband_width := fun s _ => s.padded_width / 2
    subband_height := fun s _ => s.padded_height / 2
    coeff_posx := fun s _ o x => x + (if o % 2 = 1 then s.padded_width / 2 else 0)
    coeff_posy := fun s _ o y => y + (if o / 2 = 1 then s.padded_height / 2 else 0)
    zero_neighbourhood := fun _ _ _ _ _ => 1
    sign_predict := fun _ _ _ _ _ _ => 0
    intra_dc_coeff_prediction := fun _ d i x _ => if x = 0 then 0 else d (i - 1) }

/-- A packet for `example_dirac_env`: the DC subband (length 2), subband (1,1)
(length 1), subband (1,2) with length 0, subband (1,3) (length 1). -/
def example_dirac_bits : GetBitContext :=
  ⟨Vp3.bits_of ([0,0,1,0, 0,0,1,0, 0,1,1,0,0,1,0,0, 0,1,0,1,1,1,0,1,
                 0,0,0,1, 0,0,0,1, 1,1,0,0,1,1,0,0,
                 0,0,0,0, 1,1,1,1,
                 0,0,0,1, 0,0,1,1, 0,1,1,1,0,1,0,0].map (fun b => decide (b = 1))), 0⟩

/-- An intra picture component of 4x4 coefficients, one wavelet level, one
codeblock per subband. -/
def example_dirac_context : DiracContext Nat :=
  { gb := example_dirac_bits, arith := 0, padded_width := 4, padded_height := 4, refs := 0,
    zero_res := 0, wavelet_depth := 1, codeblocksh := fun _ => 1, codeblocksv := fun _ => 1 }

/-- An environment for the reference table code: capacity 8, the lookup as
`find_frame`. -/
def example_ref_env : RefEnv :=
  { REFFRAME_CNT := 8, sizeof_AVFrame := 304, pc_seq_header := 0,
    frame_defaults := ⟨0, 0, 0⟩, dirac_reference_frame_idx := find_frame }

/-- The context after `decode_init`: an empty table. -/
def empty_context : RefContext :=
  { refcnt := 0, refframes := fun _ => ⟨0, 0, 0⟩, retirecnt := 0, retireframe := fun _ => 0,
    picture := ⟨0, 0, 0⟩, picnum := 0, refs := 0, released := [] }

/-- A packet with an intra picture that is not a reference (parse code 0x08),
numbered `n`, which decodes without error into the buffer `100 + n`. -/
def later_picture (n : Nat) : Packet :=
  { buf_size := 20, parse_code := 0x08, header_ok := true, picnum := n, retire := 0,
    parse_ok := true, dimensions_ok := true, buffer := some (100 + n), decode_ok := true }

/-- A packet with an intra reference picture (parse code 0x0C) numbered `n` that
carries a retire request. -/
def retiring_picture (n : Nat) : Packet :=
  { buf_size := 20, parse_code := 0x0C, header_ok := true, picnum := n, retire := 1,
    parse_ok := true, dimensions_ok := true, buffer := some (100 + n), decode_ok := true }

/-- A packet of zero bytes. -/
def empty_packet : Packet :=
  { buf_size := 0, parse_code := 0, header_ok := true, picnum := 0, retire := 0,
    parse_ok := true, dimensions_ok := true, buffer := none, decode_ok := true }

/-- Calls of `dirac_decode_frame` while `avctx->frame_number` is 0: the pictures
numbered 5, 6, 7 and 8, none of them a reference. -/
def example_later_calls : List (Int × Packet) :=
  [(0, later_picture 5), (0, later_picture 6), (0, later_picture 7), (0, later_picture 8)]

/-- The context at the start of the retirement phase when the reference picture
numbered 1, with a retire request, has been decoded into an empty table. -/
def example_retire_context : RefContext :=
  { empty_context with
    refcnt := 1, refframes := fun i => if i = 0 then ⟨101, 1, 1⟩ else ⟨0, 0, 0⟩,
    retirecnt := 1, retireframe := fun i => if i = 0 then 1 else 0,
    picture := ⟨101, 1, 1⟩, picnum := 1 }

/-- A context at the start of the retirement phase: the table holds the
non-reference frame numbered 1 and the reference frame numbered 5, and the
retire request names 5. -/
def example_table_context : RefContext :=
  { empty_context with
    refcnt := 2
    refframes := fun i => if i = 0 then ⟨101, 0, 1⟩ else if i = 1 then ⟨105, 1, 5⟩ else ⟨0, 0, 0⟩
    retirecnt := 1, retireframe := fun i => if i = 0 then 5 else 0,
    picture := ⟨105, 1, 5⟩, picnum := 5 }

/-- What is assumed of `dirac_reference_frame_idx`: it returns -1 when no record
of the table has the display number, and otherwise the index of a record that
has it. -/
def LookupOk (env : RefEnv) : Prop :=
  ∀ (s : RefContext) (d : Int),
    (env.dirac_reference_frame_idx s d = -1 ∧
      ∀ i : Nat, (i : Int) < s.refcnt → (s.refframes i).display_picture_number ≠ d) ∨
    (0 ≤ env.dirac_reference_frame_idx s d ∧ env.dirac_reference_frame_idx s d < s.refcnt ∧
      (s.refframes (env.dirac_reference_frame_idx s d).toNat).display_picture_number = d)

/-- The records of the table, in order. -/
def table (s : RefContext) : List AVFrame := (List.range s.refcnt.toNat).map s.refframes

/-- The retire list `retireframe[0 .. retirecnt)`. -/
def requests (s : RefContext) : List Int := (List.range s.retirecnt).map s.retireframe

/-- `f->reference = 0`. -/
def clear_reference (f : AVFrame) : AVFrame := { f with reference := 0 }

/-- One step of the second retirement loop on the list of records and the list
of released frames, for the display number `d` of a request: a record with that
number is released when it has been displayed, and loses its reference flag
otherwise. -/
def retire_list (frame_number : Int) (T : List AVFrame × List AVFrame) (d : Int) :
    List AVFrame × List AVFrame :=
  if frame_number ≤ d then
    (T.1.map (fun f => if f.display_picture_number = d then clear_reference f else f), T.2)
  else
    (T.1.filter (fun f => decide (f.display_picture_number ≠ d)),
      T.2 ++ T.1.filter (fun f => decide (f.display_picture_number = d)))

/-- Invariant of the second retirement loop: a non-negative count and pairwise
distinct display numbers. -/
def TableOk (t : RefContext) : Prop :=
  0 ≤ t.refcnt ∧ ((table t).map AVFrame.display_picture_number).Nodup

/-- The number of records of `T` with the display number `d`. -/
def numbered (d : Int) (T : List AVFrame) : Nat :=
  T.countP (fun f => decide (f.display_picture_number = d))

/-- The number of non-reference records of `T` with the display number `d`. -/
def unreferenced (d : Int) (T : List AVFrame) : Nat :=
  T.countP (fun f => decide (f.reference = 0 ∧ f.display_picture_number = d))

/-- State of the second retirement loop after the retire list entries `L`, for
the table `T0` at its start: `T` is the table and `N` the records released so
far. Released records are displayed records of `T0` named in `L`; of the
records with a displayed number as many are released as `L` has entries for
it, or all; the records not yet displayed all stay; a record of `T` is one of
`T0`, without its reference flag at most when `L` names it; an entry for a
number not yet displayed leaves a record with that number without its flag;
the records that stay keep their order. -/
def Retired (frame_number : Int) (T0 : List AVFrame) (L : List Int) (T N : List AVFrame) :
    Prop :=
  (∀ f, f ∈ N → f ∈ T0 ∧ f.display_picture_number < frame_number ∧
    f.display_picture_number ∈ L) ∧
  (∀ d, d < frame_number →
    numbered d N + numbered d T = numbered d T0 ∧ numbered d N ≤ L.count d ∧
    (numbered d N = L.count d ∨ numbered d T = 0)) ∧
  (∀ d, frame_number ≤ d → numbered d T = numbered d T0) ∧
  (∀ f, f ∈ T → f ∈ T0 ∨ ∃ g, g ∈ T0 ∧ frame_number ≤ g.display_picture_number ∧
    g.display_picture_number ∈ L ∧ f = clear_reference g) ∧
  (∀ d, d ∈ L → frame_number ≤ d → (∃ g, g ∈ T0 ∧ g.display_picture_number = d) →
    ∃ f, f ∈ T ∧ f.display_picture_number = d ∧ f.reference = 0) ∧
  (T.map clear_reference).Sublist (T0.map clear_reference)

/-- A packet with an intra reference picture (parse code 0x0C) numbered `n`
without a retire request. -/
def reference_picture (n : Nat) : Packet :=
  { buf_size := 20, parse_code := 0x0C, header_ok := true, picnum := n, retire := 0,
    parse_ok := true, dimensions_ok := true, buffer := some (100 + n), decode_ok := true }

/-- Calls of `dirac_decode_frame`: at frame number 0 the reference picture
numbered 1 and a non-reference picture with the same number, then at frame
number 2 the picture numbered 2. -/
def example_renumbered_calls : List (Int × Packet) :=
  [(0, reference_picture 1), (0, later_picture 1), (2, later_picture 2)]

/-- The bits read for one exp-Golomb value: follow bits from `follow_ctx` and
its successors under `next` until one of them is 1, and after each follow bit
that is 0 a data bit from `data_ctx`. The result is the list of the data bits
and the decoder state after the closing follow bit; `none` when more than the
allowed number of follow bits are read or the decoder does not return. -/
def read_golomb_bits (next : Nat → Nat) (prob : Nat → Nat) (mem : Nat → Nat) (fuel : Nat)
    (data_ctx : Nat) : Nat → Nat → dirac_arith → Option (List Nat × dirac_arith)
  | 0, _, _ => none
  | n + 1, follow_ctx, a =>
    match dirac_get_arith_bit prob mem fuel a follow_ctx with
    | none => none
    | some (b, a1) =>
      if b ≠ 0 then some ([], a1)
      else
        match dirac_get_arith_bit prob mem fuel a1 data_ctx with
        | none => none
        | some (d, a2) =>
          (read_golomb_bits next prob mem fuel data_ctx n (next follow_ctx) a2).map
            (fun r => (d :: r.1, r.2))

/-- Following the claim's words: the binary number `1 d1 ... dk` minus 1. -/
def golomb_value (ds : List Nat) : Int :=
  ds.foldl (fun (acc : Int) (d : Nat) => 2 * acc + (d : Int)) 1 - 1

/-- The update of `ret` in the loop of `dirac_get_arith_uint`, in `int`. -/
def golomb_step (ret : Int) (d : Nat) : Int := wrap_int (wrap_int (ret * 2) + (d : Int))

/-- The input bytes of a packet, followed by what lies behind it in memory. -/
def example_stream (bytes : List Nat) : Nat → Nat := fun i => bytes.getD i 0xff

/-- A decoder at the start of a packet: the first four bytes in `low`, the read
pointer behind them, `range` 0xffff, every context at the probability 0x8000. -/
def example_decoder (bytes : List Nat) : dirac_arith :=
  { low := example_stream bytes 0 * 16777216 + example_stream bytes 1 * 65536 +
      example_stream bytes 2 * 256 + example_stream bytes 3,
    range := 0xffff, counter := 16, bytestream := 4, bytestream_end := bytes.length,
    contexts := fun _ => 0x8000 }

/-- A packet that codes 31 zero follow bits, the last of the data bits being 1. -/
def example_long_value : List Nat := [0, 0, 0, 0, 0, 0, 0, 0x06, 0xff, 0xff]

/-- Transforms that mark the level they were called for in `synth`, all
allocations succeeding, planes of 4x4 coefficients. -/
def example_idwt_env : IdwtEnv Nat :=
  { dirac_subband_idwt_97 := fun _ _ _ b level => ⟨b.coeffs, Function.update b.synth level 97⟩
    dirac_subband_idwt_53 := fun _ _ _ b level => ⟨b.coeffs, Function.update b.synth level 53⟩
    avcodec_check_dimensions := 0
    coeffs_allocated := true
    synth_allocated := true
    dirac_motion_compensation := fun _ _ _ => 0
    padded_luma_width := 4
    padded_luma_height := 4
    padded_chroma_width := 4
    padded_chroma_height := 4 }

/-- Cleared transform buffers. -/
def example_idwt_buffers : IdwtBuffers := ⟨fun _ => 0, fun _ => 0⟩

/-- A picture packet whose parse code 0x0B has the picture bit and both
reference-count bits set; `parse_frame` fails on it. -/
def three_reference_picture : Packet :=
  { buf_size := 20, parse_code := 0x0B, header_ok := true, picnum := 1, retire := 0,
    parse_ok := false, dimensions_ok := true, buffer := none, decode_ok := false }

/-- The state of the arithmetic decoder is well-formed: `range` lies in
(0x4000, 0xFFFF], `low >> 16` is below `range`, `counter` lies in [1, 16] and
the lowest `16 - counter` bits of `low` are zero. -/
def arith_well_formed (a : dirac_arith) : Prop :=
  0x4000 < a.range ∧ a.range ≤ 0xFFFF ∧ a.low / 65536 < a.range ∧
    1 ≤ a.counter ∧ a.counter ≤ 16 ∧ a.low % 2 ^ (16 - a.counter) = 0

instance (a : dirac_arith) : Decidable (arith_well_formed a) := by
  unfold arith_well_formed
  infer_instance

/-- The state inside the renormalisation loop: as `arith_well_formed`, with
`range` in [1, 0xFFFF]. -/
def arith_renormalising (a : dirac_arith) : Prop :=
  1 ≤ a.range ∧ a.range ≤ 0xFFFF ∧ a.low / 65536 < a.range ∧
    1 ≤ a.counter ∧ a.counter ≤ 16 ∧ a.low % 2 ^ (16 - a.counter) = 0

/-- A context at the start of the retirement phase with a table of three
records: the reference frames numbered 5 and 6 and, at index 2, the
non-reference frame numbered 1. The slots 3 and 4, past the table, hold records
left by earlier frames. -/
def example_compaction_context : RefContext :=
  { empty_context with
    refcnt := 3
    refframes := fun i =>
      if i = 0 then ⟨105, 1, 5⟩ else if i = 1 then ⟨106, 1, 6⟩ else if i = 2 then ⟨101, 0, 1⟩
      else if i = 3 then ⟨77, 0, 70⟩ else if i = 4 then ⟨88, 0, 80⟩ else ⟨0, 0, 0⟩
    picture := ⟨102, 0, 2⟩, picnum := 2 }

/-- Calls of `dirac_decode_frame`: while `avctx->frame_number` is 0 the
non-reference pictures numbered 5 and 1, then the picture numbered 2 when the
frame number is 2. -/
def example_reordered_calls : List (Int × Packet) :=
  [(0, later_picture 5), (0, later_picture 1), (2, later_picture 2)]

/-- The squares of a superblock of split level `split`, as the pairs (p, q) in
the order of the loops. -/
def superblock_squares (split : Nat) : List (Nat × Nat) :=
  (List.range (1 <<< split)).flatMap (fun q => (List.range (1 <<< split)).map (fun p => (p, q)))

/-- The motion blocks (row j, column i) that `propagate_block_data(s, step, x, y)`
writes, in order. -/
def square_cells (step x y : Nat) : List (Nat × Nat) :=
  (List.range' y step).flatMap (fun j => (List.range' x step).map (fun i => (j, i)))

/-- One pass through the body of the loops over p and q: the block at the origin
of the square (p, q) of the superblock (x, y) is decoded and copied. -/
def unpack_square {A : Type} (unpack : MotionContext A → Nat → Nat → MotionContext A)
    (step x y : Nat) (u : MotionContext A) (c : Nat × Nat) : MotionContext A :=
  propagate_block_data (unpack u (4 * x + c.1 * step) (4 * y + c.2 * step)) step
    (4 * x + c.1 * step) (4 * y + c.2 * step)

/-- The block decoding writes no motion block but the one at (x, y), and leaves
`blwidth` as it is. -/
def WritesOrigin {A : Type} (unpack : MotionContext A → Nat → Nat → MotionContext A) : Prop :=
  ∀ (u : MotionContext A) (x y : Nat),
    (unpack u x y).blwidth = u.blwidth ∧
    ∀ k, k ≠ y * u.blwidth + x → (unpack u x y).blmotion k = u.blmotion k

/-- A block mode environment whose decoder state is a counter: every decoded
bit is 1 and the prediction is 0. -/
def example_motion_env : MotionEnv Nat :=
  { dirac_arith_get_bit := fun a _ => (1, a + 1)
    mode_prediction := fun _ _ _ _ _ => 0
    ARITH_CONTEXT_PMODE_REF1 := 0, ARITH_CONTEXT_PMODE_REF2 := 1, ARITH_CONTEXT_GLOBAL_BLOCK := 2
    DIRAC_REF_MASK_REF1 := 1, DIRAC_REF_MASK_REF2 := 2, DIRAC_REF_MASK_GLOBAL := 4 }

/-- A picture of 2x1 superblocks, the first split into four squares, with one
reference and cleared motion blocks. -/
def example_motion_context : MotionContext Nat :=
  { arith := 0, refs := 1, globalmc_flag := 0, sbwidth := 2, sbheight := 1, blwidth := 8,
    blheight := 4, sbsplit := fun i => if i = 0 then 1 else 0,
    blmotion := fun _ => ⟨0, fun _ => 0, fun _ _ => 0⟩ }

end Dirac

namespace Avc

/-! ## Start code search (`libavformat/avc.c`) -/

/-- How a search loop of `avc_find_startcode` ends: with a `return` of the
pointer `q`, or at its loop test with the pointer `p`. -/
inductive Scan where
  | found (q : Int)
  | passed (p : Int)
deriving DecidableEq

/-- The test `p[0] == 0 && p[1] == 0 && p[2] == 1`. -/
def startcode_at (mem : Int → Nat) (p : Int) : Bool :=
  mem p = 0 && mem (p + 1) = 0 && mem (p + 2) = 1

/-- The loops `for (...; p < limit; p++) { if (p[0] == 0 && p[1] == 0 && p[2] == 1) return p; }`
of `avc_find_startcode`; the first argument bounds the number of passes. -/
def byte_scan (mem : Int → Nat) (limit : Int) : Nat → Int → Scan
  | 0, p => Scan.passed p
  | k + 1, p =>
    if p < limit then
      if startcode_at mem p then Scan.found p else byte_scan mem limit k (p + 1)
    else Scan.passed p

/-- The value `*(uint32_t*)p`, bytes in little-endian order (the test made on it
does not depend on the byte order). -/
def word_at (mem : Int → Nat) (p : Int) : Nat :=
  mem p % 256 + 256 * (mem (p + 1) % 256) + 65536 * (mem (p + 2) % 256) +
    16777216 * (mem (p + 3) % 256)

/-- The test `(x - 0x01010101) & (~x) & 0x80808080` on a 32-bit value. -/
def has_zero_byte (x : Nat) : Bool :=
  ((x + 4294967296 - 0x01010101) % 4294967296) &&& (4294967295 - x) &&& 0x80808080 ≠ 0

/-- Body of the loop `for (end -= 3; p < end; p += 4)` of `avc_find_startcode`:
`some q` is a `return` of `q`. -/
def word_check (mem : Int → Nat) (p : Int) : Option Int :=
  if has_zero_byte (word_at mem p) then
    if mem (p + 1) = 0 ∧ mem p = 0 ∧ mem (p + 2) = 1 then some (p - 1)
    else if mem (p + 1) = 0 ∧ mem (p + 2) = 0 ∧ mem (p + 3) = 1 then some p
    else if mem (p + 3) = 0 ∧ mem (p + 2) = 0 ∧ mem (p + 4) = 1 then some (p + 1)
    else if mem (p + 3) = 0 ∧ mem (p + 4) = 0 ∧ mem (p + 5) = 1 then some (p + 2)
    else none
  else none

/-- The loop `for (end -= 3; p < end; p += 4)`; the first argument bounds the
number of passes. -/
def word_scan (mem : Int → Nat) (limit : Int) : Nat → Int → Scan
  | 0, p => Scan.passed p
  | k + 1, p =>
    if p < limit then
      if (word_check mem p).isSome then Scan.found ((word_check mem p).getD p)
      else word_scan mem limit k (p + 4)
    else Scan.passed p

/-- `avc_find_startcode(p, end)`: pointers are addresses, `mem` is the memory.
Each loop gets as many passes as there are bytes between `p` and `end`, which
is more than it can make. -/
def avc_find_startcode (mem : Int → Nat) (p e : Int) : Int :=
  let a := p + 4 - p % 4
  match byte_scan mem (min a (e - 3)) (e - p).toNat p with
  | Scan.found q => q
  | Scan.passed p1 =>
    match word_scan mem (e - 6) (e - p1).toNat p1 with
    | Scan.found q => q
    | Scan.passed p2 =>
      match byte_scan mem (e - 3) (e - p2).toNat p2 with
      | Scan.found q => q
      | Scan.passed _ => e

/-- Following the claim's words: the first position `q` with `p <= q < end - 3`
that holds the bytes 0, 0, 1, and `end` when there is none. -/
def naive_startcode (mem : Int → Nat) (p e : Int) : Int :=
  match byte_scan mem (e - 3) (e - p).toNat p with
  | Scan.found q => q
  | Scan.passed _ => e

/-- A buffer of 12 bytes at the address 8 whose only start code begins at the
address 12; the bytes around the buffer are 0xff. -/
def example_buffer : Int → Nat :=
  fun i => if 8 ≤ i then [1, 1, 1, 1, 0, 0, 1, 9, 1, 1, 1, 1].getD (i - 8).toNat 0xff else 0xff

end Avc

namespace Vp3

/-! ## Dequantizer set-up: the DC entries agree -/

theorem QFrame.frame_refl (plane inter qpi : Nat) (s : Vp3DecodeContext) : QFrame plane inter qpi s s :=
  ⟨rfl, rfl, rfl, fun _ _ _ _ _ => rfl⟩

theorem QFrame.frame_trans {plane inter qpi : Nat} {s t u : Vp3DecodeContext}
    (h1 : QFrame plane inter qpi s t) (h2 : QFrame plane inter qpi t u) :
    QFrame plane inter qpi s u := by
  obtain ⟨a1, a2, a3, a4⟩ := h1
  obtain ⟨b1, b2, b3, b4⟩ := h2
  exact ⟨b1.trans a1, b2.trans a2, b3.trans a3, fun p i k c h => (b4 p i k c h).trans (a4 p i k c h)⟩

theorem qmat_set_other (q : Nat → Nat → Nat → Nat → Int) (plane inter qpi c : Nat) (v : Int)
    (p i k j : Nat) (h : p ≠ plane ∨ i ≠ inter ∨ k ≠ qpi) :
    qmat_set q plane inter qpi c v p i k j = q p i k j := by
  unfold qmat_set
  rw [if_neg]
  rintro ⟨h1, h2, h3, _⟩
  rcases h with h | h | h
  · exact h h1
  · exact h h2
  · exact h h3

theorem coeff_stores_frame (qpi inter plane : Nat) (l : List Nat) (s : Vp3DecodeContext) :
    QFrame plane inter qpi s (l.foldl
      (fun (t : Vp3DecodeContext) i =>
        { t with qmat := qmat_set t.qmat plane inter qpi (t.idct_permutation i)
                           (dequant_coeff t qpi inter plane i) }) s) := by
  induction l generalizing s with
  | nil => exact QFrame.frame_refl _ _ _ s
  | cons a l ih =>
    rw [List.foldl_cons]
    refine QFrame.frame_trans ?_ (ih _)
    exact ⟨rfl, rfl, rfl, fun p i k c h => qmat_set_other _ _ _ _ _ _ _ _ _ _ h⟩

theorem init_dequantizer_plane_frame (s : Vp3DecodeContext) (qpi inter plane : Nat) :
    QFrame plane inter qpi s (init_dequantizer_plane s qpi inter plane) := by
  unfold init_dequantizer_plane
  refine QFrame.frame_trans (coeff_stores_frame qpi inter plane (List.range 64) s) ?_
  exact ⟨rfl, rfl, rfl, fun p i k c h => qmat_set_other _ _ _ _ _ _ _ _ _ _ h⟩

theorem init_dequantizer_plane_dc (s : Vp3DecodeContext) (qpi inter plane : Nat) (h : qpi ≠ 0) :
    (init_dequantizer_plane s qpi inter plane).qmat plane inter qpi 0 = s.qmat plane inter 0 0 := by
  have hf := coeff_stores_frame qpi inter plane (List.range 64) s
  unfold init_dequantizer_plane
  simp only [qmat_set, and_self, if_true]
  exact hf.2.2.2 plane inter 0 0 (Or.inr (Or.inr (Ne.symm h)))

/-- The six plane steps of `init_dequantizer`, written out. -/
theorem init_dequantizer_unroll (s : Vp3DecodeContext) (qpi : Nat) :
    init_dequantizer s qpi =
      init_dequantizer_plane (init_dequantizer_plane (init_dequantizer_plane
        (init_dequantizer_plane (init_dequantizer_plane (init_dequantizer_plane s qpi 0 0)
          qpi 0 1) qpi 0 2) qpi 1 0) qpi 1 1) qpi 1 2 := by
  simp [init_dequantizer, List.range_succ]

/-- `init_dequantizer(s, qpi)` only writes level `qpi` of `qmat`. -/
theorem init_dequantizer_other (s : Vp3DecodeContext) (qpi : Nat) :
    (init_dequantizer s qpi).qps = s.qps ∧ (init_dequantizer s qpi).last_qps = s.last_qps ∧
    (init_dequantizer s qpi).nqps = s.nqps ∧
    ∀ p i k c, k ≠ qpi → (init_dequantizer s qpi).qmat p i k c = s.qmat p i k c := by
  rw [init_dequantizer_unroll]
  have f := fun t i p => init_dequantizer_plane_frame t qpi i p
  refine ⟨?_, ?_, ?_, ?_⟩
  · rw [(f _ 1 2).1, (f _ 1 1).1, (f _ 1 0).1, (f _ 0 2).1, (f _ 0 1).1, (f _ 0 0).1]
  · rw [(f _ 1 2).2.1, (f _ 1 1).2.1, (f _ 1 0).2.1, (f _ 0 2).2.1, (f _ 0 1).2.1, (f _ 0 0).2.1]
  · rw [(f _ 1 2).2.2.1, (f _ 1 1).2.2.1, (f _ 1 0).2.2.1, (f _ 0 2).2.2.1, (f _ 0 1).2.2.1,
      (f _ 0 0).2.2.1]
  · intro p i k c h
    rw [(f _ 1 2).2.2.2 p i k c (Or.inr (Or.inr h)), (f _ 1 1).2.2.2 p i k c (Or.inr (Or.inr h)),
      (f _ 1 0).2.2.2 p i k c (Or.inr (Or.inr h)), (f _ 0 2).2.2.2 p i k c (Or.inr (Or.inr h)),
      (f _ 0 1).2.2.2 p i k c (Or.inr (Or.inr h)), (f _ 0 0).2.2.2 p i k c (Or.inr (Or.inr h))]

/-- After `init_dequantizer(s, qpi)` the DC entry of level `qpi` is that of level 0. -/
theorem init_dequantizer_dc (s : Vp3DecodeContext) (qpi plane inter : Nat)
    (hp : plane < 3) (hi : inter < 2) :
    (init_dequantizer s qpi).qmat plane inter qpi 0 = (init_dequantizer s qpi).qmat plane inter 0 0 := by
  by_cases hq : qpi = 0
  · subst hq; rfl
  rw [(init_dequantizer_other s qpi).2.2.2 plane inter 0 0 (Ne.symm hq)]
  rw [init_dequantizer_unroll]
  have f := fun t i p => init_dequantizer_plane_frame t qpi i p
  have d := fun t i p => init_dequantizer_plane_dc t qpi i p hq
  have z : ∀ t i p, (init_dequantizer_plane t qpi i p).qmat plane inter 0 0 = t.qmat plane inter 0 0 :=
    fun t i p => (f t i p).2.2.2 plane inter 0 0 (Or.inr (Or.inr (Ne.symm hq)))
  interval_cases plane <;> interval_cases inter
  · rw [(f _ 1 2).2.2.2 _ _ _ _ (by simp), (f _ 1 1).2.2.2 _ _ _ _ (by simp),
      (f _ 1 0).2.2.2 _ _ _ _ (by simp), (f _ 0 2).2.2.2 _ _ _ _ (by simp),
      (f _ 0 1).2.2.2 _ _ _ _ (by simp), d]
  · rw [(f _ 1 2).2.2.2 _ _ _ _ (by simp), (f _ 1 1).2.2.2 _ _ _ _ (by simp), d,
      z, z, z]
  · rw [(f _ 1 2).2.2.2 _ _ _ _ (by simp), (f _ 1 1).2.2.2 _ _ _ _ (by simp),
      (f _ 1 0).2.2.2 _ _ _ _ (by simp), (f _ 0 2).2.2.2 _ _ _ _ (by simp), d, z]
  · rw [(f _ 1 2).2.2.2 _ _ _ _ (by simp), d, z, z, z, z]
  · rw [(f _ 1 2).2.2.2 _ _ _ _ (by simp), (f _ 1 1).2.2.2 _ _ _ _ (by simp),
      (f _ 1 0).2.2.2 _ _ _ _ (by simp), d, z, z]
  · rw [d, z, z, z, z, z]

theorem read_qps_spec (theora : Int) (k : Nat) (s : Vp3DecodeContext) (gb : GetBitContext) :
    (read_qps theora k s gb).1.qmat = s.qmat ∧
    (read_qps theora k s gb).1.last_qps = s.last_qps ∧
    (read_qps theora k s gb).1.nqps ≤ s.nqps + k ∧
    (∀ i, i < s.nqps → (read_qps theora k s gb).1.qps i = s.qps i) ∧
    (∀ i, s.nqps ≤ i → i < (read_qps theora k s gb).1.nqps → (read_qps theora k s gb).1.qps i ≠ -1) := by
  induction k generalizing s gb with
  | zero => exact ⟨rfl, rfl, le_refl _, fun _ _ => rfl, fun i h1 h2 => absurd h2 (by simpa [read_qps] using h1)⟩
  | succ k ih =>
    unfold read_qps
    simp only
    split_ifs with h1 h2
    · obtain ⟨a1, a2, a3, a4, a5⟩ := ih
        { s with qps := Function.update s.qps s.nqps ((get_bits gb 6).1 : Int), nqps := s.nqps + 1 }
        (get_bits1 (get_bits gb 6).2).2
      simp only at a3 a4 a5
      refine ⟨a1, a2, by omega, ?_, ?_⟩
      · intro i hi
        rw [a4 i (by omega), Function.update_noteq (by omega)]
      · intro i hi1 hi2
        rcases Nat.eq_or_lt_of_le hi1 with e | l
        · subst e
          rw [a4 _ (by omega), Function.update_same]
          omega
        · exact a5 i l hi2
    · refine ⟨rfl, rfl, by simp, ?_, ?_⟩
      · intro i hi
        simp only
        rw [Function.update_noteq (by omega)]
      · intro i hi1 hi2
        simp only at hi2
        have : i = s.nqps := by omega
        subst this
        simp only [Function.update_same]
        omega
    · refine ⟨rfl, rfl, by simp, ?_, ?_⟩
      · intro i hi
        simp only
        rw [Function.update_noteq (by omega)]
      · intro i hi1 hi2
        simp only at hi2
        have : i = s.nqps := by omega
        subst this
        simp only [Function.update_same]
        omega

/-- The re-initialisation loop over the first `n` levels. -/
theorem reinit_loop_spec (s : Vp3DecodeContext)
    (hold : ∀ k, k < 3 → s.last_qps k ≠ -1 → DcShared s k) (n : Nat) :
    ((List.range n).foldl reinit_dequantizer s).qps = s.qps ∧
    ((List.range n).foldl reinit_dequantizer s).last_qps = s.last_qps ∧
    ((List.range n).foldl reinit_dequantizer s).nqps = s.nqps ∧
    (∀ k, k < n → k < 3 → s.qps k ≠ -1 → DcShared ((List.range n).foldl reinit_dequantizer s) k) ∧
    (∀ p i k c, n ≤ k → ((List.range n).foldl reinit_dequantizer s).qmat p i k c = s.qmat p i k c) ∧
    (s.qps 0 = s.last_qps 0 →
      ∀ p i c, ((List.range n).foldl reinit_dequantizer s).qmat p i 0 c = s.qmat p i 0 c) := by
  induction n with
  | zero => exact ⟨rfl, rfl, rfl, fun k h => absurd h (Nat.not_lt_zero k), fun _ _ _ _ _ => rfl,
      fun _ _ _ _ => rfl⟩
  | succ n ih =>
    obtain ⟨a1, a2, a3, a4, a5, a6⟩ := ih
    rw [List.range_succ, List.foldl_append, List.foldl_cons, List.foldl_nil]
    generalize (List.range n).foldl reinit_dequantizer s = t at a1 a2 a3 a4 a5 a6
    unfold reinit_dequantizer
    rw [a1, a2]
    split_ifs with hc
    · obtain ⟨b1, b2, b3, b4⟩ := init_dequantizer_other t n
      refine ⟨b1.trans a1, b2.trans a2, b3.trans a3, ?_, ?_, ?_⟩
      · intro k hk hk3 hq p hp i hi
        rcases Nat.eq_or_lt_of_le (Nat.le_of_lt_succ hk) with e | l
        · subst e
          exact init_dequantizer_dc t k p i hp hi
        · rw [b4 p i k 0 (by omega), b4 p i 0 0 (by omega)]
          exact a4 k l hk3 hq p hp i hi
      · intro p i k c hk
        rw [b4 p i k c (by omega)]
        exact a5 p i k c (by omega)
      · intro h0 p i c
        have hn : n ≠ 0 := by
          rintro rfl
          rcases hc with hc | hc <;> exact hc h0
        rw [b4 p i 0 c (by omega)]
        exact a6 h0 p i c
    · push_neg at hc
      obtain ⟨c1, c0⟩ := hc
      refine ⟨a1, a2, a3, ?_, ?_, a6⟩
      · intro k hk hk3 hq p hp i hi
        rcases Nat.eq_or_lt_of_le (Nat.le_of_lt_succ hk) with e | l
        · subst e
          rw [a5 p i k 0 (le_refl _), a6 c0 p i 0]
          exact hold k hk3 (by rw [← c1]; exact hq) p hp i hi
        · exact a4 k l hk3 hq p hp i hi
      · intro p i k c hk
        exact a5 p i k c (by omega)

/-- The quality-index set-up re-establishes the invariant and puts every level
below `nqps` in use. -/
theorem setup_dequantizers_spec (s : Vp3DecodeContext) (gb1 : GetBitContext)
    (hinv : DcInvariant s) :
    DcInvariant (setup_dequantizers s gb1).1 ∧ (setup_dequantizers s gb1).1.nqps ≤ 3 ∧
    ∀ k, k < (setup_dequantizers s gb1).1.nqps → (setup_dequantizers s gb1).1.qps k ≠ -1 := by
  unfold setup_dequantizers
  simp only
  obtain ⟨q1, q2, q3, -, q5⟩ := read_qps_spec (save_last_qps s).theora 3
    { save_last_qps s with nqps := 0 } gb1
  generalize read_qps (save_last_qps s).theora 3 { save_last_qps s with nqps := 0 } gb1 = rq
    at q1 q2 q3 q5
  have e1 : (clear_unused_qps rq.1).qmat = s.qmat := q1
  have e2 : ∀ k, k < 3 → (clear_unused_qps rq.1).last_qps k = s.qps k := by
    intro k hk
    show rq.1.last_qps k = s.qps k
    rw [q2]
    simp [save_last_qps, hk]
  have e3 : (clear_unused_qps rq.1).nqps ≤ 3 := by
    show rq.1.nqps ≤ 3
    simpa using q3
  have e4 : ∀ k, k < (clear_unused_qps rq.1).nqps → (clear_unused_qps rq.1).qps k ≠ -1 := by
    intro k hk
    have hk2 : k < rq.1.nqps := hk
    show (if rq.1.nqps ≤ k ∧ k < 3 then -1 else rq.1.qps k) ≠ -1
    rw [if_neg (by omega)]
    exact q5 k (Nat.zero_le _) hk2
  have e5 : ∀ k, (clear_unused_qps rq.1).nqps ≤ k → k < 3 → (clear_unused_qps rq.1).qps k = -1 := by
    intro k hk hk3
    have hk2 : rq.1.nqps ≤ k := hk
    show (if rq.1.nqps ≤ k ∧ k < 3 then -1 else rq.1.qps k) = -1
    rw [if_pos ⟨hk2, hk3⟩]
  generalize clear_unused_qps rq.1 = s4 at e1 e2 e3 e4 e5
  have hold : ∀ k, k < 3 → s4.last_qps k ≠ -1 → DcShared s4 k := by
    intro k hk3 hl p hp i hi
    rw [e1]
    rw [e2 k hk3] at hl
    exact hinv k hk3 hl p hp i hi
  obtain ⟨a1, -, a3, a4, -, -⟩ := reinit_loop_spec s4 hold s4.nqps
  refine ⟨?_, ?_, ?_⟩
  · intro k hk3 hq
    rw [a1] at hq
    by_cases hk : k < s4.nqps
    · exact a4 k hk hk3 hq
    · exact absurd (e5 k (by omega) hk3) hq
  · rw [a3]; exact e3
  · intro k hk
    rw [a3] at hk
    rw [a1]
    exact e4 k hk

/-- An accepted packet is the quality-index set-up run on the context with only
`keyframe` changed. -/
theorem vp3_decode_frame_setup_some (s : Vp3DecodeContext) (gb : GetBitContext)
    (r : Vp3DecodeContext × GetBitContext) (h : vp3_decode_frame_setup s gb = some r) :
    ∃ kf gb1, r = setup_dequantizers { s with keyframe := kf } gb1 := by
  unfold vp3_decode_frame_setup at h
  simp only at h
  by_cases hrej : s.theora ≠ 0 ∧ (if s.theora ≠ 0 then get_bits1 gb else (0, gb)).1 ≠ 0
  · rw [if_pos hrej] at h
    exact absurd h (by simp)
  · rw [if_neg hrej] at h
    exact ⟨_, _, (Option.some.inj h).symm⟩

theorem vp3_decode_frame_setup_spec (s : Vp3DecodeContext) (gb : GetBitContext)
    (r : Vp3DecodeContext × GetBitContext) (hinv : DcInvariant s)
    (h : vp3_decode_frame_setup s gb = some r) :
    DcInvariant r.1 ∧ r.1.nqps ≤ 3 ∧ ∀ k, k < r.1.nqps → r.1.qps k ≠ -1 := by
  obtain ⟨kf, gb1, rfl⟩ := vp3_decode_frame_setup_some s gb r h
  exact setup_dequantizers_spec _ gb1 hinv

theorem decode_frames_invariant (s : Vp3DecodeContext) (packets : List GetBitContext)
    (hinv : DcInvariant s) : DcInvariant (decode_frames s packets) := by
  induction packets generalizing s with
  | nil => exact hinv
  | cons gb rest ih =>
    unfold decode_frames
    rw [List.foldl_cons]
    apply ih
    cases h : vp3_decode_frame_setup s gb with
    | none => exact hinv
    | some r => exact (vp3_decode_frame_setup_spec s gb r hinv h).1

/-- C1: starting from the state left by `vp3_decode_init` (all quality indices
`-1`), after the dequantizer set-up of every accepted frame of any packet
sequence, `qmat[p][inter][qpi][0] = qmat[p][inter][0][0]` for every plane,
`inter` in {0,1} and `qpi < nqps`. -/
theorem qmat_dc_shared_after_every_frame (s0 : Vp3DecodeContext)
    (hinit : ∀ k, k < 3 → s0.qps k = -1)
    (packets : List GetBitContext) (gb : GetBitContext)
    (r : Vp3DecodeContext × GetBitContext)
    (hframe : vp3_decode_frame_setup (decode_frames s0 packets) gb = some r)
    (p inter qpi : Nat) (hp : p < 3) (hi : inter < 2) (hq : qpi < r.1.nqps) :
    r.1.qmat p inter qpi 0 = r.1.qmat p inter 0 0 := by
  have h0 : DcInvariant s0 := fun k hk hne => absurd (hinit k hk) hne
  obtain ⟨a, b, c⟩ := vp3_decode_frame_setup_spec _ gb r (decode_frames_invariant s0 packets h0) hframe
  exact a qpi (by omega) (c qpi hq) p hp inter hi

set_option maxRecDepth 100000 in
/-- Witness for C1: a frame with one quality index followed by a frame with two. -/
theorem qmat_dc_shared_witness :
    (∀ k, k < 3 → example_context.qps k = -1) ∧
    ∃ r, vp3_decode_frame_setup (decode_frames example_context [example_packet_one]) example_packet
        = some r ∧ 1 < r.1.nqps ∧ r.1.qmat 2 1 1 0 = r.1.qmat 2 1 0 0 :=
  ⟨fun _ _ => rfl, _, rfl, by decide,
   qmat_dc_shared_after_every_frame example_context (fun _ _ => rfl) [example_packet_one]
     example_packet _ rfl 2 1 1 (by decide) (by decide) (by decide)⟩

/-! ## Block quantizer indices stay below `nqps` -/

theorem QpiLe.qpi_refl (m : Nat) (s : Vp3DecodeContext) : QpiLe m s s :=
  ⟨rfl, rfl, rfl, fun _ => le_max_left _ _⟩

theorem QpiLe.qpi_trans {m : Nat} {s t u : Vp3DecodeContext} (h1 : QpiLe m s t) (h2 : QpiLe m t u) :
    QpiLe m s u := by
  obtain ⟨a1, a2, a3, a4⟩ := h1
  obtain ⟨b1, b2, b3, b4⟩ := h2
  refine ⟨b1.trans a1, b2.trans a2, b3.trans a3, fun b => ?_⟩
  have := a4 b
  have := b4 b
  omega

theorem block_qpi_add_le (s : Vp3DecodeContext) (idx : Int) (bit qpi m : Nat)
    (hb : bit ≤ 1) (hq : (s.blocks idx).qpi = qpi) (hm : qpi + 1 ≤ m) :
    QpiLe m s (block_qpi_add s idx bit) := by
  refine ⟨rfl, rfl, rfl, fun b => ?_⟩
  unfold block_qpi_add
  simp only
  by_cases h : b = idx
  · subst h
    rw [Function.update_same]
    simp only
    have : ((s.blocks b).qpi + bit) % 4 ≤ (s.blocks b).qpi + bit := Nat.mod_le _ _
    omega
  · rw [Function.update_noteq h]
    exact le_max_left _ _

theorem qpi_run_le (n : Int) (qpi bit m : Nat) (hb : bit ≤ 1) (hm : qpi + 1 ≤ m)
    (d : Nat) (s : Vp3DecodeContext) (i rem : Nat) (r : Vp3DecodeContext × Nat)
    (h : qpi_run n qpi bit d s i rem = some r) : QpiLe m s r.1 := by
  induction d generalizing s i rem with
  | zero =>
    cases rem with
    | zero =>
      simp only [qpi_run, Option.some.injEq] at h
      subst h
      exact QpiLe.qpi_refl m s
    | succ rem => simp [qpi_run] at h
  | succ d ih =>
    cases rem with
    | zero =>
      simp only [qpi_run, Option.some.injEq] at h
      subst h
      exact QpiLe.qpi_refl m s
    | succ rem =>
      simp only [qpi_run] at h
      split_ifs at h with h1 h2
      · exact (block_qpi_add_le s _ bit qpi m hb h2 hm).qpi_trans (ih _ _ _ h)
      · exact ih _ _ _ h

theorem get_bits1_le (gb : GetBitContext) : (get_bits1 gb).1 ≤ 1 := by
  unfold get_bits1
  simp only
  split_ifs <;> omega

theorem xor_one_le (bit : Nat) (hb : bit ≤ 1) : bit ^^^ 1 ≤ 1 := by
  interval_cases bit <;> decide

theorem qpi_runs_le (table : VLC) (n num_blocks : Int) (qpi m : Nat) (hm : qpi + 1 ≤ m)
    (k : Nat) (s : Vp3DecodeContext) (gb : GetBitContext) (i : Nat) (bd nb : Int) (bit : Nat)
    (hb : bit ≤ 1) (r : Vp3DecodeContext × GetBitContext × Int)
    (h : qpi_runs table n num_blocks qpi k s gb i bd nb bit = Ret.done r) : QpiLe m s r.1 := by
  induction k generalizing s gb i bd nb bit with
  | zero => simp [qpi_runs] at h
  | succ k ih =>
    rw [qpi_runs] at h
    simp only at h
    split at h
    · exact absurd h (by simp)
    · rename_i s1 i1 hrun
      have h1 : QpiLe m s s1 := qpi_run_le n qpi bit m hb hm _ s i _ (s1, i1) hrun
      have hb1 : (if (get_long_run gb table).1 = 4129 then get_bits1 (get_long_run gb table).2
          else (bit ^^^ 1, (get_long_run gb table).2)).1 ≤ 1 := by
        split_ifs
        · exact get_bits1_le _
        · exact xor_one_le bit hb
      generalize (if (get_long_run gb table).1 = 4129 then get_bits1 (get_long_run gb table).2
          else (bit ^^^ 1, (get_long_run gb table).2)) = b at h hb1
      generalize (if bit = 0 then nb + ((get_long_run gb table).1 : Int) else nb) = aq at h
      split_ifs at h with hlt
      · exact h1.qpi_trans (ih _ _ _ _ _ _ hb1 h)
      · simp only [Ret.done.injEq] at h
        subst h
        exact h1

theorem qpi_levels_le (table : VLC) (n : Int) (m : Nat)
    (k : Nat) (s : Vp3DecodeContext) (gb : GetBitContext) (qpi : Nat) (num_blocks : Int)
    (hm : qpi + k ≤ m) (r : Vp3DecodeContext × GetBitContext)
    (h : qpi_levels table n k s gb qpi num_blocks = Ret.done r) : QpiLe m s r.1 := by
  induction k generalizing s gb qpi num_blocks with
  | zero =>
    simp only [qpi_levels, Ret.done.injEq] at h
    subst h
    exact QpiLe.qpi_refl m s
  | succ k ih =>
    rw [qpi_levels] at h
    split_ifs at h with hpos
    · split at h
      · rename_i s1 gb1 nb hruns
        have h1 : QpiLe m s s1 :=
          qpi_runs_le table n num_blocks qpi m (by omega) _ s _ 0 0 0 _ (get_bits1_le gb) _ hruns
        exact h1.qpi_trans (ih s1 gb1 (qpi + 1) _ (by omega) h)
      · exact absurd h (by simp)
      · exact absurd h (by simp)
    · simp only [Ret.done.injEq] at h
      subst h
      exact QpiLe.qpi_refl m s

theorem get_long_run_pos (gb : GetBitContext) (table : VLC) : 1 ≤ (get_long_run gb table).1 := by
  unfold get_long_run
  simp only
  split_ifs <;> simp only <;> omega

/-- The iteration bound of the run loop is never used up: `num_blocks -
blocks_decoded` iterations are enough, since every run has length at least 1. -/
theorem qpi_runs_terminates (table : VLC) (n num_blocks : Int) (qpi : Nat)
    (k : Nat) (s : Vp3DecodeContext) (gb : GetBitContext) (i : Nat) (bd nb : Int) (bit : Nat)
    (hk1 : 1 ≤ k) (hk : num_blocks - bd ≤ k) :
    qpi_runs table n num_blocks qpi k s gb i bd nb bit ≠ Ret.diverge := by
  induction k generalizing s gb i bd nb bit with
  | zero => omega
  | succ k ih =>
    rw [qpi_runs]
    simp only
    have hpos := get_long_run_pos gb table
    split
    · simp
    · by_cases hlt : bd + ((get_long_run gb table).1 : Int) < num_blocks
      · rw [if_pos hlt]
        exact ih _ _ _ _ _ _ (by omega) (by omega)
      · rw [if_neg hlt]
        simp

theorem qpi_levels_terminates (table : VLC) (n : Int)
    (k : Nat) (s : Vp3DecodeContext) (gb : GetBitContext) (qpi : Nat) (num_blocks : Int) :
    qpi_levels table n k s gb qpi num_blocks ≠ Ret.diverge := by
  induction k generalizing s gb qpi num_blocks with
  | zero => simp [qpi_levels]
  | succ k ih =>
    rw [qpi_levels]
    split_ifs with hpos
    · have ht := qpi_runs_terminates table n num_blocks qpi num_blocks.toNat s (get_bits1 gb).2 0 0 0
        (get_bits1 gb).1 (by omega) (by omega)
      split
      · exact ih _ _ _ _
      · simp
      · rename_i hd
        exact absurd hd ht
    · simp

/-- `unpack_block_qpis` always returns: 0 or -1. -/
theorem unpack_block_qpis_terminates (s : Vp3DecodeContext) (gb : GetBitContext) (table : VLC) :
    unpack_block_qpis s gb table ≠ Ret.diverge :=
  qpi_levels_terminates table _ _ s gb 0 _

/-- C2: when `unpack_block_qpis` returns 0 and every coded block had `qpi = 0`
on entry, every coded block's `qpi` is below `nqps` (for `nqps >= 1`), and so
is that of any other block whose `qpi` was 0; with `nqps = 1` the function
returns 0 at once, changing no block and reading no bit. -/
theorem unpack_block_qpis_range (s : Vp3DecodeContext) (gb : GetBitContext) (table : VLC)
    (hn : 1 ≤ s.nqps)
    (h0 : ∀ i : Nat, (i : Int) < num_coded s 0 0 + num_coded s 1 0 + num_coded s 2 0 →
      (s.blocks (coded_block s i)).qpi = 0) :
    (∀ r, unpack_block_qpis s gb table = Ret.done r →
      (∀ i : Nat, (i : Int) < num_coded s 0 0 + num_coded s 1 0 + num_coded s 2 0 →
        (r.1.blocks (coded_block r.1 i)).qpi < s.nqps) ∧
      (∀ b, (s.blocks b).qpi = 0 → (r.1.blocks b).qpi < s.nqps)) ∧
    (s.nqps = 1 → unpack_block_qpis s gb table = Ret.done (s, gb)) := by
  constructor
  · intro r h
    obtain ⟨a1, a2, a3, a4⟩ := qpi_levels_le table _ (s.nqps - 1) (s.nqps - 1) s gb 0 _ (by omega) r h
    have hall : ∀ b, (s.blocks b).qpi = 0 → (r.1.blocks b).qpi < s.nqps := by
      intro b hb
      have := a4 b
      rw [hb] at this
      omega
    refine ⟨fun i hi => ?_, hall⟩
    have e : coded_block r.1 i = coded_block s i := by
      unfold coded_block
      rw [a1, a2]
    rw [e]
    exact hall _ (h0 i hi)
  · intro h1
    unfold unpack_block_qpis
    simp only [h1]
    rfl

/-- Witness for C2: two quality indices, three coded blocks. -/
theorem unpack_block_qpis_range_witness :
    1 ≤ example_inter_context.nqps ∧
    ∃ r, unpack_block_qpis example_inter_context example_qpi_bits example_vlc = Ret.done r ∧
      (r.1.blocks (coded_block r.1 1)).qpi < example_inter_context.nqps :=
  ⟨by decide, _, rfl,
   ((unpack_block_qpis_range example_inter_context example_qpi_bits example_vlc (by decide)
      (fun i _ => by
        show (example_inter_context.blocks (coded_block example_inter_context i)).qpi = 0
        simp only [example_inter_context]
        split_ifs <;> rfl)).1 _ rfl).1 1 (by decide)⟩

/-! ## Superblock passes: what they leave behind -/

theorem SbFrame.sb_refl (s : Vp3DecodeContext) : SbFrame s s := rfl

theorem SbFrame.sb_trans {s t u : Vp3DecodeContext} (h1 : SbFrame s t) (h2 : SbFrame t u) :
    SbFrame s u := by
  unfold SbFrame at *
  rw [h2, h1]

theorem SbFrame.sb_set (s : Vp3DecodeContext) (c : Nat → Nat) :
    SbFrame s { s with superblock_coding := c } := rfl

theorem SbFrame.num_superblocks {s t : Vp3DecodeContext} (h : SbFrame s t) :
    t.num_superblocks = s.num_superblocks := by
  rw [h]

theorem SbFrame.superblock_coding_off {s t : Vp3DecodeContext} (h : SbFrame s t) :
    t.superblock_coding_off = s.superblock_coding_off := by
  rw [h]

theorem sb_partial_runs_spec (table : VLC) (k : Nat) (s : Vp3DecodeContext) (gb : GetBitContext)
    (decoded npc bit : Nat) (hb : bit ≤ 1)
    (hpre : ∀ i, i < decoded → s.superblock_coding (s.superblock_coding_off 0 + i) ≤ 1)
    (r : SbCoding × Nat)
    (h : sb_partial_runs table k s gb decoded npc bit = Ret.done r) :
    SbFrame s r.1.s ∧ r.1.bit ≤ 1 ∧
    ∀ i, i < s.num_superblocks → r.1.s.superblock_coding (s.superblock_coding_off 0 + i) ≤ 1 := by
  induction k generalizing s gb decoded npc bit with
  | zero => simp [sb_partial_runs] at h
  | succ k ih =>
    rw [sb_partial_runs] at h
    simp only at h
    by_cases hgt : decoded + (get_long_run gb table).1 > s.num_superblocks
    · rw [if_pos hgt] at h
      exact absurd h (by simp)
    rw [if_neg hgt] at h
    have hb1 : (if (get_long_run gb table).1 = 4129 then get_bits1 (get_long_run gb table).2
        else (bit ^^^ 1, (get_long_run gb table).2)).1 ≤ 1 := by
      split_ifs
      · exact get_bits1_le _
      · exact xor_one_le bit hb
    generalize (if (get_long_run gb table).1 = 4129 then get_bits1 (get_long_run gb table).2
        else (bit ^^^ 1, (get_long_run gb table).2)) = b at h hb1
    generalize (if bit ≠ 0 then npc + (get_long_run gb table).1 else npc) = npc1 at h
    have hset : ∀ i, i < decoded + (get_long_run gb table).1 →
        memset s.superblock_coding (s.superblock_coding_off 0 + decoded) (1 * bit)
          (get_long_run gb table).1 (s.superblock_coding_off 0 + i) ≤ 1 := by
      intro i hi
      unfold memset
      split_ifs with hc
      · omega
      · exact hpre i (by omega)
    by_cases hlt : decoded + (get_long_run gb table).1 < s.num_superblocks
    · rw [if_pos hlt] at h
      obtain ⟨a1, a2, a3⟩ := ih _ _ _ _ _ hb1 hset h
      exact ⟨(SbFrame.sb_set s _).sb_trans a1, a2, a3⟩
    · rw [if_neg hlt] at h
      simp only [Ret.done.injEq] at h
      subst h
      refine ⟨SbFrame.sb_set s _, hb1, ?_⟩
      intro i hi
      exact hset i (by omega)

theorem sb_full_run_spec (bit : Nat) (hb : bit ≤ 1) (d : Nat) (s : Vp3DecodeContext) (i rem : Nat)
    (r : Vp3DecodeContext × Nat) (h : sb_full_run bit d s i rem = some r) :
    SbFrame s r.1 ∧ ∀ j, s.superblock_coding j ≤ 2 → r.1.superblock_coding j ≤ 2 := by
  induction d generalizing s i rem with
  | zero =>
    cases rem with
    | zero =>
      simp only [sb_full_run, Option.some.injEq] at h
      subst h
      exact ⟨SbFrame.sb_refl s, fun _ hj => hj⟩
    | succ rem => simp [sb_full_run] at h
  | succ d ih =>
    cases rem with
    | zero =>
      simp only [sb_full_run, Option.some.injEq] at h
      subst h
      exact ⟨SbFrame.sb_refl s, fun _ hj => hj⟩
    | succ rem =>
      rw [sb_full_run] at h
      split_ifs at h with h1 h2
      · obtain ⟨a1, a2⟩ := ih _ _ _ h
        refine ⟨(SbFrame.sb_set s _).sb_trans a1, fun j hj => a2 j ?_⟩
        simp only
        by_cases e : j = s.superblock_coding_off 0 + i
        · subst e
          rw [Function.update_same]
          omega
        · rw [Function.update_noteq e]
          exact hj
      · exact ih _ _ _ h

theorem sb_full_runs_spec (table : VLC) (npc : Nat) (k : Nat) (s : Vp3DecodeContext)
    (gb : GetBitContext) (i decoded bit : Nat) (hb : bit ≤ 1) (r : SbCoding)
    (h : sb_full_runs table npc k s gb i decoded bit = Ret.done r) :
    SbFrame s r.s ∧ r.bit ≤ 1 ∧ ∀ j, s.superblock_coding j ≤ 2 → r.s.superblock_coding j ≤ 2 := by
  induction k generalizing s gb i decoded bit with
  | zero => simp [sb_full_runs] at h
  | succ k ih =>
    rw [sb_full_runs] at h
    simp only at h
    split at h
    · exact absurd h (by simp)
    · rename_i s1 i1 hrun
      obtain ⟨f1, f2⟩ := sb_full_run_spec bit hb _ s i _ (s1, i1) hrun
      have hb1 : (if (get_long_run gb table).1 = 4129 then get_bits1 (get_long_run gb table).2
          else (bit ^^^ 1, (get_long_run gb table).2)).1 ≤ 1 := by
        split_ifs
        · exact get_bits1_le _
        · exact xor_one_le bit hb
      generalize (if (get_long_run gb table).1 = 4129 then get_bits1 (get_long_run gb table).2
          else (bit ^^^ 1, (get_long_run gb table).2)) = b at h hb1
      split_ifs at h with hlt
      · obtain ⟨a1, a2, a3⟩ := ih _ _ _ _ _ hb1 h
        exact ⟨f1.sb_trans a1, a2, fun j hj => a3 j (f2 j hj)⟩
      · simp only [Ret.done.injEq] at h
        subst h
        exact ⟨f1, hb1, f2⟩

/-- After the superblock passes every flag of `superblock_coding[0 ..
num_superblocks)` is NOT_CODED, PARTIALLY_CODED or FULLY_CODED, and `bit` is
0 or 1. -/
theorem unpack_superblock_coding_spec (s : Vp3DecodeContext) (gb : GetBitContext) (table : VLC)
    (c : SbCoding) (h : unpack_superblock_coding s gb table = Ret.done c) :
    SbFrame s c.s ∧ c.bit ≤ 1 ∧
    ∀ i, i < s.num_superblocks → c.s.superblock_coding (s.superblock_coding_off 0 + i) ≤ 2 := by
  unfold unpack_superblock_coding at h
  split at h
  · exact absurd h (by simp)
  · exact absurd h (by simp)
  · rename_i p npc hp
    obtain ⟨a1, a2, a3⟩ := sb_partial_runs_spec table _ s _ 0 0 _ (get_bits1_le gb)
      (fun i hi => absurd hi (Nat.not_lt_zero i)) (p, npc) hp
    simp only at a1 a2 a3 h
    have key : ∀ q : SbCoding,
        (if p.s.num_superblocks > npc then
          sb_full_runs table npc (p.s.num_superblocks + 1) p.s (get_bits1 p.gb).2 0 0 (get_bits1 p.gb).1
        else Ret.done p) = Ret.done q →
        SbFrame s q.s ∧ q.bit ≤ 1 ∧
        ∀ i, i < s.num_superblocks → q.s.superblock_coding (s.superblock_coding_off 0 + i) ≤ 2 := by
      intro q hq
      split_ifs at hq with hc
      · obtain ⟨b1, b2, b3⟩ := sb_full_runs_spec table npc _ p.s _ 0 0 _ (get_bits1_le _) q hq
        exact ⟨a1.sb_trans b1, b2, fun i hi => b3 _ (le_trans (a3 i hi) (by omega))⟩
      · simp only [Ret.done.injEq] at hq
        subst hq
        exact ⟨a1, a2, fun i hi => le_trans (a3 i hi) (by omega)⟩
    split at h
    · exact absurd h (by simp)
    · exact absurd h (by simp)
    · rename_i q hq
      obtain ⟨b1, b2, b3⟩ := key q hq
      split_ifs at h with hn
      · simp only [Ret.done.injEq] at h
        subst h
        refine ⟨b1, ?_, b3⟩
        exact xor_one_le _ (get_bits1_le _)
      · simp only [Ret.done.injEq] at h
        subst h
        exact ⟨b1, b2, b3⟩

/-! ## Block pass: the coded list mirrors the coded flags -/

theorem block_of_coded_coded (c : Nat) (h : c ≤ 2) : (block_of_coded c).coded = c := by
  unfold block_of_coded
  simp only
  omega

theorem code_block_step (frag : VLC) (p sbc base : Nat) (pre : List Int) (s0 : Vp3DecodeContext)
    (st : BlockCoding) (k : Nat) (hsbc : sbc ≤ 2) (hbase : s0.coded_blocks_off p = base)
    (h : PlaneInv base pre s0 st)
    (hnew : 0 ≤ s0.all_blocks (s0.all_blocks_off p + k) →
      s0.all_blocks (s0.all_blocks_off p + k) ∉ pre) :
    PlaneInv base (pre ++ [s0.all_blocks (s0.all_blocks_off p + k)].filter (fun b => decide (0 ≤ b)))
      s0 (code_block frag p sbc st k) := by
  obtain ⟨h1, h2, h3, h4, h5⟩ := h
  have eall : st.s.all_blocks = s0.all_blocks := by rw [h1]
  have eoff : st.s.all_blocks_off = s0.all_blocks_off := by rw [h1]
  have ecb : st.s.coded_blocks_off = s0.coded_blocks_off := by rw [h1]
  unfold code_block
  simp only [eall, eoff, ecb, hbase]
  generalize hb : s0.all_blocks (s0.all_blocks_off p + k) = b at hnew ⊢
  by_cases hneg : b < 0
  · rw [if_pos hneg]
    have : ([b].filter (fun b => decide (0 ≤ b))) = [] := by
      simp [List.filter, not_le.mpr hneg]
    rw [this, List.append_nil]
    exact ⟨h1, h2, h3, h4, h5⟩
  rw [if_neg hneg]
  have hb0 : 0 ≤ b := not_lt.mp hneg
  have hnotin : b ∉ pre := hnew hb0
  have : ([b].filter (fun b => decide (0 ≤ b))) = [b] := by
    simp [List.filter, hb0]
  rw [this]
  -- the state after the run-length step
  have hst1 : ∃ st1 : BlockCoding, (if sbc = 1 then
        if st.run_length = 0 then
          { st with run_length := (get_vlc2 st.gb frag).1, gb := (get_vlc2 st.gb frag).2,
                    bit := st.bit ^^^ 1 }
        else { st with run_length := st.run_length - 1 }
      else st) = st1 ∧ st1.s = st.s ∧ st1.num_coded_blocks = st.num_coded_blocks ∧ st1.bit ≤ 1 := by
    refine ⟨_, rfl, ?_, ?_, ?_⟩
    · split_ifs <;> rfl
    · split_ifs <;> rfl
    · split_ifs
      · exact xor_one_le _ h2
      · exact h2
      · exact h2
  obtain ⟨st1, e1, e2, e3, e4⟩ := hst1
  rw [e1]
  have hc : (if sbc = 1 then st1.bit else sbc) ≤ 2 := by
    split_ifs <;> omega
  generalize (if sbc = 1 then st1.bit else sbc) = coded at hc ⊢
  have hfilter : ∀ (blocks' : Int → vp3_block), (∀ b', b' ≠ b → blocks' b' = st.s.blocks b') →
      pre.filter (fun x => decide ((blocks' x).coded ≠ 0)) =
      pre.filter (fun x => decide ((st.s.blocks x).coded ≠ 0)) := by
    intro blocks' hbl
    apply List.filter_congr
    intro x hx
    rw [hbl x (fun e => hnotin (e ▸ hx))]
  by_cases hz : coded ≠ 0
  · rw [if_pos hz]
    simp only [e2, e3]
    refine ⟨?_, e4, ?_, ?_, ?_⟩
    · dsimp only
      rw [h1]
    · intro b' hb'
      dsimp only
      rw [List.mem_append, not_or] at hb'
      rw [Function.update_noteq (fun e => hb'.2 (by simp [e]))]
      exact h3 b' hb'.1
    · intro j hj
      dsimp only
      rw [ecb, hbase, Function.update_noteq (by omega)]
      exact h4 j hj
    · dsimp only
      rw [ecb, hbase, List.range_succ, List.map_append, List.filter_append]
      congr 1
      · rw [hfilter _ (fun b' hb' => Function.update_noteq hb' _ _), ← h5]
        apply List.map_congr_left
        intro x hx
        rw [List.mem_range] at hx
        rw [Function.update_noteq (by omega)]
      · simp only [List.map_cons, List.map_nil, Function.update_same, List.filter]
        rw [block_of_coded_coded coded hc]
        simp [hz]
  · rw [if_neg hz]
    simp only [e2, e3]
    refine ⟨?_, e4, ?_, ?_, ?_⟩
    · dsimp only
      rw [h1]
    · intro b' hb'
      dsimp only
      rw [List.mem_append, not_or] at hb'
      rw [Function.update_noteq (fun e => hb'.2 (by simp [e]))]
      exact h3 b' hb'.1
    · exact h4
    · dsimp only
      rw [List.filter_append, hfilter _ (fun b' hb' => Function.update_noteq hb' _ _), ← h5]
      simp only [List.filter, Function.update_same]
      rw [block_of_coded_coded coded hc]
      simp [not_not.mp hz]

theorem sb_slots_range (n : Nat) : (List.range n).flatMap sb_slots = List.range (16 * n) := by
  induction n with
  | zero => rfl
  | succ n ih =>
    rw [List.range_succ, List.flatMap_append, ih]
    have : 16 * (n + 1) = 16 * n + 16 := by ring
    rw [this, List.range_add]
    simp [sb_slots, List.flatMap]

theorem code_blocks_fold (frag : VLC) (p sbc base : Nat) (s0 : Vp3DecodeContext)
    (hsbc : sbc ≤ 2) (hbase : s0.coded_blocks_off p = base) (ks : List Nat) (pre : List Int)
    (st : BlockCoding) (h : PlaneInv base pre s0 st)
    (hnd : (pre ++ (ks.map (fun k => s0.all_blocks (s0.all_blocks_off p + k))).filter
      (fun b => decide (0 ≤ b))).Nodup) :
    PlaneInv base (pre ++ (ks.map (fun k => s0.all_blocks (s0.all_blocks_off p + k))).filter
      (fun b => decide (0 ≤ b))) s0 (ks.foldl (code_block frag p sbc) st) := by
  induction ks generalizing pre st with
  | nil => simpa using h
  | cons k ks ih =>
    rw [List.foldl_cons]
    have hsplit : pre ++ ((k :: ks).map (fun k => s0.all_blocks (s0.all_blocks_off p + k))).filter
          (fun b => decide (0 ≤ b)) =
        (pre ++ [s0.all_blocks (s0.all_blocks_off p + k)].filter (fun b => decide (0 ≤ b))) ++
          (ks.map (fun k => s0.all_blocks (s0.all_blocks_off p + k))).filter
            (fun b => decide (0 ≤ b)) := by
      rw [List.map_cons, List.append_assoc, ← List.filter_append]
      rfl
    rw [hsplit] at hnd ⊢
    apply ih
    · apply code_block_step frag p sbc base pre s0 st k hsbc hbase h
      intro h0 hmem
      have hnd2 := (List.nodup_append.mp hnd).1
      rw [List.nodup_append] at hnd2
      refine hnd2.2.2 hmem ?_
      simp [List.filter, h0]
    · exact hnd

theorem code_superblock_eq (frag : VLC) (p : Nat) (st : BlockCoding) (i : Nat) :
    code_superblock frag p st i =
      (sb_slots i).foldl
        (code_block frag p (st.s.superblock_coding (st.s.superblock_coding_off p + i))) st := by
  unfold code_superblock sb_slots
  rw [List.foldl_map]

theorem code_superblocks_fold (frag : VLC) (p base : Nat) (s0 : Vp3DecodeContext)
    (hbase : s0.coded_blocks_off p = base) (is : List Nat)
    (hsc : ∀ i ∈ is, s0.superblock_coding (s0.superblock_coding_off p + i) ≤ 2)
    (pre : List Int) (st : BlockCoding) (h : PlaneInv base pre s0 st)
    (hnd : (pre ++ ((is.flatMap sb_slots).map (fun k => s0.all_blocks (s0.all_blocks_off p + k))).filter
      (fun b => decide (0 ≤ b))).Nodup) :
    PlaneInv base (pre ++ ((is.flatMap sb_slots).map
      (fun k => s0.all_blocks (s0.all_blocks_off p + k))).filter (fun b => decide (0 ≤ b))) s0
      (is.foldl (code_superblock frag p) st) := by
  induction is generalizing pre st with
  | nil => simpa using h
  | cons i is ih =>
    rw [List.foldl_cons]
    have hsplit : pre ++ (((i :: is).flatMap sb_slots).map
          (fun k => s0.all_blocks (s0.all_blocks_off p + k))).filter (fun b => decide (0 ≤ b)) =
        (pre ++ ((sb_slots i).map (fun k => s0.all_blocks (s0.all_blocks_off p + k))).filter
          (fun b => decide (0 ≤ b))) ++
          ((is.flatMap sb_slots).map (fun k => s0.all_blocks (s0.all_blocks_off p + k))).filter
            (fun b => decide (0 ≤ b)) := by
      rw [List.flatMap_cons, List.map_append, List.filter_append, List.append_assoc]
    rw [hsplit] at hnd ⊢
    apply ih (fun j hj => hsc j (List.mem_cons_of_mem _ hj))
    · rw [code_superblock_eq]
      have e1 : st.s.superblock_coding = s0.superblock_coding := by rw [h.1]
      have e2 : st.s.superblock_coding_off = s0.superblock_coding_off := by rw [h.1]
      rw [e1, e2]
      exact code_blocks_fold frag p _ base s0 (hsc i (List.mem_cons_self _ _)) hbase _ pre st h
        (List.nodup_append.mp hnd).1
    · exact hnd

theorem plane_blocks_congr (s t : Vp3DecodeContext) (h : BlockFrame s t) (p : Nat) :
    plane_blocks t p = plane_blocks s p := by
  unfold plane_blocks plane_entries
  rw [h]

theorem code_plane_step (frag : VLC) (s : Vp3DecodeContext) (n : Nat) (st : BlockCoding)
    (hn : n < 3) (h : PlanesInv s n st)
    (hsc : ∀ i, i < s.superblock_count n →
      s.superblock_coding (s.superblock_coding_off n + i) ≤ 2)
    (hnd : (plane_blocks s n).Nodup)
    (hdisj : ∀ q, q < n → ∀ b ∈ plane_blocks s q, b ∉ plane_blocks s n) :
    PlanesInv s (n + 1) (code_plane frag st n) := by
  obtain ⟨g1, g2, g4, g5⟩ := h
  have esc : st.s.superblock_coding = s.superblock_coding := by rw [g1]
  have esco : st.s.superblock_coding_off = s.superblock_coding_off := by rw [g1]
  have ecnt : st.s.superblock_count = s.superblock_count := by rw [g1]
  have epb : ∀ q, plane_blocks st.s q = plane_blocks s q := plane_blocks_congr s st.s g1
  -- the blocks of the plane
  have hinv0 : PlaneInv (st.s.coded_blocks_off n) [] st.s { st with num_coded_blocks := 0 } :=
    ⟨rfl, g2, fun _ _ => rfl, fun _ _ => rfl, rfl⟩
  have hfold := code_superblocks_fold frag n (st.s.coded_blocks_off n) st.s rfl
    (List.range (st.s.superblock_count n))
    (fun i hi => by rw [esc, esco]; exact hsc i (by rw [← ecnt]; exact List.mem_range.mp hi))
    [] { st with num_coded_blocks := 0 } hinv0
    (by
      rw [List.nil_append, sb_slots_range]
      have := epb n
      unfold plane_blocks plane_entries at this
      rw [this]
      exact hnd)
  rw [List.nil_append, sb_slots_range] at hfold
  have hpb : ((List.range (16 * st.s.superblock_count n)).map
      (fun k => st.s.all_blocks (st.s.all_blocks_off n + k))).filter (fun b => decide (0 ≤ b)) =
      plane_blocks s n := epb n
  rw [hpb] at hfold
  unfold code_plane
  simp only
  generalize (List.range (st.s.superblock_count n)).foldl (code_superblock frag n)
    { st with num_coded_blocks := 0 } = t at hfold
  obtain ⟨f1, f2, f3, f4, f5⟩ := hfold
  have flen : (plane_coded s t.s n).length = t.num_coded_blocks := by
    unfold plane_coded
    rw [← f5, List.length_map, List.length_range]
  have ft_off : t.s.coded_blocks_off = st.s.coded_blocks_off := by rw [f1]
  have ft_ncb : t.s.num_coded_blocks = st.s.num_coded_blocks := by rw [f1]
  -- earlier planes keep their coded lists
  have hkeep : ∀ q, q < n → plane_coded s t.s q = plane_coded s st.s q := by
    intro q hq
    unfold plane_coded
    apply List.filter_congr
    intro b hb
    rw [f3 b (hdisj q hq b hb)]
  -- the context after the plane
  have hu : ∃ u : Vp3DecodeContext,
      (if n < 2 then
        { ({ t.s with num_coded_blocks := fun k =>
              if 64 * n ≤ k ∧ k < 64 * n + 64 then (t.num_coded_blocks : Int)
              else t.s.num_coded_blocks k } :
            Vp3DecodeContext) with
          coded_blocks_off := Function.update t.s.coded_blocks_off (n + 1)
            (t.s.coded_blocks_off n + t.num_coded_blocks) }
       else { t.s with num_coded_blocks := fun k =>
              if 64 * n ≤ k ∧ k < 64 * n + 64 then (t.num_coded_blocks : Int)
              else t.s.num_coded_blocks k }) = u ∧
      BlockFrame s u ∧ u.blocks = t.s.blocks ∧ u.coded_blocks = t.s.coded_blocks ∧
      (∀ k, u.num_coded_blocks k =
        if 64 * n ≤ k ∧ k < 64 * n + 64 then (t.num_coded_blocks : Int)
        else st.s.num_coded_blocks k) ∧
      (∀ j, j ≠ n + 1 → u.coded_blocks_off j = st.s.coded_blocks_off j) ∧
      (n < 2 → u.coded_blocks_off (n + 1) = st.s.coded_blocks_off n + t.num_coded_blocks) := by
    refine ⟨_, rfl, ?_⟩
    by_cases h2 : n < 2
    · rw [if_pos h2]
      refine ⟨?_, rfl, rfl, ?_, ?_, ?_⟩
      · unfold BlockFrame
        rw [f1, g1]
      · intro k
        simp only [ft_ncb]
      · intro j hj
        simp only
        rw [Function.update_noteq hj, ft_off]
      · intro _
        simp only
        rw [Function.update_same, ft_off]
    · rw [if_neg h2]
      refine ⟨?_, rfl, rfl, ?_, ?_, ?_⟩
      · unfold BlockFrame
        rw [f1, g1]
      · intro k
        simp only [ft_ncb]
      · intro j _
        simp only
        rw [ft_off]
      · intro h
        exact absurd h h2
  obtain ⟨u, eu, u1, u2, u3, u4, u5, u6⟩ := hu
  rw [eu]
  have hpc : ∀ q, plane_coded s u q = plane_coded s t.s q := by
    intro q
    unfold plane_coded
    rw [u2]
  refine ⟨u1, f2, ?_, ?_⟩
  · intro q hq
    rcases Nat.eq_or_lt_of_le (Nat.le_of_lt_succ hq) with e | l
    · subst e
      refine ⟨?_, ?_, ?_⟩
      · intro i hi
        show u.num_coded_blocks (64 * q + i) = _
        rw [u4, if_pos ⟨by omega, by omega⟩, hpc, flen]
      · show coded_list u q _ = plane_coded s u q
        rw [hpc, flen]
        unfold coded_list plane_coded
        rw [u3, u5 q (by omega), ← f5]
      · intro h2
        show u.coded_blocks_off (q + 1) = u.coded_blocks_off q + _
        rw [u6 h2, u5 q (by omega), hpc, flen]
    · obtain ⟨d1, d2, d3⟩ := g4 q l
      have hle := g5 q l hn
      refine ⟨?_, ?_, ?_⟩
      · intro i hi
        show u.num_coded_blocks (64 * q + i) = _
        rw [u4, if_neg (by omega), hpc, hkeep q l]
        exact d1 i hi
      · show coded_list u q _ = plane_coded s u q
        rw [hpc, hkeep q l, ← d2]
        unfold coded_list
        rw [List.length_map, List.length_range, u3, u5 q (by omega)]
        apply List.map_congr_left
        intro k hk
        rw [List.mem_range] at hk
        exact f4 _ (by omega)
      · intro h2
        show u.coded_blocks_off (q + 1) = u.coded_blocks_off q + _
        rw [u5 (q + 1) (by omega), u5 q (by omega), hpc, hkeep q l]
        exact d3 h2
  · intro q hq h3
    show u.coded_blocks_off q + _ ≤ u.coded_blocks_off (n + 1)
    rw [u6 (by omega), u5 q (by omega), hpc]
    rcases Nat.eq_or_lt_of_le (Nat.le_of_lt_succ hq) with e | l
    · subst e
      rw [flen]
    · rw [hkeep q l]
      have := g5 q l hn
      omega

theorem coded_list_add (t : Vp3DecodeContext) (p q a b : Nat)
    (h : t.coded_blocks_off q = t.coded_blocks_off p + a) :
    coded_list t p (a + b) = coded_list t p a ++ coded_list t q b := by
  unfold coded_list
  rw [List.range_add, List.map_append, List.map_map, h]
  congr 1
  apply List.map_congr_left
  intro k _
  simp only [Function.comp, Nat.add_assoc]

/-- C3: when `unpack_block_coding` returns 0 (on a context whose superblock
offsets are those of `vp3_decode_init` and whose `all_blocks` names every
existing block once), for each plane `num_coded_blocks[p][0]` is the number of
existing blocks of the plane with a non-zero `coded` field, `coded_blocks[p]`
lists exactly those blocks in `all_blocks` order, the next plane's list starts
right behind, and the first `T` entries of `coded_blocks[0]` are the three lists
one after the other, without repetition. -/
theorem unpack_block_coding_lists (s : Vp3DecodeContext) (gb : GetBitContext) (table frag : VLC)
    (hoff : ∀ p, p < 2 →
      s.superblock_coding_off (p + 1) = s.superblock_coding_off p + s.superblock_count p)
    (hnum : s.num_superblocks = s.superblock_count 0 + s.superblock_count 1 + s.superblock_count 2)
    (hnd : (plane_blocks s 0 ++ plane_blocks s 1 ++ plane_blocks s 2).Nodup)
    (r : Vp3DecodeContext × GetBitContext)
    (h : unpack_block_coding s gb table frag = Ret.done r) :
    (∀ p, p < 3 →
      num_coded r.1 p 0 = ((plane_coded s r.1 p).length : Int) ∧
      coded_list r.1 p (plane_coded s r.1 p).length = plane_coded s r.1 p ∧
      (p < 2 → r.1.coded_blocks_off (p + 1) =
        r.1.coded_blocks_off p + (plane_coded s r.1 p).length)) ∧
    coded_list r.1 0 ((plane_coded s r.1 0).length + (plane_coded s r.1 1).length +
        (plane_coded s r.1 2).length) =
      plane_coded s r.1 0 ++ plane_coded s r.1 1 ++ plane_coded s r.1 2 ∧
    (plane_coded s r.1 0 ++ plane_coded s r.1 1 ++ plane_coded s r.1 2).Nodup := by
  unfold unpack_block_coding at h
  split at h
  · exact absurd h (by simp)
  · exact absurd h (by simp)
  rename_i c hc
  simp only [Ret.done.injEq] at h
  subst h
  obtain ⟨a1, a2, a3⟩ := unpack_superblock_coding_spec s gb table c hc
  -- the context after the superblock passes
  have e_cnt : c.s.superblock_count = s.superblock_count := by rw [a1]
  have e_off : c.s.superblock_coding_off = s.superblock_coding_off := by rw [a1]
  have e_pb : ∀ p, plane_blocks c.s p = plane_blocks s p := by
    intro p
    unfold plane_blocks plane_entries
    rw [a1]
  have e_pc : ∀ t p, plane_coded c.s t p = plane_coded s t p := by
    intro t p
    unfold plane_coded
    rw [e_pb]
  have o1 := hoff 0 (by omega)
  have o2 := hoff 1 (by omega)
  have hsc : ∀ p, p < 3 → ∀ i, i < c.s.superblock_count p →
      c.s.superblock_coding (c.s.superblock_coding_off p + i) ≤ 2 := by
    intro p hp i hi
    rw [e_cnt] at hi
    rw [e_off]
    interval_cases p
    · exact a3 i (by omega)
    · rw [o1, Nat.add_assoc]
      exact a3 _ (by omega)
    · rw [o2, o1, Nat.add_assoc, Nat.add_assoc]
      exact a3 _ (by omega)
  rw [List.append_assoc] at hnd
  obtain ⟨n0, n12, d0⟩ := List.nodup_append.mp hnd
  obtain ⟨n1, n2, d1⟩ := List.nodup_append.mp n12
  have hdisj : ∀ q n, q < n → n < 3 → ∀ b ∈ plane_blocks c.s q, b ∉ plane_blocks c.s n := by
    intro q n hq hn b hb hb'
    rw [e_pb] at hb hb'
    interval_cases n <;> interval_cases q
    · exact d0 hb (List.mem_append_left _ hb')
    · exact d0 hb (List.mem_append_right _ hb')
    · exact d1 hb hb'
  have i0 : PlanesInv c.s 0 ⟨c.s, c.gb, c.bit, c.run_length, 0⟩ :=
    ⟨rfl, a2, fun q hq => absurd hq (Nat.not_lt_zero q), fun q hq => absurd hq (Nat.not_lt_zero q)⟩
  have i1 := code_plane_step frag c.s 0 _ (by omega) i0 (hsc 0 (by omega))
    (by rw [e_pb]; exact n0) (fun q hq => hdisj q 0 hq (by omega))
  have i2 := code_plane_step frag c.s 1 _ (by omega) i1 (hsc 1 (by omega))
    (by rw [e_pb]; exact n1) (fun q hq => hdisj q 1 hq (by omega))
  have i3 := code_plane_step frag c.s 2 _ (by omega) i2 (hsc 2 (by omega))
    (by rw [e_pb]; exact n2) (fun q hq => hdisj q 2 hq (by omega))
  have hr : (unpack_block_flags frag c).1 =
      (code_plane frag (code_plane frag (code_plane frag ⟨c.s, c.gb, c.bit, c.run_length, 0⟩ 0) 1) 2).s := by
    simp [unpack_block_flags, List.range_succ]
  rw [hr]
  generalize (code_plane frag (code_plane frag (code_plane frag ⟨c.s, c.gb, c.bit, c.run_length, 0⟩ 0) 1) 2)
    = fin at i3
  obtain ⟨-, -, g4, -⟩ := i3
  have hdone : ∀ p, p < 3 → PlaneDone s fin.s p := by
    intro p hp
    have := g4 p hp
    unfold PlaneDone at this ⊢
    simp only [e_pc] at this
    exact this
  refine ⟨fun p hp => ⟨(hdone p hp).1 0 (by omega), (hdone p hp).2.1, (hdone p hp).2.2⟩, ?_, ?_⟩
  · obtain ⟨-, l0, c0⟩ := hdone 0 (by omega)
    obtain ⟨-, l1, c1⟩ := hdone 1 (by omega)
    obtain ⟨-, l2, -⟩ := hdone 2 (by omega)
    have c02 : fin.s.coded_blocks_off 2 = fin.s.coded_blocks_off 0 +
        ((plane_coded s fin.s 0).length + (plane_coded s fin.s 1).length) := by
      rw [c1 (by omega), c0 (by omega), Nat.add_assoc]
    rw [coded_list_add fin.s 0 2 _ _ c02, coded_list_add fin.s 0 1 _ _ (c0 (by omega)), l0, l1, l2]
  · rw [List.append_assoc]
    refine List.Nodup.sublist ?_ hnd
    unfold plane_coded
    exact List.Sublist.append (List.filter_sublist _)
      (List.Sublist.append (List.filter_sublist _) (List.filter_sublist _))

/-- Witness for C3: the 32x32 frame with all superblocks partially coded. -/
theorem unpack_block_coding_lists_witness :
    (∀ p, p < 2 → example_inter_context.superblock_coding_off (p + 1) =
      example_inter_context.superblock_coding_off p + example_inter_context.superblock_count p) ∧
    (plane_blocks example_inter_context 0 ++ plane_blocks example_inter_context 1 ++
      plane_blocks example_inter_context 2).Nodup ∧
    ∃ r, unpack_block_coding example_inter_context example_coding_bits example_vlc example_vlc
        = Ret.done r ∧
      coded_list r.1 0 ((plane_coded example_inter_context r.1 0).length +
          (plane_coded example_inter_context r.1 1).length +
          (plane_coded example_inter_context r.1 2).length) =
        plane_coded example_inter_context r.1 0 ++ plane_coded example_inter_context r.1 1 ++
          plane_coded example_inter_context r.1 2 :=
  ⟨by decide, by decide, _, rfl,
   (unpack_block_coding_lists example_inter_context example_coding_bits example_vlc example_vlc
      (by decide) (by decide) (by decide) _ rfl).2.1⟩

/-! ## DC prediction is invertible -/

theorem foldl_flatMap_eq {α β σ : Type} (l : List α) (g : α → List β) (f : σ → β → σ) (init : σ) :
    (l.flatMap g).foldl f init = l.foldl (fun s a => (g a).foldl f s) init := by
  induction l generalizing init with
  | nil => rfl
  | cons a l ih => rw [List.flatMap_cons, List.foldl_append, List.foldl_cons, ih]

theorem raster_foldl {σ : Type} (width height : Nat) (f : Nat → Nat → σ → σ) (init : σ) :
    (List.range height).foldl (fun st y => (List.range width).foldl (fun t x => f x y t) st) init =
      (raster width height).foldl (fun st p => f p.1 p.2 st) init := by
  unfold raster
  rw [foldl_flatMap_eq]
  congr 1
  funext st y
  rw [List.foldl_map]

theorem raster_mem (width height : Nat) (p : Nat × Nat) (h : p ∈ raster width height) :
    p.1 < width ∧ p.2 < height := by
  unfold raster at h
  simp only [List.mem_flatMap, List.mem_map, List.mem_range] at h
  obtain ⟨y, hy, x, hx, rfl⟩ := h
  exact ⟨hx, hy⟩

theorem raster_pairwise (width height : Nat) :
    (raster width height).Pairwise (fun a b => a.2 * width + a.1 < b.2 * width + b.1) := by
  unfold raster
  rw [List.pairwise_flatMap]
  constructor
  · intro y _
    rw [List.pairwise_map]
    exact (List.pairwise_lt_range width).imp (fun h => by simpa using h)
  · refine (List.pairwise_lt_range height).imp ?_
    intro y1 y2 hlt a ha b hb
    simp only [List.mem_map, List.mem_range] at ha hb
    obtain ⟨x1, hx1, rfl⟩ := ha
    obtain ⟨x2, hx2, rfl⟩ := hb
    simp only
    have : (y1 + 1) * width ≤ y2 * width := Nat.mul_le_mul_right _ hlt
    rw [Nat.succ_mul] at this
    omega

theorem wrap16_roundtrip (dc p : Int) (h1 : -32768 ≤ dc) (h2 : dc < 32768) :
    wrap16 (wrap16 (dc - p) + p) = dc := by
  unfold wrap16
  omega

theorem dc_prediction_congr (keyframe : Bool) (width : Nat) (base : Int)
    (B O : Int → vp3_block) (x y : Nat) (v : DcVars)
    (hself : (B (BLOCK_I width base x y)).mb_mode = (O (BLOCK_I width base x y)).mb_mode)
    (hl : x ≠ 0 → B (BLOCK_I width base (x - 1) y) = O (BLOCK_I width base (x - 1) y))
    (hu : y ≠ 0 → B (BLOCK_I width base x (y - 1)) = O (BLOCK_I width base x (y - 1)))
    (hul : y ≠ 0 → x ≠ 0 →
      B (BLOCK_I width base (x - 1) (y - 1)) = O (BLOCK_I width base (x - 1) (y - 1)))
    (hur : y ≠ 0 → x + 1 < width →
      B (BLOCK_I width base (x + 1) (y - 1)) = O (BLOCK_I width base (x + 1) (y - 1))) :
    dc_prediction keyframe width base B x y v = dc_prediction keyframe width base O x y v := by
  unfold dc_prediction BLOCK_DC BLOCK_CODED BLOCK_MODE
  simp only [hself]
  by_cases hx : x ≠ 0 <;> by_cases hy : y ≠ 0 <;> by_cases hw : x + 1 < width <;>
    simp only [hx, hy, hw, not_false_eq_true, true_and, false_and, if_true, if_false,
      hl, hu, hul, hur, true_implies, ne_eq]

theorem BLOCK_I_ne (width : Nat) (base : Int) (x y x' y' : Nat)
    (h : y * width + x ≠ y' * width + x') :
    BLOCK_I width base x y ≠ BLOCK_I width base x' y' := by
  unfold BLOCK_I
  intro e
  apply h
  omega

theorem dc_residual_block_other (keyframe : Bool) (width : Nat) (base : Int)
    (O : Int → vp3_block) (x y : Nat) (st : (Int → vp3_block) × DcVars) (j : Int)
    (h : j ≠ BLOCK_I width base x y) :
    (dc_residual_block keyframe width base O x y st).1 j = st.1 j := by
  unfold dc_residual_block
  split_ifs with hc
  · simp only [set_dc]
    rw [Function.update_noteq h]
  · rfl

/-- The residual pass only writes blocks of the positions it visits. -/
theorem dc_residuals_frame (keyframe : Bool) (width : Nat) (base : Int) (O : Int → vp3_block)
    (ps : List (Nat × Nat)) (R : Int → vp3_block) (v : DcVars) (j : Int)
    (h : ∀ q ∈ ps, j ≠ BLOCK_I width base q.1 q.2) :
    (ps.foldl (fun st p => dc_residual_block keyframe width base O p.1 p.2 st) (R, v)).1 j = R j := by
  induction ps generalizing R v with
  | nil => rfl
  | cons p ps ih =>
    rw [List.foldl_cons]
    have hp := h p (List.mem_cons_self _ _)
    have hrest : ∀ q ∈ ps, j ≠ BLOCK_I width base q.1 q.2 :=
      fun q hq => h q (List.mem_cons_of_mem _ hq)
    have hstep := dc_residual_block_other keyframe width base O p.1 p.2 (R, v) j hp
    generalize dc_residual_block keyframe width base O p.1 p.2 (R, v) = st1 at hstep
    obtain ⟨R1, v1⟩ := st1
    rw [ih R1 v1 hrest]
    exact hstep

/-- Decoding the residuals of a list of positions visited in increasing raster
order restores the original blocks. -/
theorem reverse_residuals (keyframe : Bool) (width : Nat) (base : Int) (O : Int → vp3_block)
    (ps : List (Nat × Nat))
    (hsorted : ps.Pairwise (fun a b => a.2 * width + a.1 < b.2 * width + b.1))
    (hx : ∀ p ∈ ps, p.1 < width)
    (hrange : ∀ p ∈ ps, BLOCK_CODED keyframe width base O p.1 p.2 = true →
      -32768 ≤ BLOCK_DC width base O p.1 p.2 ∧ BLOCK_DC width base O p.1 p.2 < 32768)
    (R : Int → vp3_block) (v : DcVars) (B : Int → vp3_block)
    (hB1 : ∀ j, (∀ q ∈ ps, j ≠ BLOCK_I width base q.1 q.2) → B j = O j)
    (hB2 : ∀ q ∈ ps, B (BLOCK_I width base q.1 q.2) =
      { (O (BLOCK_I width base q.1 q.2)) with
        dc := ((ps.foldl (fun st p => dc_residual_block keyframe width base O p.1 p.2 st)
          (R, v)).1 (BLOCK_I width base q.1 q.2)).dc })
    (hR : ∀ q ∈ ps, BLOCK_CODED keyframe width base O q.1 q.2 = false →
      (R (BLOCK_I width base q.1 q.2)).dc = (O (BLOCK_I width base q.1 q.2)).dc) :
    (ps.foldl (fun st p => reverse_dc_block keyframe width base p.1 p.2 st) (B, v)).1 = O := by
  induction ps generalizing R v B with
  | nil =>
    funext j
    exact hB1 j (fun q hq => absurd hq (List.not_mem_nil q))
  | cons p ps ih =>
    obtain ⟨x, y⟩ := p
    rw [List.pairwise_cons] at hsorted
    obtain ⟨hlt, hsorted'⟩ := hsorted
    have hxw : x < width := hx (x, y) (List.mem_cons_self _ _)
    have hne : ∀ q ∈ ps, BLOCK_I width base q.1 q.2 ≠ BLOCK_I width base x y := by
      intro q hq
      apply BLOCK_I_ne
      have := hlt q hq
      simp only at this
      omega
    -- the block itself, as the decoder finds it
    have hBp := hB2 (x, y) (List.mem_cons_self _ _)
    rw [List.foldl_cons] at hBp
    simp only at hBp
    -- neighbours are already restored
    have hnb : ∀ x' y', y' * width + x' < y * width + x →
        B (BLOCK_I width base x' y') = O (BLOCK_I width base x' y') := by
      intro x' y' hlt'
      apply hB1
      intro q hq
      apply BLOCK_I_ne
      rcases List.mem_cons.mp hq with e | hq'
      · subst e
        simp only
        omega
      · have := hlt q hq'
        simp only at this
        omega
    have hmode : (B (BLOCK_I width base x y)).mb_mode = (O (BLOCK_I width base x y)).mb_mode := by
      rw [hBp]
    have hcoded : BLOCK_CODED keyframe width base B x y = BLOCK_CODED keyframe width base O x y := by
      unfold BLOCK_CODED
      rw [hBp]
    have hpred : dc_prediction keyframe width base B x y v =
        dc_prediction keyframe width base O x y v := by
      apply dc_prediction_congr _ _ _ _ _ _ _ _ hmode
      · intro h0
        apply hnb
        omega
      · intro h0
        apply hnb
        obtain ⟨y', rfl⟩ := Nat.exists_eq_succ_of_ne_zero h0
        rw [Nat.succ_mul]
        simp only [Nat.succ_sub_one]
        omega
      · intro h0 h1
        apply hnb
        obtain ⟨y', rfl⟩ := Nat.exists_eq_succ_of_ne_zero h0
        rw [Nat.succ_mul]
        simp only [Nat.succ_sub_one]
        omega
      · intro h0 h1
        apply hnb
        obtain ⟨y', rfl⟩ := Nat.exists_eq_succ_of_ne_zero h0
        rw [Nat.succ_mul]
        simp only [Nat.succ_sub_one]
        omega
    rw [List.foldl_cons]
    simp only
    by_cases hc : BLOCK_CODED keyframe width base O x y = true
    · -- a coded block: the residual is undone
      have hr := hrange (x, y) (List.mem_cons_self _ _) hc
      simp only at hr
      have hEstep : dc_residual_block keyframe width base O x y (R, v) =
          (set_dc R (BLOCK_I width base x y)
            (wrap16 (BLOCK_DC width base O x y - (dc_prediction keyframe width base O x y v).2)),
           { (dc_prediction keyframe width base O x y v).1 with
             last_dc := Function.update (dc_prediction keyframe width base O x y v).1.last_dc
               (BLOCK_MODE width base O x y) (BLOCK_DC width base O x y) }) := by
        unfold dc_residual_block
        rw [if_pos hc]
      rw [hEstep] at hBp
      rw [dc_residuals_frame _ _ _ _ _ _ _ _ (fun q hq => (hne q hq).symm)] at hBp
      simp only [set_dc, Function.update_same] at hBp
      have hBdc : BLOCK_DC width base B x y =
          wrap16 (BLOCK_DC width base O x y - (dc_prediction keyframe width base O x y v).2) := by
        unfold BLOCK_DC
        rw [hBp]
        rfl
      have hBmode : BLOCK_MODE width base B x y = BLOCK_MODE width base O x y := by
        unfold BLOCK_MODE
        rw [hmode]
      have hDstep : reverse_dc_block keyframe width base x y (B, v) =
          (Function.update B (BLOCK_I width base x y) (O (BLOCK_I width base x y)),
           { (dc_prediction keyframe width base O x y v).1 with
             last_dc := Function.update (dc_prediction keyframe width base O x y v).1.last_dc
               (BLOCK_MODE width base O x y) (BLOCK_DC width base O x y) }) := by
        unfold reverse_dc_block
        simp only
        rw [hcoded, if_pos hc, hpred, hBmode, hBdc, wrap16_roundtrip _ _ hr.1 hr.2]
        unfold set_dc
        congr 1
        rw [hBp]
        rfl
      rw [hDstep]
      apply ih hsorted' (fun q hq => hx q (List.mem_cons_of_mem _ hq))
        (fun q hq => hrange q (List.mem_cons_of_mem _ hq))
        (set_dc R (BLOCK_I width base x y)
          (wrap16 (BLOCK_DC width base O x y - (dc_prediction keyframe width base O x y v).2)))
      · intro j hj
        by_cases e : j = BLOCK_I width base x y
        · subst e
          rw [Function.update_same]
        · rw [Function.update_noteq e]
          apply hB1
          intro q hq
          rcases List.mem_cons.mp hq with e' | hq'
          · subst e'
            exact e
          · exact hj q hq'
      · intro q hq
        rw [Function.update_noteq (hne q hq)]
        have := hB2 q (List.mem_cons_of_mem _ hq)
        rw [List.foldl_cons] at this
        simp only at this
        rw [hEstep] at this
        exact this
      · intro q hq hqc
        simp only [set_dc]
        rw [Function.update_noteq (hne q hq)]
        exact hR q (List.mem_cons_of_mem _ hq) hqc
    · -- a block that is not coded is left alone on both sides
      have hc' : BLOCK_CODED keyframe width base O x y = false := by
        simpa using hc
      have hEstep : dc_residual_block keyframe width base O x y (R, v) = (R, v) := by
        unfold dc_residual_block
        rw [if_neg hc]
      have hDstep : reverse_dc_block keyframe width base x y (B, v) = (B, v) := by
        unfold reverse_dc_block
        simp only
        rw [hcoded, if_neg hc]
      rw [hEstep] at hBp
      rw [dc_residuals_frame _ _ _ _ _ _ _ _ (fun q hq => (hne q hq).symm)] at hBp
      rw [hR (x, y) (List.mem_cons_self _ _) hc'] at hBp
      rw [hDstep]
      apply ih hsorted' (fun q hq => hx q (List.mem_cons_of_mem _ hq))
        (fun q hq => hrange q (List.mem_cons_of_mem _ hq)) R
      · intro j hj
        by_cases e : j = BLOCK_I width base x y
        · subst e
          exact hBp
        · apply hB1
          intro q hq
          rcases List.mem_cons.mp hq with e' | hq'
          · subst e'
            exact e
          · exact hj q hq'
      · intro q hq
        have := hB2 q (List.mem_cons_of_mem _ hq)
        rw [List.foldl_cons] at this
        simp only at this
        rw [hEstep] at this
        exact this
      · intro q hq hqc
        exact hR q (List.mem_cons_of_mem _ hq) hqc

theorem BLOCK_I_injective (width : Nat) (base : Int) (x y x' y' : Nat) (hx : x < width)
    (hx' : x' < width) (h : BLOCK_I width base x y = BLOCK_I width base x' y') :
    x = x' ∧ y = y' := by
  unfold BLOCK_I at h
  have e : y * width + x = y' * width + x' := by omega
  have hy : y = y' := by
    rcases Nat.lt_trichotomy y y' with l | l | l
    · have := Nat.mul_le_mul_right width (Nat.succ_le_of_lt l)
      rw [Nat.succ_mul] at this
      omega
    · exact l
    · have := Nat.mul_le_mul_right width (Nat.succ_le_of_lt l)
      rw [Nat.succ_mul] at this
      omega
  subst hy
  exact ⟨by omega, rfl⟩

theorem dc_residual_block_skip (keyframe : Bool) (width : Nat) (base : Int)
    (O : Int → vp3_block) (x y : Nat) (st : (Int → vp3_block) × DcVars) (j : Int)
    (h : BLOCK_CODED keyframe width base O x y = true → j ≠ BLOCK_I width base x y) :
    (dc_residual_block keyframe width base O x y st).1 j = st.1 j := by
  unfold dc_residual_block
  split_ifs with hc
  · simp only [set_dc]
    rw [Function.update_noteq (h hc)]
  · rfl

/-- The residual pass leaves every block alone that is not a coded block of the
positions it visits. -/
theorem dc_residuals_skip (keyframe : Bool) (width : Nat) (base : Int) (O : Int → vp3_block)
    (ps : List (Nat × Nat)) (R : Int → vp3_block) (v : DcVars) (j : Int)
    (h : ∀ q ∈ ps, BLOCK_CODED keyframe width base O q.1 q.2 = true →
      j ≠ BLOCK_I width base q.1 q.2) :
    (ps.foldl (fun st p => dc_residual_block keyframe width base O p.1 p.2 st) (R, v)).1 j = R j := by
  induction ps generalizing R v with
  | nil => rfl
  | cons p ps ih =>
    rw [List.foldl_cons]
    have hstep := dc_residual_block_skip keyframe width base O p.1 p.2 (R, v) j
      (h p (List.mem_cons_self _ _))
    generalize dc_residual_block keyframe width base O p.1 p.2 (R, v) = st1 at hstep
    obtain ⟨R1, v1⟩ := st1
    rw [ih R1 v1 (fun q hq => h q (List.mem_cons_of_mem _ hq))]
    exact hstep

theorem dc_residual_block_fields (keyframe : Bool) (width : Nat) (base : Int)
    (O : Int → vp3_block) (x y : Nat) (st : (Int → vp3_block) × DcVars) (j : Int) :
    ((dc_residual_block keyframe width base O x y st).1 j).mb_mode = (st.1 j).mb_mode ∧
    ((dc_residual_block keyframe width base O x y st).1 j).qpi = (st.1 j).qpi ∧
    ((dc_residual_block keyframe width base O x y st).1 j).coded = (st.1 j).coded := by
  unfold dc_residual_block
  split_ifs with hc
  · simp only [set_dc]
    by_cases e : j = BLOCK_I width base x y
    · subst e
      rw [Function.update_same]
      exact ⟨rfl, rfl, rfl⟩
    · rw [Function.update_noteq e]
      exact ⟨rfl, rfl, rfl⟩
  · exact ⟨rfl, rfl, rfl⟩

/-- The residual pass changes nothing but `dc` members. -/
theorem dc_residuals_fields (keyframe : Bool) (width : Nat) (base : Int) (O : Int → vp3_block)
    (ps : List (Nat × Nat)) (R : Int → vp3_block) (v : DcVars) (j : Int) :
    (((ps.foldl (fun st p => dc_residual_block keyframe width base O p.1 p.2 st) (R, v)).1 j).mb_mode
      = (R j).mb_mode) ∧
    (((ps.foldl (fun st p => dc_residual_block keyframe width base O p.1 p.2 st) (R, v)).1 j).qpi
      = (R j).qpi) ∧
    (((ps.foldl (fun st p => dc_residual_block keyframe width base O p.1 p.2 st) (R, v)).1 j).coded
      = (R j).coded) := by
  induction ps generalizing R v with
  | nil => exact ⟨rfl, rfl, rfl⟩
  | cons p ps ih =>
    rw [List.foldl_cons]
    have hstep := dc_residual_block_fields keyframe width base O p.1 p.2 (R, v) j
    generalize dc_residual_block keyframe width base O p.1 p.2 (R, v) = st1 at hstep
    obtain ⟨R1, v1⟩ := st1
    obtain ⟨a1, a2, a3⟩ := ih R1 v1
    exact ⟨a1.trans hstep.1, a2.trans hstep.2.1, a3.trans hstep.2.2⟩

/-- The residual array of `dc_residuals`, as one pass over the raster order. -/
theorem dc_residuals_blocks (s : Vp3DecodeContext) (plane : Nat) :
    (dc_residuals s plane).blocks =
      ((raster (s.block_width plane) (s.block_height plane)).foldl
        (fun st p => dc_residual_block s.keyframe (s.block_width plane) (s.blocks_off plane)
          s.blocks p.1 p.2 st) (s.blocks, (⟨fun _ => 0, 0, 0, 0, 0⟩ : DcVars))).1 := by
  unfold dc_residuals
  simp only
  rw [raster_foldl (s.block_width plane) (s.block_height plane)
    (fun x y t => dc_residual_block s.keyframe (s.block_width plane) (s.blocks_off plane)
      s.blocks x y t)]

/-- C4: DC prediction is invertible. For any plane geometry, coded flags, modes
and DC values (coded blocks holding `int16_t` values), forming the residuals in
raster order and running `reverse_dc_prediction` on them gives back the
original context, so every coded block gets its original DC; and a block that
is not coded keeps the DC it had before `reverse_dc_prediction`. -/
theorem reverse_dc_prediction_inverts (s : Vp3DecodeContext) (plane : Nat)
    (hrange : ∀ x, x < s.block_width plane → ∀ y, y < s.block_height plane →
      BLOCK_CODED s.keyframe (s.block_width plane) (s.blocks_off plane) s.blocks x y = true →
      -32768 ≤ BLOCK_DC (s.block_width plane) (s.blocks_off plane) s.blocks x y ∧
      BLOCK_DC (s.block_width plane) (s.blocks_off plane) s.blocks x y < 32768) :
    reverse_dc_prediction (dc_residuals s plane) plane = s ∧
    ∀ x, x < s.block_width plane → ∀ y, y < s.block_height plane →
      BLOCK_CODED s.keyframe (s.block_width plane) (s.blocks_off plane) s.blocks x y = false →
      (reverse_dc_prediction (dc_residuals s plane) plane).blocks
          (BLOCK_I (s.block_width plane) (s.blocks_off plane) x y) =
        (dc_residuals s plane).blocks (BLOCK_I (s.block_width plane) (s.blocks_off plane) x y) := by
  have hres : ∀ j, (∀ q ∈ raster (s.block_width plane) (s.block_height plane),
      BLOCK_CODED s.keyframe (s.block_width plane) (s.blocks_off plane) s.blocks q.1 q.2 = true →
        j ≠ BLOCK_I (s.block_width plane) (s.blocks_off plane) q.1 q.2) →
      (dc_residuals s plane).blocks j = s.blocks j := by
    intro j hj
    rw [dc_residuals_blocks]
    exact dc_residuals_skip _ _ _ _ _ _ _ j hj
  have hmain : reverse_dc_prediction (dc_residuals s plane) plane = s := by
    have key := reverse_residuals s.keyframe (s.block_width plane) (s.blocks_off plane) s.blocks
      (raster (s.block_width plane) (s.block_height plane))
      (raster_pairwise _ _) (fun p hp => (raster_mem _ _ p hp).1)
      (fun p hp hc => hrange p.1 (raster_mem _ _ p hp).1 p.2 (raster_mem _ _ p hp).2 hc)
      s.blocks ⟨fun _ => 0, 0, 0, 0, 0⟩ (dc_residuals s plane).blocks
      (fun j hj => hres j (fun q hq _ => hj q hq))
      (fun q hq => by
        rw [← dc_residuals_blocks]
        obtain ⟨f1, f2, f3⟩ := dc_residuals_fields s.keyframe (s.block_width plane)
          (s.blocks_off plane) s.blocks (raster (s.block_width plane) (s.block_height plane))
          s.blocks ⟨fun _ => 0, 0, 0, 0, 0⟩
          (BLOCK_I (s.block_width plane) (s.blocks_off plane) q.1 q.2)
        rw [← dc_residuals_blocks] at f1 f2 f3
        generalize (dc_residuals s plane).blocks
          (BLOCK_I (s.block_width plane) (s.blocks_off plane) q.1 q.2) = b at f1 f2 f3
        obtain ⟨d, m, qp, c⟩ := b
        simp only at f1 f2 f3
        subst f1 f2 f3
        rfl)
      (fun _ _ _ => rfl)
    unfold reverse_dc_prediction
    simp only
    rw [raster_foldl ((dc_residuals s plane).block_width plane)
      ((dc_residuals s plane).block_height plane)
      (fun x y t => reverse_dc_block (dc_residuals s plane).keyframe
        ((dc_residuals s plane).block_width plane) ((dc_residuals s plane).blocks_off plane) x y t)]
    have e : ((raster ((dc_residuals s plane).block_width plane)
        ((dc_residuals s plane).block_height plane)).foldl
        (fun st p => reverse_dc_block (dc_residuals s plane).keyframe
          ((dc_residuals s plane).block_width plane) ((dc_residuals s plane).blocks_off plane)
          p.1 p.2 st)
        ((dc_residuals s plane).blocks, (⟨fun _ => 0, 0, 0, 0, 0⟩ : DcVars))).1 = s.blocks := key
    rw [e]
    rfl
  refine ⟨hmain, ?_⟩
  intro x hx y hy hc
  rw [hmain]
  refine (hres _ ?_).symm
  intro q hq hqc e
  obtain ⟨e1, e2⟩ := BLOCK_I_injective _ _ _ _ _ _ hx (raster_mem _ _ q hq).1 e
  rw [← e1, ← e2, hc] at hqc
  exact absurd hqc (by simp)

set_option maxRecDepth 100000 in
/-- Witness for C4: the first chroma plane, with DC values at both ends of the
16-bit range. -/
theorem reverse_dc_prediction_inverts_witness :
    (∀ x, x < example_dc_context.block_width 1 → ∀ y, y < example_dc_context.block_height 1 →
      BLOCK_CODED example_dc_context.keyframe (example_dc_context.block_width 1)
        (example_dc_context.blocks_off 1) example_dc_context.blocks x y = true →
      -32768 ≤ BLOCK_DC (example_dc_context.block_width 1) (example_dc_context.blocks_off 1)
        example_dc_context.blocks x y ∧
      BLOCK_DC (example_dc_context.block_width 1) (example_dc_context.blocks_off 1)
        example_dc_context.blocks x y < 32768) ∧
    reverse_dc_prediction (dc_residuals example_dc_context 1) 1 = example_dc_context :=
  ⟨by decide, (reverse_dc_prediction_inverts example_dc_context 1 (by decide)).1⟩

/-! ## Loop filter: each vertical edge once -/

theorem read_bits_lt (buffer : Nat → Bool) (n i acc : Nat) :
    read_bits buffer n i acc < (acc + 1) * 2 ^ n := by
  induction n generalizing i acc with
  | zero => simp [read_bits]
  | succ n ih =>
    rw [read_bits]
    have := ih (i + 1) (2 * acc + (if buffer i then 1 else 0))
    have e : (2 * acc + (if buffer i then 1 else 0) + 1) * 2 ^ n ≤ (acc + 1) * 2 ^ (n + 1) := by
      rw [pow_succ]
      have : 2 * acc + (if buffer i then 1 else 0) + 1 ≤ (acc + 1) * 2 := by
        split_ifs <;> omega
      calc (2 * acc + (if buffer i then 1 else 0) + 1) * 2 ^ n
          ≤ ((acc + 1) * 2) * 2 ^ n := Nat.mul_le_mul_right _ this
        _ = (acc + 1) * (2 ^ n * 2) := by ring
    omega

theorem get_bits_lt (gb : GetBitContext) (n : Nat) : (get_bits gb n).1 < 2 ^ n := by
  have := read_bits_lt gb.buffer n gb.index 0
  simpa [get_bits] using this

theorem blocks_accounted_nil : blocks_accounted [] = 0 := rfl

theorem blocks_accounted_append (l : List Int) (t : Int) :
    blocks_accounted (l ++ [t]) = blocks_accounted l + token_blocks t := by
  unfold blocks_accounted token_blocks
  rw [List.filter_append, List.filter_append, List.map_append, List.sum_append, List.length_append]
  by_cases h : t % 4 = 0
  · simp [List.filter, h]
    ring
  · simp [List.filter, h]
    ring

theorem token_blocks_eob (run : Int) (h0 : 0 ≤ run) (h1 : run < 8192) :
    token_blocks (wrap16 (run * 4)) = run := by
  unfold token_blocks wrap16
  have e : (run * 4 + 32768) % 65536 - 32768 = run * 4 := by omega
  rw [e]
  rw [if_pos (by omega)]
  omega

theorem token_blocks_other (v : Int) (h : v % 4 ≠ 0) : token_blocks (wrap16 v) = 1 := by
  unfold token_blocks wrap16
  rw [if_neg (by omega)]

theorem tokens_written_put (st : VlcState) (off : Nat) (v : Int) :
    tokens_written (put_token st off v) off = tokens_written st off ++ [wrap16 v] := by
  unfold tokens_written put_token
  simp only
  rw [List.range_succ, List.map_append]
  congr 1
  · apply List.map_congr_left
    intro k hk
    rw [List.mem_range] at hk
    rw [Function.update_noteq (by omega)]
  · simp

theorem tokens_written_skip (st : VlcState) (off zzi plane : Nat) (z : Int) :
    tokens_written (skip_zero_run st zzi plane z) off = tokens_written st off := rfl

theorem get_eob_run_nonneg (tt : TokenTables) (gb : GetBitContext) (token : Nat) :
    0 ≤ (get_eob_run tt gb token).1 := by
  unfold get_eob_run
  split_ifs <;> simp only <;> omega

theorem get_eob_run_fits (tt : TokenTables) (gb : GetBitContext) (token : Nat)
    (hfit : EobRunsFit tt) : (get_eob_run tt gb token).1 < 8192 := by
  unfold get_eob_run
  split_ifs with hb
  · have := hfit token _ (get_bits_lt gb (tt.eob_run_get_bits token))
    simp only
    omega
  · have := hfit token 0 (Nat.pos_of_ne_zero (by positivity))
    simp only
    omega

/-- One iteration of the token loop, with the bound on the decoded run when the
tables fit the run field. -/
theorem vlc_token_step (tt : TokenTables) (table : VLC) (zzi plane : Nat) (num_coeffs : Int)
    (off : Nat) (st : VlcState) :
    VlcStep num_coeffs off st (vlc_token tt table zzi plane num_coeffs off st) ∧
    (EobRunsFit tt → ∀ L, (vlc_token tt table zzi plane num_coeffs off st).eob_runs =
      st.eob_runs ++ [L] → L < 8192) := by
  unfold vlc_token
  simp only
  by_cases h0 : token_to_type (get_vlc2 st.gb table).1 = 0
  · rw [if_pos h0]
    have hnn := get_eob_run_nonneg tt (get_vlc2 st.gb table).2 (get_vlc2 st.gb table).1
    by_cases hgt : (get_eob_run tt (get_vlc2 st.gb table).2 (get_vlc2 st.gb table).1).1 >
        num_coeffs - st.coeff_i
    · rw [if_pos hgt]
      refine ⟨Or.inl ⟨_, hnn, rfl, hgt, tokens_written_put _ off _, rfl, rfl, rfl⟩, ?_⟩
      intro hfit L hL
      have e := List.append_cancel_left hL
      simp only [List.cons.injEq, and_true] at e
      rw [← e]
      exact get_eob_run_fits tt _ _ hfit
    · rw [if_neg hgt]
      refine ⟨Or.inr (Or.inl ⟨_, hnn, rfl, not_lt.mp hgt, tokens_written_put _ off _, rfl, rfl,
        rfl⟩), ?_⟩
      intro hfit L hL
      have e := List.append_cancel_left hL
      simp only [List.cons.injEq, and_true] at e
      rw [← e]
      exact get_eob_run_fits tt _ _ hfit
  · rw [if_neg h0]
    have hlen : ∀ (l : List Int) (L : Int), l ≠ l ++ [L] := by
      intro l L h
      have := congrArg List.length h
      simp at this
    by_cases h1 : token_to_type (get_vlc2 st.gb table).1 = 1
    · rw [if_pos h1]
      refine ⟨Or.inr (Or.inr ⟨_, ?_, rfl, tokens_written_put _ off _, rfl, rfl, rfl⟩), ?_⟩
      · omega
      · intro _ L hL
        exact absurd hL (hlen _ L)
    · rw [if_neg h1]
      by_cases h2 : token_to_type (get_vlc2 st.gb table).1 = 2
      · rw [if_pos h2]
        refine ⟨Or.inr (Or.inr ⟨_, ?_, rfl, tokens_written_put _ off _, rfl, rfl, rfl⟩), ?_⟩
        · omega
        · intro _ L hL
          exact absurd hL (hlen _ L)
      · rw [if_neg h2]
        refine ⟨Or.inr (Or.inr ⟨_, ?_, rfl, tokens_written_put _ off _, rfl, rfl, rfl⟩), ?_⟩
        · omega
        · intro _ L hL
          exact absurd hL (hlen _ L)

theorem vlc_start_inv (s : Vp3DecodeContext) (gb : GetBitContext) (num_coeffs : Int) (off : Nat)
    (eob_run : Int) (hn : 0 ≤ num_coeffs) (h0 : 0 ≤ eob_run) (h1 : eob_run < 8192) :
    VlcInv num_coeffs off (vlc_start s gb num_coeffs off eob_run) := by
  unfold vlc_start
  simp only
  by_cases hz : (if eob_run > num_coeffs then num_coeffs else eob_run) ≠ 0
  · rw [if_pos hz]
    refine ⟨?_, ?_, ?_, ?_, ?_, ?_⟩
    · rw [tokens_written_put]
      have e : tokens_written (⟨s, gb, 0, if eob_run > num_coeffs then num_coeffs else eob_run,
          if eob_run > num_coeffs then num_coeffs else eob_run,
          if eob_run > num_coeffs then eob_run - num_coeffs else 0, []⟩ : VlcState) off = [] := rfl
      rw [e, blocks_accounted_append, blocks_accounted_nil, token_blocks_eob]
      · simp only [put_token]
        ring
      · split_ifs <;> omega
      · split_ifs <;> omega
    all_goals simp only [put_token]
    · split_ifs <;> omega
    · split_ifs <;> omega
    · intro h
      split_ifs at h ⊢ <;> omega
    · split_ifs <;> omega
    · split_ifs <;> omega
  · rw [if_neg hz]
    refine ⟨?_, ?_, ?_, ?_, ?_, ?_⟩
    · show blocks_accounted [] = _
      rw [blocks_accounted_nil]
      simp only
      split_ifs at hz ⊢ <;> omega
    all_goals simp only
    · split_ifs <;> omega
    · split_ifs <;> omega
    · intro h
      split_ifs at h ⊢ <;> omega
    · split_ifs <;> omega
    · split_ifs <;> omega

theorem vlc_token_inv (tt : TokenTables) (table : VLC) (zzi plane : Nat) (num_coeffs : Int)
    (off : Nat) (st : VlcState) (hfit : EobRunsFit tt) (h : VlcInv num_coeffs off st)
    (hlt : st.coeff_i < num_coeffs) :
    VlcInv num_coeffs off (vlc_token tt table zzi plane num_coeffs off st) := by
  obtain ⟨a1, a2, a3, a4, a5, a6⟩ := h
  obtain ⟨hstep, hbound⟩ := vlc_token_step tt table zzi plane num_coeffs off st
  generalize vlc_token tt table zzi plane num_coeffs off st = st' at hstep hbound
  rcases hstep with ⟨L, l0, l1, l2, l3, l4, l5, l6⟩ | ⟨L, l0, l1, l2, l3, l4, l5, l6⟩ |
    ⟨v, v0, v1, v3, v4, v5, v6⟩
  · have hL := hbound hfit L l1
    refine ⟨?_, ?_, ?_, ?_, ?_, ?_⟩
    · rw [l3, blocks_accounted_append, a1, token_blocks_eob _ (by omega) (by omega), l6]
      ring
    all_goals omega
  · have hL := hbound hfit L l1
    refine ⟨?_, ?_, ?_, ?_, ?_, ?_⟩
    · rw [l3, blocks_accounted_append, a1, token_blocks_eob _ l0 hL, l6]
    all_goals omega
  · have e0 := a4 hlt
    refine ⟨?_, ?_, ?_, ?_, ?_, ?_⟩
    · rw [v3, blocks_accounted_append, a1, token_blocks_other v v0, v6]
    all_goals omega

theorem vlc_loop_inv (tt : TokenTables) (table : VLC) (zzi plane : Nat) (num_coeffs : Int)
    (off : Nat) (hfit : EobRunsFit tt) (fuel : Nat) (st st' : VlcState)
    (h : VlcInv num_coeffs off st)
    (hr : vlc_loop tt table zzi plane num_coeffs off fuel st = some st') :
    VlcInv num_coeffs off st' ∧ st'.coeff_i = num_coeffs := by
  induction fuel generalizing st with
  | zero =>
    rw [vlc_loop] at hr
    split_ifs at hr with hlt
    simp only [Option.some.injEq] at hr
    subst hr
    exact ⟨h, by have := h.2.2.1; omega⟩
  | succ k ih =>
    rw [vlc_loop] at hr
    split_ifs at hr with hlt
    · exact ih _ (vlc_token_inv tt table zzi plane num_coeffs off st hfit h hlt) hr
    · simp only [Option.some.injEq] at hr
      subst hr
      exact ⟨h, by have := h.2.2.1; omega⟩

/-- C6: for every call of `unpack_vlcs` that returns, with
`n = num_coded_blocks[plane][zzi] >= 0` on entry (the incoming residual being a
run length that fits the 14-bit run field, like every run the tables decode),
the EOB run lengths packed into the type-0 tokens the call has written plus the
number of its other tokens is `n`; the residual it returns fits the run field
again. -/
theorem unpack_vlcs_accounts (tt : TokenTables) (table : VLC) (fuel : Nat)
    (s : Vp3DecodeContext) (gb : GetBitContext) (zzi plane : Nat) (eob_run : Int)
    (r : VlcState) (hfit : EobRunsFit tt) (hn : 0 ≤ num_coded s plane zzi)
    (h0 : 0 ≤ eob_run) (h1 : eob_run < 8192)
    (h : unpack_vlcs tt table fuel s gb zzi plane eob_run = some r) :
    blocks_accounted (tokens_written r (s.dct_tokens plane zzi)) = num_coded s plane zzi ∧
    0 ≤ r.eob_run ∧ r.eob_run < 8192 := by
  unfold unpack_vlcs at h
  simp only [Option.map_eq_some'] at h
  obtain ⟨st, hst, rfl⟩ := h
  obtain ⟨⟨a1, -, -, -, a5, a6⟩, e⟩ :=
    vlc_loop_inv tt table zzi plane _ _ hfit fuel _ st (vlc_start_inv s gb _ _ eob_run hn h0 h1) hst
  refine ⟨?_, a5, a6⟩
  rw [← e, ← a1]
  rfl

/-! ## EOB runs across plane and level boundaries -/

theorem vlc_start_thread (s : Vp3DecodeContext) (gb : GetBitContext) (num_coeffs : Int)
    (off : Nat) (eob_run : Int) :
    ThreadInv num_coeffs eob_run (vlc_start s gb num_coeffs off eob_run) := by
  unfold vlc_start
  simp only
  split_ifs with h1 h2 h3
  all_goals
    refine ⟨fun hc => ?_, ?_⟩
    all_goals simp only [put_token, List.sum_nil] at *
    all_goals omega

theorem vlc_token_thread (tt : TokenTables) (table : VLC) (zzi plane : Nat)
    (num_coeffs incoming : Int) (off : Nat) (st : VlcState)
    (h : ThreadInv num_coeffs incoming st) (hlt : st.coeff_i < num_coeffs) :
    ThreadInv num_coeffs incoming (vlc_token tt table zzi plane num_coeffs off st) := by
  obtain ⟨a1, a2⟩ := h
  have e0 := a1 hlt
  obtain ⟨hstep, -⟩ := vlc_token_step tt table zzi plane num_coeffs off st
  generalize vlc_token tt table zzi plane num_coeffs off st = st' at hstep
  rcases hstep with ⟨L, l0, l1, l2, l3, l4, l5, l6⟩ | ⟨L, l0, l1, l2, l3, l4, l5, l6⟩ |
    ⟨v, v0, v1, v3, v4, v5, v6⟩
  · refine ⟨fun hc => ?_, ?_⟩
    · omega
    · rw [l1, List.sum_append, List.sum_singleton]
      omega
  · refine ⟨fun _ => l5, ?_⟩
    rw [l1, List.sum_append, List.sum_singleton]
    omega
  · refine ⟨fun _ => by omega, ?_⟩
    rw [v1]
    omega

theorem vlc_loop_thread (tt : TokenTables) (table : VLC) (zzi plane : Nat)
    (num_coeffs incoming : Int) (off : Nat) (fuel : Nat) (st st' : VlcState)
    (h : ThreadInv num_coeffs incoming st)
    (hr : vlc_loop tt table zzi plane num_coeffs off fuel st = some st') :
    ThreadInv num_coeffs incoming st' := by
  induction fuel generalizing st with
  | zero =>
    rw [vlc_loop] at hr
    split_ifs at hr with hlt
    simp only [Option.some.injEq] at hr
    subst hr
    exact h
  | succ k ih =>
    rw [vlc_loop] at hr
    split_ifs at hr with hlt
    · exact ih _ (vlc_token_thread tt table zzi plane num_coeffs incoming off st h hlt) hr
    · simp only [Option.some.injEq] at hr
      subst hr
      exact h

/-- The token loop only appends to the token stream. -/
theorem vlc_loop_written (tt : TokenTables) (table : VLC) (zzi plane : Nat) (num_coeffs : Int)
    (off : Nat) (fuel : Nat) (st st' : VlcState)
    (hr : vlc_loop tt table zzi plane num_coeffs off fuel st = some st') :
    ∃ l, tokens_written st' off = tokens_written st off ++ l := by
  induction fuel generalizing st with
  | zero =>
    rw [vlc_loop] at hr
    split_ifs at hr with hlt
    simp only [Option.some.injEq] at hr
    subst hr
    exact ⟨[], (List.append_nil _).symm⟩
  | succ k ih =>
    rw [vlc_loop] at hr
    split_ifs at hr with hlt
    · obtain ⟨l, hl⟩ := ih _ hr
      obtain ⟨hstep, -⟩ := vlc_token_step tt table zzi plane num_coeffs off st
      generalize vlc_token tt table zzi plane num_coeffs off st = st1 at hstep hl
      rcases hstep with ⟨L, -, -, -, l3, -⟩ | ⟨L, -, -, -, l3, -⟩ | ⟨v, -, -, v3, -⟩
      · exact ⟨_ :: l, by rw [hl, l3, List.append_assoc]; rfl⟩
      · exact ⟨_ :: l, by rw [hl, l3, List.append_assoc]; rfl⟩
      · exact ⟨_ :: l, by rw [hl, v3, List.append_assoc]; rfl⟩
    · simp only [Option.some.injEq] at hr
      subst hr
      exact ⟨[], (List.append_nil _).symm⟩

/-- The token loop does nothing once the level is full. -/
theorem vlc_loop_full (tt : TokenTables) (table : VLC) (zzi plane : Nat) (num_coeffs : Int)
    (off : Nat) (fuel : Nat) (st : VlcState) (h : ¬ st.coeff_i < num_coeffs) :
    vlc_loop tt table zzi plane num_coeffs off fuel st = some st := by
  cases fuel with
  | zero => rw [vlc_loop, if_neg h]
  | succ k => rw [vlc_loop, if_neg h]

theorem tokens_written_finish (st : VlcState) (zzi plane off : Nat) :
    tokens_written (vlc_finish st zzi plane off) off = tokens_written st off := rfl

/-- C7 (amended): EOB runs thread across plane and level boundaries without
loss. (1) An EOB token whose run `L` exceeds the `k` blocks left is recorded
with run `k`, ends the loop, and the call returns `L - k`. (2) A call entered
with residual `r >= 1` and `n >= 1` coded blocks has the synthetic token
`min(r, n) << 2` as its first token; with `n = 0` coded blocks it writes no
token at all. (3) If `r >= n` the call reads nothing from the bitstream and
returns `r - n`. (4) In every call that returns, the blocks ended plus the
returned residual are the incoming residual plus the decoded EOB run lengths. -/
theorem eob_run_threading (tt : TokenTables) (table : VLC) (s : Vp3DecodeContext)
    (gb : GetBitContext) (zzi plane : Nat) (eob_run : Int) :
    (∀ fuel st, st.coeff_i < num_coded s plane zzi →
      token_to_type (get_vlc2 st.gb table).1 = 0 →
      (get_eob_run tt (get_vlc2 st.gb table).2 (get_vlc2 st.gb table).1).1 >
        num_coded s plane zzi - st.coeff_i →
      ∃ st', vlc_loop tt table zzi plane (num_coded s plane zzi) (s.dct_tokens plane zzi)
          (fuel + 1) st = some st' ∧
        tokens_written st' (s.dct_tokens plane zzi) =
          tokens_written st (s.dct_tokens plane zzi) ++
            [wrap16 ((num_coded s plane zzi - st.coeff_i) * 4)] ∧
        (vlc_finish st' zzi plane (s.dct_tokens plane zzi)).eob_run =
          (get_eob_run tt (get_vlc2 st.gb table).2 (get_vlc2 st.gb table).1).1 -
            (num_coded s plane zzi - st.coeff_i)) ∧
    (1 ≤ eob_run → 1 ≤ num_coded s plane zzi → ∀ fuel r,
      unpack_vlcs tt table fuel s gb zzi plane eob_run = some r →
      (tokens_written r (s.dct_tokens plane zzi)).head? =
        some (wrap16 (min eob_run (num_coded s plane zzi) * 4))) ∧
    (0 ≤ eob_run → num_coded s plane zzi = 0 → ∀ fuel,
      ∃ r, unpack_vlcs tt table fuel s gb zzi plane eob_run = some r ∧
        tokens_written r (s.dct_tokens plane zzi) = []) ∧
    (num_coded s plane zzi ≤ eob_run → ∀ fuel,
      ∃ r, unpack_vlcs tt table fuel s gb zzi plane eob_run = some r ∧ r.gb = gb ∧
        r.eob_run = eob_run - num_coded s plane zzi) ∧
    (∀ fuel r, unpack_vlcs tt table fuel s gb zzi plane eob_run = some r →
      r.blocks_ended + r.eob_run = eob_run + r.eob_runs.sum) := by
  refine ⟨?_, ?_, ?_, ?_, ?_⟩
  · intro fuel st hlt h0 hgt
    refine ⟨vlc_token tt table zzi plane (num_coded s plane zzi) (s.dct_tokens plane zzi) st,
      ?_, ?_, ?_⟩
    · rw [vlc_loop, if_pos hlt]
      apply vlc_loop_full
      unfold vlc_token
      simp only
      rw [if_pos h0, if_pos hgt]
      simp only [put_token]
      omega
    · unfold vlc_token
      simp only
      rw [if_pos h0, if_pos hgt]
      exact tokens_written_put _ _ _
    · unfold vlc_token
      simp only
      rw [if_pos h0, if_pos hgt]
      rfl
  · intro hr hn fuel r h
    unfold unpack_vlcs at h
    simp only [Option.map_eq_some'] at h
    obtain ⟨st, hst, rfl⟩ := h
    obtain ⟨l, hl⟩ := vlc_loop_written tt table zzi plane _ _ fuel _ st hst
    rw [tokens_written_finish, hl]
    unfold vlc_start
    simp only
    have hne : (if eob_run > num_coded s plane zzi then num_coded s plane zzi else eob_run) ≠ 0 := by
      split_ifs <;> omega
    rw [if_pos hne, tokens_written_put]
    have hmin : min eob_run (num_coded s plane zzi) =
        (if eob_run > num_coded s plane zzi then num_coded s plane zzi else eob_run) := by
      split_ifs with hc
      · exact min_eq_right (le_of_lt hc)
      · exact min_eq_left (not_lt.mp hc)
    rw [hmin]
    rfl
  · intro hr hn fuel
    refine ⟨vlc_finish (vlc_start s gb (num_coded s plane zzi) (s.dct_tokens plane zzi) eob_run)
      zzi plane (s.dct_tokens plane zzi), ?_, ?_⟩
    · unfold unpack_vlcs
      simp only
      rw [vlc_loop_full]
      · rfl
      · unfold vlc_start
        simp only
        split_ifs <;> simp only [put_token] <;> omega
    · rw [tokens_written_finish]
      unfold vlc_start
      simp only
      have hz : ¬ (if eob_run > num_coded s plane zzi then num_coded s plane zzi else eob_run) ≠ 0 := by
        split_ifs <;> omega
      rw [if_neg hz]
      rfl
  · intro hge fuel
    refine ⟨vlc_finish (vlc_start s gb (num_coded s plane zzi) (s.dct_tokens plane zzi) eob_run)
      zzi plane (s.dct_tokens plane zzi), ?_, ?_, ?_⟩
    · unfold unpack_vlcs
      simp only
      rw [vlc_loop_full]
      · rfl
      · unfold vlc_start
        simp only
        split_ifs <;> simp only [put_token] <;> omega
    · unfold vlc_finish vlc_start
      simp only
      split_ifs <;> rfl
    · unfold vlc_finish vlc_start
      simp only
      split_ifs <;> simp only [put_token] <;> omega
  · intro fuel r h
    unfold unpack_vlcs at h
    simp only [Option.map_eq_some'] at h
    obtain ⟨st, hst, rfl⟩ := h
    exact (vlc_loop_thread tt table zzi plane _ eob_run _ fuel _ st
      (vlc_start_thread s gb _ _ eob_run) hst).2

/-- The example token tables decode EOB runs below 8192. -/
theorem example_tables_fit : EobRunsFit example_token_tables := by
  intro token v hv
  simp only [example_token_tables] at hv ⊢
  split_ifs at hv ⊢ with h1 h2 h3 h4 h5 h6
  all_goals first
    | omega
    | (have h : token = 3 ∨ token = 4 ∨ token = 5 := by omega
       rcases h with h | h | h <;> subst h <;> norm_num at hv ⊢ <;> omega)

set_option maxRecDepth 100000 in
/-- Witness for C6: level 0 of plane 0 of the example stream. -/
theorem unpack_vlcs_accounts_witness :
    0 ≤ num_coded example_inter_context 0 0 ∧
    ∃ r, unpack_vlcs example_token_tables example_token_vlc 4 example_inter_context
        example_token_bits 0 0 0 = some r ∧
      blocks_accounted (tokens_written r (example_inter_context.dct_tokens 0 0)) =
        num_coded example_inter_context 0 0 :=
  ⟨by decide, _, rfl,
   (unpack_vlcs_accounts example_token_tables example_token_vlc 4 example_inter_context
      example_token_bits 0 0 0 _ example_tables_fit (by decide) (by decide) (by decide) rfl).1⟩

set_option maxRecDepth 100000 in
/-- Witness for C7: a pending run of 5 entering level 1 of plane 0. -/
theorem eob_run_threading_witness :
    (1 : Int) ≤ 5 ∧ 1 ≤ num_coded example_inter_context 0 1 ∧
    ∃ r, unpack_vlcs example_token_tables example_token_vlc 0 example_inter_context
        example_token_bits 1 0 5 = some r ∧
      (tokens_written r (example_inter_context.dct_tokens 0 1)).head? =
        some (wrap16 (min 5 (num_coded example_inter_context 0 1) * 4)) :=
  ⟨by decide, by decide, _, rfl,
   (eob_run_threading example_token_tables example_token_vlc example_inter_context
      example_token_bits 1 0 5).2.1 (by decide) (by decide) 0 _ rfl⟩

set_option maxRecDepth 100000 in
/-- Counterexample for C7 as stated: a pending run of 3 entering a level with no
coded block left writes no token at all. -/
theorem eob_synthetic_token_counterexample :
    ∃ r, unpack_vlcs example_token_tables example_token_vlc 0 example_inter_context
        example_token_bits 1 2 3 = some r ∧
      num_coded example_inter_context 2 1 = 0 ∧
      tokens_written r (example_inter_context.dct_tokens 2 1) = [] ∧
      (tokens_written r (example_inter_context.dct_tokens 2 1)).head? ≠
        some (wrap16 (min 3 (num_coded example_inter_context 2 1) * 4)) ∧
      r.gb.index = 0 ∧ r.eob_run = 3 :=
  ⟨_, rfl, by decide, by decide, by decide, by decide, by decide⟩

/-! ## The block mapping: every block of the frame once -/

theorem Filled.nothing (st : BlockMapping) (g : Nat → Int) : Filled st st 0 g := by
  refine ⟨rfl, rfl, rfl, fun idx => ?_⟩
  rw [if_neg (by omega)]

theorem Filled.congr {st t : BlockMapping} {len : Nat} {g g2 : Nat → Int}
    (h : Filled st t len g) (hg : ∀ r, r < len → g r = g2 r) : Filled st t len g2 := by
  obtain ⟨h1, h2, h3, h4⟩ := h
  refine ⟨h1, h2, h3, fun idx => ?_⟩
  rw [h4 idx]
  split_ifs with hc
  · exact hg _ (by omega)
  · rfl

theorem Filled.geometry {st t : BlockMapping} {len : Nat} {g : Nat → Int}
    (h : Filled st t len g) :
    t.s.all_blocks_off = st.s.all_blocks_off ∧ t.s.block_width = st.s.block_width ∧
      t.s.block_height = st.s.block_height ∧ t.s.superblock_width = st.s.superblock_width ∧
      t.s.superblock_height = st.s.superblock_height := by
  obtain ⟨h1, _, _, _⟩ := h
  rw [h1]
  exact ⟨rfl, rfl, rfl, rfl, rfl⟩

theorem Filled.append {a b c : BlockMapping} {l1 l2 : Nat} {g1 g2 : Nat → Int}
    (h1 : Filled a b l1 g1) (h2 : Filled b c l2 g2) :
    Filled a c (l1 + l2) (fun r => if r < l1 then g1 r else g2 (r - l1)) := by
  have hgeo := h1.geometry.1
  obtain ⟨a1, a2, a3, a4⟩ := h1
  obtain ⟨b1, b2, b3, b4⟩ := h2
  refine ⟨?_, by omega, by rw [b3, a3], fun idx => ?_⟩
  · rw [b1, a1]
  · rw [b4 idx, hgeo, a2]
    by_cases hc : a.s.all_blocks_off 0 + (a.j + l1) ≤ idx ∧
        idx < a.s.all_blocks_off 0 + (a.j + l1) + l2
    · rw [if_pos hc, if_pos (by omega)]
      dsimp only
      rw [if_neg (by omega)]
      congr 1
      omega
    · rw [if_neg hc, a4 idx]
      by_cases hd : a.s.all_blocks_off 0 + a.j ≤ idx ∧ idx < a.s.all_blocks_off 0 + a.j + l1
      · rw [if_pos hd, if_pos (by omega)]
        dsimp only
        rw [if_pos (by omega)]
      · rw [if_neg hd, if_neg (by omega)]

/-- Position `r` of `n` groups of `m` entries lies in group `r / m`. -/
theorem group_index (n m r : Nat) (h1 : n * m ≤ r) (h2 : r < n * m + m) :
    r / m = n ∧ r % m = r - n * m := by
  have hm : 0 < m := by
    rcases Nat.eq_zero_or_pos m with h | h
    · subst h
      omega
    · exact h
  have hd : r / m = n := by
    apply Nat.div_eq_of_lt_le
    · rw [Nat.mul_comm] at h1
      rw [Nat.mul_comm]
      exact h1
    · rw [Nat.succ_mul]
      exact h2
  refine ⟨hd, ?_⟩
  have := Nat.div_add_mod r m
  rw [hd, Nat.mul_comm] at this
  omega

/-- A loop of `n` iterations, each of which writes `m` entries, writes `n * m`. -/
theorem Filled.loop (st0 : BlockMapping) (n m : Nat) (step : BlockMapping → Nat → BlockMapping)
    (g : Nat → Nat → Int)
    (hstep : ∀ st k len g0, k < n → Filled st0 st len g0 → Filled st (step st k) m (g k)) :
    Filled st0 ((List.range n).foldl step st0) (n * m) (fun r => g (r / m) (r % m)) := by
  induction n with
  | zero =>
    rw [List.range_zero, List.foldl_nil, Nat.zero_mul]
    exact Filled.nothing st0 _
  | succ n ih =>
    rw [List.range_succ, List.foldl_append, List.foldl_cons, List.foldl_nil]
    have h1 := ih (fun st k len g0 hk hf => hstep st k len g0 (by omega) hf)
    have h2 := hstep _ n _ _ (by omega) h1
    have h3 := h1.append h2
    rw [Nat.succ_mul]
    refine h3.congr (fun r hr => ?_)
    dsimp only
    by_cases hc : r < n * m
    · rw [if_pos hc]
    · rw [if_neg hc]
      obtain ⟨e1, e2⟩ := group_index n m r (by omega) hr
      rw [e1, e2]

theorem map_block_filled (st0 st : BlockMapping) (plane sb_x sb_y i len : Nat) (g0 : Nat → Int)
    (h : Filled st0 st len g0) :
    Filled st (map_block plane sb_x sb_y st i) 1
      (fun _ => mapped_block st0.s plane st0.start sb_x sb_y i) := by
  obtain ⟨_, hw, hh, _, _⟩ := h.geometry
  obtain ⟨_, _, hs, _⟩ := h
  refine ⟨rfl, rfl, rfl, fun idx => ?_⟩
  have hv : (map_block plane sb_x sb_y st i).s.all_blocks =
      Function.update st.s.all_blocks (st.s.all_blocks_off 0 + st.j)
        (mapped_block st0.s plane st0.start sb_x sb_y i) := by
    simp only [map_block, mapped_block, hw, hh, hs]
  rw [hv]
  by_cases hc : idx = st.s.all_blocks_off 0 + st.j
  · rw [hc, Function.update_same, if_pos ⟨le_refl _, by omega⟩]
  · rw [Function.update_noteq hc, if_neg (by omega)]

theorem superblock_filled (st0 st : BlockMapping) (plane sb_x sb_y len : Nat) (g0 : Nat → Int)
    (h : Filled st0 st len g0) :
    Filled st ((List.range 16).foldl (map_block plane sb_x sb_y) st) 16
      (fun r => mapped_block st0.s plane st0.start sb_x sb_y r) := by
  have h1 := Filled.loop st 16 1 (map_block plane sb_x sb_y)
    (fun i _ => mapped_block st0.s plane st0.start sb_x sb_y i)
    (fun u k _ _ _ hf => map_block_filled st0 u plane sb_x sb_y k _ _ (h.append hf))
  exact h1.congr (fun r _ => by simp only [Nat.div_one])

theorem superblock_row_filled (st0 st : BlockMapping) (plane sb_y len : Nat) (g0 : Nat → Int)
    (h : Filled st0 st len g0) :
    Filled st ((List.range (st.s.superblock_width plane)).foldl
        (fun w sb_x => (List.range 16).foldl (map_block plane sb_x sb_y) w) st)
      (st0.s.superblock_width plane * 16)
      (fun r => mapped_block st0.s plane st0.start (r / 16) sb_y (r % 16)) := by
  rw [h.geometry.2.2.2.1]
  exact Filled.loop st (st0.s.superblock_width plane) 16
    (fun w sb_x => (List.range 16).foldl (map_block plane sb_x sb_y) w)
    (fun sb_x r => mapped_block st0.s plane st0.start sb_x sb_y r)
    (fun u k _ _ _ hf => superblock_filled st0 u plane k sb_y _ _ (h.append hf))

/-- Position `r` of a plane's list, split into superblock row, column and step. -/
theorem row_index (w r : Nat) :
    r % (w * 16) / 16 = (r / 16) % w ∧ r / (w * 16) = (r / 16) / w ∧ r % (w * 16) % 16 = r % 16 := by
  refine ⟨?_, ?_, ?_⟩
  · rw [Nat.mul_comm w 16, Nat.mod_mul_right_div_self]
  · rw [Nat.mul_comm w 16, Nat.div_div_eq_div_mul]
  · rw [Nat.mul_comm w 16]
    exact Nat.mod_mul_right_mod r 16 w

theorem superblocks_filled (st : BlockMapping) (plane : Nat) :
    Filled st ((List.range (st.s.superblock_height plane)).foldl
        (fun u sb_y => (List.range (u.s.superblock_width plane)).foldl
          (fun w sb_x => (List.range 16).foldl (map_block plane sb_x sb_y) w) u) st)
      (16 * (st.s.superblock_width plane * st.s.superblock_height plane))
      (mapped_entry st.s plane st.start) := by
  have h1 := Filled.loop st (st.s.superblock_height plane) (st.s.superblock_width plane * 16)
    (fun u sb_y => (List.range (u.s.superblock_width plane)).foldl
          (fun w sb_x => (List.range 16).foldl (map_block plane sb_x sb_y) w) u)
    (fun sb_y r => mapped_block st.s plane st.start (r / 16) sb_y (r % 16))
    (fun u k _ _ _ hf => superblock_row_filled st u plane k _ _ hf)
  have e : st.s.superblock_height plane * (st.s.superblock_width plane * 16) =
      16 * (st.s.superblock_width plane * st.s.superblock_height plane) := by ring
  rw [e] at h1
  refine h1.congr (fun r _ => ?_)
  obtain ⟨e1, e2, e3⟩ := row_index (st.s.superblock_width plane) r
  simp only [mapped_entry, e1, e2, e3]

theorem superblocks_before_succ (s : Vp3DecodeContext) (p : Nat) :
    superblocks_before s (p + 1) =
      superblocks_before s p + s.superblock_width p * s.superblock_height p := by
  simp only [superblocks_before, List.range_succ, List.map_append, List.sum_append, List.map_cons,
    List.map_nil, List.sum_cons, List.sum_nil, Nat.add_zero]

theorem plane_start_succ (s : Vp3DecodeContext) (p : Nat) :
    plane_start s (p + 1) = plane_start s p + s.block_width p * s.block_height p := by
  simp only [plane_start, List.range_succ, List.map_append, List.sum_append, List.map_cons,
    List.map_nil, List.sum_cons, List.sum_nil, Nat.add_zero]

theorem superblocks_before_mono (s : Vp3DecodeContext) (q p : Nat) (h : q < p) :
    superblocks_before s q + s.superblock_width q * s.superblock_height q ≤
      superblocks_before s p := by
  induction p with
  | zero => omega
  | succ p ih =>
    rw [superblocks_before_succ s p]
    by_cases hq : q = p
    · subst hq
      omega
    · have := ih (by omega)
      omega

theorem mapped_entry_congr (s t : Vp3DecodeContext) (plane : Nat) (start : Int) (r : Nat)
    (hw : t.block_width = s.block_width) (hh : t.block_height = s.block_height)
    (hs : t.superblock_width = s.superblock_width) :
    mapped_entry t plane start r = mapped_entry s plane start r := by
  simp only [mapped_entry, mapped_block, hw, hh, hs]

theorem map_plane_step (s : Vp3DecodeContext) (p : Nat) (st : BlockMapping) (hp : p < 3)
    (h : Mapped s p st) : Mapped s (p + 1) (map_plane st p) := by
  obtain ⟨h1, h2, h3, h4, h5⟩ := h
  have hf := superblocks_filled st p
  have esw : st.s.superblock_width = s.superblock_width := by rw [h1]
  have esh : st.s.superblock_height = s.superblock_height := by rw [h1]
  have ebw : st.s.block_width = s.block_width := by rw [h1]
  have ebh : st.s.block_height = s.block_height := by rw [h1]
  rw [esw, esh] at hf
  generalize hT : (List.range (s.superblock_height p)).foldl
        (fun u sb_y => (List.range (u.s.superblock_width p)).foldl
          (fun w sb_x => (List.range 16).foldl (map_block p sb_x sb_y) w) u) st = t at hf
  have hmj : (map_plane st p).j = t.j := by
    simp only [map_plane, esh, hT]
  have hms : (map_plane st p).start =
      t.start + ((t.s.block_width p * t.s.block_height p : Nat) : Int) := by
    simp only [map_plane, esh, hT]
  have hmp : (map_plane st p).s = if p < 2 then
      { t.s with all_blocks_off := (Function.update t.s.all_blocks_off (p + 1) (t.s.all_blocks_off 0 + t.j)) }
      else t.s := by
    simp only [map_plane, esh, hT]
  obtain ⟨g1, g2, g3, g4⟩ := hf
  have hoff : t.s.all_blocks_off = st.s.all_blocks_off := by rw [g1]
  have hbw : t.s.block_width = s.block_width := by rw [g1, ebw]
  have hbh : t.s.block_height = s.block_height := by rw [g1, ebh]
  have h40 := h4 0 (by omega) (by omega)
  have hsb0 : superblocks_before s 0 = 0 := rfl
  rw [hsb0, Nat.mul_zero, Nat.add_zero] at h40
  have hall : (map_plane st p).s.all_blocks = t.s.all_blocks := by
    rw [hmp]
    split_ifs <;> rfl
  have hoffs : (map_plane st p).s.all_blocks_off =
      if p < 2 then Function.update st.s.all_blocks_off (p + 1) (st.s.all_blocks_off 0 + t.j)
      else st.s.all_blocks_off := by
    rw [hmp]
    split_ifs <;> simp only [hoff]
  refine ⟨?_, ?_, ?_, ?_, ?_⟩
  · rw [hmp]
    split_ifs <;> rw [g1, h1]
  · rw [hmj, g2, h2, superblocks_before_succ]
    ring
  · rw [hms, g3, h3, hbw, hbh, plane_start_succ]
    push_cast
    ring
  · intro q hq3 hqp
    rw [hoffs]
    by_cases hq : q = p + 1
    · subst hq
      rw [if_pos (by omega), Function.update_same, h40, g2, h2, superblocks_before_succ]
      ring
    · have hne : q ≠ p + 1 := hq
      have := h4 q hq3 (by omega)
      split_ifs
      · rw [Function.update_noteq hne, this]
      · exact this
  · intro q hq r hr
    rw [hall, g4]
    rw [h40, h2]
    by_cases hqp : q = p
    · subst hqp
      rw [if_pos (by omega), h3]
      have e : s.all_blocks_off 0 + 16 * superblocks_before s q + r -
          (s.all_blocks_off 0 + 16 * superblocks_before s q) = r := by omega
      rw [e]
      exact mapped_entry_congr s st.s q _ r ebw ebh esw
    · have hlt : q < p := by omega
      have hm := superblocks_before_mono s q p hlt
      rw [if_neg (by omega)]
      exact h5 q hlt r hr

/-- What `init_block_mapping` leaves behind: only `all_blocks` and its plane
pointers change, the three lists follow one another, and entry `r` of plane
`q` is `mapped_entry`. -/
theorem init_block_mapping_spec (s : Vp3DecodeContext) :
    init_block_mapping s = { s with all_blocks := (init_block_mapping s).all_blocks,
                                    all_blocks_off := (init_block_mapping s).all_blocks_off } ∧
    (∀ q, q < 3 → (init_block_mapping s).all_blocks_off q =
      s.all_blocks_off 0 + 16 * superblocks_before s q) ∧
    (∀ q, q < 3 → ∀ r, r < 16 * (s.superblock_width q * s.superblock_height q) →
      (init_block_mapping s).all_blocks ((init_block_mapping s).all_blocks_off q + r) =
        mapped_entry s q (plane_start s q) r) := by
  have h0 : Mapped s 0 ⟨s, 0, 0⟩ := by
    refine ⟨rfl, rfl, rfl, fun q _ hq => ?_, fun q hq => ?_⟩
    · have : q = 0 := by omega
      subst this
      rfl
    · omega
  have h3 := map_plane_step s 2 _ (by omega)
    (map_plane_step s 1 _ (by omega) (map_plane_step s 0 _ (by omega) h0))
  have e : init_block_mapping s = (map_plane (map_plane (map_plane ⟨s, 0, 0⟩ 0) 1) 2).s := rfl
  rw [e]
  obtain ⟨a1, _, _, a4, a5⟩ := h3
  refine ⟨a1, fun q hq => a4 q hq (by omega), fun q hq r hr => ?_⟩
  rw [a4 q hq (by omega)]
  exact a5 q hq r hr

theorem hilbert_offset_lt : ∀ i, i < 16 → hilbert_offset i 0 < 4 ∧ hilbert_offset i 1 < 4 := by
  decide

theorem hilbert_offset_injective : ∀ i, i < 16 → ∀ j, j < 16 →
    hilbert_offset i 0 = hilbert_offset j 0 → hilbert_offset i 1 = hilbert_offset j 1 → i = j := by
  decide

theorem hilbert_offset_onto : ∀ a, a < 4 → ∀ b, b < 4 →
    ∃ i, i < 16 ∧ hilbert_offset i 0 = a ∧ hilbert_offset i 1 = b := by
  decide

/-- A raster index determines its row and column. -/
theorem raster_index_unique (w x1 y1 x2 y2 : Nat) (h1 : x1 < w) (h2 : x2 < w)
    (h : y1 * w + x1 = y2 * w + x2) : x1 = x2 ∧ y1 = y2 := by
  have hw : 0 < w := by omega
  have a1 : (y1 * w + x1) % w = x1 := by
    rw [Nat.add_comm, Nat.add_mul_mod_self_right, Nat.mod_eq_of_lt h1]
  have a2 : (y2 * w + x2) % w = x2 := by
    rw [Nat.add_comm, Nat.add_mul_mod_self_right, Nat.mod_eq_of_lt h2]
  have b1 : (y1 * w + x1) / w = y1 := by
    rw [Nat.add_comm, Nat.add_mul_div_right _ _ hw, Nat.div_eq_of_lt h1, Nat.zero_add]
  have b2 : (y2 * w + x2) / w = y2 := by
    rw [Nat.add_comm, Nat.add_mul_div_right _ _ hw, Nat.div_eq_of_lt h2, Nat.zero_add]
  rw [h] at a1 b1
  exact ⟨a1.symm.trans a2, b1.symm.trans b2⟩

theorem raster_index_lt (w h x y : Nat) (hx : x < w) (hy : y < h) : y * w + x < w * h := by
  have : (y + 1) * w ≤ h * w := Nat.mul_le_mul_right w hy
  rw [Nat.succ_mul] at this
  rw [Nat.mul_comm w h]
  omega

theorem mapped_entry_eq (s : Vp3DecodeContext) (plane : Nat) (start : Int) (r : Nat) :
    mapped_entry s plane start r =
      if entry_x s plane r < s.block_width plane ∧ entry_y s plane r < s.block_height plane then
        start + ((entry_y s plane r * s.block_width plane + entry_x s plane r : Nat) : Int)
      else -1 := rfl

theorem entry_injective (s : Vp3DecodeContext) (plane r1 r2 : Nat)
    (hx : entry_x s plane r1 = entry_x s plane r2) (hy : entry_y s plane r1 = entry_y s plane r2) :
    r1 = r2 := by
  unfold entry_x at hx
  unfold entry_y at hy
  obtain ⟨a1, a2⟩ := hilbert_offset_lt (r1 % 16) (Nat.mod_lt _ (by omega))
  obtain ⟨b1, b2⟩ := hilbert_offset_lt (r2 % 16) (Nat.mod_lt _ (by omega))
  have hi := hilbert_offset_injective (r1 % 16) (Nat.mod_lt _ (by omega)) (r2 % 16)
    (Nat.mod_lt _ (by omega)) (by omega) (by omega)
  have hm : (r1 / 16) % s.superblock_width plane = (r2 / 16) % s.superblock_width plane := by
    omega
  have hd : (r1 / 16) / s.superblock_width plane = (r2 / 16) / s.superblock_width plane := by
    omega
  have e1 := Nat.div_add_mod (r1 / 16) (s.superblock_width plane)
  have e2 := Nat.div_add_mod (r2 / 16) (s.superblock_width plane)
  rw [hm, hd] at e1
  have : r1 / 16 = r2 / 16 := e1.symm.trans e2
  omega

theorem entry_onto (s : Vp3DecodeContext) (plane x y : Nat)
    (hx : x < 4 * s.superblock_width plane) (hy : y < 4 * s.superblock_height plane) :
    ∃ r, r < 16 * (s.superblock_width plane * s.superblock_height plane) ∧
      entry_x s plane r = x ∧ entry_y s plane r = y := by
  obtain ⟨i, hi, hi0, hi1⟩ := hilbert_offset_onto (x % 4) (Nat.mod_lt _ (by omega)) (y % 4)
    (Nat.mod_lt _ (by omega))
  have hw : 0 < s.superblock_width plane := by omega
  have hlt := raster_index_lt (s.superblock_width plane) (s.superblock_height plane)
    (x / 4) (y / 4) (by omega) (by omega)
  refine ⟨16 * (y / 4 * s.superblock_width plane + x / 4) + i, by omega, ?_, ?_⟩
  · unfold entry_x
    have e1 : (16 * (y / 4 * s.superblock_width plane + x / 4) + i) / 16 =
        y / 4 * s.superblock_width plane + x / 4 := by omega
    have e2 : (16 * (y / 4 * s.superblock_width plane + x / 4) + i) % 16 = i := by omega
    rw [e1, e2, hi0, Nat.add_comm (y / 4 * s.superblock_width plane),
      Nat.add_mul_mod_self_right, Nat.mod_eq_of_lt (by omega)]
    omega
  · unfold entry_y
    have e1 : (16 * (y / 4 * s.superblock_width plane + x / 4) + i) / 16 =
        y / 4 * s.superblock_width plane + x / 4 := by omega
    have e2 : (16 * (y / 4 * s.superblock_width plane + x / 4) + i) % 16 = i := by omega
    rw [e1, e2, hi1, Nat.add_comm (y / 4 * s.superblock_width plane),
      Nat.add_mul_div_right _ _ hw, Nat.div_eq_of_lt (by omega)]
    omega

theorem plane_entries_mapped (s : Vp3DecodeContext) (hg : GridCovered s) (q : Nat) (hq : q < 3) :
    plane_entries (init_block_mapping s) q =
      (List.range (16 * (s.superblock_width q * s.superblock_height q))).map
        (mapped_entry s q (plane_start s q)) := by
  obtain ⟨h1, _, h3⟩ := init_block_mapping_spec s
  have hc : (init_block_mapping s).superblock_count = s.superblock_count := by rw [h1]
  unfold plane_entries
  rw [hc, (hg q hq).1]
  apply List.map_congr_left
  intro r hr
  rw [List.mem_range] at hr
  exact h3 q hq r hr

theorem plane_blocks_mapped (s : Vp3DecodeContext) (hg : GridCovered s) (q : Nat) (hq : q < 3) :
    (plane_blocks (init_block_mapping s) q).Nodup ∧
    ∀ b : Int, b ∈ plane_blocks (init_block_mapping s) q ↔
      (plane_start s q : Int) ≤ b ∧ b < (plane_start s (q + 1) : Int) := by
  obtain ⟨_, hbw, hbh⟩ := hg q hq
  unfold plane_blocks
  rw [plane_entries_mapped s hg q hq, List.filter_map]
  constructor
  · apply List.Nodup.map_on
    · intro r1 h1 r2 h2 he
      rw [List.mem_filter] at h1 h2
      have n1 := h1.2
      have n2 := h2.2
      simp only [Function.comp, decide_eq_true_eq] at n1 n2
      rw [mapped_entry_eq] at he n1
      rw [mapped_entry_eq] at he n2
      by_cases c1 : entry_x s q r1 < s.block_width q ∧ entry_y s q r1 < s.block_height q
      · by_cases c2 : entry_x s q r2 < s.block_width q ∧ entry_y s q r2 < s.block_height q
        · rw [if_pos c1, if_pos c2] at he
          have he2 : entry_y s q r1 * s.block_width q + entry_x s q r1 =
              entry_y s q r2 * s.block_width q + entry_x s q r2 := by omega
          obtain ⟨ex, ey⟩ := raster_index_unique _ _ _ _ _ c1.1 c2.1 he2
          exact entry_injective s q r1 r2 ex ey
        · rw [if_neg c2] at n2
          omega
      · rw [if_neg c1] at n1
        omega
    · exact (List.nodup_range _).filter _
  · intro b
    rw [plane_start_succ, List.mem_map]
    constructor
    · rintro ⟨r, hr, rfl⟩
      rw [List.mem_filter] at hr
      have n1 := hr.2
      simp only [Function.comp, decide_eq_true_eq] at n1
      rw [mapped_entry_eq] at n1 ⊢
      by_cases c1 : entry_x s q r < s.block_width q ∧ entry_y s q r < s.block_height q
      · rw [if_pos c1]
        have := raster_index_lt _ _ _ _ c1.1 c1.2
        push_cast
        omega
      · rw [if_neg c1] at n1
        omega
    · rintro ⟨hlo, hhi⟩
      obtain ⟨n, hn⟩ : ∃ n : Nat, b = (plane_start s q : Int) + (n : Int) :=
        ⟨(b - (plane_start s q : Int)).toNat, by omega⟩
      have hnlt : n < s.block_width q * s.block_height q := by
        push_cast at hhi
        omega
      have hw : 0 < s.block_width q := by
        rcases Nat.eq_zero_or_pos (s.block_width q) with h0 | h0
        · rw [h0, Nat.zero_mul] at hnlt
          omega
        · exact h0
      have hx : n % s.block_width q < s.block_width q := Nat.mod_lt _ hw
      have hy : n / s.block_width q < s.block_height q := by
        rw [Nat.div_lt_iff_lt_mul hw, Nat.mul_comm]
        exact hnlt
      obtain ⟨r, hr, ex, ey⟩ := entry_onto s q (n % s.block_width q) (n / s.block_width q)
        (by omega) (by omega)
      have hval : mapped_entry s q (plane_start s q) r = b := by
        rw [mapped_entry_eq, ex, ey, if_pos ⟨hx, hy⟩, hn, Nat.mul_comm, Nat.div_add_mod]
      refine ⟨r, ?_, hval⟩
      rw [List.mem_filter, List.mem_range]
      refine ⟨hr, ?_⟩
      simp only [Function.comp, decide_eq_true_eq]
      rw [hval]
      omega

theorem plane_start_mono (s : Vp3DecodeContext) (q p : Nat) (h : q ≤ p) :
    plane_start s q ≤ plane_start s p := by
  induction p with
  | zero =>
    have : q = 0 := by omega
    subst this
    exact le_refl _
  | succ p ih =>
    rw [plane_start_succ]
    by_cases hq : q = p + 1
    · subst hq
      rw [plane_start_succ]
    · have := ih (by omega)
      omega

/-- After `init_block_mapping` on a covered grid, the existing blocks of the
three planes are the raster indices below `plane_start s 3`, each once. -/
theorem all_blocks_bijective (s : Vp3DecodeContext) (hg : GridCovered s) :
    (plane_blocks (init_block_mapping s) 0 ++ plane_blocks (init_block_mapping s) 1 ++
      plane_blocks (init_block_mapping s) 2).Nodup ∧
    ∀ b : Int, b ∈ plane_blocks (init_block_mapping s) 0 ++ plane_blocks (init_block_mapping s) 1
        ++ plane_blocks (init_block_mapping s) 2 ↔ 0 ≤ b ∧ b < (plane_start s 3 : Int) := by
  obtain ⟨n0, m0⟩ := plane_blocks_mapped s hg 0 (by omega)
  obtain ⟨n1, m1⟩ := plane_blocks_mapped s hg 1 (by omega)
  obtain ⟨n2, m2⟩ := plane_blocks_mapped s hg 2 (by omega)
  simp only [Nat.reduceAdd] at m0 m1 m2
  have h01 := plane_start_mono s 0 1 (by omega)
  have h12 := plane_start_mono s 1 2 (by omega)
  have h23 := plane_start_mono s 2 3 (by omega)
  have h0 : plane_start s 0 = 0 := rfl
  rw [h0] at m0
  constructor
  · rw [List.nodup_append, List.nodup_append]
    refine ⟨⟨n0, n1, ?_⟩, n2, ?_⟩
    · intro a ha hb
      rw [m0] at ha
      rw [m1] at hb
      omega
    · intro a ha hb
      rw [List.mem_append, m0, m1] at ha
      rw [m2] at hb
      omega
  · intro b
    rw [List.mem_append, List.mem_append, m0, m1, m2]
    omega

theorem FFALIGN_multiple (x : Nat) : FFALIGN (FFALIGN x 16) 16 = FFALIGN x 16 := by
  unfold FFALIGN
  omega

/-- The plane geometry `vp3_decode_init` sets for a picture of `w x h` pixels. -/
theorem init_planes_geometry (w h : Nat) (s : Vp3DecodeContext) :
    (∀ q, q < 3 → (init_planes w h s).block_width q = FFALIGN w 16 / (if q = 0 then 8 else 16)) ∧
    (∀ q, q < 3 → (init_planes w h s).block_height q = FFALIGN h 16 / (if q = 0 then 8 else 16)) ∧
    (∀ q, q < 3 → (init_planes w h s).superblock_width q =
      FFALIGN (FFALIGN w 16 / (if q = 0 then 1 else 2)) 32 / 32) ∧
    (∀ q, q < 3 → (init_planes w h s).superblock_height q =
      FFALIGN (FFALIGN h 16 / (if q = 0 then 1 else 2)) 32 / 32) ∧
    (∀ q, q < 3 → (init_planes w h s).superblock_count q =
      (init_planes w h s).superblock_width q * (init_planes w h s).superblock_height q) ∧
    (∀ q, q < 3 → (init_planes w h s).blocks_off q = plane_start (init_planes w h s) q) ∧
    (init_planes w h s).num_blocks = plane_start (init_planes w h s) 3 ∧
    (init_planes w h s).num_superblocks = superblocks_before (init_planes w h s) 3 ∧
    (init_planes w h s).all_blocks_off 0 = 0 := by
  have e3 : ∀ x : Nat, x >>> 3 = x / 8 := fun x => by rw [Nat.shiftRight_eq_div_pow]
  have e4 : ∀ x : Nat, x >>> 4 = x / 16 := fun x => by rw [Nat.shiftRight_eq_div_pow]
  have e1 : ∀ x : Nat, x >>> 1 = x / 2 := fun x => by rw [Nat.shiftRight_eq_div_pow]
  have e0 : ∀ x : Nat, x >>> 0 = x / 1 := fun x => by simp
  refine ⟨?_, ?_, ?_, ?_, ?_, ?_, ?_, ?_, ?_⟩
  · intro q hq
    interval_cases q
    · exact (congrArg (fun v => v >>> 3) (FFALIGN_multiple w)).trans (e3 _)
    · exact (congrArg (fun v => v >>> 4) (FFALIGN_multiple w)).trans (e4 _)
    · exact (congrArg (fun v => v >>> 4) (FFALIGN_multiple w)).trans (e4 _)
  · intro q hq
    interval_cases q
    · exact (congrArg (fun v => v >>> 3) (FFALIGN_multiple h)).trans (e3 _)
    · exact (congrArg (fun v => v >>> 4) (FFALIGN_multiple h)).trans (e4 _)
    · exact (congrArg (fun v => v >>> 4) (FFALIGN_multiple h)).trans (e4 _)
  · intro q hq
    interval_cases q
    · exact congrArg (fun v => FFALIGN v 32 / 32) (e0 _)
    · exact congrArg (fun v => FFALIGN v 32 / 32) (e1 _)
    · exact congrArg (fun v => FFALIGN v 32 / 32) (e1 _)
  · intro q hq
    interval_cases q
    · exact congrArg (fun v => FFALIGN v 32 / 32) (e0 _)
    · exact congrArg (fun v => FFALIGN v 32 / 32) (e1 _)
    · exact congrArg (fun v => FFALIGN v 32 / 32) (e1 _)
  · intro q hq
    interval_cases q <;> rfl
  · intro q hq
    interval_cases q
    · rfl
    · rw [plane_start_succ, show plane_start (init_planes w h s) 0 = 0 from rfl]
      rfl
    · rw [plane_start_succ, plane_start_succ, show plane_start (init_planes w h s) 0 = 0 from rfl]
      rfl
  · rw [plane_start_succ, plane_start_succ, plane_start_succ,
      show plane_start (init_planes w h s) 0 = 0 from rfl]
    rfl
  · rw [superblocks_before_succ, superblocks_before_succ, superblocks_before_succ,
      show superblocks_before (init_planes w h s) 0 = 0 from rfl]
    rfl
  · rfl

theorem init_planes_covered (w h : Nat) (s : Vp3DecodeContext) :
    GridCovered (init_planes w h s) := by
  obtain ⟨h1, h2, h3, h4, h5, _⟩ := init_planes_geometry w h s
  intro q hq
  refine ⟨h5 q hq, ?_, ?_⟩
  · rw [h1 q hq, h3 q hq]
    unfold FFALIGN
    split_ifs <;> omega
  · rw [h2 q hq, h4 q hq]
    unfold FFALIGN
    split_ifs <;> omega

theorem plane_start_congr (s t : Vp3DecodeContext) (p : Nat)
    (hw : t.block_width = s.block_width) (hh : t.block_height = s.block_height) :
    plane_start t p = plane_start s p := by
  simp only [plane_start, hw, hh]

/-- Entry `16 * (sb_y * w + sb_x) + i` of a plane's list is Hilbert step `i`
of superblock `(sb_x, sb_y)`. -/
theorem superblock_entry (s : Vp3DecodeContext) (plane : Nat) (start : Int) (sb_x sb_y i : Nat)
    (hx : sb_x < s.superblock_width plane) (hi : i < 16) :
    mapped_entry s plane start (16 * (sb_y * s.superblock_width plane + sb_x) + i) =
      mapped_block s plane start sb_x sb_y i := by
  have hw : 0 < s.superblock_width plane := by omega
  have e1 : (16 * (sb_y * s.superblock_width plane + sb_x) + i) / 16 =
      sb_y * s.superblock_width plane + sb_x := by omega
  have e2 : (16 * (sb_y * s.superblock_width plane + sb_x) + i) % 16 = i := by omega
  have e3 : (sb_y * s.superblock_width plane + sb_x) % s.superblock_width plane = sb_x := by
    rw [Nat.add_comm, Nat.add_mul_mod_self_right, Nat.mod_eq_of_lt hx]
  have e4 : (sb_y * s.superblock_width plane + sb_x) / s.superblock_width plane = sb_y := by
    rw [Nat.add_comm, Nat.add_mul_div_right _ _ hw, Nat.div_eq_of_lt hx, Nat.zero_add]
  simp only [mapped_entry, e1, e2, e3, e4]

/-- C11: after `vp3_decode_init` has run `init_block_mapping`, for every frame
size and every plane `p`: the list `all_blocks[p]` has `16 * superblock_count[p]`
entries (the next plane's list starts right behind it); the entry for
superblock `(sb_x, sb_y)` and Hilbert step `i` is `-1` when the position
`(4*sb_x + Hx, 4*sb_y + Hy)` lies outside the `block_width[p] x block_height[p]`
grid and otherwise that position's raster index plus the number of blocks of
the preceding planes (which is also where `blocks[p]` starts); and the
non-negative entries of the three planes are exactly the numbers
`0 .. num_blocks - 1`, each once. -/
theorem init_block_mapping_bijective (w h : Nat) (s : Vp3DecodeContext) :
    ((vp3_decode_init w h s).all_blocks_off 0 = 0 ∧
      ∀ p, p < 2 → (vp3_decode_init w h s).all_blocks_off (p + 1) =
        (vp3_decode_init w h s).all_blocks_off p + 16 * (vp3_decode_init w h s).superblock_count p) ∧
    (∀ p, p < 3 → ∀ sb_y, sb_y < (vp3_decode_init w h s).superblock_height p →
      ∀ sb_x, sb_x < (vp3_decode_init w h s).superblock_width p → ∀ i, i < 16 →
        (vp3_decode_init w h s).all_blocks ((vp3_decode_init w h s).all_blocks_off p +
            (16 * (sb_y * (vp3_decode_init w h s).superblock_width p + sb_x) + i)) =
          if 4 * sb_x + hilbert_offset i 0 < (vp3_decode_init w h s).block_width p ∧
              4 * sb_y + hilbert_offset i 1 < (vp3_decode_init w h s).block_height p then
            ((vp3_decode_init w h s).blocks_off p : Int) +
              (((4 * sb_y + hilbert_offset i 1) * (vp3_decode_init w h s).block_width p
                + (4 * sb_x + hilbert_offset i 0) : Nat) : Int)
          else -1) ∧
    (∀ p, p < 3 → (vp3_decode_init w h s).blocks_off p =
      ((List.range p).map (fun q => (vp3_decode_init w h s).block_width q *
        (vp3_decode_init w h s).block_height q)).sum) ∧
    (plane_blocks (vp3_decode_init w h s) 0 ++ plane_blocks (vp3_decode_init w h s) 1 ++
      plane_blocks (vp3_decode_init w h s) 2).Nodup ∧
    (∀ b : Int, b ∈ plane_blocks (vp3_decode_init w h s) 0 ++
        plane_blocks (vp3_decode_init w h s) 1 ++ plane_blocks (vp3_decode_init w h s) 2 ↔
      0 ≤ b ∧ b < ((vp3_decode_init w h s).num_blocks : Int)) := by
  obtain ⟨_, _, _, _, g5, g6, g7, _, g9⟩ := init_planes_geometry w h s
  obtain ⟨f1, f2, f3⟩ := init_block_mapping_spec (init_planes w h s)
  obtain ⟨b1, b2⟩ := all_blocks_bijective (init_planes w h s) (init_planes_covered w h s)
  have hbw : (vp3_decode_init w h s).block_width = (init_planes w h s).block_width := by
    unfold vp3_decode_init
    rw [f1]
  have hbh : (vp3_decode_init w h s).block_height = (init_planes w h s).block_height := by
    unfold vp3_decode_init
    rw [f1]
  have hsw : (vp3_decode_init w h s).superblock_width = (init_planes w h s).superblock_width := by
    unfold vp3_decode_init
    rw [f1]
  have hsh : (vp3_decode_init w h s).superblock_height =
      (init_planes w h s).superblock_height := by
    unfold vp3_decode_init
    rw [f1]
  have hsc : (vp3_decode_init w h s).superblock_count = (init_planes w h s).superblock_count := by
    unfold vp3_decode_init
    rw [f1]
  have hbo : (vp3_decode_init w h s).blocks_off = (init_planes w h s).blocks_off := by
    unfold vp3_decode_init
    rw [f1]
  have hnb : (vp3_decode_init w h s).num_blocks = (init_planes w h s).num_blocks := by
    unfold vp3_decode_init
    rw [f1]
  rw [hbw, hbh, hsw, hsh, hsc, hbo, hnb]
  have e0 : superblocks_before (init_planes w h s) 0 = 0 := rfl
  refine ⟨⟨?_, fun p hp => ?_⟩, fun p hp sb_y hy sb_x hx i hi => ?_, fun p hp => g6 p hp, b1, ?_⟩
  · show (init_block_mapping (init_planes w h s)).all_blocks_off 0 = 0
    rw [f2 0 (by omega), g9, e0]
  · show (init_block_mapping (init_planes w h s)).all_blocks_off (p + 1) =
      (init_block_mapping (init_planes w h s)).all_blocks_off p + _
    rw [f2 (p + 1) (by omega), f2 p (by omega), superblocks_before_succ, g5 p (by omega)]
    ring
  · show (init_block_mapping (init_planes w h s)).all_blocks
      ((init_block_mapping (init_planes w h s)).all_blocks_off p + _) = _
    have hlt := raster_index_lt _ _ sb_x sb_y hx hy
    rw [f3 p hp _ (by omega), superblock_entry _ _ _ _ _ _ hx hi, g6 p hp]
    rfl
  · intro b
    rw [g7]
    exact b2 b

/-! ## Macroblocks without a coded block -/

/-- A fold keeps an invariant `I`, keeps every property `Q c` once it holds, and
each step `x` establishes `Q c` for the `c` it is responsible for. -/
theorem foldl_establish {α β γ : Type} (f : α → β → α) (I : α → Prop) (Q : γ → α → Prop)
    (T : β → γ → Prop) (l : List β)
    (hstep : ∀ t x, x ∈ l → I t →
      I (f t x) ∧ (∀ c, Q c t → Q c (f t x)) ∧ ∀ c, T x c → Q c (f t x)) :
    ∀ a, I a → I (l.foldl f a) ∧ (∀ c, Q c a → Q c (l.foldl f a)) ∧
      ∀ x, x ∈ l → ∀ c, T x c → Q c (l.foldl f a) := by
  induction l with
  | nil =>
    intro a ha
    exact ⟨ha, fun _ h => h, fun x hx => absurd hx (List.not_mem_nil x)⟩
  | cons y ys ih =>
    intro a ha
    rw [List.foldl_cons]
    obtain ⟨s1, s2, s3⟩ := hstep a y (List.mem_cons_self _ _) ha
    obtain ⟨i1, i2, i3⟩ := ih (fun t x hx => hstep t x (List.mem_cons_of_mem _ hx)) (f a y) s1
    refine ⟨i1, fun c hc => i2 c (s2 c hc), ?_⟩
    intro x hx c hT
    rcases List.mem_cons.mp hx with e | hmem
    · subst e
      exact i2 c (s3 c hT)
    · exact i3 x hmem c hT

theorem code_block_modes (frag : VLC) (p sbc : Nat) (s0 : Vp3DecodeContext) (st : BlockCoding)
    (k : Nat) (h : BlockFrame s0 st.s) :
    BlockFrame s0 (code_block frag p sbc st k).s ∧
    (∀ b, ModeCleared b st → ModeCleared b (code_block frag p sbc st k)) ∧
    ∀ b, (b = s0.all_blocks (s0.all_blocks_off p + k) ∧ 0 ≤ b) →
      ModeCleared b (code_block frag p sbc st k) := by
  have eall : st.s.all_blocks = s0.all_blocks := by rw [h]
  have eoff : st.s.all_blocks_off = s0.all_blocks_off := by rw [h]
  unfold BlockFrame at h ⊢
  simp only [code_block, eall, eoff, ModeCleared]
  generalize s0.all_blocks (s0.all_blocks_off p + k) = e
  refine ⟨?_, ?_, ?_⟩
  · split_ifs <;> first | exact h | (simp only; rw [h])
  · intro b hb
    split_ifs <;> first | exact hb |
      (simp only
       by_cases hbe : b = e
       · rw [hbe, Function.update_same]
         rfl
       · rw [Function.update_noteq hbe]
         exact hb)
  · rintro b ⟨rfl, hb⟩
    rw [if_neg (not_lt.mpr hb)]
    split_ifs <;> (simp only; rw [Function.update_same]; rfl)

theorem code_superblock_modes (frag : VLC) (p : Nat) (s0 : Vp3DecodeContext) (st : BlockCoding)
    (i : Nat) (h : BlockFrame s0 st.s) :
    BlockFrame s0 (code_superblock frag p st i).s ∧
    (∀ b, ModeCleared b st → ModeCleared b (code_superblock frag p st i)) ∧
    ∀ b, (∃ j, j < 16 ∧ b = s0.all_blocks (s0.all_blocks_off p + (16 * i + j)) ∧ 0 ≤ b) →
      ModeCleared b (code_superblock frag p st i) := by
  unfold code_superblock
  obtain ⟨f1, f2, f3⟩ := foldl_establish
    (fun t j => code_block frag p (st.s.superblock_coding (st.s.superblock_coding_off p + i))
      t (16 * i + j))
    (fun t => BlockFrame s0 t.s) ModeCleared
    (fun j b => b = s0.all_blocks (s0.all_blocks_off p + (16 * i + j)) ∧ 0 ≤ b) (List.range 16)
    (fun t j _ ht => code_block_modes frag p _ s0 t (16 * i + j) ht) st h
  refine ⟨f1, f2, ?_⟩
  rintro b ⟨j, hj, hb⟩
  exact f3 j (List.mem_range.mpr hj) b hb

theorem code_plane_modes (frag : VLC) (s0 : Vp3DecodeContext) (st : BlockCoding) (p : Nat)
    (h : BlockFrame s0 st.s) :
    BlockFrame s0 (code_plane frag st p).s ∧
    (∀ b, ModeCleared b st → ModeCleared b (code_plane frag st p)) ∧
    ∀ b, (∃ k, k < 16 * s0.superblock_count p ∧
        b = s0.all_blocks (s0.all_blocks_off p + k) ∧ 0 ≤ b) →
      ModeCleared b (code_plane frag st p) := by
  have ecnt : st.s.superblock_count = s0.superblock_count := by rw [h]
  obtain ⟨f1, f2, f3⟩ := foldl_establish (code_superblock frag p)
    (fun t => BlockFrame s0 t.s) ModeCleared
    (fun i b => ∃ j, j < 16 ∧ b = s0.all_blocks (s0.all_blocks_off p + (16 * i + j)) ∧ 0 ≤ b)
    (List.range (st.s.superblock_count p))
    (fun t i _ ht => code_superblock_modes frag p s0 t i ht)
    { st with num_coded_blocks := 0 } h
  have g2 : ∀ b, ModeCleared b st → ModeCleared b { st with num_coded_blocks := 0 } :=
    fun b hb => hb
  unfold code_plane
  simp only
  generalize (List.range (st.s.superblock_count p)).foldl (code_superblock frag p)
    { st with num_coded_blocks := 0 } = t at f1 f2 f3
  have hblocks : ∀ b, ModeCleared b t → ModeCleared b
      { t with s := if p < 2 then
          { ({ t.s with num_coded_blocks := fun k =>
                if 64 * p ≤ k ∧ k < 64 * p + 64 then (t.num_coded_blocks : Int)
                else t.s.num_coded_blocks k } : Vp3DecodeContext) with
            coded_blocks_off := Function.update t.s.coded_blocks_off (p + 1)
              (t.s.coded_blocks_off p + t.num_coded_blocks) }
        else { t.s with num_coded_blocks := fun k =>
                if 64 * p ≤ k ∧ k < 64 * p + 64 then (t.num_coded_blocks : Int)
                else t.s.num_coded_blocks k } } := by
    intro b hb
    unfold ModeCleared at hb ⊢
    split_ifs <;> exact hb
  refine ⟨?_, fun b hb => hblocks b (f2 b (g2 b hb)), ?_⟩
  · unfold BlockFrame at f1 ⊢
    split_ifs <;> (simp only; rw [f1])
  · rintro b ⟨k, hk, hb⟩
    apply hblocks
    rw [ecnt] at f3
    refine f3 (k / 16) (List.mem_range.mpr (by omega)) b ⟨k % 16, by omega, ?_⟩
    rw [Nat.div_add_mod]
    exact hb

/-- After the block pass every existing block has `mb_mode` 0, and the block
mapping and the geometry are as before. -/
theorem unpack_block_flags_modes (frag : VLC) (c : SbCoding) :
    BlockFrame c.s (unpack_block_flags frag c).1 ∧
    ∀ p, p < 3 → ∀ k, k < 16 * c.s.superblock_count p →
      0 ≤ c.s.all_blocks (c.s.all_blocks_off p + k) →
      ((unpack_block_flags frag c).1.blocks (c.s.all_blocks (c.s.all_blocks_off p + k))).mb_mode
        = 0 := by
  obtain ⟨f1, -, f3⟩ := foldl_establish (code_plane frag)
    (fun t => BlockFrame c.s t.s) ModeCleared
    (fun p b => ∃ k, k < 16 * c.s.superblock_count p ∧
        b = c.s.all_blocks (c.s.all_blocks_off p + k) ∧ 0 ≤ b)
    (List.range 3)
    (fun t p _ ht => code_plane_modes frag c.s t p ht)
    ⟨c.s, c.gb, c.bit, c.run_length, 0⟩ rfl
  unfold unpack_block_flags
  refine ⟨f1, ?_⟩
  intro p hp k hk h0
  exact f3 p (List.mem_range.mpr hp) _ ⟨k, hk, rfl, h0⟩

/-- What `unpack_block_coding` leaves for `unpack_modes`: the block mapping and
the geometry untouched, every existing block with `mb_mode` 0. -/
theorem unpack_block_coding_modes (s : Vp3DecodeContext) (gb : GetBitContext) (table frag : VLC)
    (r : Vp3DecodeContext × GetBitContext)
    (h : unpack_block_coding s gb table frag = Ret.done r) :
    r.1.all_blocks = s.all_blocks ∧ r.1.all_blocks_off = s.all_blocks_off ∧
    r.1.block_width = s.block_width ∧ r.1.block_height = s.block_height ∧
    ∀ p, p < 3 → ∀ k, k < 16 * s.superblock_count p →
      0 ≤ s.all_blocks (s.all_blocks_off p + k) →
      (r.1.blocks (s.all_blocks (s.all_blocks_off p + k))).mb_mode = 0 := by
  unfold unpack_block_coding at h
  split at h
  · exact absurd h (by simp)
  · exact absurd h (by simp)
  rename_i c hc
  simp only [Ret.done.injEq] at h
  subst h
  obtain ⟨a1, -, -⟩ := unpack_superblock_coding_spec s gb table c hc
  obtain ⟨b1, b2⟩ := unpack_block_flags_modes frag c
  have e1 : c.s.all_blocks = s.all_blocks := by rw [a1]
  have e2 : c.s.all_blocks_off = s.all_blocks_off := by rw [a1]
  have e3 : c.s.superblock_count = s.superblock_count := by rw [a1]
  have e4 : c.s.block_width = s.block_width := by rw [a1]
  have e5 : c.s.block_height = s.block_height := by rw [a1]
  rw [e1, e2, e3] at b2
  refine ⟨?_, ?_, ?_, ?_, b2⟩
  · rw [b1]
    exact e1
  · rw [b1]
    exact e2
  · rw [b1]
    exact e4
  · rw [b1]
    exact e5

/-- Distinct positions of a list whose non-negative entries do not repeat hold
distinct non-negative entries. -/
theorem nodup_entries_injective (f : Nat → Int) (n : Nat)
    (h : (((List.range n).map f).filter (fun b => decide (0 ≤ b))).Nodup) :
    ∀ i j, i < n → j < n → 0 ≤ f i → f i = f j → i = j := by
  induction n with
  | zero =>
    intro i j hi
    exact absurd hi (Nat.not_lt_zero i)
  | succ n ih =>
    rw [List.range_succ, List.map_append, List.filter_append, List.nodup_append] at h
    obtain ⟨h1, -, h3⟩ := h
    have hmem : ∀ i, i < n → 0 ≤ f i →
        f i ∈ ((List.range n).map f).filter (fun b => decide (0 ≤ b)) := by
      intro i hi h0
      rw [List.mem_filter]
      exact ⟨List.mem_map.mpr ⟨i, List.mem_range.mpr hi, rfl⟩, by simpa using h0⟩
    have hlast : 0 ≤ f n → f n ∈ ([n].map f).filter (fun b => decide (0 ≤ b)) := by
      intro h0
      rw [List.mem_filter]
      exact ⟨by simp, by simpa using h0⟩
    intro i j hi hj h0 heq
    rcases Nat.lt_succ_iff_lt_or_eq.mp hi with hi | hi <;>
      rcases Nat.lt_succ_iff_lt_or_eq.mp hj with hj | hj
    · exact ih h1 i j hi hj h0 heq
    · subst hj
      exact absurd (hlast (heq ▸ h0)) (heq ▸ h3 (hmem i hi h0))
    · subst hi
      exact absurd (hlast h0) (heq ▸ h3 (hmem j hj (heq ▸ h0)))
    · rw [hi, hj]

theorem mb_block_frame (t u : Vp3DecodeContext) (h : ModeFrame t u) (m j : Nat) :
    mb_block u m j = mb_block t m j := by
  unfold mb_block
  rw [h.1]

theorem set_macroblock_mode_spec (t s : Vp3DecodeContext) (m mode : Nat) (h : ModeFrame t s) :
    ModeFrame t (set_macroblock_mode s m mode) ∧
    (∀ b, (∀ j, j < 4 → b ≠ mb_block t m j) →
      (set_macroblock_mode s m mode).blocks b = s.blocks b) ∧
    ∀ j, j < 4 → ((set_macroblock_mode s m mode).blocks (mb_block t m j)).mb_mode = mode % 256 := by
  obtain ⟨f1, f2, f3⟩ := foldl_establish
    (fun (u : Vp3DecodeContext) j =>
      { u with blocks := Function.update u.blocks (mb_block u m j)
                 ({ u.blocks (mb_block u m j) with mb_mode := mode % 256 }) })
    (fun u => ModeFrame t u ∧ ∀ b, (∀ j, j < 4 → b ≠ mb_block t m j) → u.blocks b = s.blocks b)
    (fun (c : Int) (u : Vp3DecodeContext) => (u.blocks c).mb_mode = mode % 256)
    (fun j c => c = mb_block t m j) (List.range 4)
    (by
      intro u j hj ⟨hu, hk⟩
      rw [List.mem_range] at hj
      have e := mb_block_frame t u hu m j
      dsimp only
      rw [e]
      refine ⟨⟨⟨?_, ?_⟩, ?_⟩, ?_, ?_⟩
      · have := hu.1
        simp only
        rw [this]
      · intro b
        simp only
        by_cases hb : b = mb_block t m j
        · rw [hb, Function.update_same]
          exact hu.2 _
        · rw [Function.update_noteq hb]
          exact hu.2 b
      · intro b hb
        rw [Function.update_noteq (hb j hj)]
        exact hk b hb
      · intro c hc
        by_cases hb : c = mb_block t m j
        · rw [hb, Function.update_same]
        · rw [Function.update_noteq hb]
          exact hc
      · intro c hc
        rw [hc, Function.update_same])
    s ⟨h, fun _ _ => rfl⟩
  unfold set_macroblock_mode
  refine ⟨f1.1, f1.2, ?_⟩
  intro j hj
  exact f3 j (List.mem_range.mpr hj) _ rfl

theorem unpack_mode_frame (mode_vlc : VLC) (scheme : Nat) (mode_tbl : Nat → Nat)
    (t : Vp3DecodeContext) (st : ModeState) (m : Nat) (h : ModeFrame t st.s) :
    ModeFrame t (unpack_mode mode_vlc scheme mode_tbl st m).s ∧
    ((unpack_mode mode_vlc scheme mode_tbl st m).s.blocks ≠ st.s.blocks →
      0 ≤ mb_block t m 0) ∧
    ∀ b, (∀ j, j < 4 → b ≠ mb_block t m j) →
      (unpack_mode mode_vlc scheme mode_tbl st m).s.blocks b = st.s.blocks b := by
  have e := mb_block_frame t st.s h m 0
  simp only [unpack_mode, e]
  by_cases h0 : mb_block t m 0 < 0
  · rw [if_pos h0]
    exact ⟨h, fun hne => absurd rfl hne, fun _ _ => rfl⟩
  · rw [if_neg h0]
    by_cases h1 : mb_coded st.s m = false
    · rw [if_pos h1]
      exact ⟨h, fun hne => absurd rfl hne, fun _ _ => rfl⟩
    · rw [if_neg h1]
      obtain ⟨g1, g2, -⟩ := set_macroblock_mode_spec t st.s m
        (if scheme = 7 then get_bits st.gb 3
         else (mode_tbl (get_vlc2 st.gb mode_vlc).1, (get_vlc2 st.gb mode_vlc).2)).1 h
      exact ⟨g1, fun _ => not_lt.mp h0, g2⟩

theorem unpack_mode_uncoded (mode_vlc : VLC) (scheme : Nat) (mode_tbl : Nat → Nat)
    (t : Vp3DecodeContext) (st : ModeState) (m : Nat) (h : ModeFrame t st.s)
    (hunc : ∀ j, j < 4 → (t.blocks (mb_block t m j)).coded = 0) :
    unpack_mode mode_vlc scheme mode_tbl st m = st := by
  have hc : mb_coded st.s m = false := by
    unfold mb_coded
    rw [List.any_eq_false]
    intro j hj
    rw [List.mem_range] at hj
    rw [mb_block_frame t st.s h, h.2, hunc j hj]
    simp
  simp only [unpack_mode]
  rw [if_pos hc]
  split_ifs <;> rfl

theorem modes_upto_succ (mode_vlc : VLC) (s : Vp3DecodeContext) (gb : GetBitContext) (n : Nat) :
    modes_upto mode_vlc s gb (n + 1) =
      unpack_mode mode_vlc (mode_scheme gb) (mode_alphabet gb).1 (modes_upto mode_vlc s gb n) n := by
  unfold modes_upto
  rw [List.range_succ, List.foldl_append]
  rfl

theorem modes_upto_frame (mode_vlc : VLC) (s : Vp3DecodeContext) (gb : GetBitContext) (n : Nat) :
    ModeFrame s (modes_upto mode_vlc s gb n).s := by
  induction n with
  | zero => exact ⟨rfl, fun _ => rfl⟩
  | succ n ih =>
    rw [modes_upto_succ]
    exact (unpack_mode_frame mode_vlc _ _ s _ n ih).1

/-- C12: on an inter frame, a luma macroblock without a coded block keeps
`MODE_INTER_NO_MV` and costs no bits. Let `unpack_block_coding` return 0 on a
context whose luma `all_blocks` names no block twice and covers the
`block_width[0] * block_height[0]` luma blocks (as after `vp3_decode_init`), and
let `m` be a luma macroblock (four existing blocks `all_blocks[0][4m .. 4m+3]`)
none of whose blocks is coded. Then after `unpack_modes` all four blocks have
`mb_mode = MODE_INTER_NO_MV`, and the loop iteration of `unpack_modes` for `m`
leaves the whole state, the bit reader included, as it was. -/
theorem unpack_modes_uncoded_macroblock (s : Vp3DecodeContext) (gb : GetBitContext)
    (table frag mode_vlc : VLC) (r : Vp3DecodeContext × GetBitContext) (m : Nat)
    (hnd : (plane_blocks s 0).Nodup)
    (hcover : s.block_width 0 * s.block_height 0 ≤ 16 * s.superblock_count 0)
    (h : unpack_block_coding s gb table frag = Ret.done r)
    (hm : m < 4 * s.superblock_count 0)
    (hex : ∀ j, j < 4 → 0 ≤ mb_block s m j)
    (hunc : ∀ j, j < 4 → (r.1.blocks (mb_block s m j)).coded = 0) :
    (∀ j, j < 4 →
      ((unpack_modes mode_vlc r.1 r.2).1.blocks (mb_block s m j)).mb_mode = MODE_INTER_NO_MV) ∧
    modes_upto mode_vlc r.1 r.2 (m + 1) = modes_upto mode_vlc r.1 r.2 m := by
  obtain ⟨e1, e2, e3, e4, hmode⟩ := unpack_block_coding_modes s gb table frag r h
  have emb : ∀ k j, mb_block r.1 k j = mb_block s k j := by
    intro k j
    unfold mb_block
    rw [e1, e2]
  have hunc2 : ∀ j, j < 4 → (r.1.blocks (mb_block r.1 m j)).coded = 0 := by
    intro j hj
    rw [emb]
    exact hunc j hj
  have hinj := nodup_entries_injective (fun k => s.all_blocks (s.all_blocks_off 0 + k))
    (16 * s.superblock_count 0) hnd
  refine ⟨?_, ?_⟩
  · intro j hj
    have key : ∀ n, n ≤ s.block_width 0 * s.block_height 0 / 4 →
        ((modes_upto mode_vlc r.1 r.2 n).s.blocks (mb_block s m j)).mb_mode = 0 := by
      intro n
      induction n with
      | zero =>
        intro _
        exact hmode 0 (by omega) (4 * m + j) (by omega) (hex j hj)
      | succ n ih =>
        intro hn
        rw [modes_upto_succ]
        have hf := modes_upto_frame mode_vlc r.1 r.2 n
        by_cases hnm : n = m
        · rw [hnm, unpack_mode_uncoded mode_vlc _ _ r.1 _ m (hnm ▸ hf) hunc2]
          exact hnm ▸ ih (by omega)
        · rw [(unpack_mode_frame mode_vlc _ _ r.1 _ n hf).2.2]
          · exact ih (by omega)
          · intro j2 hj2 heq
            rw [emb] at heq
            have := hinj (4 * m + j) (4 * n + j2) (by omega) (by omega) (hex j hj) heq
            omega
    have := key _ (le_refl _)
    unfold unpack_modes
    simp only [e3, e4]
    exact this
  · rw [modes_upto_succ]
    exact unpack_mode_uncoded mode_vlc _ _ r.1 _ m (modes_upto_frame mode_vlc r.1 r.2 m) hunc2

set_option maxRecDepth 100000 in
/-- Witness for C12: the 32x16 frame, macroblock 0 without a coded block. -/
theorem unpack_modes_uncoded_macroblock_witness :
    (plane_blocks example_frame 0).Nodup ∧
    ∃ r, unpack_block_coding example_frame example_uncoded_bits example_vlc example_vlc
        = Ret.done r ∧
      (∀ j, j < 4 → (r.1.blocks (mb_block example_frame 0 j)).coded = 0) ∧
      (∀ j, j < 4 → ((unpack_modes example_vlc r.1 r.2).1.blocks
        (mb_block example_frame 0 j)).mb_mode = MODE_INTER_NO_MV) :=
  ⟨by decide, _, rfl, by decide,
   (unpack_modes_uncoded_macroblock example_frame example_uncoded_bits example_vlc example_vlc
      example_vlc _ 0 (by decide) (by decide) rfl (by decide) (by decide) (by decide)).1⟩

set_option maxRecDepth 100000 in
/-- C20, the code at the failing input: on the 32x16 inter frame with every
block coded, the macroblock in Hilbert slot 3 exists and is coded, but the loop
of `unpack_modes` runs over the slots 0 and 1 only
(`num_macroblocks = 4 * 2 / 4 = 2`): it reads the mode code of macroblock 0 and
returns, the four blocks of macroblock 3 keep `mb_mode` 0. Had the loop gone
on to slot 3, it would have read three more bits and stored mode 7 there. -/
theorem unpack_modes_skips_macroblock :
    ∃ r, unpack_block_coding example_frame example_mode_bits example_vlc example_vlc
        = Ret.done r ∧
      0 ≤ mb_block r.1 3 0 ∧ (r.1.blocks (mb_block r.1 3 0)).coded ≠ 0 ∧
      r.1.block_width 0 * r.1.block_height 0 / 4 = 2 ∧
      (unpack_modes example_vlc r.1 r.2).2.index = (modes_upto example_vlc r.1 r.2 1).gb.index ∧
      (∀ j, j < 4 →
        ((unpack_modes example_vlc r.1 r.2).1.blocks (mb_block r.1 3 j)).mb_mode = 0) ∧
      (modes_upto example_vlc r.1 r.2 4).gb.index = (unpack_modes example_vlc r.1 r.2).2.index + 3 ∧
      ((modes_upto example_vlc r.1 r.2 4).s.blocks (mb_block r.1 3 0)).mb_mode = 7 :=
  ⟨_, rfl, by decide, by decide, by decide, by decide, by decide, by decide, by decide⟩

set_option maxRecDepth 100000 in
/-- C16, the code at the failing input: on the 32x16 frame (3 superblocks) the
first pass marks superblock 0 partially coded and leaves two; the second pass
then reads a run of 3. The test `i > s->num_superblocks` lets `i = 3` through:
`superblock_coding[0][3]`, one past the last superblock, is read, and as it
holds 0 it is written (FULLY_CODED) and the passes complete without -1. With a
non-zero byte at that index the same bits give -1. -/
theorem sb_full_pass_overrun :
    example_frame.num_superblocks = 3 ∧
    example_frame.superblock_coding (example_frame.superblock_coding_off 0 + 3) = 0 ∧
    (∃ c, unpack_superblock_coding example_frame example_overrun_bits example_vlc = Ret.done c ∧
      c.s.superblock_coding (c.s.superblock_coding_off 0 + 3) = 2) ∧
    unpack_superblock_coding example_frame_nonzero example_overrun_bits example_vlc = Ret.fail :=
  ⟨by decide, by decide, ⟨_, rfl, by decide⟩, rfl⟩

set_option maxRecDepth 100000 in
/-- C17, the code at the failing input: with 3 coded blocks and a run of 4 at
level 0, the test `i > num_coded_blocks` lets `i = 3` through:
`coded_blocks[0][3]`, behind the list, is read; it names block 7, whose `qpi`
is 0, so the run is completed on it (its `qpi` becomes 1) and the function
returns 0. When that block's `qpi` is not 0 the same bits give -1. -/
theorem qpi_run_overrun :
    num_coded example_inter_context 0 0 + num_coded example_inter_context 1 0 +
      num_coded example_inter_context 2 0 = 3 ∧
    coded_block example_inter_context 3 = 7 ∧
    (example_inter_context.blocks 7).qpi = 0 ∧
    (∃ r, unpack_block_qpis example_inter_context example_qpi_overrun_bits example_vlc
        = Ret.done r ∧ (r.1.blocks 7).qpi = 1) ∧
    unpack_block_qpis example_inter_stale example_qpi_overrun_bits example_vlc = Ret.fail :=
  ⟨by decide, by decide, by decide, ⟨_, rfl, by decide⟩, rfl⟩

/-- C18: the long-run code and the alternating bit. For a long-run table with
the 34 symbols 0..33 (`init_vlc(&s->superblock_run_length_vlc, ..., 34, ...)`):
the run length is the VLC value + 1, in [1, 33], when the value is at most 32,
and 34 plus the next 12 bits, in [34, 4129], when the value is 33. After a run
the next `bit` is read from the stream (one bit consumed) when the run length
is 4129, and is `bit ^ 1` with the reader untouched otherwise. Each of the
three loops (the first and second superblock pass of `unpack_block_coding`, the
level loop of `unpack_block_qpis`) goes on, or ends, with exactly that bit and
reader. -/
theorem long_run_decoding (table : VLC) (hv : ∀ gb, (get_vlc2 gb table).1 ≤ 33) :
    (∀ gb,
      ((get_vlc2 gb table).1 ≤ 32 →
        get_long_run gb table = ((get_vlc2 gb table).1 + 1, (get_vlc2 gb table).2) ∧
        1 ≤ (get_long_run gb table).1 ∧ (get_long_run gb table).1 ≤ 33) ∧
      ((get_vlc2 gb table).1 = 33 →
        get_long_run gb table = (34 + (get_bits (get_vlc2 gb table).2 12).1,
          (get_bits (get_vlc2 gb table).2 12).2) ∧
        34 ≤ (get_long_run gb table).1 ∧ (get_long_run gb table).1 ≤ 4129) ∧
      1 ≤ (get_long_run gb table).1 ∧ (get_long_run gb table).1 ≤ 4129) ∧
    (∀ bit run gb,
      (run = 4129 → next_run_bit bit run gb = get_bits1 gb ∧
        (next_run_bit bit run gb).1 = (if gb.buffer gb.index then 1 else 0) ∧
        (next_run_bit bit run gb).2.index = gb.index + 1) ∧
      (run ≠ 4129 → next_run_bit bit run gb = (bit ^^^ 1, gb))) ∧
    (∀ k s gb decoded npc bit,
      decoded + (get_long_run gb table).1 ≤ s.num_superblocks →
      sb_partial_runs table (k + 1) s gb decoded npc bit =
        if decoded + (get_long_run gb table).1 < s.num_superblocks then
          sb_partial_runs table k
            { s with superblock_coding := (memset s.superblock_coding (s.superblock_coding_off 0 + decoded) (1 * bit) (get_long_run gb table).1) }
            (next_run_bit bit (get_long_run gb table).1 (get_long_run gb table).2).2
            (decoded + (get_long_run gb table).1)
            (if bit ≠ 0 then npc + (get_long_run gb table).1 else npc)
            (next_run_bit bit (get_long_run gb table).1 (get_long_run gb table).2).1
        else
          Ret.done (⟨{ s with superblock_coding := (memset s.superblock_coding (s.superblock_coding_off 0 + decoded) (1 * bit) (get_long_run gb table).1) },
              (next_run_bit bit (get_long_run gb table).1 (get_long_run gb table).2).2,
              (next_run_bit bit (get_long_run gb table).1 (get_long_run gb table).2).1,
              (get_long_run gb table).1⟩,
            if bit ≠ 0 then npc + (get_long_run gb table).1 else npc)) ∧
    (∀ npc k s gb i decoded bit s1 i1,
      sb_full_run bit (s.num_superblocks + 1 - i) s i (get_long_run gb table).1 = some (s1, i1) →
      sb_full_runs table npc (k + 1) s gb i decoded bit =
        if ((decoded + (get_long_run gb table).1 : Nat) : Int) <
            (s.num_superblocks : Int) - (npc : Int) then
          sb_full_runs table npc k s1
            (next_run_bit bit (get_long_run gb table).1 (get_long_run gb table).2).2 i1
            (decoded + (get_long_run gb table).1)
            (next_run_bit bit (get_long_run gb table).1 (get_long_run gb table).2).1
        else
          Ret.done ⟨s1, (next_run_bit bit (get_long_run gb table).1 (get_long_run gb table).2).2,
            (next_run_bit bit (get_long_run gb table).1 (get_long_run gb table).2).1,
            (get_long_run gb table).1⟩) ∧
    (∀ (n num_blocks : Int) (qpi k : Nat) s gb (i : Nat) (decoded at_qpi : Int) (bit : Nat) s1 i1,
      qpi_run n qpi bit (n + 1 - (i : Int)).toNat s i (get_long_run gb table).1 = some (s1, i1) →
      qpi_runs table n num_blocks qpi (k + 1) s gb i decoded at_qpi bit =
        if decoded + ((get_long_run gb table).1 : Int) < num_blocks then
          qpi_runs table n num_blocks qpi k s1
            (next_run_bit bit (get_long_run gb table).1 (get_long_run gb table).2).2 i1
            (decoded + ((get_long_run gb table).1 : Int))
            (if bit = 0 then at_qpi + ((get_long_run gb table).1 : Int) else at_qpi)
            (next_run_bit bit (get_long_run gb table).1 (get_long_run gb table).2).1
        else
          Ret.done (s1, (next_run_bit bit (get_long_run gb table).1 (get_long_run gb table).2).2,
            if bit = 0 then at_qpi + ((get_long_run gb table).1 : Int) else at_qpi)) := by
  have hrun : ∀ gb,
      ((get_vlc2 gb table).1 ≤ 32 →
        get_long_run gb table = ((get_vlc2 gb table).1 + 1, (get_vlc2 gb table).2) ∧
        1 ≤ (get_long_run gb table).1 ∧ (get_long_run gb table).1 ≤ 33) ∧
      ((get_vlc2 gb table).1 = 33 →
        get_long_run gb table = (34 + (get_bits (get_vlc2 gb table).2 12).1,
          (get_bits (get_vlc2 gb table).2 12).2) ∧
        34 ≤ (get_long_run gb table).1 ∧ (get_long_run gb table).1 ≤ 4129) := by
    intro gb
    have hb := get_bits_lt (get_vlc2 gb table).2 12
    norm_num at hb
    constructor
    · intro h
      have e : get_long_run gb table = ((get_vlc2 gb table).1 + 1, (get_vlc2 gb table).2) := by
        simp only [get_long_run]
        rw [if_neg (by omega)]
      rw [e]
      exact ⟨rfl, by simp, by simpa using h⟩
    · intro h
      have e : get_long_run gb table = (34 + (get_bits (get_vlc2 gb table).2 12).1,
          (get_bits (get_vlc2 gb table).2 12).2) := by
        simp only [get_long_run]
        rw [if_pos (by omega), h]
      rw [e]
      exact ⟨rfl, by simp, by simp; omega⟩
  refine ⟨?_, ?_, ?_, ?_, ?_⟩
  · intro gb
    refine ⟨(hrun gb).1, (hrun gb).2, ?_⟩
    rcases Nat.lt_or_ge (get_vlc2 gb table).1 33 with h | h
    · obtain ⟨-, h1, h2⟩ := (hrun gb).1 (by omega)
      exact ⟨h1, by omega⟩
    · obtain ⟨-, h1, h2⟩ := (hrun gb).2 (le_antisymm (hv gb) h)
      exact ⟨by omega, h2⟩
  · intro bit run gb
    constructor
    · intro h
      have e : next_run_bit bit run gb = get_bits1 gb := by
        simp only [next_run_bit]
        rw [if_pos h]
      rw [e]
      exact ⟨rfl, rfl, rfl⟩
    · intro h
      simp only [next_run_bit]
      rw [if_neg h]
  · intro k s gb decoded npc bit h
    rw [sb_partial_runs]
    simp only [next_run_bit]
    rw [if_neg (by omega)]
  · intro npc k s gb i decoded bit s1 i1 h
    rw [sb_full_runs]
    simp only [h, next_run_bit]
  · intro n num_blocks qpi k s gb i decoded at_qpi bit s1 i1 h
    rw [qpi_runs]
    simp only [h, next_run_bit]

/-- Witness for C18: a table with the 34 symbols on a stream of 1-bits; the run
read is the longest one, 4129. -/
theorem long_run_decoding_witness :
    (∀ gb, (get_vlc2 gb example_long_vlc).1 ≤ 33) ∧
    (get_long_run example_ones example_long_vlc).1 = 4129 ∧
    (1 ≤ (get_long_run example_ones example_long_vlc).1 ∧
      (get_long_run example_ones example_long_vlc).1 ≤ 4129) :=
  ⟨fun _ => Nat.min_le_right _ _, by decide,
   ((long_run_decoding example_long_vlc (fun _ => Nat.min_le_right _ _)).1 example_ones).2.2⟩

/-! ## Dequantizer set-up: the range of the entries -/

theorem av_clip_range (a amin amax : Int) (h : amin ≤ amax) :
    amin ≤ av_clip a amin amax ∧ av_clip a amin amax ≤ amax := by
  unfold av_clip
  split_ifs <;> omega

theorem qmin_le (inter i : Nat) (h : inter < 2) :
    ((8 <<< (inter + (if i = 0 then 1 else 0)) : Nat) : Int) ≤ 4096 := by
  interval_cases inter <;> split_ifs <;> decide

theorem dequant_coeff_range (s : Vp3DecodeContext) (qpi inter plane i : Nat) (h : inter < 2) :
    ((8 <<< (inter + (if i = 0 then 1 else 0)) : Nat) : Int) ≤ dequant_coeff s qpi inter plane i ∧
      dequant_coeff s qpi inter plane i ≤ 4096 := by
  unfold dequant_coeff
  exact av_clip_range _ _ _ (qmin_le inter i h)

theorem coeff_stores_range (s0 : Vp3DecodeContext) (qpi inter plane : Nat) (h2 : inter < 2)
    (hinj : ∀ i, i < 64 → ∀ j, j < 64 → s0.idct_permutation i = s0.idct_permutation j → i = j)
    (t : Vp3DecodeContext) (ht : QmatOnly s0 t) :
    QmatOnly s0 ((List.range 64).foldl
      (fun (u : Vp3DecodeContext) i =>
        { u with qmat := qmat_set u.qmat plane inter qpi (u.idct_permutation i)
                           (dequant_coeff u qpi inter plane i) }) t) ∧
    ∀ i, i < 64 →
      ((8 <<< (inter + (if i = 0 then 1 else 0)) : Nat) : Int) ≤
        ((List.range 64).foldl
          (fun (u : Vp3DecodeContext) i =>
            { u with qmat := qmat_set u.qmat plane inter qpi (u.idct_permutation i)
                               (dequant_coeff u qpi inter plane i) }) t).qmat plane inter qpi
          (s0.idct_permutation i) ∧
      ((List.range 64).foldl
          (fun (u : Vp3DecodeContext) i =>
            { u with qmat := qmat_set u.qmat plane inter qpi (u.idct_permutation i)
                               (dequant_coeff u qpi inter plane i) }) t).qmat plane inter qpi
          (s0.idct_permutation i) ≤ 4096 := by
  obtain ⟨f1, -, f3⟩ := foldl_establish
    (fun (u : Vp3DecodeContext) i =>
      { u with qmat := qmat_set u.qmat plane inter qpi (u.idct_permutation i)
                         (dequant_coeff u qpi inter plane i) })
    (QmatOnly s0)
    (fun (c : Nat) (u : Vp3DecodeContext) => c < 64 →
      ((8 <<< (inter + (if c = 0 then 1 else 0)) : Nat) : Int) ≤
          u.qmat plane inter qpi (s0.idct_permutation c) ∧
        u.qmat plane inter qpi (s0.idct_permutation c) ≤ 4096)
    (fun x c => c = x) (List.range 64)
    (by
      intro u x hx hu
      rw [List.mem_range] at hx
      have eperm : u.idct_permutation = s0.idct_permutation := by rw [hu]
      dsimp only
      rw [eperm]
      refine ⟨?_, ?_, ?_⟩
      · unfold QmatOnly at hu ⊢
        simp only
        rw [hu]
      · intro c hc hc64
        by_cases hcx : c = x
        · subst hcx
          simp only [qmat_set, and_self, if_true]
          exact dequant_coeff_range u qpi inter plane c h2
        · have hne : s0.idct_permutation c ≠ s0.idct_permutation x :=
            fun e => hcx (hinj c hc64 x hx e)
          simp only [qmat_set, hne, and_false, if_false]
          exact hc hc64
      · intro c hc _
        subst hc
        simp only [qmat_set, and_self, if_true]
        exact dequant_coeff_range u qpi inter plane c h2)
    t ht
  exact ⟨f1, fun i hi => f3 i (List.mem_range.mpr hi) i rfl hi⟩

theorem init_dequantizer_plane_range (s0 : Vp3DecodeContext) (qpi inter plane : Nat)
    (h2 : inter < 2)
    (hinj : ∀ i, i < 64 → ∀ j, j < 64 → s0.idct_permutation i = s0.idct_permutation j → i = j)
    (h0 : s0.idct_permutation 0 = 0) (t : Vp3DecodeContext) (ht : QmatOnly s0 t) :
    QmatOnly s0 (init_dequantizer_plane t qpi inter plane) ∧
    (∀ c, RowRange qpi s0.idct_permutation c t →
      RowRange qpi s0.idct_permutation c (init_dequantizer_plane t qpi inter plane)) ∧
    RowRange qpi s0.idct_permutation (plane, inter) (init_dequantizer_plane t qpi inter plane) := by
  obtain ⟨g1, g2⟩ := coeff_stores_range s0 qpi inter plane h2 hinj t ht
  have hfr := init_dequantizer_plane_frame t qpi inter plane
  have hrow : RowRange qpi s0.idct_permutation (plane, inter)
      (init_dequantizer_plane t qpi inter plane) := by
    unfold init_dequantizer_plane
    simp only
    generalize (List.range 64).foldl
      (fun (u : Vp3DecodeContext) i =>
        { u with qmat := qmat_set u.qmat plane inter qpi (u.idct_permutation i)
                           (dequant_coeff u qpi inter plane i) }) t = u at g1 g2
    constructor
    · intro i hi1 hi64
      have hne : s0.idct_permutation i ≠ 0 := by
        intro e
        have := hinj i hi64 0 (by omega) (e.trans h0.symm)
        omega
      simp only [qmat_set, hne, and_false, if_false]
      have := g2 i hi64
      rw [if_neg (by omega), Nat.add_zero] at this
      exact this
    · intro hq
      subst hq
      simp only [qmat_set, and_self, if_true]
      have := g2 0 (by omega)
      rw [h0, if_pos rfl] at this
      have e : (8 <<< (inter + 1) : Nat) = (16 <<< inter : Nat) := by
        interval_cases inter <;> rfl
      rw [e] at this
      exact this
  refine ⟨?_, ?_, hrow⟩
  · unfold init_dequantizer_plane
    unfold QmatOnly at g1 ⊢
    simp only
    rw [g1]
  · intro c hc
    by_cases hcp : c = (plane, inter)
    · rw [hcp]
      exact hrow
    · have hne : c.1 ≠ plane ∨ c.2 ≠ inter ∨ qpi ≠ qpi := by
        by_cases h1 : c.1 = plane
        · right
          left
          intro h3
          exact hcp (Prod.ext h1 h3)
        · exact Or.inl h1
      have hne0 : c.1 ≠ plane ∨ c.2 ≠ inter ∨ 0 ≠ qpi := by
        rcases hne with h | h | h
        · exact Or.inl h
        · exact Or.inr (Or.inl h)
        · exact absurd rfl h
      constructor
      · intro i hi1 hi64
        rw [hfr.2.2.2 c.1 c.2 qpi _ hne]
        exact hc.1 i hi1 hi64
      · intro hq
        rw [hfr.2.2.2 c.1 c.2 0 0 hne0]
        exact hc.2 hq

/-- The entries one call writes. With `idct_permutation` one to one on 0..63
and fixing 0, after `init_dequantizer(s, qpi)`, for every plane and `inter`:
every AC entry `qmat[plane][inter][qpi][idct_permutation[i]]`, `i` in 1..63,
lies in `[8 << inter, 4096]`; the DC entry of level `qpi` is
`qmat[plane][inter][0][0]`; that entry lies in `[16 << inter, 4096]` when
`qpi` is 0, and for `qpi >= 1` the call leaves it as it was. -/
theorem init_dequantizer_row_ranges (s : Vp3DecodeContext) (qpi : Nat)
    (hinj : ∀ i, i < 64 → ∀ j, j < 64 → s.idct_permutation i = s.idct_permutation j → i = j)
    (h0 : s.idct_permutation 0 = 0) :
    ∀ plane, plane < 3 → ∀ inter, inter < 2 →
      (∀ i, 1 ≤ i → i < 64 →
        ((8 <<< inter : Nat) : Int) ≤
            (init_dequantizer s qpi).qmat plane inter qpi (s.idct_permutation i) ∧
          (init_dequantizer s qpi).qmat plane inter qpi (s.idct_permutation i) ≤ 4096) ∧
      (init_dequantizer s qpi).qmat plane inter qpi 0 =
        (init_dequantizer s qpi).qmat plane inter 0 0 ∧
      (qpi = 0 → ((16 <<< inter : Nat) : Int) ≤ (init_dequantizer s qpi).qmat plane inter 0 0 ∧
        (init_dequantizer s qpi).qmat plane inter 0 0 ≤ 4096) ∧
      (qpi ≠ 0 → (init_dequantizer s qpi).qmat plane inter 0 0 = s.qmat plane inter 0 0) := by
  intro plane hp inter hi
  have houter := foldl_establish
    (fun t inter => (List.range 3).foldl (fun u plane => init_dequantizer_plane u qpi inter plane) t)
    (QmatOnly s) (RowRange qpi s.idct_permutation)
    (fun inter c => c.1 < 3 ∧ c.2 = inter) (List.range 2)
    (by
      intro t x hx ht
      rw [List.mem_range] at hx
      obtain ⟨f1, f2, f3⟩ := foldl_establish
        (fun u plane => init_dequantizer_plane u qpi x plane)
        (QmatOnly s) (RowRange qpi s.idct_permutation)
        (fun plane c => c = (plane, x)) (List.range 3)
        (by
          intro u y _ hu
          obtain ⟨a1, a2, a3⟩ := init_dequantizer_plane_range s qpi x y hx hinj h0 u hu
          exact ⟨a1, a2, fun c hc => hc ▸ a3⟩)
        t ht
      refine ⟨f1, f2, ?_⟩
      rintro ⟨c1, c2⟩ ⟨hc1, hc2⟩
      exact f3 c1 (List.mem_range.mpr hc1) (c1, c2) (by rw [← hc2]))
    s rfl
  obtain ⟨-, -, g3⟩ := houter
  have hrow : RowRange qpi s.idct_permutation (plane, inter) (init_dequantizer s qpi) :=
    g3 inter (List.mem_range.mpr hi) (plane, inter) ⟨hp, rfl⟩
  exact ⟨hrow.1, init_dequantizer_dc s qpi plane inter hp hi, hrow.2,
    fun hq => (init_dequantizer_other s qpi).2.2.2 plane inter 0 0 (Ne.symm hq)⟩

theorem coeff_stores_permutation (qpi inter plane : Nat) (l : List Nat) (s : Vp3DecodeContext) :
    (l.foldl (fun (t : Vp3DecodeContext) i =>
      { t with qmat := qmat_set t.qmat plane inter qpi (t.idct_permutation i)
                         (dequant_coeff t qpi inter plane i) }) s).idct_permutation =
      s.idct_permutation := by
  induction l generalizing s with
  | nil => rfl
  | cons i l ih => rw [List.foldl_cons, ih]

theorem init_dequantizer_plane_permutation (s : Vp3DecodeContext) (qpi inter plane : Nat) :
    (init_dequantizer_plane s qpi inter plane).idct_permutation = s.idct_permutation := by
  unfold init_dequantizer_plane
  exact coeff_stores_permutation qpi inter plane (List.range 64) s

/-- `init_dequantizer` does not write `idct_permutation`. -/
theorem init_dequantizer_permutation (s : Vp3DecodeContext) (qpi : Nat) :
    (init_dequantizer s qpi).idct_permutation = s.idct_permutation := by
  rw [init_dequantizer_unroll]
  simp only [init_dequantizer_plane_permutation]

theorem read_qps_permutation (theora : Int) (k : Nat) (s : Vp3DecodeContext)
    (gb : GetBitContext) :
    (read_qps theora k s gb).1.idct_permutation = s.idct_permutation := by
  induction k generalizing s gb with
  | zero => rfl
  | succ k ih =>
    unfold read_qps
    simp only
    split_ifs
    · rw [ih]
    · rfl
    · rfl

/-- The contexts the loop over the levels goes through: when level 0 is not set
up again its DC entries are those of the frame before, and from the second pass
on the DC entries of level 0 are in range. -/
theorem reinit_loop_ranges (s0 s4 : Vp3DecodeContext)
    (hinj : ∀ i, i < 64 → ∀ j, j < 64 → s0.idct_permutation i = s0.idct_permutation j → i = j)
    (h0 : s0.idct_permutation 0 = 0)
    (hperm : s4.idct_permutation = s0.idct_permutation)
    (hdc : s4.qps 0 = s4.last_qps 0 → DcInRange s4) (n : Nat) :
    ((List.range n).foldl reinit_dequantizer s4).idct_permutation = s0.idct_permutation ∧
    ((List.range n).foldl reinit_dequantizer s4).qps = s4.qps ∧
    ((List.range n).foldl reinit_dequantizer s4).last_qps = s4.last_qps ∧
    ((List.range n).foldl reinit_dequantizer s4).nqps = s4.nqps ∧
    (1 ≤ n → DcInRange ((List.range n).foldl reinit_dequantizer s4)) := by
  induction n with
  | zero => exact ⟨hperm, rfl, rfl, rfl, fun h => absurd h (by omega)⟩
  | succ n ih =>
    obtain ⟨a1, a2, a3, a4, a5⟩ := ih
    rw [List.range_succ, List.foldl_append, List.foldl_cons, List.foldl_nil]
    have hstart : n = 0 → (List.range n).foldl reinit_dequantizer s4 = s4 := by
      intro e
      rw [e]
      rfl
    generalize (List.range n).foldl reinit_dequantizer s4 = t at a1 a2 a3 a4 a5 hstart
    unfold reinit_dequantizer
    rw [a2, a3]
    split_ifs with hc
    · obtain ⟨b1, b2, b3, _⟩ := init_dequantizer_other t n
      refine ⟨(init_dequantizer_permutation t n).trans a1, b1.trans a2, b2.trans a3,
        b3.trans a4, fun _ plane hp inter hi => ?_⟩
      obtain ⟨_, _, r3, r4⟩ := init_dequantizer_row_ranges t n (by rw [a1]; exact hinj)
        (by rw [a1]; exact h0) plane hp inter hi
      by_cases hn : n = 0
      · exact r3 hn
      · rw [r4 hn]
        exact a5 (by omega) plane hp inter hi
    · push_neg at hc
      refine ⟨a1, a2, a3, a4, fun _ => ?_⟩
      by_cases hn : n = 0
      · rw [hstart hn]
        exact hdc hc.2
      · exact a5 (by omega)

/-- A call for level `i` in a context whose DC entries of level 0 are in
range, unless `i` is 0, leaves the AC entries of the level and the DC entries
in range. -/
theorem init_dequantizer_in_range (s0 t : Vp3DecodeContext)
    (hinj : ∀ i, i < 64 → ∀ j, j < 64 → s0.idct_permutation i = s0.idct_permutation j → i = j)
    (h0 : s0.idct_permutation 0 = 0)
    (hperm : t.idct_permutation = s0.idct_permutation) (i : Nat)
    (hdc : i ≠ 0 → DcInRange t) :
    ∀ plane, plane < 3 → ∀ inter, inter < 2 →
      (∀ j, 1 ≤ j → j < 64 →
        ((8 <<< inter : Nat) : Int) ≤
            (init_dequantizer t i).qmat plane inter i (t.idct_permutation j) ∧
          (init_dequantizer t i).qmat plane inter i (t.idct_permutation j) ≤ 4096) ∧
      (((16 <<< inter : Nat) : Int) ≤ (init_dequantizer t i).qmat plane inter 0 0 ∧
        (init_dequantizer t i).qmat plane inter 0 0 ≤ 4096) ∧
      (init_dequantizer t i).qmat plane inter i 0 =
        (init_dequantizer t i).qmat plane inter 0 0 := by
  intro plane hp inter hin
  obtain ⟨r1, r2, r3, r4⟩ := init_dequantizer_row_ranges t i (by rw [hperm]; exact hinj)
    (by rw [hperm]; exact h0) plane hp inter hin
  refine ⟨r1, ?_, r2⟩
  by_cases hn : i = 0
  · exact r3 hn
  · rw [r4 hn]
    exact hdc hn plane hp inter hin

/-- Every call the loop over the levels makes leaves the AC entries of its
level and the DC entries in range. -/
theorem dequantizer_call_ranges (s0 s4 : Vp3DecodeContext)
    (hinj : ∀ i, i < 64 → ∀ j, j < 64 → s0.idct_permutation i = s0.idct_permutation j → i = j)
    (h0 : s0.idct_permutation 0 = 0)
    (hperm : s4.idct_permutation = s0.idct_permutation)
    (hdc : s4.qps 0 = s4.last_qps 0 → DcInRange s4)
    (c : Nat × Vp3DecodeContext) (hc : c ∈ dequantizer_calls s4) :
    c.1 < s4.nqps ∧ c.2.idct_permutation = s0.idct_permutation ∧
    ∀ plane, plane < 3 → ∀ inter, inter < 2 →
      (∀ j, 1 ≤ j → j < 64 →
        ((8 <<< inter : Nat) : Int) ≤
            (init_dequantizer c.2 c.1).qmat plane inter c.1 (c.2.idct_permutation j) ∧
          (init_dequantizer c.2 c.1).qmat plane inter c.1 (c.2.idct_permutation j) ≤ 4096) ∧
      (((16 <<< inter : Nat) : Int) ≤ (init_dequantizer c.2 c.1).qmat plane inter 0 0 ∧
        (init_dequantizer c.2 c.1).qmat plane inter 0 0 ≤ 4096) ∧
      (init_dequantizer c.2 c.1).qmat plane inter c.1 0 =
        (init_dequantizer c.2 c.1).qmat plane inter 0 0 := by
  unfold dequantizer_calls at hc
  rw [List.mem_filterMap] at hc
  obtain ⟨i, hi, hsome⟩ := hc
  rw [List.mem_range] at hi
  obtain ⟨a1, _, _, _, a5⟩ := reinit_loop_ranges s0 s4 hinj h0 hperm hdc i
  generalize (List.range i).foldl reinit_dequantizer s4 = t at a1 a5 hsome
  split_ifs at hsome with hcond
  have e : c = (i, t) := (Option.some.inj hsome).symm
  have hdc2 : i ≠ 0 → DcInRange t := fun hn => a5 (Nat.pos_of_ne_zero hn)
  have hres := init_dequantizer_in_range s0 t hinj h0 a1 i hdc2
  rw [e]
  dsimp only
  exact ⟨hi, a1, hres⟩

/-- The context at the loop over the levels, and the set-up as the loop run
from it. -/
theorem dequantizer_loop_start_spec (s : Vp3DecodeContext) (gb : GetBitContext) :
    (vp3_decode_frame_setup s gb = none ∧ dequantizer_loop_start s gb = none) ∨
    ∃ s4 r, dequantizer_loop_start s gb = some s4 ∧ vp3_decode_frame_setup s gb = some r ∧
      r.1 = (List.range s4.nqps).foldl reinit_dequantizer s4 ∧
      s4.idct_permutation = s.idct_permutation ∧ s4.qmat = s.qmat ∧
      (∀ k, k < 3 → s4.last_qps k = s.qps k) ∧
      (∀ k, k < s4.nqps → s4.qps k ≠ -1) ∧
      (∀ k, s4.nqps ≤ k → k < 3 → s4.qps k = -1) := by
  by_cases hrej : s.theora ≠ 0 ∧ (if s.theora ≠ 0 then get_bits1 gb else (0, gb)).1 ≠ 0
  · left
    unfold vp3_decode_frame_setup dequantizer_loop_start
    simp only
    rw [if_pos hrej, if_pos hrej]
    exact ⟨rfl, rfl⟩
  · right
    obtain ⟨gb1, hgb1⟩ : ∃ g, g = (if s.theora = 0 then
        skip_bits (get_bits1 (if s.theora ≠ 0 then get_bits1 gb else (0, gb)).2).2 1
        else (get_bits1 (if s.theora ≠ 0 then get_bits1 gb else (0, gb)).2).2) := ⟨_, rfl⟩
    obtain ⟨sk, hkf⟩ : ∃ u : Vp3DecodeContext, u = { s with keyframe :=
        ((get_bits1 (if s.theora ≠ 0 then get_bits1 gb else (0, gb)).2).1 = 0) } := ⟨_, rfl⟩
    have e1 : dequantizer_loop_start s gb = some (clear_unused_qps
        (read_qps (save_last_qps sk).theora 3 { save_last_qps sk with nqps := 0 } gb1).1) := by
      unfold dequantizer_loop_start
      simp only
      rw [if_neg hrej, hgb1, hkf]
    have e2 : vp3_decode_frame_setup s gb = some (setup_dequantizers sk gb1) := by
      unfold vp3_decode_frame_setup
      simp only
      rw [if_neg hrej, hgb1, hkf]
    have k1 : sk.idct_permutation = s.idct_permutation := by rw [hkf]
    have k2 : sk.qmat = s.qmat := by rw [hkf]
    have k3 : sk.qps = s.qps := by rw [hkf]
    obtain ⟨q1, q2, _, _, q5⟩ := read_qps_spec (save_last_qps sk).theora 3
      { save_last_qps sk with nqps := 0 } gb1
    have q0 := read_qps_permutation (save_last_qps sk).theora 3
      { save_last_qps sk with nqps := 0 } gb1
    have e3 : (setup_dequantizers sk gb1).1 =
        (List.range (clear_unused_qps (read_qps (save_last_qps sk).theora 3
          { save_last_qps sk with nqps := 0 } gb1).1).nqps).foldl reinit_dequantizer
          (clear_unused_qps (read_qps (save_last_qps sk).theora 3
            { save_last_qps sk with nqps := 0 } gb1).1) := rfl
    generalize read_qps (save_last_qps sk).theora 3 { save_last_qps sk with nqps := 0 } gb1 = rq
      at q0 q1 q2 q5 e1 e3
    refine ⟨clear_unused_qps rq.1, setup_dequantizers sk gb1, e1, e2, e3, ?_, ?_, ?_, ?_, ?_⟩
    · show rq.1.idct_permutation = s.idct_permutation
      rw [q0]
      exact k1
    · show rq.1.qmat = s.qmat
      rw [q1]
      exact k2
    · intro k hk
      show rq.1.last_qps k = s.qps k
      rw [q2, ← k3]
      simp [save_last_qps, hk]
    · intro k hk
      have hk2 : k < rq.1.nqps := hk
      show (if rq.1.nqps ≤ k ∧ k < 3 then -1 else rq.1.qps k) ≠ -1
      rw [if_neg (by omega)]
      exact q5 k (Nat.zero_le _) hk2
    · intro k hk hk3
      have hk2 : rq.1.nqps ≤ k := hk
      show (if rq.1.nqps ≤ k ∧ k < 3 then -1 else rq.1.qps k) = -1
      rw [if_pos ⟨hk2, hk3⟩]

/-- What the loop start inherits from a context that is ready. -/
theorem loop_start_ready (s0 s s4 : Vp3DecodeContext) (hr : DcReady s0 s)
    (h2 : s4.idct_permutation = s.idct_permutation) (h3 : s4.qmat = s.qmat)
    (h4 : ∀ k, k < 3 → s4.last_qps k = s.qps k) (h5 : ∀ k, k < s4.nqps → s4.qps k ≠ -1)
    (hn : 0 < s4.nqps) :
    s4.idct_permutation = s0.idct_permutation ∧ (s4.qps 0 = s4.last_qps 0 → DcInRange s4) := by
  refine ⟨h2.trans hr.1, fun he => ?_⟩
  have hq : s.qps 0 ≠ -1 := by
    rw [← h4 0 (by omega), ← he]
    exact h5 0 hn
  intro plane hp inter hi
  rw [h3]
  exact hr.2 hq plane hp inter hi

/-- An accepted frame leaves a context that is ready. -/
theorem frame_setup_ready (s0 s : Vp3DecodeContext) (gb : GetBitContext)
    (hinj : ∀ i, i < 64 → ∀ j, j < 64 → s0.idct_permutation i = s0.idct_permutation j → i = j)
    (h0 : s0.idct_permutation 0 = 0) (hr : DcReady s0 s)
    (r : Vp3DecodeContext × GetBitContext) (h : vp3_decode_frame_setup s gb = some r) :
    DcReady s0 r.1 := by
  rcases dequantizer_loop_start_spec s gb with ⟨hnone, _⟩ | ⟨s4, r2, _, h1, h1b, h2, h3, h4, h5, h6⟩
  · rw [hnone] at h
    cases h
  · rw [h1] at h
    cases h
    rw [h1b]
    by_cases hn : 0 < s4.nqps
    · obtain ⟨p1, p2⟩ := loop_start_ready s0 s s4 hr h2 h3 h4 h5 hn
      obtain ⟨a1, _, _, _, a5⟩ := reinit_loop_ranges s0 s4 hinj h0 p1 p2 s4.nqps
      exact ⟨a1, fun _ => a5 hn⟩
    · have e : s4.nqps = 0 := by omega
      rw [e]
      refine ⟨h2.trans hr.1, fun hq => ?_⟩
      exact absurd (h6 0 (by omega) (by omega)) hq

theorem decode_frames_ready (s0 s : Vp3DecodeContext) (packets : List GetBitContext)
    (hinj : ∀ i, i < 64 → ∀ j, j < 64 → s0.idct_permutation i = s0.idct_permutation j → i = j)
    (h0 : s0.idct_permutation 0 = 0) (hr : DcReady s0 s) :
    DcReady s0 (decode_frames s packets) := by
  induction packets generalizing s with
  | nil => exact hr
  | cons gb rest ih =>
    unfold decode_frames
    rw [List.foldl_cons]
    apply ih
    cases h : vp3_decode_frame_setup s gb with
    | none => exact hr
    | some r => exact frame_setup_ready s0 s gb hinj h0 hr r h

/-- C19: the range of the dequantizer entries after every call of
`init_dequantizer` that the decoder makes. From the state left by
`vp3_decode_init` (all quality indices -1), with `idct_permutation` one to one
on 0..63 and fixing 0, for any sequence of packets and a further packet: the
set-up of `vp3_decode_frame` is its loop over the levels run from the context
at the loop, and after every call `init_dequantizer(s, qpi)` of that loop, for
every plane and `inter`, every AC entry
`qmat[plane][inter][qpi][idct_permutation[i]]`, `i` in 1..63, lies in
`[8 << inter, 4096]`, the DC entry `qmat[plane][inter][0][0]` lies in
`[16 << inter, 4096]`, and the DC entry of level `qpi` equals it; the scale
factors, ranges and base matrices are arbitrary. -/
theorem dequantizer_calls_in_range (s0 : Vp3DecodeContext)
    (hinit : ∀ k, k < 3 → s0.qps k = -1)
    (hinj : ∀ i, i < 64 → ∀ j, j < 64 → s0.idct_permutation i = s0.idct_permutation j → i = j)
    (h0 : s0.idct_permutation 0 = 0)
    (packets : List GetBitContext) (gb : GetBitContext) :
    (∀ r, vp3_decode_frame_setup (decode_frames s0 packets) gb = some r →
      ∃ s4, dequantizer_loop_start (decode_frames s0 packets) gb = some s4 ∧
        r.1 = (List.range s4.nqps).foldl reinit_dequantizer s4) ∧
    ∀ s4, dequantizer_loop_start (decode_frames s0 packets) gb = some s4 →
      ∀ (k : Nat) (c : Nat × Vp3DecodeContext), (dequantizer_calls s4)[k]? = some c →
        c.1 < s4.nqps ∧ c.2.idct_permutation = s0.idct_permutation ∧
        ∀ plane, plane < 3 → ∀ inter, inter < 2 →
          (∀ j, 1 ≤ j → j < 64 →
            ((8 <<< inter : Nat) : Int) ≤
                (init_dequantizer c.2 c.1).qmat plane inter c.1 (c.2.idct_permutation j) ∧
              (init_dequantizer c.2 c.1).qmat plane inter c.1 (c.2.idct_permutation j)
                ≤ 4096) ∧
          (((16 <<< inter : Nat) : Int) ≤ (init_dequantizer c.2 c.1).qmat plane inter 0 0 ∧
            (init_dequantizer c.2 c.1).qmat plane inter 0 0 ≤ 4096) ∧
          (init_dequantizer c.2 c.1).qmat plane inter c.1 0 =
            (init_dequantizer c.2 c.1).qmat plane inter 0 0 := by
  have hready : DcReady s0 (decode_frames s0 packets) :=
    decode_frames_ready s0 s0 packets hinj h0
      ⟨rfl, fun hq => absurd (hinit 0 (by omega)) hq⟩
  rcases dequantizer_loop_start_spec (decode_frames s0 packets) gb with
    ⟨hnone, hnone2⟩ | ⟨s4, r2, h1, h1a, h1b, h2, h3, h4, h5, _⟩
  · refine ⟨fun r hr => ?_, fun s4 hs => ?_⟩
    · rw [hnone] at hr
      cases hr
    · rw [hnone2] at hs
      cases hs
  · refine ⟨fun r hr => ?_, fun s5 hs k c hc => ?_⟩
    · rw [h1a] at hr
      cases hr
      exact ⟨s4, h1, h1b⟩
    · rw [h1] at hs
      cases hs
      have hmem := List.getElem?_mem hc
      have hn : 0 < s4.nqps := by
        unfold dequantizer_calls at hmem
        rw [List.mem_filterMap] at hmem
        obtain ⟨i, hi, _⟩ := hmem
        rw [List.mem_range] at hi
        omega
      obtain ⟨p1, p2⟩ := loop_start_ready s0 _ s4 hready h2 h3 h4 h5 hn
      exact dequantizer_call_ranges s0 s4 hinj h0 p1 p2 c hmem

set_option maxRecDepth 100000 in
/-- Witness for C19: a frame with the quality index 10, then a frame with the
indices 10 and 20. In the second frame level 0 is not set up again and the only
call is `init_dequantizer(s, 1)`; the DC entry `qmat[0][0][0][0]` is the one
the first frame left. -/
theorem dequantizer_calls_in_range_witness :
    (∀ k, k < 3 → example_context.qps k = -1) ∧
    (∀ i, i < 64 → ∀ j, j < 64 →
      example_context.idct_permutation i = example_context.idct_permutation j → i = j) ∧
    example_context.idct_permutation 0 = 0 ∧
    ∃ s4 c, dequantizer_loop_start (decode_frames example_context [example_packet_one])
        example_packet = some s4 ∧
      (dequantizer_calls s4)[0]? = some c ∧ (dequantizer_calls s4).length = 1 ∧ c.1 = 1 ∧
      ((16 <<< 0 : Nat) : Int) ≤ (init_dequantizer c.2 c.1).qmat 0 0 0 0 ∧
      (init_dequantizer c.2 c.1).qmat 0 0 0 0 ≤ 4096 :=
  ⟨fun _ _ => rfl, fun _ _ _ _ h => h, rfl, _, _, rfl, rfl, rfl, rfl,
   ((dequantizer_calls_in_range example_context (fun _ _ => rfl) (fun _ _ _ _ h => h) rfl
      [example_packet_one] example_packet).2 _ rfl 0 _ rfl).2.2 0 (by decide) 0
      (by decide) |>.2.1⟩

set_option maxRecDepth 100000 in
/-- C21 (the code at the failing input): in the loop filter pass over a 32x32
keyframe, whose second chroma plane has two block rows of two blocks, only one
call filters a left edge in that plane and none a top edge (its block row 1 is
never visited, while the first chroma plane gets both rows); and since the
pointer passed carries no row offset, the left edge of luma block (1, 0) is
filtered once for every block row, that of block (1, 1) never. -/
theorem loop_filter_pass_skips_rows :
    example_keyframe.block_height 0 = 4 ∧
    example_keyframe.block_width 2 = 2 ∧ example_keyframe.block_height 2 = 2 ∧
    ((loop_filter_pass example_keyframe).filter
      (fun c => decide (c.plane = 2 ∧ c.site = FilterSite.left))).length = 1 ∧
    ((loop_filter_pass example_keyframe).filter
      (fun c => decide (c.plane = 2 ∧ c.site = FilterSite.top))).length = 0 ∧
    ((loop_filter_pass example_keyframe).filter
      (fun c => decide (c.plane = 1 ∧ c.site = FilterSite.left))).length = 2 ∧
    ((loop_filter_pass example_keyframe).filter
      (fun c => decide (c.plane = 1 ∧ c.site = FilterSite.top))).length = 2 ∧
    (List.range 4).map (fun y => (apply_loop_filter example_keyframe y).filter
      (fun c => decide (c.plane = 2))) =
      [[⟨2, true, 8, 1, FilterSite.left⟩], [], [], []] ∧
    ((loop_filter_pass example_keyframe).filter
      (fun c => decide (c.plane = 0 ∧ c.horizontal = true ∧
        c.offset = block_offset example_keyframe 0 1 0))).length = 4 ∧
    ((loop_filter_pass example_keyframe).filter
      (fun c => decide (c.plane = 0 ∧ c.horizontal = true ∧
        c.offset = block_offset example_keyframe 0 1 1))).length = 0 := by
  refine ⟨by decide, by decide, by decide, by decide, by decide, by decide, by decide,
    by decide, by decide, by decide⟩

/-- The prediction of `dc_prediction`, in terms of the mask and the neighbour
variables. -/
theorem dc_prediction_value (keyframe : Bool) (width : Nat) (base : Int)
    (blocks : Int → vp3_block) (x y : Nat) (v : DcVars) :
    (dc_prediction keyframe width base blocks x y v).2 =
      predicted_from (neighbour_mask keyframe width base blocks x y)
        (v.last_dc (BLOCK_MODE width base blocks x y))
        (if y ≠ 0 ∧ x ≠ 0 then BLOCK_DC width base blocks (x - 1) (y - 1) else v.vul)
        (if y ≠ 0 then BLOCK_DC width base blocks x (y - 1) else v.vu)
        (if y ≠ 0 ∧ x + 1 < width then BLOCK_DC width base blocks (x + 1) (y - 1) else v.vur)
        (if x ≠ 0 then BLOCK_DC width base blocks (x - 1) y else v.vl) := rfl

/-- The bits of a mask put together from four tests. -/
theorem mask_bits (a b c d : Prop) [Decidable a] [Decidable b] [Decidable c] [Decidable d] :
    ((if a then 1 else 0) ||| (if b then 4 else 0) ||| (if c then 8 else 0) |||
        (if d then 2 else 0) : Nat) < 16 ∧
    (((if a then 1 else 0) ||| (if b then 4 else 0) ||| (if c then 8 else 0) |||
        (if d then 2 else 0) : Nat) &&& 1 ≠ 0 ↔ a) ∧
    (((if a then 1 else 0) ||| (if b then 4 else 0) ||| (if c then 8 else 0) |||
        (if d then 2 else 0) : Nat) &&& 4 ≠ 0 ↔ b) ∧
    (((if a then 1 else 0) ||| (if b then 4 else 0) ||| (if c then 8 else 0) |||
        (if d then 2 else 0) : Nat) &&& 8 ≠ 0 ↔ c) ∧
    (((if a then 1 else 0) ||| (if b then 4 else 0) ||| (if c then 8 else 0) |||
        (if d then 2 else 0) : Nat) &&& 2 ≠ 0 ↔ d) ∧
    (((if a then 1 else 0) ||| (if b then 4 else 0) ||| (if c then 8 else 0) |||
        (if d then 2 else 0) : Nat) = 0 ↔ (¬ a ∧ ¬ b ∧ ¬ c ∧ ¬ d)) := by
  by_cases ha : a <;> by_cases hb : b <;> by_cases hc : c <;> by_cases hd : d <;>
    simp only [ha, hb, hc, hd, if_true, if_false, not_true_eq_false, not_false_eq_true,
      and_self, and_true, true_and, and_false, false_and, iff_true, iff_false] <;> decide

/-- The prediction uses a neighbour variable only when its bit is in the mask,
and the last DC only for the empty mask. -/
theorem predicted_from_congr (m : Nat) (hm : m < 16) (last last' vul vul' vu vu' vur vur' vl vl' : Int)
    (hlast : m = 0 → last = last')
    (h8 : m &&& 8 ≠ 0 → vul = vul') (h4 : m &&& 4 ≠ 0 → vu = vu')
    (h2 : m &&& 2 ≠ 0 → vur = vur') (h1 : m &&& 1 ≠ 0 → vl = vl') :
    predicted_from m last vul vu vur vl = predicted_from m last' vul' vu' vur' vl' := by
  interval_cases m
  all_goals first
    | (have e := hlast rfl; subst e; rfl)
    | skip
  all_goals
    (try (have e8 := h8 (by decide); subst e8))
    (try (have e4 := h4 (by decide); subst e4))
    (try (have e2 := h2 (by decide); subst e2))
    (try (have e1 := h1 (by decide); subst e1))
    simp [predicted_from, predictor_transform]

/-- C's division of a multiple of 128 by 128. -/
theorem tdiv_128 (a : Int) : Int.tdiv (128 * a) 128 = a :=
  Int.mul_tdiv_cancel_left a (by norm_num)

/-- When every neighbour whose bit is in a non-empty mask has the value `c`,
the prediction is `c`. -/
theorem predicted_from_const (m : Nat) (hm : m < 16) (hm0 : m ≠ 0) (c last vul vu vur vl : Int)
    (h8 : m &&& 8 ≠ 0 → vul = c) (h4 : m &&& 4 ≠ 0 → vu = c)
    (h2 : m &&& 2 ≠ 0 → vur = c) (h1 : m &&& 1 ≠ 0 → vl = c) :
    predicted_from m last vul vu vur vl = c := by
  interval_cases m
  · exact absurd rfl hm0
  all_goals
    (try (have e8 := h8 (by decide); subst e8))
    (try (have e4 := h4 (by decide); subst e4))
    (try (have e2 := h2 (by decide); subst e2))
    (try (have e1 := h1 (by decide); subst e1))
    simp [predicted_from, predictor_transform, FFABS]
  all_goals
    simp only [show ∀ v : Int, 53 * v + 75 * v = 128 * v from fun v => by ring,
      show ∀ v : Int, 64 * v + 64 * v = 128 * v from fun v => by ring,
      show ∀ v : Int, 24 * v + 80 * v + 24 * v = 128 * v from fun v => by ring,
      show ∀ v : Int, -(104 * v) + 116 * v + 116 * v = 128 * v from fun v => by ring,
      tdiv_128]
  all_goals simp

/-- A store into `dc` leaves the coded flags alone. -/
theorem set_dc_coded (blocks : Int → vp3_block) (i : Int) (d : Int) (j : Int) :
    ((set_dc blocks i d) j).coded = (blocks j).coded := by
  unfold set_dc
  by_cases h : j = i
  · subst h
    rw [Function.update_same]
  · rw [Function.update_noteq h]

/-- A store into `dc` leaves the modes alone. -/
theorem set_dc_mode (blocks : Int → vp3_block) (i : Int) (d : Int) (j : Int) :
    ((set_dc blocks i d) j).mb_mode = (blocks j).mb_mode := by
  unfold set_dc
  by_cases h : j = i
  · subst h
    rw [Function.update_same]
  · rw [Function.update_noteq h]

/-- The mask depends on the coded flags and the modes only. -/
theorem neighbour_mask_congr (keyframe : Bool) (width : Nat) (base : Int)
    (B O : Int → vp3_block) (x y : Nat)
    (hcoded : ∀ i, (B i).coded = (O i).coded) (hmode : ∀ i, (B i).mb_mode = (O i).mb_mode) :
    neighbour_mask keyframe width base B x y = neighbour_mask keyframe width base O x y := by
  simp only [neighbour_mask, neighbour_usable, BLOCK_CODED, BLOCK_MODE, hcoded, hmode]

/-- The bits of the mask of a block, and its bound. -/
theorem neighbour_mask_bits (keyframe : Bool) (width : Nat) (base : Int)
    (O : Int → vp3_block) (x y : Nat) :
    neighbour_mask keyframe width base O x y < 16 ∧
    (neighbour_mask keyframe width base O x y &&& 1 ≠ 0 ↔
      (x ≠ 0 ∧ neighbour_usable keyframe width base O (BLOCK_MODE width base O x y) (x - 1) y)) ∧
    (neighbour_mask keyframe width base O x y &&& 4 ≠ 0 ↔
      (y ≠ 0 ∧ neighbour_usable keyframe width base O (BLOCK_MODE width base O x y) x (y - 1))) ∧
    (neighbour_mask keyframe width base O x y &&& 8 ≠ 0 ↔
      (y ≠ 0 ∧ x ≠ 0 ∧
        neighbour_usable keyframe width base O (BLOCK_MODE width base O x y) (x - 1) (y - 1))) ∧
    (neighbour_mask keyframe width base O x y &&& 2 ≠ 0 ↔
      (y ≠ 0 ∧ x + 1 < width ∧
        neighbour_usable keyframe width base O (BLOCK_MODE width base O x y) (x + 1) (y - 1))) ∧
    (neighbour_mask keyframe width base O x y = 0 ↔
      (¬ (x ≠ 0 ∧ neighbour_usable keyframe width base O (BLOCK_MODE width base O x y) (x - 1) y) ∧
       ¬ (y ≠ 0 ∧ neighbour_usable keyframe width base O (BLOCK_MODE width base O x y) x (y - 1)) ∧
       ¬ (y ≠ 0 ∧ x ≠ 0 ∧
        neighbour_usable keyframe width base O (BLOCK_MODE width base O x y) (x - 1) (y - 1)) ∧
       ¬ (y ≠ 0 ∧ x + 1 < width ∧
        neighbour_usable keyframe width base O (BLOCK_MODE width base O x y) (x + 1) (y - 1)))) :=
  mask_bits _ _ _ _

/-- C22: in `reverse_dc_prediction` the predicted DC of a block depends only on
the DC values of those of its left, up, up-left and up-right neighbours that lie
inside the plane, are coded and have the block's mode bin, and on the last DC of
the bin when there is none. In the table, every non-zero weight of
`predictor_transform[mask]` belongs to a neighbour whose bit is in the mask,
and the masks 13 and 15 of the out-of-range check hold the bits of the three
neighbours it consults; two block arrays with the same coded flags and modes
that agree in the DC of every contributing neighbour give the same prediction,
whatever the other DC values and the stale neighbour variables are. -/
theorem dc_prediction_contributing_neighbours (keyframe : Bool) (width : Nat) (base : Int)
    (B O : Int → vp3_block) (x y : Nat) (v w : DcVars)
    (hcoded : ∀ i, (B i).coded = (O i).coded) (hmode : ∀ i, (B i).mb_mode = (O i).mb_mode)
    (hl : x ≠ 0 →
      neighbour_usable keyframe width base O (BLOCK_MODE width base O x y) (x - 1) y →
      BLOCK_DC width base B (x - 1) y = BLOCK_DC width base O (x - 1) y)
    (hu : y ≠ 0 →
      neighbour_usable keyframe width base O (BLOCK_MODE width base O x y) x (y - 1) →
      BLOCK_DC width base B x (y - 1) = BLOCK_DC width base O x (y - 1))
    (hul : y ≠ 0 → x ≠ 0 →
      neighbour_usable keyframe width base O (BLOCK_MODE width base O x y) (x - 1) (y - 1) →
      BLOCK_DC width base B (x - 1) (y - 1) = BLOCK_DC width base O (x - 1) (y - 1))
    (hur : y ≠ 0 → x + 1 < width →
      neighbour_usable keyframe width base O (BLOCK_MODE width base O x y) (x + 1) (y - 1) →
      BLOCK_DC width base B (x + 1) (y - 1) = BLOCK_DC width base O (x + 1) (y - 1))
    (hlast : neighbour_mask keyframe width base O x y = 0 →
      v.last_dc (BLOCK_MODE width base O x y) = w.last_dc (BLOCK_MODE width base O x y)) :
    (∀ mask, mask < 16 → ∀ i, i < 4 →
      predictor_transform mask i ≠ 0 → mask &&& neighbour_bit i ≠ 0) ∧
    (∀ mask, mask = 13 ∨ mask = 15 → mask &&& 4 ≠ 0 ∧ mask &&& 1 ≠ 0 ∧ mask &&& 8 ≠ 0) ∧
    (dc_prediction keyframe width base B x y v).2 =
      (dc_prediction keyframe width base O x y w).2 := by
  refine ⟨by decide, ?_, ?_⟩
  · intro mask h
    rcases h with h | h <;> subst h <;> decide
  · obtain ⟨hlt, b1, b4, b8, b2, _⟩ := neighbour_mask_bits keyframe width base O x y
    have hbin : BLOCK_MODE width base B x y = BLOCK_MODE width base O x y := by
      simp only [BLOCK_MODE, hmode]
    rw [dc_prediction_value, dc_prediction_value,
      neighbour_mask_congr keyframe width base B O x y hcoded hmode, hbin]
    apply predicted_from_congr _ hlt
    · exact hlast
    · intro h
      obtain ⟨hy, hx, hus⟩ := b8.mp h
      rw [if_pos ⟨hy, hx⟩, if_pos ⟨hy, hx⟩]
      exact hul hy hx hus
    · intro h
      obtain ⟨hy, hus⟩ := b4.mp h
      rw [if_pos hy, if_pos hy]
      exact hu hy hus
    · intro h
      obtain ⟨hy, hx, hus⟩ := b2.mp h
      rw [if_pos ⟨hy, hx⟩, if_pos ⟨hy, hx⟩]
      exact hur hy hx hus
    · intro h
      obtain ⟨hx, hus⟩ := b1.mp h
      rw [if_pos hx, if_pos hx]
      exact hl hx hus

/-- C23: for every non-empty neighbour mask the four weights of
`predictor_transform[mask]` sum to 128, and when every contributing neighbour
of a block with a non-empty mask has the DC value `c`, the predicted DC is
`c`, also for the masks 13 and 15 with their out-of-range check. -/
theorem dc_prediction_constant (keyframe : Bool) (width : Nat) (base : Int)
    (O : Int → vp3_block) (x y : Nat) (v : DcVars) (c : Int)
    (hmask : neighbour_mask keyframe width base O x y ≠ 0)
    (hl : x ≠ 0 →
      neighbour_usable keyframe width base O (BLOCK_MODE width base O x y) (x - 1) y →
      BLOCK_DC width base O (x - 1) y = c)
    (hu : y ≠ 0 →
      neighbour_usable keyframe width base O (BLOCK_MODE width base O x y) x (y - 1) →
      BLOCK_DC width base O x (y - 1) = c)
    (hul : y ≠ 0 → x ≠ 0 →
      neighbour_usable keyframe width base O (BLOCK_MODE width base O x y) (x - 1) (y - 1) →
      BLOCK_DC width base O (x - 1) (y - 1) = c)
    (hur : y ≠ 0 → x + 1 < width →
      neighbour_usable keyframe width base O (BLOCK_MODE width base O x y) (x + 1) (y - 1) →
      BLOCK_DC width base O (x + 1) (y - 1) = c) :
    (∀ mask, 1 ≤ mask → mask < 16 →
      predictor_transform mask 0 + predictor_transform mask 1 + predictor_transform mask 2 +
        predictor_transform mask 3 = 128) ∧
    (dc_prediction keyframe width base O x y v).2 = c := by
  refine ⟨by decide, ?_⟩
  obtain ⟨hlt, b1, b4, b8, b2, _⟩ := neighbour_mask_bits keyframe width base O x y
  rw [dc_prediction_value]
  apply predicted_from_const _ hlt hmask
  · intro h
    obtain ⟨hy, hx, hus⟩ := b8.mp h
    rw [if_pos ⟨hy, hx⟩]
    exact hul hy hx hus
  · intro h
    obtain ⟨hy, hus⟩ := b4.mp h
    rw [if_pos hy]
    exact hu hy hus
  · intro h
    obtain ⟨hy, hx, hus⟩ := b2.mp h
    rw [if_pos ⟨hy, hx⟩]
    exact hur hy hx hus
  · intro h
    obtain ⟨hx, hus⟩ := b1.mp h
    rw [if_pos hx]
    exact hl hx hus

set_option maxRecDepth 100000 in
/-- C22 at block (1, 1) of a 3x2 plane whose left and up neighbours contribute
(mask 5): other DC values for the up-left and up-right neighbours, another last
DC and other stale variables leave the prediction at (100 + 60) / 2. -/
theorem dc_prediction_contributing_neighbours_witness :
    neighbour_mask false 3 0 example_dc_blocks 1 1 = 5 ∧
    (dc_prediction false 3 0 (set_dc (set_dc example_dc_blocks 0 9999) 2 (-4444)) 1 1
        ⟨fun _ => 0, 0, 0, 0, 0⟩).2 =
      (dc_prediction false 3 0 example_dc_blocks 1 1 ⟨fun _ => 7, 1, 2, 3, 4⟩).2 ∧
    (dc_prediction false 3 0 example_dc_blocks 1 1 ⟨fun _ => 7, 1, 2, 3, 4⟩).2 = 80 :=
  ⟨by decide,
   (dc_prediction_contributing_neighbours false 3 0
      (set_dc (set_dc example_dc_blocks 0 9999) 2 (-4444)) example_dc_blocks 1 1
      ⟨fun _ => 0, 0, 0, 0, 0⟩ ⟨fun _ => 7, 1, 2, 3, 4⟩
      (fun i => by rw [set_dc_coded, set_dc_coded])
      (fun i => by rw [set_dc_mode, set_dc_mode])
      (by decide) (by decide) (by decide) (by decide) (by decide)).2.2,
   by decide⟩

set_option maxRecDepth 100000 in
/-- C23 at block (1, 1) of a 3x2 plane whose four neighbours all contribute
(mask 15) with the DC value 100. -/
theorem dc_prediction_constant_witness :
    neighbour_mask false 3 0 example_flat_blocks 1 1 = 15 ∧
    (dc_prediction false 3 0 example_flat_blocks 1 1 ⟨fun _ => 7, 1, 2, 3, 4⟩).2 = 100 :=
  ⟨by decide,
   (dc_prediction_constant false 3 0 example_flat_blocks 1 1 ⟨fun _ => 7, 1, 2, 3, 4⟩ 100
      (by decide) (by decide) (by decide) (by decide) (by decide)).2⟩

/-- The dequantizer value is the clipped, scaled interpolated coefficient. -/
theorem dequant_coeff_interpolated (s : Vp3DecodeContext) (qpi inter plane i : Nat) :
    dequant_coeff s qpi inter plane i =
      av_clip (Int.tdiv
        ((if i ≠ 0 then (s.coded_ac_scale_factor (s.qps qpi).toNat : Int)
          else (s.coded_dc_scale_factor (s.qps qpi).toNat : Int)) *
          interpolated_coeff s qpi inter plane i) 100 * 4)
        ((8 <<< (inter + (if i = 0 then 1 else 0)) : Nat) : Int) 4096 := rfl

/-- The ramp starts do not decrease. -/
theorem ramp_start_mono (size : Nat → Nat) (a : Nat) :
    ∀ b, a ≤ b → ramp_start size a ≤ ramp_start size b := by
  intro b hab
  induction b with
  | zero =>
    have : a = 0 := by omega
    subst this
    exact le_refl _
  | succ b ih =>
    by_cases h : a = b + 1
    · subst h
      exact le_refl _
    · have := ih (by omega)
      rw [ramp_start]
      omega

/-- The ramp scan stops at the ramp `r` whose range `(start r, start (r+1)]`
holds the quality index (the first ramp also takes every smaller index). -/
theorem ramp_scan_select (size : Nat → Nat) (qi : Int) (r : Nat)
    (hqi : qi ≤ ramp_start size (r + 1)) :
    ∀ (k qri : Nat), qri ≤ r → r < qri + k → (qri < r → ramp_start size r < qi) →
      ramp_scan size qi k qri (ramp_start size qri) = (r, ramp_start size (r + 1)) := by
  intro k
  induction k with
  | zero =>
    intro qri h1 h2 _
    omega
  | succ k ih =>
    intro qri h1 h2 h3
    rw [ramp_scan]
    by_cases hr : qri = r
    · subst hr
      rw [ramp_start] at hqi
      rw [if_pos hqi]
      rfl
    · have hlt : qri < r := by omega
      have hm := ramp_start_mono size (qri + 1) r (by omega)
      have h4 := h3 hlt
      rw [ramp_start] at hm
      rw [if_neg (by omega)]
      have := ih (qri + 1) (by omega) (by omega) (fun h => h3 (by omega))
      rw [ramp_start] at this
      exact this

/-- The truncating division that rounds to nearest: for a numerator
`2 * m + n` that is not negative the quotient `c` by `2 * n` has
`2nc ≤ 2m + n < 2n(c + 1)`. -/
theorem round_tdiv (m n : Int) (hn : 0 < n) (hm : 0 ≤ m) :
    2 * n * Int.tdiv (2 * m + n) (2 * n) ≤ 2 * m + n ∧
    2 * m + n < 2 * n * (Int.tdiv (2 * m + n) (2 * n) + 1) := by
  rw [Int.tdiv_eq_ediv (by omega) (by omega)]
  constructor
  · have := Int.ediv_mul_le (2 * m + n) (show 2 * n ≠ 0 by omega)
    linarith
  · have := Int.lt_ediv_add_one_mul_self (2 * m + n) (show 0 < 2 * n by omega)
    linarith

/-- The value rounded to nearest from `n * a` is `a`. -/
theorem round_unique (n a c : Int) (hn : 0 < n) (h1 : 2 * n * c ≤ 2 * (n * a) + n)
    (h2 : 2 * (n * a) + n < 2 * n * (c + 1)) : c = a := by
  have hle : c ≤ a := by
    by_contra h
    have h3 : a + 1 ≤ c := by omega
    have := mul_le_mul_of_nonneg_left h3 (show (0 : Int) ≤ 2 * n by omega)
    linarith
  have hge : a ≤ c := by
    by_contra h
    have h3 : c + 1 ≤ a := by omega
    have := mul_le_mul_of_nonneg_left h3 (show (0 : Int) ≤ 2 * n by omega)
    linarith
  omega

/-- The interpolated coefficient is the linear interpolation over the ramp that
covers the quality index, rounded to nearest. -/
theorem interpolation_rounds (s : Vp3DecodeContext) (qpi inter plane i r : Nat)
    (hr : r < s.qr_count inter plane)
    (hsize : ∀ j, j < r + 1 → 1 ≤ s.qr_size inter plane j)
    (hlo : ramp_start (s.qr_size inter plane) r ≤ s.qps qpi)
    (hhi : s.qps qpi ≤ ramp_start (s.qr_size inter plane) r + (s.qr_size inter plane r : Int)) :
    2 * (s.qr_size inter plane r : Int) * interpolated_coeff s qpi inter plane i ≤
      2 * ramp_interpolation (s.qr_size inter plane r) (ramp_start (s.qr_size inter plane) r)
        (s.qps qpi) (s.base_matrix (s.qr_base inter plane r) i)
        (s.base_matrix (s.qr_base inter plane (r + 1)) i) + (s.qr_size inter plane r : Int) ∧
    2 * ramp_interpolation (s.qr_size inter plane r) (ramp_start (s.qr_size inter plane) r)
        (s.qps qpi) (s.base_matrix (s.qr_base inter plane r) i)
        (s.base_matrix (s.qr_base inter plane (r + 1)) i) + (s.qr_size inter plane r : Int) <
      2 * (s.qr_size inter plane r : Int) * (interpolated_coeff s qpi inter plane i + 1) := by
  have hn : (1 : Int) ≤ (s.qr_size inter plane r : Int) := by
    exact_mod_cast hsize r (Nat.lt_succ_self r)
  generalize hA : (s.base_matrix (s.qr_base inter plane r) i : Int) = A
  generalize hB : (s.base_matrix (s.qr_base inter plane (r + 1)) i : Int) = B
  have hA0 : 0 ≤ A := by rw [← hA]; exact Int.natCast_nonneg _
  have hB0 : 0 ≤ B := by rw [← hB]; exact Int.natCast_nonneg _
  by_cases hcase : r = 0 ∨ ramp_start (s.qr_size inter plane) r < s.qps qpi
  · have hscan := ramp_scan_select (s.qr_size inter plane) (s.qps qpi) r
      (by rw [ramp_start]; exact hhi) (s.qr_count inter plane) 0 (Nat.zero_le r) (by omega)
      (fun h => by
        rcases hcase with h0 | h1
        · omega
        · exact h1)
    have hscan2 : ramp_scan (s.qr_size inter plane) (s.qps qpi) (s.qr_count inter plane) 0 0
        = (r, ramp_start (s.qr_size inter plane) r + (s.qr_size inter plane r : Int)) := hscan
    have hm : 0 ≤ ramp_interpolation (s.qr_size inter plane r)
        (ramp_start (s.qr_size inter plane) r) (s.qps qpi) A B := by
      unfold ramp_interpolation
      have h1 : 0 ≤ (ramp_start (s.qr_size inter plane) r + (s.qr_size inter plane r : Int)
        - s.qps qpi) * A := mul_nonneg (by omega) hA0
      have h2 : 0 ≤ (s.qps qpi - ramp_start (s.qr_size inter plane) r) * B :=
        mul_nonneg (by omega) hB0
      omega
    have e : interpolated_coeff s qpi inter plane i =
        Int.tdiv (2 * ramp_interpolation (s.qr_size inter plane r)
          (ramp_start (s.qr_size inter plane) r) (s.qps qpi) A B + (s.qr_size inter plane r : Int))
          (2 * (s.qr_size inter plane r : Int)) := by
      unfold interpolated_coeff
      simp only [hscan2, hA, hB]
      congr 1
      unfold ramp_interpolation
      ring
    rw [e]
    exact round_tdiv _ _ (by omega) hm
  · have hr0 : r ≠ 0 := fun h => hcase (Or.inl h)
    have hq : s.qps qpi = ramp_start (s.qr_size inter plane) r := by
      have : ¬ ramp_start (s.qr_size inter plane) r < s.qps qpi := fun h => hcase (Or.inr h)
      omega
    obtain ⟨m, rfl⟩ : ∃ m, r = m + 1 := ⟨r - 1, by omega⟩
    have hm1 : (1 : Int) ≤ (s.qr_size inter plane m : Int) := by
      exact_mod_cast hsize m (by omega)
    have hstart : ramp_start (s.qr_size inter plane) (m + 1) =
        ramp_start (s.qr_size inter plane) m + (s.qr_size inter plane m : Int) := rfl
    have hscan := ramp_scan_select (s.qr_size inter plane) (s.qps qpi) m
      (by rw [hq]) (s.qr_count inter plane) 0 (Nat.zero_le m) (by omega)
      (fun _ => by rw [hq, hstart]; omega)
    have hscan2 : ramp_scan (s.qr_size inter plane) (s.qps qpi) (s.qr_count inter plane) 0 0
        = (m, ramp_start (s.qr_size inter plane) (m + 1)) := hscan
    have e : interpolated_coeff s qpi inter plane i =
        Int.tdiv (2 * ((s.qr_size inter plane m : Int) * A) + (s.qr_size inter plane m : Int))
          (2 * (s.qr_size inter plane m : Int)) := by
      unfold interpolated_coeff
      simp only [hscan2]
      simp only [hA, hq]
      congr 1
      ring
    have hc : interpolated_coeff s qpi inter plane i = A := by
      rw [e]
      have hb := round_tdiv ((s.qr_size inter plane m : Int) * A) (s.qr_size inter plane m)
        (by omega) (mul_nonneg (by omega) hA0)
      exact round_unique _ _ _ (by omega) hb.1 hb.2
    rw [hc, hq]
    unfold ramp_interpolation
    constructor
    · nlinarith
    · nlinarith

/-- C24: for a ramp `r` of `n ≥ 1` quality indices from `qistart` (the ramps
before it having at least one index each), with the start matrix
`A = base_matrix[qr_base[r]]` and the end matrix `B = base_matrix[qr_base[r+1]]`,
and a quality index `qi` in `[qistart, qistart + n]`, the coefficient `c` that
`init_dequantizer` interpolates is `((qistart+n-qi)*A[i] + (qi-qistart)*B[i]) / n`
rounded to nearest, ties up (`2nc ≤ 2N + n < 2n(c+1)` for the numerator `N`);
it is `A[i]` at `qi = qistart` and `B[i]` at `qi = qistart + n`. With the ranges
that `vp3_decode_init` sets by default (one ramp of size 63 whose two ends are
the same matrix) it is the entry of that base matrix for every `qi` in 0..63. -/
theorem interpolation_exact_at_ramp_ends (s : Vp3DecodeContext) (qpi inter plane i r : Nat)
    (hr : r < s.qr_count inter plane)
    (hsize : ∀ j, j < r + 1 → 1 ≤ s.qr_size inter plane j)
    (hlo : ramp_start (s.qr_size inter plane) r ≤ s.qps qpi)
    (hhi : s.qps qpi ≤ ramp_start (s.qr_size inter plane) r + (s.qr_size inter plane r : Int)) :
    (2 * (s.qr_size inter plane r : Int) * interpolated_coeff s qpi inter plane i ≤
      2 * ramp_interpolation (s.qr_size inter plane r) (ramp_start (s.qr_size inter plane) r)
        (s.qps qpi) (s.base_matrix (s.qr_base inter plane r) i)
        (s.base_matrix (s.qr_base inter plane (r + 1)) i) + (s.qr_size inter plane r : Int) ∧
     2 * ramp_interpolation (s.qr_size inter plane r) (ramp_start (s.qr_size inter plane) r)
        (s.qps qpi) (s.base_matrix (s.qr_base inter plane r) i)
        (s.base_matrix (s.qr_base inter plane (r + 1)) i) + (s.qr_size inter plane r : Int) <
      2 * (s.qr_size inter plane r : Int) * (interpolated_coeff s qpi inter plane i + 1)) ∧
    (s.qps qpi = ramp_start (s.qr_size inter plane) r →
      interpolated_coeff s qpi inter plane i = s.base_matrix (s.qr_base inter plane r) i) ∧
    (s.qps qpi = ramp_start (s.qr_size inter plane) r + (s.qr_size inter plane r : Int) →
      interpolated_coeff s qpi inter plane i =
        s.base_matrix (s.qr_base inter plane (r + 1)) i) ∧
    (∀ (t : Vp3DecodeContext) (q j p k : Nat), j < 2 → p < 3 → 0 ≤ t.qps q → t.qps q ≤ 63 →
      (default_quant_ranges t).qr_base j p 0 =
        2 * j + (if p ≠ 0 then 1 else 0) * (if j = 0 then 1 else 0) ∧
      interpolated_coeff (default_quant_ranges t) q j p k =
        t.base_matrix (2 * j + (if p ≠ 0 then 1 else 0) * (if j = 0 then 1 else 0)) k ∧
      dequant_coeff (default_quant_ranges t) q j p k =
        av_clip (Int.tdiv
          ((if k ≠ 0 then (t.coded_ac_scale_factor (t.qps q).toNat : Int)
            else (t.coded_dc_scale_factor (t.qps q).toNat : Int)) *
            (t.base_matrix (2 * j + (if p ≠ 0 then 1 else 0) * (if j = 0 then 1 else 0)) k : Int))
              100 * 4)
          ((8 <<< (j + (if k = 0 then 1 else 0)) : Nat) : Int) 4096) := by
  have hn : (1 : Int) ≤ (s.qr_size inter plane r : Int) := by
    exact_mod_cast hsize r (Nat.lt_succ_self r)
  have hb := interpolation_rounds s qpi inter plane i r hr hsize hlo hhi
  refine ⟨hb, ?_, ?_, ?_⟩
  · intro hq
    rw [hq] at hb
    unfold ramp_interpolation at hb
    apply round_unique (s.qr_size inter plane r : Int) _ _ (by omega)
    · have := hb.1
      linarith
    · have := hb.2
      linarith
  · intro hq
    rw [hq] at hb
    unfold ramp_interpolation at hb
    apply round_unique (s.qr_size inter plane r : Int) _ _ (by omega)
    · have := hb.1
      linarith
    · have := hb.2
      linarith
  · intro t q j p k hj hp h0 h63
    have hbase0 : (default_quant_ranges t).qr_base j p 0 =
        2 * j + (if p ≠ 0 then 1 else 0) * (if j = 0 then 1 else 0) := by
      show (if j < 2 ∧ p < 3 ∧ (0 = 0 ∨ 0 = 1) then _ else _) = _
      rw [if_pos ⟨hj, hp, Or.inl rfl⟩]
    have hbase1 : (default_quant_ranges t).qr_base j p (0 + 1) =
        2 * j + (if p ≠ 0 then 1 else 0) * (if j = 0 then 1 else 0) := by
      show (if j < 2 ∧ p < 3 ∧ (0 + 1 = 0 ∨ 0 + 1 = 1) then _ else _) = _
      rw [if_pos ⟨hj, hp, Or.inr rfl⟩]
    have hsz : (default_quant_ranges t).qr_size j p 0 = 63 := by
      show (if j < 2 ∧ p < 3 ∧ 0 = 0 then _ else _) = _
      rw [if_pos ⟨hj, hp, rfl⟩]
    have hcnt : (default_quant_ranges t).qr_count j p = 1 := by
      show (if j < 2 ∧ p < 3 then _ else _) = _
      rw [if_pos ⟨hj, hp⟩]
    have hd := interpolation_rounds (default_quant_ranges t) q j p k 0
      (by rw [hcnt]; exact Nat.zero_lt_one)
      (fun a ha => by
        have : a = 0 := by omega
        subst this
        rw [hsz]
        norm_num)
      h0 (by rw [hsz]; show t.qps q ≤ 0 + 63; omega)
    rw [hbase0, hbase1, hsz] at hd
    unfold ramp_interpolation at hd
    have hc : interpolated_coeff (default_quant_ranges t) q j p k =
        t.base_matrix (2 * j + (if p ≠ 0 then 1 else 0) * (if j = 0 then 1 else 0)) k := by
      apply round_unique 63 _ _ (by norm_num)
      · have := hd.1
        have e : ramp_start ((default_quant_ranges t).qr_size j p) 0 = 0 := rfl
        rw [e] at this
        have e2 : (default_quant_ranges t).base_matrix = t.base_matrix := rfl
        rw [e2] at this
        have e3 : (default_quant_ranges t).qps = t.qps := rfl
        rw [e3] at this
        push_cast at this ⊢
        linarith
      · have := hd.2
        have e : ramp_start ((default_quant_ranges t).qr_size j p) 0 = 0 := rfl
        rw [e] at this
        have e2 : (default_quant_ranges t).base_matrix = t.base_matrix := rfl
        rw [e2] at this
        have e3 : (default_quant_ranges t).qps = t.qps := rfl
        rw [e3] at this
        push_cast at this ⊢
        linarith
    refine ⟨hbase0, hc, ?_⟩
    rw [dequant_coeff_interpolated, hc]
    rfl

set_option maxRecDepth 100000 in
/-- C24 for the second of two ramps (quality indices 20..63, matrices 1 and 2):
at the quality index 30 coefficient 0 is 1218 / 43 rounded, 28; at 20 it is the
entry 26 of matrix 1, at 63 the entry 36 of matrix 2. -/
theorem interpolation_exact_at_ramp_ends_witness :
    interpolated_coeff (example_ramp_context 30) 0 0 0 0 = 28 ∧
    ramp_interpolation 43 20 30 26 36 = 1218 ∧
    interpolated_coeff (example_ramp_context 20) 0 0 0 0 = 26 ∧
    interpolated_coeff (example_ramp_context 63) 0 0 0 0 = 36 ∧
    2 * 43 * interpolated_coeff (example_ramp_context 30) 0 0 0 0 ≤ 2 * 1218 + 43 :=
  ⟨by decide, by decide,
   (interpolation_exact_at_ramp_ends (example_ramp_context 20) 0 0 0 0 1 (by decide) (by decide)
      (by decide) (by decide)).2.1 (by decide),
   (interpolation_exact_at_ramp_ends (example_ramp_context 63) 0 0 0 0 1 (by decide) (by decide)
      (by decide) (by decide)).2.2.1 (by decide),
   (interpolation_exact_at_ramp_ends (example_ramp_context 30) 0 0 0 0 1 (by decide) (by decide)
      (by decide) (by decide)).1.1⟩

/-- A pass that comes to the loop test has raised `i` and left the block
descriptors and the dequantizers alone. -/
theorem dequant_token_next (perm : Nat → Nat) (dequantizer : Nat → Int) (plane : Nat)
    (st st1 : DequantState) (h : dequant_token perm dequantizer plane st = DequantStep.next st1) :
    st.i < st1.i ∧ st1.s.blocks = st.s.blocks ∧ st1.s.qmat = st.s.qmat := by
  unfold dequant_token at h
  simp only [] at h
  split_ifs at h
  · cases h
    exact ⟨by show st.i < st.i + _ + 1; omega, rfl, rfl⟩
  · cases h
    exact ⟨Nat.lt_succ_self _, rfl, rfl⟩

/-- The loop of `dequant` ends within `64 - i` passes. -/
theorem dequant_loop_total (perm : Nat → Nat) (dequantizer : Nat → Int) (plane : Nat) :
    ∀ (k : Nat) (st : DequantState), 64 ≤ k + st.i → st.i < 64 →
      ∃ r, dequant_loop perm dequantizer plane k st = some r := by
  intro k
  induction k with
  | zero =>
    intro st h1 h2
    omega
  | succ k ih =>
    intro st h1 h2
    rw [dequant_loop]
    cases hstep : dequant_token perm dequantizer plane st with
    | next st1 =>
      simp only []
      have hi := (dequant_token_next perm dequantizer plane st st1 hstep).1
      by_cases h64 : st1.i < 64
      · rw [if_pos h64]
        exact ih st1 (by omega) h64
      · rw [if_neg h64]
        exact ⟨_, rfl⟩
    | finish st1 => exact ⟨_, rfl⟩
    | invalid st1 => exact ⟨_, rfl⟩

/-- A loop that has ended ends in the same way with more passes allowed. -/
theorem dequant_loop_mono (perm : Nat → Nat) (dequantizer : Nat → Int) (plane : Nat) :
    ∀ (k : Nat) (st : DequantState) (r : DequantStep),
      dequant_loop perm dequantizer plane k st = some r →
      ∀ j, dequant_loop perm dequantizer plane (k + j) st = some r := by
  intro k
  induction k with
  | zero =>
    intro st r h
    rw [dequant_loop] at h
    cases h
  | succ k ih =>
    intro st r h j
    rw [show k + 1 + j = (k + j) + 1 by omega, dequant_loop]
    rw [dequant_loop] at h
    cases hstep : dequant_token perm dequantizer plane st with
    | next st1 =>
      rw [hstep] at h
      simp only [] at h ⊢
      by_cases h64 : st1.i < 64
      · rw [if_pos h64] at h ⊢
        exact ih st1 r h j
      · rw [if_neg h64] at h ⊢
        exact h
    | finish st1 =>
      rw [hstep] at h
      exact h
    | invalid st1 =>
      rw [hstep] at h
      exact h

/-- A call that has made `k` passes goes on from the state it has reached. -/
theorem dequant_loop_passes (perm : Nat → Nat) (dequantizer : Nat → Int) (plane : Nat) :
    ∀ (k : Nat) (st0 st : DequantState),
      dequant_passes perm dequantizer plane k st0 = some st →
      ∀ f, dequant_loop perm dequantizer plane (k + f) st0 =
        dequant_loop perm dequantizer plane f st := by
  intro k
  induction k with
  | zero =>
    intro st0 st h f
    rw [dequant_passes] at h
    cases h
    rw [Nat.zero_add]
  | succ k ih =>
    intro st0 st h f
    rw [show k + 1 + f = (k + f) + 1 by omega, dequant_loop]
    rw [dequant_passes] at h
    cases hstep : dequant_token perm dequantizer plane st0 with
    | next st1 =>
      rw [hstep] at h
      simp only [] at h ⊢
      by_cases h64 : st1.i < 64
      · rw [if_pos h64] at h ⊢
        exact ih st1 st h f
      · rw [if_neg h64] at h
        cases h
    | finish st1 =>
      rw [hstep] at h
      cases h
    | invalid st1 =>
      rw [hstep] at h
      cases h

/-- The passes of a call leave the block descriptors and the dequantizers
alone, and a state reached after at least one pass has `i < 64`. -/
theorem dequant_passes_frame (perm : Nat → Nat) (dequantizer : Nat → Int) (plane : Nat) :
    ∀ (k : Nat) (st0 st : DequantState),
      dequant_passes perm dequantizer plane k st0 = some st →
      st.s.blocks = st0.s.blocks ∧ st.s.qmat = st0.s.qmat ∧ (st0.i < 64 → st.i < 64) := by
  intro k
  induction k with
  | zero =>
    intro st0 st h
    rw [dequant_passes] at h
    cases h
    exact ⟨rfl, rfl, id⟩
  | succ k ih =>
    intro st0 st h
    rw [dequant_passes] at h
    cases hstep : dequant_token perm dequantizer plane st0 with
    | next st1 =>
      rw [hstep] at h
      simp only [] at h
      by_cases h64 : st1.i < 64
      · rw [if_pos h64] at h
        obtain ⟨h1, h2, h3⟩ := ih st1 st h
        obtain ⟨_, g1, g2⟩ := dequant_token_next perm dequantizer plane st0 st1 hstep
        exact ⟨h1.trans g1, h2.trans g2, fun _ => h3 h64⟩
      · rw [if_neg h64] at h
        cases h
    | finish st1 =>
      rw [hstep] at h
      cases h
    | invalid st1 =>
      rw [hstep] at h
      cases h

/-- A call of `dequant` that has come to a token of type 0 ends there, at the
label `end`. -/
theorem dequant_loop_eob (perm : Nat → Nat) (dequantizer : Nat → Int) (plane : Nat)
    (k : Nat) (st0 st : DequantState)
    (hreach : dequant_passes perm dequantizer plane k st0 = some st)
    (h0 : st0.i < 64)
    (htype : token_type (st.s.dct_tokens_base (st.s.dct_tokens plane st.i)) = 0) :
    dequant_loop perm dequantizer plane 64 st0 =
      some (DequantStep.finish { st with s := end_of_block st.s plane st.i }) := by
  obtain ⟨r, hr⟩ := dequant_loop_total perm dequantizer plane 64 st0 (by omega) h0
  have h1 := dequant_loop_mono perm dequantizer plane 64 st0 r hr k
  rw [show 64 + k = k + 64 by omega, dequant_loop_passes perm dequantizer plane k st0 st hreach 64,
    dequant_loop] at h1
  have hstep : dequant_token perm dequantizer plane st =
      DequantStep.finish { st with s := end_of_block st.s plane st.i } := by
    unfold dequant_token
    simp only [htype, if_true]
  rw [hstep] at h1
  rw [hr, ← h1]

/-- `dequant` returns for every input. -/
theorem dequant_total (perm : Nat → Nat) (s : Vp3DecodeContext) (block : Nat → Int)
    (plane inter block_i : Nat) : ∃ r, dequant perm s block plane inter block_i = some r := by
  obtain ⟨r, hr⟩ := dequant_loop_total perm
    (s.qmat plane inter (s.blocks (s.coded_blocks (s.coded_blocks_off plane + block_i))).qpi)
    plane 64 (dequant_start s block) (by omega) (by show 0 < 64; omega)
  unfold dequant
  simp only [hr]
  cases r with
  | next st => exact ⟨_, rfl⟩
  | finish st => exact ⟨_, rfl⟩
  | invalid st => exact ⟨_, rfl⟩

/-- The end of a block leaves the block descriptors and the dequantizers
alone. -/
theorem end_of_block_frame (t : Vp3DecodeContext) (plane i : Nat) :
    (end_of_block t plane i).blocks = t.blocks ∧ (end_of_block t plane i).qmat = t.qmat := by
  unfold end_of_block advance_tokens
  simp only []
  split_ifs
  · exact ⟨rfl, rfl⟩
  · exact ⟨rfl, rfl⟩

/-- An EOB token of run 1 at the head of a stream: the pointer of the stream
moves past it. -/
theorem end_of_block_last (t : Vp3DecodeContext) (plane i : Nat)
    (h : t.dct_tokens_base (t.dct_tokens plane i) = 4) :
    end_of_block t plane i = advance_tokens t plane i := by
  unfold end_of_block
  simp only [h]
  rw [if_pos (by norm_num)]

/-- An EOB token of run `n ≥ 2` at the head of a stream is replaced by the EOB
token of run `n - 1`. -/
theorem end_of_block_run (t : Vp3DecodeContext) (plane i : Nat) (n : Int) (hn : 2 ≤ n)
    (hfit : 4 * n ≤ 32767) (h : t.dct_tokens_base (t.dct_tokens plane i) = 4 * n) :
    end_of_block t plane i =
      { t with dct_tokens_base :=
          Function.update t.dct_tokens_base (t.dct_tokens plane i) (4 * (n - 1)) } := by
  unfold end_of_block
  simp only [h]
  rw [if_neg (by omega)]
  have e : wrap16 (4 * n - 1 - (4 * n - 1) % 4) = 4 * (n - 1) := by
    unfold wrap16
    omega
  rw [e]

/-- The ends of the first `j < n` blocks at an EOB token of run `n` leave the
stream pointer where it is and the EOB token of run `n - j` at the head. -/
theorem end_of_block_iterate (t : Vp3DecodeContext) (plane i : Nat) (n : Int)
    (hfit : 4 * n ≤ 32767) (h : t.dct_tokens_base (t.dct_tokens plane i) = 4 * n) :
    ∀ j : Nat, (j : Int) < n →
      ((fun u => end_of_block u plane i)^[j] t).dct_tokens = t.dct_tokens ∧
      ((fun u => end_of_block u plane i)^[j] t).dct_tokens_base (t.dct_tokens plane i)
        = 4 * (n - j) := by
  intro j
  induction j with
  | zero =>
    intro _
    refine ⟨rfl, ?_⟩
    rw [Function.iterate_zero, id, h]
    simp
  | succ j ih =>
    intro hj
    obtain ⟨h1, h2⟩ := ih (by push_cast at hj; omega)
    rw [Function.iterate_succ_apply']
    have hhead : ((fun u => end_of_block u plane i)^[j] t).dct_tokens_base
        (((fun u => end_of_block u plane i)^[j] t).dct_tokens plane i) = 4 * (n - j) := by
      rw [h1]
      exact h2
    rw [end_of_block_run _ plane i (n - j) (by push_cast at hj; omega) (by omega) hhead]
    refine ⟨h1, ?_⟩
    show Function.update _ _ _ _ = _
    rw [h1, Function.update_same]
    push_cast
    ring

/-- The end of the `n`-th block at an EOB token of run `n` moves the stream
pointer past the token. -/
theorem end_of_block_iterate_last (t : Vp3DecodeContext) (plane i : Nat) (n : Nat) (hn : 1 ≤ n)
    (hfit : 4 * (n : Int) ≤ 32767) (h : t.dct_tokens_base (t.dct_tokens plane i) = 4 * (n : Int)) :
    ((fun u => end_of_block u plane i)^[n] t).dct_tokens plane i = t.dct_tokens plane i + 1 := by
  obtain ⟨m, rfl⟩ : ∃ m, n = m + 1 := ⟨n - 1, by omega⟩
  obtain ⟨h1, h2⟩ := end_of_block_iterate t plane i ((m + 1 : Nat) : Int) hfit h m
    (by push_cast; omega)
  rw [Function.iterate_succ_apply']
  have hhead : ((fun u => end_of_block u plane i)^[m] t).dct_tokens_base
      (((fun u => end_of_block u plane i)^[m] t).dct_tokens plane i) = 4 := by
    rw [h1, h2]
    push_cast
    ring
  rw [end_of_block_last _ plane i hhead]
  show (if plane = plane ∧ i = i then _ else _) = _
  rw [if_pos ⟨rfl, rfl⟩, h1]

/-- C25: a call of `dequant` that comes, after `k` passes through its loop, to
an EOB token of run length `n ≥ 1` at the head of `dct_tokens[plane][i]` ends
there: it returns with the context that `case 0` leaves, no further token is
consumed (no other stream pointer moves), the token becomes the EOB token of
run `n - 1` with the stream pointer unchanged when `n ≥ 2`, and the pointer
moves past it when `n = 1`; the coefficients decoded so far stay, and
coefficient `perm[0]` is set to `block.dc * qmat[plane][inter][0][0]` (stored
as `DCTELEM`, so the product itself whenever it fits in 16 bits). Met by `n`
blocks in turn, the token is rewritten by the first `n - 1` of them, with the
pointer left in place, and the `n`-th moves the pointer past it. -/
theorem dequant_eob_run (perm : Nat → Nat) (s : Vp3DecodeContext) (block : Nat → Int)
    (plane inter block_i k : Nat) (st : DequantState) (n : Nat)
    (hreach : dequant_passes perm
      (s.qmat plane inter (s.blocks (s.coded_blocks (s.coded_blocks_off plane + block_i))).qpi)
      plane k (dequant_start s block) = some st)
    (hn : 1 ≤ n) (hfit : 4 * (n : Int) ≤ 32767)
    (htoken : st.s.dct_tokens_base (st.s.dct_tokens plane st.i) = 4 * (n : Int)) :
    (∃ r, dequant perm s block plane inter block_i = some r ∧
      r.1 = end_of_block st.s plane st.i ∧
      (∀ p z, r.1.dct_tokens p z =
        if p = plane ∧ z = st.i ∧ n = 1 then st.s.dct_tokens p z + 1 else st.s.dct_tokens p z) ∧
      (∀ q, r.1.dct_tokens_base q =
        if q = st.s.dct_tokens plane st.i ∧ 2 ≤ n then 4 * ((n : Int) - 1)
        else st.s.dct_tokens_base q) ∧
      (∀ j, j ≠ perm 0 → r.2 j = st.block j) ∧
      r.2 (perm 0) = wrap16
        ((s.blocks (s.coded_blocks (s.coded_blocks_off plane + block_i))).dc *
          s.qmat plane inter 0 0) ∧
      (-32768 ≤ (s.blocks (s.coded_blocks (s.coded_blocks_off plane + block_i))).dc *
          s.qmat plane inter 0 0 →
        (s.blocks (s.coded_blocks (s.coded_blocks_off plane + block_i))).dc *
          s.qmat plane inter 0 0 ≤ 32767 →
        r.2 (perm 0) = (s.blocks (s.coded_blocks (s.coded_blocks_off plane + block_i))).dc *
          s.qmat plane inter 0 0)) ∧
    (∀ j : Nat, j < n →
      ((fun u => end_of_block u plane st.i)^[j] st.s).dct_tokens plane st.i
        = st.s.dct_tokens plane st.i ∧
      ((fun u => end_of_block u plane st.i)^[j] st.s).dct_tokens_base
        (st.s.dct_tokens plane st.i) = 4 * ((n : Int) - j)) ∧
    ((fun u => end_of_block u plane st.i)^[n] st.s).dct_tokens plane st.i
      = st.s.dct_tokens plane st.i + 1 := by
  refine ⟨?_, ?_, end_of_block_iterate_last st.s plane st.i n hn hfit htoken⟩
  · have htype : token_type (st.s.dct_tokens_base (st.s.dct_tokens plane st.i)) = 0 := by
      rw [htoken]
      unfold token_type
      omega
    have hloop := dequant_loop_eob perm _ plane k (dequant_start s block) st hreach
      (by show 0 < 64; omega) htype
    obtain ⟨hb, hq, _⟩ := dequant_passes_frame perm _ plane k (dequant_start s block) st hreach
    obtain ⟨eb, eq⟩ := end_of_block_frame st.s plane st.i
    have hb2 : st.s.blocks = s.blocks := hb
    have hq2 : st.s.qmat = s.qmat := hq
    refine ⟨(end_of_block st.s plane st.i, Function.update st.block (perm 0)
      (wrap16 ((s.blocks (s.coded_blocks (s.coded_blocks_off plane + block_i))).dc *
        s.qmat plane inter 0 0))), ?_, rfl, ?_, ?_, ?_, ?_, ?_⟩
    · unfold dequant
      simp only [hloop, eb, eq, hb2, hq2]
    · intro p z
      show (end_of_block st.s plane st.i).dct_tokens p z = _
      by_cases h1 : n = 1
      · subst h1
        rw [end_of_block_last st.s plane st.i (by rw [htoken]; norm_num)]
        show (if p = plane ∧ z = st.i then _ else _) = _
        by_cases hpz : p = plane ∧ z = st.i
        · rw [if_pos hpz, if_pos ⟨hpz.1, hpz.2, rfl⟩]
        · rw [if_neg hpz, if_neg (fun h => hpz ⟨h.1, h.2.1⟩)]
      · rw [end_of_block_run st.s plane st.i n (by omega) hfit htoken,
          if_neg (fun h => h1 h.2.2)]
    · intro q
      show (end_of_block st.s plane st.i).dct_tokens_base q = _
      by_cases h1 : n = 1
      · subst h1
        rw [end_of_block_last st.s plane st.i (by rw [htoken]; norm_num),
          if_neg (fun h => by omega)]
        rfl
      · rw [end_of_block_run st.s plane st.i n (by omega) hfit htoken]
        show Function.update _ _ _ q = _
        by_cases hq1 : q = st.s.dct_tokens plane st.i
        · subst hq1
          rw [Function.update_same, if_pos ⟨rfl, by omega⟩]
        · rw [Function.update_noteq hq1, if_neg (fun h => hq1 h.1)]
    · intro j hj
      exact Function.update_noteq hj _ _
    · exact Function.update_same _ _ _
    · intro h1 h2
      show Function.update _ _ _ _ = _
      rw [Function.update_same]
      unfold wrap16
      omega
  · intro j hj
    obtain ⟨h1, h2⟩ := end_of_block_iterate st.s plane st.i n hfit htoken j (by exact_mod_cast hj)
    exact ⟨by rw [h1], h2⟩

set_option maxRecDepth 100000 in
/-- C25 for the first block of `example_dequant_context`: the call consumes
the coefficient token of level 0, meets the EOB token of run 2 at level 1,
rewrites it as the EOB token of run 1 and leaves its stream pointer at 10;
coefficient 0 is set to 5 * 16. -/
theorem dequant_eob_run_witness :
    ∃ r, dequant id example_dequant_context (fun _ => 0) 0 0 0 = some r ∧
      r.1.dct_tokens_base 10 = 4 ∧ r.1.dct_tokens 0 1 = 10 ∧ r.1.dct_tokens 0 0 = 1 ∧
      r.2 0 = 80 := by
  have h := dequant_eob_run id example_dequant_context (fun _ => 0) 0 0 0 1 _ 2 rfl
    (by decide) (by decide) rfl
  obtain ⟨⟨r, hr, _, hp, hq, _, _, hdc⟩, _, _⟩ := h
  refine ⟨r, hr, ?_, ?_, ?_, ?_⟩
  · rw [hq]
    decide
  · rw [hp]
    decide
  · rw [hp]
    decide
  · exact hdc (by decide) (by decide)

/-- C26: the token `(coeff << 2) + 2` that `unpack_vlcs` stores for a coefficient
`c` in [-8192, 8191] fits in `int16_t` (the stored value is the token), has the
type 2, and `token >> 2` gives `c` back; the token
`(coeff << 9) + (zero_run << 2) + 1` for `c` in [-64, 63] and a zero run `z` in
[0, 127] fits in `int16_t`, has the type 1, and `(token >> 2) & 0x7f` and
`token >> 9` give `z` and `c` back. -/
theorem token_packing_roundtrip (st : VlcState) (off : Nat) :
    (∀ c : Int, -8192 ≤ c → c ≤ 8191 →
      -32768 ≤ c * 4 + 2 ∧ c * 4 + 2 ≤ 32767 ∧
      (put_token st off (c * 4 + 2)).s.dct_tokens_base (off + st.j) = c * 4 + 2 ∧
      token_type ((put_token st off (c * 4 + 2)).s.dct_tokens_base (off + st.j)) = 2 ∧
      token_coeff ((put_token st off (c * 4 + 2)).s.dct_tokens_base (off + st.j)) = c) ∧
    (∀ c z : Int, -64 ≤ c → c ≤ 63 → 0 ≤ z → z ≤ 127 →
      -32768 ≤ c * 512 + z * 4 + 1 ∧ c * 512 + z * 4 + 1 ≤ 32767 ∧
      (put_token st off (c * 512 + z * 4 + 1)).s.dct_tokens_base (off + st.j)
        = c * 512 + z * 4 + 1 ∧
      token_type ((put_token st off (c * 512 + z * 4 + 1)).s.dct_tokens_base (off + st.j)) = 1 ∧
      token_zero_run
        ((put_token st off (c * 512 + z * 4 + 1)).s.dct_tokens_base (off + st.j)) = z ∧
      token_run_coeff
        ((put_token st off (c * 512 + z * 4 + 1)).s.dct_tokens_base (off + st.j)) = c) := by
  have hput : ∀ v : Int, (put_token st off v).s.dct_tokens_base (off + st.j) = wrap16 v := by
    intro v
    show Function.update _ _ _ _ = _
    rw [Function.update_same]
  constructor
  · intro c h1 h2
    rw [hput]
    unfold wrap16 token_type token_coeff
    omega
  · intro c z h1 h2 h3 h4
    rw [hput]
    unfold wrap16 token_type token_zero_run token_run_coeff
    omega

/-- C26 at the ends of the ranges: the coefficient -8192, and the coefficient
-64 with the zero run 127. -/
theorem token_packing_roundtrip_witness :
    token_coeff ((put_token example_vlc_state 0 (-8192 * 4 + 2)).s.dct_tokens_base
      (0 + example_vlc_state.j)) = -8192 ∧
    token_zero_run ((put_token example_vlc_state 0 (-64 * 512 + 127 * 4 + 1)).s.dct_tokens_base
      (0 + example_vlc_state.j)) = 127 ∧
    token_run_coeff ((put_token example_vlc_state 0 (-64 * 512 + 127 * 4 + 1)).s.dct_tokens_base
      (0 + example_vlc_state.j)) = -64 :=
  ⟨((token_packing_roundtrip example_vlc_state 0).1 (-8192) (by decide) (by decide)).2.2.2.2,
   ((token_packing_roundtrip example_vlc_state 0).2 (-64) 127 (by decide) (by decide) (by decide)
      (by decide)).2.2.2.2.1,
   ((token_packing_roundtrip example_vlc_state 0).2 (-64) 127 (by decide) (by decide) (by decide)
      (by decide)).2.2.2.2.2⟩

/-- A tree has at least one leaf. -/
theorem HTree.leaves_pos : ∀ T : HTree, 1 ≤ T.leaves
  | HTree.leaf _ => Nat.le_refl 1
  | HTree.node l r => by
    have := HTree.leaves_pos l
    show 1 ≤ l.leaves + r.leaves
    omega

/-- Setting the lowest bit of an even number. -/
theorem two_mul_or_one (h : Nat) : (h * 2) ||| 1 = 2 * h + 1 := by
  apply Nat.eq_of_testBit_eq
  intro i
  rw [Nat.testBit_or]
  cases i with
  | zero =>
    simp [Nat.testBit_zero]
    omega
  | succ i =>
    rw [Nat.testBit_succ, Nat.testBit_succ, Nat.testBit_succ]
    have e1 : h * 2 / 2 = h := by omega
    have e2 : (2 * h + 1) / 2 = h := by omega
    rw [e1, e2]
    simp

/-- `read_huffman_tree` returns when `33 - huff_code_size` levels of recursion
are allowed, and a call that returns 0 leaves `huff_code_size` as it was. -/
theorem read_huffman_tree_total :
    ∀ (k : Nat) (s : HuffmanState) (gb : GetBitContext),
      (32 - s.huff_code_size).toNat < k →
      ∃ r s' gb', read_huffman_tree k s gb = some (r, s', gb') ∧
        (r = 0 → s'.huff_code_size = s.huff_code_size) ∧ (r = 0 ∨ r = -1) := by
  intro k
  induction k with
  | zero =>
    intro s gb h
    omega
  | succ k ih =>
    intro s gb h
    rw [read_huffman_tree]
    by_cases hb : (get_bits1 gb).1 ≠ 0
    · rw [if_pos hb]
      by_cases he : s.entries ≥ 32
      · rw [if_pos he]
        exact ⟨_, _, _, rfl, fun _ => rfl, Or.inr rfl⟩
      · rw [if_neg he]
        exact ⟨_, _, _, rfl, fun _ => rfl, Or.inl rfl⟩
    · rw [if_neg hb]
      by_cases hs : s.huff_code_size ≥ 32
      · rw [if_pos hs]
        exact ⟨_, _, _, rfl, fun _ => rfl, Or.inr rfl⟩
      · rw [if_neg hs]
        obtain ⟨r1, s2, gb2, h1, e1, _⟩ := ih
          ({ s with huff_code_size := s.huff_code_size + 1, hbits := (s.hbits * 2) % 4294967296 })
          (get_bits1 gb).2 (by show (32 - (s.huff_code_size + 1)).toNat < k; omega)
        simp only [h1]
        by_cases hr : r1 ≠ 0
        · rw [if_pos hr]
          exact ⟨_, _, _, rfl, fun h0 => absurd h0 (by decide), Or.inr rfl⟩
        · rw [if_neg hr]
          have e2 : s2.huff_code_size = s.huff_code_size + 1 := e1 (not_not.mp hr)
          obtain ⟨r2, s4, gb4, h2, e3, _⟩ := ih { s2 with hbits := s2.hbits ||| 1 } gb2
            (by show (32 - s2.huff_code_size).toNat < k; omega)
          simp only [h2]
          by_cases hr2 : r2 ≠ 0
          · rw [if_pos hr2]
            exact ⟨_, _, _, rfl, fun h0 => absurd h0 (by decide), Or.inr rfl⟩
          · rw [if_neg hr2]
            refine ⟨_, _, _, rfl, fun _ => ?_, Or.inl rfl⟩
            show s4.huff_code_size - 1 = s.huff_code_size
            have e4 : s4.huff_code_size = s2.huff_code_size := e3 (not_not.mp hr2)
            omega

/-- What `read_huffman_tree` does with a tree that the stream holds at the
cursor: a tree that fits is read to its end, with return value 0, its leaves
stored in reading order, `entries` raised by their number, and `hbits` and
`huff_code_size` as on entry; any other tree gives -1. -/
theorem read_huffman_tree_spec :
    ∀ (T : HTree) (k : Nat) (s : HuffmanState) (gb : GetBitContext) (d : Nat),
      T.held gb.buffer gb.index → (32 - s.huff_code_size).toNat < k →
      0 ≤ s.huff_code_size → s.hbits < 2 ^ s.huff_code_size.toNat →
      ∃ r s' gb', read_huffman_tree k s gb = some (r, s', gb') ∧
        (T.accepted s.huff_code_size s.entries →
          r = 0 ∧ s'.hti = s.hti ∧ s'.hbits = s.hbits ∧
          s'.huff_code_size = s.huff_code_size ∧
          s'.entries = s.entries + (T.leaves : Int) ∧
          s'.huffman_table = (T.codes s.hbits d).foldl
            (store_leaf s.hti (s.huff_code_size - (d : Int))) s.huffman_table ∧
          gb'.buffer = gb.buffer ∧ gb'.index = gb.index + T.bits) ∧
        (¬ T.accepted s.huff_code_size s.entries → r = -1) := by
  intro T
  induction T with
  | leaf t =>
    intro k s gb d hheld hk h0 hh
    obtain ⟨hflag, htok⟩ := hheld
    obtain ⟨k', rfl⟩ : ∃ k', k = k' + 1 := ⟨k - 1, by omega⟩
    rw [read_huffman_tree]
    have hb : (get_bits1 gb).1 ≠ 0 := by
      show (if gb.buffer gb.index then 1 else 0) ≠ 0
      rw [hflag]
      decide
    rw [if_pos hb]
    by_cases he : s.entries ≥ 32
    · rw [if_pos he]
      refine ⟨-1, s, _, rfl, ?_, fun _ => rfl⟩
      intro hacc
      have := hacc.2
      have h1 : ((HTree.leaf t).leaves : Int) = 1 := rfl
      omega
    · rw [if_neg he]
      refine ⟨0, _, _, rfl, ?_, ?_⟩
      · intro _
        refine ⟨rfl, rfl, rfl, rfl, rfl, ?_, rfl, rfl⟩
        have htok2 : (get_bits (get_bits1 gb).2 5).1 = t := htok
        show store_code s (get_bits (get_bits1 gb).2 5).1 = store_leaf s.hti _ s.huffman_table _
        rw [htok2]
        funext h t' c
        unfold store_code store_leaf
        simp only [sub_add_cancel]
      · intro hna
        exfalso
        apply hna
        refine ⟨trivial, ?_⟩
        have h1 : ((HTree.leaf t).leaves : Int) = 1 := rfl
        omega
  | node l r ihl ihr =>
    intro k s gb d hheld hk h0 hh
    obtain ⟨hflag, hl, hr⟩ := hheld
    obtain ⟨k', rfl⟩ : ∃ k', k = k' + 1 := ⟨k - 1, by omega⟩
    rw [read_huffman_tree]
    have hb : ¬ (get_bits1 gb).1 ≠ 0 := by
      show ¬ (if gb.buffer gb.index then 1 else 0) ≠ 0
      rw [hflag]
      decide
    rw [if_neg hb]
    have hleaves : ((HTree.node l r).leaves : Int) = (l.leaves : Int) + (r.leaves : Int) := by
      show ((l.leaves + r.leaves : Nat) : Int) = _
      push_cast
      rfl
    by_cases hs : s.huff_code_size ≥ 32
    · rw [if_pos hs]
      refine ⟨-1, s, _, rfl, ?_, fun _ => rfl⟩
      intro hacc
      have := hacc.1.1
      omega
    · rw [if_neg hs]
      have hsz : (s.huff_code_size + 1).toNat = s.huff_code_size.toNat + 1 := by omega
      have hpow : 2 ^ s.huff_code_size.toNat ≤ 2 ^ 31 :=
        Nat.pow_le_pow_right (by norm_num) (by omega)
      have hmod : (s.hbits * 2) % 4294967296 = s.hbits * 2 := by
        apply Nat.mod_eq_of_lt
        omega
      obtain ⟨r1, s2, gb2, h1, hacc1, hrej1⟩ := ihl k'
        ({ s with huff_code_size := s.huff_code_size + 1, hbits := (s.hbits * 2) % 4294967296 })
        (get_bits1 gb).2 (d + 1) hl
        (by show (32 - (s.huff_code_size + 1)).toNat < k'; omega)
        (by show 0 ≤ s.huff_code_size + 1; omega)
        (by
          show (s.hbits * 2) % 4294967296 < 2 ^ (s.huff_code_size + 1).toNat
          rw [hmod, hsz, pow_succ]
          omega)
      simp only [h1]
      by_cases hA1 : l.accepted (s.huff_code_size + 1) s.entries
      · obtain ⟨e0, e1, e2, e3, e4, e5, e6, e7⟩ := hacc1 hA1
        rw [if_neg (by rw [e0]; decide)]
        have e2' : s2.hbits = s.hbits * 2 := by rw [e2]; exact hmod
        have e3' : s2.huff_code_size = s.huff_code_size + 1 := e3
        have e4' : s2.entries = s.entries + (l.leaves : Int) := e4
        have e1' : s2.hti = s.hti := e1
        have hor : s2.hbits ||| 1 = 2 * s.hbits + 1 := by rw [e2', two_mul_or_one]
        obtain ⟨r2, s4, gb4, h2, hacc2, hrej2⟩ := ihr k'
          ({ s2 with hbits := s2.hbits ||| 1 }) gb2 (d + 1)
          (by
            rw [e6, e7]
            exact hr)
          (by show (32 - s2.huff_code_size).toNat < k'; omega)
          (by show 0 ≤ s2.huff_code_size; omega)
          (by
            show s2.hbits ||| 1 < 2 ^ s2.huff_code_size.toNat
            rw [hor, e3', hsz, pow_succ]
            omega)
        simp only [h2]
        by_cases hA2 : r.accepted s2.huff_code_size s2.entries
        · obtain ⟨f0, f1, f2, f3, f4, f5, f6, f7⟩ := hacc2 hA2
          rw [if_neg (by rw [f0]; decide)]
          refine ⟨0, _, _, rfl, ?_, ?_⟩
          · intro _
            refine ⟨rfl, ?_, ?_, ?_, ?_, ?_, ?_, ?_⟩
            · show s4.hti = s.hti
              rw [f1]
              exact e1'
            · show s4.hbits / 2 = s.hbits
              rw [f2]
              show (s2.hbits ||| 1) / 2 = s.hbits
              rw [hor]
              omega
            · show s4.huff_code_size - 1 = s.huff_code_size
              rw [f3]
              show s2.huff_code_size - 1 = s.huff_code_size
              omega
            · show s4.entries = _
              rw [f4]
              show s2.entries + (r.leaves : Int) = _
              rw [e4', hleaves]
              omega
            · show s4.huffman_table = _
              rw [f5]
              show List.foldl (store_leaf s2.hti (s2.huff_code_size - ((d + 1 : Nat) : Int)))
                s2.huffman_table (r.codes (s2.hbits ||| 1) (d + 1)) = _
              rw [e5, hor, e1', e3']
              show List.foldl (store_leaf s.hti (s.huff_code_size + 1 - ((d + 1 : Nat) : Int)))
                (List.foldl (store_leaf s.hti (s.huff_code_size + 1 - ((d + 1 : Nat) : Int)))
                  s.huffman_table (l.codes ((s.hbits * 2) % 4294967296) (d + 1)))
                (r.codes (2 * s.hbits + 1) (d + 1)) = _
              rw [hmod, show s.hbits * 2 = 2 * s.hbits by omega,
                show s.huff_code_size + 1 - ((d + 1 : Nat) : Int) = s.huff_code_size - (d : Int) by
                  push_cast; ring]
              show _ = List.foldl _ _ (l.codes (2 * s.hbits) (d + 1) ++
                r.codes (2 * s.hbits + 1) (d + 1))
              rw [List.foldl_append]
            · show gb4.buffer = gb.buffer
              rw [f6]
              exact e6
            · show gb4.index = gb.index + (1 + l.bits + r.bits)
              rw [f7, e7]
              show gb.index + 1 + l.bits + r.bits = _
              omega
          · intro hna
            exfalso
            apply hna
            refine ⟨⟨by omega, hA1.1, ?_⟩, ?_⟩
            · have := hA2.1
              rw [e3'] at this
              exact this
            · have := hA2.2
              rw [e4'] at this
              rw [hleaves]
              omega
        · have f0 := hrej2 hA2
          rw [if_pos (by rw [f0]; decide)]
          refine ⟨-1, _, _, rfl, ?_, fun _ => rfl⟩
          intro hacc
          exfalso
          apply hA2
          refine ⟨?_, ?_⟩
          · rw [e3']
            exact hacc.1.2.2
          · have := hacc.2
            rw [hleaves] at this
            rw [e4']
            omega
      · have e0 := hrej1 hA1
        rw [if_pos (by rw [e0]; decide)]
        refine ⟨-1, _, _, rfl, ?_, fun _ => rfl⟩
        intro hacc
        exfalso
        apply hA1
        refine ⟨hacc.1.2.1, ?_⟩
        have := hacc.2
        rw [hleaves] at this
        have := HTree.leaves_pos r
        omega

/-- A call of `read_huffman_tree` that returns 0 has read a tree: the stream
holds one at the cursor. -/
theorem read_huffman_tree_reads_tree :
    ∀ (k : Nat) (s : HuffmanState) (gb : GetBitContext) (s' : HuffmanState)
      (gb' : GetBitContext),
      read_huffman_tree k s gb = some (0, s', gb') →
      ∃ T : HTree, T.held gb.buffer gb.index ∧ gb'.buffer = gb.buffer ∧
        gb'.index = gb.index + T.bits := by
  intro k
  induction k with
  | zero =>
    intro s gb s' gb' h
    rw [read_huffman_tree] at h
    cases h
  | succ k ih =>
    intro s gb s' gb' h
    rw [read_huffman_tree] at h
    by_cases hb : (get_bits1 gb).1 ≠ 0
    · rw [if_pos hb] at h
      have hflag : gb.buffer gb.index = true := by
        by_contra hne
        apply hb
        show (if gb.buffer gb.index then 1 else 0) = 0
        rw [if_neg hne]
      by_cases he : s.entries ≥ 32
      · rw [if_pos he] at h
        cases h
      · rw [if_neg he] at h
        cases h
        exact ⟨HTree.leaf (read_bits gb.buffer 5 (gb.index + 1) 0), ⟨hflag, rfl⟩, rfl, rfl⟩
    · rw [if_neg hb] at h
      have hflag : gb.buffer gb.index = false := by
        by_contra hne
        apply hb
        show (if gb.buffer gb.index then 1 else 0) ≠ 0
        rw [if_pos (by simpa using hne)]
        decide
      by_cases hs : s.huff_code_size ≥ 32
      · rw [if_pos hs] at h
        cases h
      · rw [if_neg hs] at h
        cases h1 : read_huffman_tree k
            ({ s with huff_code_size := s.huff_code_size + 1, hbits := (s.hbits * 2) % 4294967296 })
            (get_bits1 gb).2 with
        | none =>
          simp [h1] at h
        | some x =>
          obtain ⟨r1, s2, gb2⟩ := x
          simp only [h1] at h
          by_cases hr1 : r1 ≠ 0
          · rw [if_pos hr1] at h
            cases h
          · rw [if_neg hr1] at h
            have hr1' : r1 = 0 := not_not.mp hr1
            subst hr1'
            obtain ⟨L, hL, hLb, hLi⟩ := ih _ _ _ _ h1
            cases h2 : read_huffman_tree k ({ s2 with hbits := s2.hbits ||| 1 }) gb2 with
            | none =>
              simp [h2] at h
            | some y =>
              obtain ⟨r2, s4, gb4⟩ := y
              simp only [h2] at h
              by_cases hr2 : r2 ≠ 0
              · rw [if_pos hr2] at h
                cases h
              · have hr2' : r2 = 0 := not_not.mp hr2
                subst hr2'
                obtain ⟨R, hR, hRb, hRi⟩ := ih _ _ _ _ h2
                rw [if_neg (by decide)] at h
                cases h
                have hLb' : gb2.buffer = gb.buffer := hLb
                have hLi' : gb2.index = gb.index + 1 + L.bits := hLi
                refine ⟨HTree.node L R, ⟨hflag, hL, ?_⟩, ?_, ?_⟩
                · rw [hLb', hLi'] at hR
                  exact hR
                · rw [hRb, hLb']
                · rw [hRi, hLi']
                  show _ = gb.index + (1 + L.bits + R.bits)
                  omega

/-- Leaves with other tokens leave the entry of a token alone. -/
theorem foldl_store_leaf_other (hti : Nat) (size : Int) (t : Nat) :
    ∀ (post : List (Nat × Nat × Nat)) (table : Nat → Nat → Nat → Nat),
      (∀ x, x ∈ post → x.1 ≠ t) → ∀ c,
      (post.foldl (store_leaf hti size) table) hti t c = table hti t c := by
  intro post
  induction post with
  | nil =>
    intro table _ c
    rfl
  | cons x xs ih =>
    intro table h c
    rw [List.foldl_cons, ih _ (fun y hy => h y (List.mem_cons_of_mem _ hy))]
    have hx : x.1 ≠ t := h x (List.mem_cons_self _ _)
    unfold store_leaf
    rw [if_neg (fun h1 => hx h1.2.1.symm), if_neg (fun h1 => hx h1.2.1.symm)]

/-- The entry of a token after the leaves of a tree have been stored is that of
the last leaf with this token. -/
theorem foldl_store_leaf_last (hti : Nat) (size : Int) (pre post : List (Nat × Nat × Nat))
    (e : Nat × Nat × Nat) (table : Nat → Nat → Nat → Nat)
    (hpost : ∀ x, x ∈ post → x.1 ≠ e.1) :
    ((pre ++ e :: post).foldl (store_leaf hti size) table) hti e.1 0 = e.2.1 % 65536 ∧
    ((pre ++ e :: post).foldl (store_leaf hti size) table) hti e.1 1
      = ((size + (e.2.2 : Int)) % 65536).toNat := by
  rw [List.foldl_append, List.foldl_cons]
  constructor
  · rw [foldl_store_leaf_other hti size e.1 post _ hpost]
    unfold store_leaf
    rw [if_pos ⟨rfl, rfl, rfl⟩]
  · rw [foldl_store_leaf_other hti size e.1 post _ hpost]
    unfold store_leaf
    rw [if_neg (fun h => by have := h.2.2; omega), if_pos ⟨rfl, rfl, rfl⟩]

/-- Every leaf of a tree lies below its root, and its code begins with the code
of the root. -/
theorem HTree.codes_root : ∀ (T : HTree) (c d : Nat) (e : Nat × Nat × Nat),
    e ∈ T.codes c d → d ≤ e.2.2 ∧ e.2.1 / 2 ^ (e.2.2 - d) = c := by
  intro T
  induction T with
  | leaf t =>
    intro c d e he
    rw [HTree.codes, List.mem_singleton] at he
    subst he
    simp
  | node l r ihl ihr =>
    intro c d e he
    rw [HTree.codes, List.mem_append] at he
    rcases he with he | he
    · obtain ⟨h1, h2⟩ := ihl _ _ e he
      refine ⟨by omega, ?_⟩
      rw [show e.2.2 - d = (e.2.2 - (d + 1)) + 1 by omega, pow_succ, ← Nat.div_div_eq_div_mul, h2]
      omega
    · obtain ⟨h1, h2⟩ := ihr _ _ e he
      refine ⟨by omega, ?_⟩
      rw [show e.2.2 - d = (e.2.2 - (d + 1)) + 1 by omega, pow_succ, ← Nat.div_div_eq_div_mul, h2]
      omega

/-- A code that begins with the code `a` does not begin with another code
`b` of the same length. -/
theorem code_begins_root (x y : Nat × Nat × Nat) (d a b : Nat) (hab : a ≠ b)
    (hx : d ≤ x.2.2 ∧ x.2.1 / 2 ^ (x.2.2 - d) = a)
    (hy : d ≤ y.2.2 ∧ y.2.1 / 2 ^ (y.2.2 - d) = b) : ¬ code_begins x y := by
  intro hp
  obtain ⟨hle, hdiv⟩ := hp
  apply hab
  rw [← hx.2, ← hy.2, ← hdiv, Nat.div_div_eq_div_mul, ← pow_add]
  congr 2
  omega

/-- The codes of the leaves of a tree are prefix-free. -/
theorem HTree.codes_unambiguous : ∀ (T : HTree) (c d : Nat),
    (T.codes c d).Pairwise (fun a b => ¬ code_begins a b ∧ ¬ code_begins b a) := by
  intro T
  induction T with
  | leaf t =>
    intro c d
    rw [HTree.codes]
    exact List.pairwise_singleton _ _
  | node l r ihl ihr =>
    intro c d
    rw [HTree.codes, List.pairwise_append]
    refine ⟨ihl _ _, ihr _ _, ?_⟩
    intro a ha b hb
    have h1 := HTree.codes_root l _ _ a ha
    have h2 := HTree.codes_root r _ _ b hb
    exact ⟨code_begins_root a b (d + 1) _ _ (by omega) h1 h2,
      code_begins_root b a (d + 1) _ _ (by omega) h2 h1⟩

/-- The leaves of a tree without an inner node at a code size of 32 or more stand
at a code size of at most 32. -/
theorem HTree.codes_depth : ∀ (T : HTree) (size : Int) (c d : Nat) (e : Nat × Nat × Nat),
    T.depth_ok size → size ≤ 32 → e ∈ T.codes c d → size + ((e.2.2 : Int) - d) ≤ 32 := by
  intro T
  induction T with
  | leaf t =>
    intro size c d e _ h32 he
    rw [HTree.codes, List.mem_singleton] at he
    subst he
    simp only [sub_self, add_zero]
    exact h32
  | node l r ihl ihr =>
    intro size c d e hok h32 he
    obtain ⟨h1, h2, h3⟩ := hok
    rw [HTree.codes, List.mem_append] at he
    rcases he with he | he
    · have := ihl (size + 1) _ _ e h2 (by omega) he
      push_cast at this
      omega
    · have := ihr (size + 1) _ _ e h3 (by omega) he
      push_cast at this
      omega

/-- C30 (amended): `read_huffman_tree`, entered with `0 ≤ huff_code_size ≤ 32`
and `hbits` below `2 ^ huff_code_size`, returns 0 or -1. For a tree that the
stream holds at the cursor it returns -1 exactly when an inner node stands at
a code size of 32 or more or a leaf is met after 32 entries. When it returns
0, `hbits` and `huff_code_size` are as on entry and the stream holds a tree
whose leaves have prefix-free codes (the branch bits from the root, 0 for the
first subtree, 1 for the second) at code sizes up to 32; for each leaf whose
token no later leaf of the tree carries again, `huffman_table[hti][token]`
holds the low 16 bits of the code and the code size, so the code itself for a
leaf at a code size of at most 16. -/
theorem read_huffman_tree_stores_codes (k : Nat) (s : HuffmanState) (gb : GetBitContext)
    (hk : (32 - s.huff_code_size).toNat < k) (h0 : 0 ≤ s.huff_code_size)
    (h32 : s.huff_code_size ≤ 32) (hh : s.hbits < 2 ^ s.huff_code_size.toNat) :
    ∃ r s' gb', read_huffman_tree k s gb = some (r, s', gb') ∧ (r = 0 ∨ r = -1) ∧
      (∀ T : HTree, T.held gb.buffer gb.index →
        (r = -1 ↔ ¬ (T.depth_ok s.huff_code_size ∧ s.entries + (T.leaves : Int) ≤ 32))) ∧
      (r = 0 → s'.hbits = s.hbits ∧ s'.huff_code_size = s.huff_code_size ∧
        ∃ T : HTree, T.held gb.buffer gb.index ∧
          s'.entries = s.entries + (T.leaves : Int) ∧ gb'.index = gb.index + T.bits ∧
          (T.codes s.hbits 0).Pairwise (fun a b => ¬ code_begins a b ∧ ¬ code_begins b a) ∧
          ∀ pre e post, T.codes s.hbits 0 = pre ++ e :: post →
            s.huff_code_size + (e.2.2 : Int) ≤ 32 ∧
            ((∀ x, x ∈ post → x.1 ≠ e.1) →
              s'.huffman_table s.hti e.1 0 = e.2.1 % 65536 ∧
              (s'.huffman_table s.hti e.1 1 : Int) = s.huff_code_size + (e.2.2 : Int) ∧
              (s.huff_code_size + (e.2.2 : Int) ≤ 16 →
                s'.huffman_table s.hti e.1 0 = e.2.1))) := by
  obtain ⟨r, s', gb', hres, _, hr01⟩ := read_huffman_tree_total k s gb hk
  refine ⟨r, s', gb', hres, hr01, ?_, ?_⟩
  · intro T hT
    obtain ⟨r2, s2, gb2, h2, hacc, hrej⟩ := read_huffman_tree_spec T k s gb 0 hT hk h0 hh
    rw [hres] at h2
    cases h2
    constructor
    · intro hr hA
      have := (hacc hA).1
      omega
    · intro hA
      exact hrej hA
  · intro hr0
    subst hr0
    obtain ⟨T, hT, _, _⟩ := read_huffman_tree_reads_tree k s gb s' gb' hres
    obtain ⟨r2, s2, gb2, h2, hacc, hrej⟩ := read_huffman_tree_spec T k s gb 0 hT hk h0 hh
    rw [hres] at h2
    cases h2
    have hA : T.accepted s.huff_code_size s.entries := by
      by_contra hA
      have := hrej hA
      omega
    obtain ⟨_, e1, e2, e3, e4, e5, e6, e7⟩ := hacc hA
    refine ⟨e2, e3, T, hT, e4, e7, HTree.codes_unambiguous T _ _, ?_⟩
    intro pre e post hsplit
    have hmem : e ∈ T.codes s.hbits 0 := by
      rw [hsplit]
      exact List.mem_append_right _ (List.mem_cons_self _ _)
    have hdepth := HTree.codes_depth T s.huff_code_size s.hbits 0 e hA.1 h32 hmem
    have hdepth' : s.huff_code_size + (e.2.2 : Int) ≤ 32 := by
      push_cast at hdepth
      omega
    refine ⟨hdepth', ?_⟩
    intro hpost
    have hlast := foldl_store_leaf_last s.hti (s.huff_code_size - ((0 : Nat) : Int)) pre post e
      s.huffman_table hpost
    rw [← hsplit, ← e5] at hlast
    have hz : s.huff_code_size - ((0 : Nat) : Int) + (e.2.2 : Int)
        = s.huff_code_size + (e.2.2 : Int) := by
      push_cast
      ring
    rw [hz] at hlast
    refine ⟨hlast.1, ?_, ?_⟩
    · rw [hlast.2]
      omega
    · intro h16
      rw [hlast.1]
      apply Nat.mod_eq_of_lt
      obtain ⟨_, hroot⟩ := HTree.codes_root T s.hbits 0 e hmem
      rw [Nat.sub_zero] at hroot
      have hlt : e.2.1 < (s.hbits + 1) * 2 ^ e.2.2 := by
        have hpos : 0 < 2 ^ e.2.2 := Nat.pow_pos (by norm_num)
        have := (Nat.div_lt_iff_lt_mul hpos).mp (show e.2.1 / 2 ^ e.2.2 < s.hbits + 1 by omega)
        exact this
      have hle : (s.hbits + 1) * 2 ^ e.2.2 ≤ 2 ^ s.huff_code_size.toNat * 2 ^ e.2.2 :=
        Nat.mul_le_mul_right _ hh
      have hpow : 2 ^ s.huff_code_size.toNat * 2 ^ e.2.2 ≤ 2 ^ 16 := by
        rw [← pow_add]
        exact Nat.pow_le_pow_right (by norm_num) (by omega)
      have : (2 : Nat) ^ 16 = 65536 := by norm_num
      omega

set_option maxRecDepth 100000 in
/-- C30 (amended) for a tree with the tokens 5, 7 and 9 below the first branch
of the root: the call returns 0 or -1, and by evaluation it returns 0 with the
entry (code 011, length 3) for the token 9. -/
theorem read_huffman_tree_stores_codes_witness :
    (32 - (example_huffman_state 0).huff_code_size).toNat < 33 ∧
    (example_huffman_state 0).hbits < 2 ^ (example_huffman_state 0).huff_code_size.toNat ∧
    (∃ r s' gb', read_huffman_tree 33 (example_huffman_state 0)
        ⟨bits_of example_tree.encode, 0⟩ = some (r, s', gb') ∧ (r = 0 ∨ r = -1)) ∧
    (read_huffman_tree 33 (example_huffman_state 0) ⟨bits_of example_tree.encode, 0⟩).map
      (fun x => (x.1, x.2.1.huffman_table 3 9 0, x.2.1.huffman_table 3 9 1, x.2.1.hbits,
        x.2.1.huff_code_size, x.2.2.index)) = some (0, 3, 3, 0, 1, 20) :=
  ⟨by decide, by decide,
   (read_huffman_tree_stores_codes 33 (example_huffman_state 0) ⟨bits_of example_tree.encode, 0⟩
      (by decide) (by decide) (by decide) (by decide)).elim
      (fun r h1 => h1.elim (fun s' h2 => h2.elim (fun gb' h3 => ⟨r, s', gb', h3.1, h3.2.1⟩))),
   by decide⟩

set_option maxRecDepth 1000000 in
/-- C30 (counterexample): two trees that `read_huffman_tree` accepts. The stream
holds a tree whose two leaves carry the token 5, with the codes 00 and 01; the
entry of the token holds the second code only. The stream holds a tree with a
leaf for the token 16 at depth 16 below the second branch of the root, whose
code is 17 ones (131071); the entry holds the code 65535 with the length 17. -/
theorem read_huffman_tree_entry_differs :
    example_twin_tree.held (bits_of example_twin_tree.encode) 0 ∧
    example_twin_tree.codes 0 0 = [(5, 0, 1), (5, 1, 1)] ∧
    (read_huffman_tree 33 (example_huffman_state 0) ⟨bits_of example_twin_tree.encode, 0⟩).map
      (fun x => (x.1, x.2.1.huffman_table 3 5 0, x.2.1.huffman_table 3 5 1)) = some (0, 1, 2) ∧
    (example_chain 16 0).held (bits_of (example_chain 16 0).encode) 0 ∧
    (16, 131071, 16) ∈ (example_chain 16 0).codes 1 0 ∧
    (read_huffman_tree 33 (example_huffman_state 1) ⟨bits_of (example_chain 16 0).encode, 0⟩).map
      (fun x => (x.1, x.2.1.huffman_table 3 16 0, x.2.1.huffman_table 3 16 1))
      = some (0, 65535, 17) := by
  refine ⟨by decide, by decide, by decide, by decide, by decide, by decide⟩

theorem ramp_start_congr (f g : Nat → Nat) (n : Nat) (h : ∀ q, q < n → f q = g q) :
    ramp_start f n = ramp_start g n := by
  induction n with
  | zero => rfl
  | succ n ih =>
    rw [ramp_start, ramp_start, ih (fun q hq => h q (by omega)), h n (by omega)]

theorem ramp_start_ge (f : Nat → Nat) (n : Nat) (h : ∀ q, q < n → 1 ≤ f q) :
    (n : Int) ≤ ramp_start f n := by
  induction n with
  | zero => simp [ramp_start]
  | succ n ih =>
    rw [ramp_start]
    have h1 := ih (fun q hq => h q (by omega))
    have h2 := h n (by omega)
    push_cast
    omega

theorem av_log2_le : ∀ v, v < 64 → av_log2 v ≤ 5 := by decide

theorem range_size_bits_lt (matrices : Nat) (st : RangeState) :
    (range_size_bits matrices st).1 < 64 := by
  have h1 := get_bits_lt (range_base_bits matrices st).2 (av_log2 (63 - st.qi) + 1)
  have h2 : av_log2 (63 - st.qi) ≤ 5 := av_log2_le _ (by omega)
  have h3 : 2 ^ (av_log2 (63 - st.qi) + 1) ≤ 2 ^ 6 :=
    Nat.pow_le_pow_right (by decide) (by omega)
  unfold range_size_bits
  omega

theorem read_quant_range_spec (matrices inter plane : Nat) (hm : matrices ≤ 384) (k : Nat) :
    ∀ st : RangeState, RangeLoop matrices inter plane st → 1 ≤ k → 64 ≤ k + st.qi →
      ∃ res, read_quant_range matrices inter plane k st = some res ∧
        ∀ t, res = some t →
          (∀ q, q < t.qri → 1 ≤ t.s.qr_size inter plane q) ∧
          ramp_start (t.s.qr_size inter plane) t.qri = t.qi ∧
          (∀ q, q ≤ t.qri → t.s.qr_base inter plane q < matrices) ∧
          63 ≤ t.qi ∧ (st.qi < 63 → 1 ≤ t.qri) ∧ (1 ≤ st.qri → 1 ≤ t.qri) ∧
          t.s.qr_count = st.s.qr_count ∧ RangeFrame inter plane st.s t.s := by
  induction k with
  | zero =>
    intro st _ hk1 _
    omega
  | succ k ih =>
    intro st hl _ hk
    rw [read_quant_range]
    obtain ⟨h1, h2, h3⟩ := hl
    by_cases hb : (range_base_bits matrices st).1 ≥ matrices
    · rw [if_pos hb]
      exact ⟨none, rfl, fun t ht => by cases ht⟩
    · rw [if_neg hb]
      by_cases hq63 : st.qi ≥ 63
      · rw [if_pos hq63]
        refine ⟨_, rfl, fun t ht => ?_⟩
        cases ht
        refine ⟨h1, h2, fun q hq => ?_, hq63, fun h => by omega, fun h => h, rfl,
          fun a b _ => rfl, fun a b q _ => rfl, fun a b q hab => ?_⟩
        · simp only [store_range_base, set_range_entry, true_and]
          split_ifs with hq2
          · omega
          · exact h3 q (by simp only at hq; omega)
        · simp only [store_range_base, set_range_entry]
          rw [if_neg (fun h => hab ⟨h.1, h.2.1⟩)]
      · rw [if_neg hq63]
        have hz := range_size_bits_lt matrices st
        have hsize : ∀ q, (store_range_size
            (store_range_base st.s inter plane st.qri (range_base_bits matrices st).1)
            inter plane st.qri ((range_size_bits matrices st).1 + 1)).qr_size inter plane q =
            if q = st.qri then (range_size_bits matrices st).1 + 1
            else st.s.qr_size inter plane q := by
          intro q
          simp only [store_range_size, store_range_base, set_range_entry, true_and]
          split_ifs
          · omega
          · rfl
        have hbase : ∀ q, (store_range_size
            (store_range_base st.s inter plane st.qri (range_base_bits matrices st).1)
            inter plane st.qri ((range_size_bits matrices st).1 + 1)).qr_base inter plane q =
            if q = st.qri then (range_base_bits matrices st).1
            else st.s.qr_base inter plane q := by
          intro q
          simp only [store_range_size, store_range_base, set_range_entry, true_and]
          split_ifs
          · omega
          · rfl
        obtain ⟨res, hres, hspec⟩ := ih
          ⟨store_range_size
            (store_range_base st.s inter plane st.qri (range_base_bits matrices st).1)
            inter plane st.qri ((range_size_bits matrices st).1 + 1),
           (range_size_bits matrices st).2, st.qri + 1,
           st.qi + ((range_size_bits matrices st).1 + 1)⟩
          ⟨fun q hq => by
              rw [hsize]
              split_ifs
              · omega
              · exact h1 q (by simp only at hq; omega),
           by
              simp only
              rw [ramp_start, hsize, if_pos rfl,
                ramp_start_congr _ (st.s.qr_size inter plane) st.qri
                  (fun q hq => by rw [hsize, if_neg (by omega)]), h2]
              push_cast
              rfl,
           fun q hq => by
              rw [hbase]
              split_ifs
              · omega
              · exact h3 q (by simp only at hq; omega)⟩
          (by omega) (by simp only; omega)
        refine ⟨res, hres, fun t ht => ?_⟩
        obtain ⟨r1, r2, r3, r4, _, r6, r7, r8, r9, r10⟩ := hspec t ht
        refine ⟨r1, r2, r3, r4, fun _ => r6 (by simp only; omega),
          fun _ => r6 (by simp only; omega), r7, fun a b hab => ?_, fun a b q hab => ?_,
          fun a b q hab => ?_⟩
        · rw [r8 a b hab]
          rfl
        · rw [r9 a b q hab]
          simp only [store_range_size, store_range_base, set_range_entry]
          rw [if_neg (fun h => hab ⟨h.1, h.2.1⟩)]
        · rw [r10 a b q hab]
          simp only [store_range_size, store_range_base, set_range_entry]
          rw [if_neg (fun h => hab ⟨h.1, h.2.1⟩)]

theorem ranges_valid_frame (matrices inter plane a b : Nat) (s t : Vp3DecodeContext)
    (hf : RangeFrame inter plane s t) (hab : ¬ (a = inter ∧ b = plane))
    (h : ranges_valid s matrices a b) : ranges_valid t matrices a b := by
  obtain ⟨f1, f2, f3⟩ := hf
  have e1 := f1 a b hab
  have e2 : t.qr_size a b = s.qr_size a b := funext (fun q => f2 a b q hab)
  have e3 : t.qr_base a b = s.qr_base a b := funext (fun q => f3 a b q hab)
  unfold ranges_valid
  rw [e1, e2, e3]
  exact h

theorem ranges_valid_count (matrices a b : Nat) (s : Vp3DecodeContext)
    (h : ranges_valid s matrices a b) : s.qr_count a b ≤ 63 := by
  have := ramp_start_ge (s.qr_size a b) (s.qr_count a b) h.2.1
  have := h.2.2.1
  omega

theorem copy_quant_range_valid (matrices inter plane qtj plj : Nat) (s : Vp3DecodeContext)
    (h : ranges_valid s matrices qtj plj) :
    ranges_valid (copy_quant_range s inter plane qtj plj) matrices inter plane ∧
    RangeFrame inter plane s (copy_quant_range s inter plane qtj plj) := by
  have hc := ranges_valid_count matrices qtj plj s h
  obtain ⟨h1, h2, h3, h4⟩ := h
  refine ⟨⟨?_, ?_, ?_, ?_⟩, ?_, ?_, ?_⟩
  · simp only [copy_quant_range, and_self, if_true]
    exact h1
  · intro q hq
    simp only [copy_quant_range, and_self, if_true, true_and] at hq ⊢
    rw [if_pos (by omega)]
    exact h2 q hq
  · simp only [copy_quant_range, and_self, if_true, true_and]
    rw [ramp_start_congr _ (s.qr_size qtj plj) _ (fun q hq => by rw [if_pos (by omega)])]
    exact h3
  · intro q hq
    simp only [copy_quant_range, and_self, if_true, true_and] at hq ⊢
    rw [if_pos (by omega)]
    exact h4 q hq
  · intro a b hab
    simp only [copy_quant_range, if_neg hab]
  · intro a b q hab
    simp only [copy_quant_range]
    rw [if_neg (fun h => hab ⟨h.1, h.2.1⟩)]
  · intro a b q hab
    simp only [copy_quant_range]
    rw [if_neg (fun h => hab ⟨h.1, h.2.1⟩)]

theorem ranges_done_step (matrices inter plane : Nat) (s t : Vp3DecodeContext)
    (hd : RangesDone matrices (3 * inter + plane) s) (hp : plane < 3)
    (hv : ranges_valid t matrices inter plane) (hf : RangeFrame inter plane s t) :
    RangesDone matrices (3 * inter + plane + 1) t := by
  intro a b ha hb hab
  by_cases he : a = inter ∧ b = plane
  · rw [he.1, he.2]
    exact hv
  · apply ranges_valid_frame matrices inter plane a b s t hf he
    apply hd a b ha hb
    by_contra hn
    apply he
    constructor <;> omega

theorem decode_quant_range_spec (matrices inter plane : Nat) (hm : matrices ≤ 384)
    (hi : inter < 2) (hp : plane < 3) (st : Vp3DecodeContext × GetBitContext)
    (hd : RangesDone matrices (3 * inter + plane) st.1) :
    ∃ res, decode_quant_range matrices st inter plane = some res ∧
      ∀ st2, res = some st2 → RangesDone matrices (3 * inter + plane + 1) st2.1 := by
  unfold decode_quant_range
  simp only
  have hn1 : ¬ (inter ≠ 0 ∨ plane > 0) →
      (if inter ≠ 0 ∨ plane > 0 then get_bits1 st.2 else (1, st.2)).1 = 1 := by
    intro h
    rw [if_neg h]
  generalize (if inter ≠ 0 ∨ plane > 0 then get_bits1 st.2 else (1, st.2)) = n at hn1
  by_cases hn : n.1 = 0
  · rw [if_pos hn]
    have hip : inter ≠ 0 ∨ plane > 0 := by
      by_contra hc
      have := hn1 hc
      omega
    generalize (if inter ≠ 0 then get_bits1 n.2 else (0, n.2)) = c
    split_ifs with hc
    · refine ⟨_, rfl, fun st2 h2 => ?_⟩
      cases h2
      obtain ⟨v, f⟩ := copy_quant_range_valid matrices inter plane 0 plane st.1
        (hd 0 plane (by omega) hp (by omega))
      exact ranges_done_step matrices inter plane st.1 _ hd hp v f
    · refine ⟨_, rfl, fun st2 h2 => ?_⟩
      cases h2
      obtain ⟨v, f⟩ := copy_quant_range_valid matrices inter plane
        ((3 * inter + plane - 1) / 3) ((plane + 2) % 3) st.1
        (hd _ _ (by omega) (by omega) (by omega))
      exact ranges_done_step matrices inter plane st.1 _ hd hp v f
  · rw [if_neg hn]
    obtain ⟨res, hres, hspec⟩ := read_quant_range_spec matrices inter plane hm 64
      ⟨st.1, n.2, 0, 0⟩
      ⟨fun q hq => absurd hq (by simp), rfl, fun q hq => absurd hq (by simp)⟩
      (by omega) (by show 64 ≤ 64 + 0; omega)
    rw [hres]
    refine ⟨_, rfl, fun st2 h2 => ?_⟩
    cases res with
    | none => simp at h2
    | some t =>
      obtain ⟨r1, r2, r3, r4, r5, _, r7, r8⟩ := hspec t rfl
      simp only [Option.map_some', Option.some_bind, Option.some.injEq] at h2
      split_ifs at h2 with h63
      cases h2
      have hq1 : 1 ≤ t.qri := r5 (by show (0 : Nat) < 63; omega)
      have hge := ramp_start_ge (t.s.qr_size inter plane) t.qri r1
      have hq63 : t.qri ≤ 63 := by omega
      have hqi : t.qi = 63 := by omega
      apply ranges_done_step matrices inter plane st.1 _ hd hp
      · refine ⟨?_, ?_, ?_, ?_⟩
        · simp only [store_range_count, and_self, if_true]
          omega
        · intro q hq
          simp only [store_range_count, and_self, if_true] at hq ⊢
          exact r1 q (by omega)
        · simp only [store_range_count, and_self, if_true]
          rw [Nat.mod_eq_of_lt (by omega), r2, hqi]
          rfl
        · intro q hq
          simp only [store_range_count, and_self, if_true] at hq ⊢
          exact r3 q (by omega)
      · obtain ⟨f1, f2, f3⟩ := r8
        refine ⟨fun a b hab => ?_, f2, f3⟩
        simp only [store_range_count, if_neg hab]
        rw [r7]

theorem quant_range_step_spec (matrices inter plane : Nat) (hm : matrices ≤ 384)
    (hi : inter < 2) (hp : plane < 3)
    (acc : Option (Option (Vp3DecodeContext × GetBitContext)))
    (h : ∃ res, acc = some res ∧
      ∀ st, res = some st → RangesDone matrices (3 * inter + plane) st.1) :
    ∃ res, quant_range_step matrices acc inter plane = some res ∧
      ∀ st, res = some st → RangesDone matrices (3 * inter + plane + 1) st.1 := by
  obtain ⟨res, rfl, hres⟩ := h
  cases res with
  | none => exact ⟨none, rfl, fun st h => by cases h⟩
  | some st =>
    exact decode_quant_range_spec matrices inter plane hm hi hp st (hres st rfl)

theorem decode_quant_ranges_spec (matrices : Nat) (hm : matrices ≤ 384)
    (st : Vp3DecodeContext × GetBitContext) :
    ∃ res, decode_quant_ranges matrices st = some res ∧
      ∀ st2, res = some st2 →
        ∀ inter plane, inter < 2 → plane < 3 → ranges_valid st2.1 matrices inter plane := by
  have h0 : ∃ res, some (some st) = some res ∧
      ∀ u : Vp3DecodeContext × GetBitContext, res = some u →
        RangesDone matrices (3 * 0 + 0) u.1 :=
    ⟨_, rfl, fun u _ a b _ _ hab => absurd hab (by omega)⟩
  have h1 := quant_range_step_spec matrices 0 0 hm (by decide) (by decide) _ h0
  have h2 := quant_range_step_spec matrices 0 1 hm (by decide) (by decide) _ h1
  have h3 := quant_range_step_spec matrices 0 2 hm (by decide) (by decide) _ h2
  have h4 := quant_range_step_spec matrices 1 0 hm (by decide) (by decide) _ h3
  have h5 := quant_range_step_spec matrices 1 1 hm (by decide) (by decide) _ h4
  obtain ⟨res, hres, hdone⟩ :=
    quant_range_step_spec matrices 1 2 hm (by decide) (by decide) _ h5
  refine ⟨res, hres, fun st2 h2 inter plane hi hp => ?_⟩
  exact hdone st2 h2 inter plane hi hp (by omega)

/-- The ramp scan of `init_dequantizer` stops inside the ranges when the sizes
up to `qri + k` reach the quality index. -/
theorem ramp_scan_stops (size : Nat → Nat) (qi : Int) (k : Nat) :
    ∀ qri, 0 < k → qi ≤ ramp_start size (qri + k) →
      (ramp_scan size qi k qri (ramp_start size qri)).1 < qri + k := by
  induction k with
  | zero => intro qri h; omega
  | succ k ih =>
    intro qri _ hq
    rw [ramp_scan]
    by_cases hb : qi ≤ ramp_start size qri + (size qri : Int)
    · rw [if_pos hb]
      simp only
      omega
    · rw [if_neg hb]
      cases k with
      | zero =>
        exfalso
        apply hb
        rw [ramp_start] at hq
        exact hq
      | succ k =>
        have := ih (qri + 1) (by omega) (by rw [show qri + 1 + (k + 1) = qri + (k + 1 + 1) by omega]; exact hq)
        rw [ramp_start] at this
        omega

theorem ranges_valid_scan (s : Vp3DecodeContext) (matrices inter plane : Nat) (qi : Int)
    (hv : ranges_valid s matrices inter plane) (hq : qi ≤ 63) :
    (ramp_scan (s.qr_size inter plane) qi (s.qr_count inter plane) 0 0).1
        < s.qr_count inter plane ∧
    2 * (s.qr_size inter plane
      (ramp_scan (s.qr_size inter plane) qi (s.qr_count inter plane) 0 0).1 : Int) ≠ 0 ∧
    s.qr_base inter plane
      (ramp_scan (s.qr_size inter plane) qi (s.qr_count inter plane) 0 0).1 < matrices ∧
    s.qr_base inter plane
      ((ramp_scan (s.qr_size inter plane) qi (s.qr_count inter plane) 0 0).1 + 1) < matrices := by
  obtain ⟨h1, h2, h3, h4⟩ := hv
  have hs := ramp_scan_stops (s.qr_size inter plane) qi (s.qr_count inter plane) 0 (by omega)
    (by rw [Nat.zero_add, h3]; exact hq)
  rw [Nat.zero_add] at hs
  have hs0 : ramp_start (s.qr_size inter plane) 0 = 0 := rfl
  rw [hs0] at hs
  have := h2 _ hs
  exact ⟨hs, by omega, h4 _ (by omega), h4 _ (by omega)⟩

theorem decode_quant_tables_spec (s : Vp3DecodeContext) (gb : GetBitContext) :
    ∃ r, decode_quant_tables s gb = some r ∧
      ∀ t, r = some t → t.2.2 ≤ 384 ∧
        ∀ inter plane, inter < 2 → plane < 3 → ranges_valid t.1 t.2.2 inter plane := by
  simp only [decode_quant_tables]
  generalize (if s.theora ≥ 0x030200 then ((get_bits gb 9).1 + 1, (get_bits gb 9).2)
    else (3, gb)) = m
  by_cases hm : m.1 > 384
  · rw [if_pos hm]
    exact ⟨none, rfl, fun t ht => by cases ht⟩
  · rw [if_neg hm]
    obtain ⟨res, hres, hv⟩ := decode_quant_ranges_spec m.1 (by omega)
      (read_base_matrices m.1 (s, m.2))
    rw [hres]
    refine ⟨_, rfl, fun t ht => ?_⟩
    cases res with
    | none => simp at ht
    | some st2 =>
      simp only [Option.map_some', Option.some.injEq] at ht
      rw [← ht]
      exact ⟨by simp only; omega, hv st2 rfl⟩

theorem default_quant_ranges_valid (s : Vp3DecodeContext) (inter plane : Nat) (hi : inter < 2)
    (hp : plane < 3) : ranges_valid (default_quant_ranges s) 3 inter plane := by
  refine ⟨?_, ?_, ?_, ?_⟩
  · simp only [default_quant_ranges, hi, hp, and_self, if_true, le_refl]
  · intro q hq
    simp only [default_quant_ranges, hi, hp, and_self, if_true, true_and] at hq ⊢
    rw [if_pos (by omega)]
    decide
  · simp only [default_quant_ranges, hi, hp, and_self, if_true, true_and, ramp_start]
    rfl
  · intro q hq
    simp only [default_quant_ranges, hi, hp, and_self, if_true, true_and] at hq ⊢
    rw [if_pos (by omega)]
    interval_cases inter <;> interval_cases plane <;> decide

/-- C31: the quantizer range part of `theora_decode_tables` always returns (the
range loop ends within its 64 passes); when it accepts the tables, every
`(inter, plane)` has at least one range, sizes of at least 1 that add up to
63, and base matrix indices 0 .. `qr_count` below the number of matrices read;
the defaults of `vp3_decode_init` have the same properties for 3 matrices; and
with such ranges, for a quality index of at most 63, the ramp scan of
`init_dequantizer` stops at `qri < qr_count`, the divisor `2 * qr_size[qri]` is
not zero and `qr_base[qri]` and `qr_base[qri + 1]` are indices of base matrices
read. -/
theorem quant_ranges_well_formed (s : Vp3DecodeContext) (gb : GetBitContext)
    (t : Vp3DecodeContext × GetBitContext × Nat)
    (h : decode_quant_tables s gb = some (some t)) :
    (∀ (s0 : Vp3DecodeContext) (gb0 : GetBitContext),
      ∃ r, decode_quant_tables s0 gb0 = some r) ∧
    t.2.2 ≤ 384 ∧
    (∀ inter plane, inter < 2 → plane < 3 → ranges_valid t.1 t.2.2 inter plane) ∧
    (∀ (s0 : Vp3DecodeContext) (inter plane : Nat), inter < 2 → plane < 3 →
      ranges_valid (default_quant_ranges s0) 3 inter plane) ∧
    ∀ (u : Vp3DecodeContext) (matrices inter plane qpi : Nat),
      ranges_valid u matrices inter plane → u.qps qpi ≤ 63 →
      (ramp_scan (u.qr_size inter plane) (u.qps qpi) (u.qr_count inter plane) 0 0).1
          < u.qr_count inter plane ∧
      2 * (u.qr_size inter plane
        (ramp_scan (u.qr_size inter plane) (u.qps qpi) (u.qr_count inter plane) 0 0).1 : Int)
          ≠ 0 ∧
      u.qr_base inter plane
        (ramp_scan (u.qr_size inter plane) (u.qps qpi) (u.qr_count inter plane) 0 0).1
          < matrices ∧
      u.qr_base inter plane
        ((ramp_scan (u.qr_size inter plane) (u.qps qpi) (u.qr_count inter plane) 0 0).1 + 1)
          < matrices := by
  obtain ⟨r, hr, hspec⟩ := decode_quant_tables_spec s gb
  rw [h] at hr
  cases hr
  refine ⟨fun s0 gb0 => ?_, (hspec t rfl).1, (hspec t rfl).2, default_quant_ranges_valid,
    fun u matrices inter plane qpi hv hq =>
      ranges_valid_scan u matrices inter plane (u.qps qpi) hv hq⟩
  obtain ⟨r0, hr0, _⟩ := decode_quant_tables_spec s0 gb0
  exact ⟨r0, hr0⟩

set_option maxRecDepth 100000 in
/-- Witness for C31: a header with one base matrix and one range of 63 for
`(0, 0)`, copied to the other five. -/
theorem quant_ranges_well_formed_witness :
    ∃ t, decode_quant_tables example_context example_range_bits = some (some t) ∧
      t.2.2 = 1 ∧ t.1.qr_count 1 2 = 1 ∧ t.1.qr_size 1 2 0 = 63 ∧
      ranges_valid t.1 t.2.2 1 2 :=
  ⟨_, rfl, rfl, by decide, by decide,
   (quant_ranges_well_formed example_context example_range_bits _ rfl).2.2.1 1 2
     (by decide) (by decide)⟩

/-- Folding a step that keeps a property keeps it. -/
theorem foldl_keeps {α β : Type} (P : α → Prop) (f : α → β → α) (l : List β) :
    ∀ a, P a → (∀ t b, b ∈ l → P t → P (f t b)) → P (l.foldl f a) := by
  induction l with
  | nil =>
    intro a ha _
    exact ha
  | cons x xs ih =>
    intro a ha hstep
    rw [List.foldl_cons]
    apply ih
    · exact hstep a x (List.mem_cons_self _ _) ha
    · intro t b hb ht
      exact hstep t b (List.mem_cons_of_mem _ hb) ht

theorem SameGrid.grid_refl (s : Vp3DecodeContext) : SameGrid s s := rfl

theorem SameGrid.grid_set {s t : Vp3DecodeContext} (h : SameGrid s t) (d : Nat → Nat → Nat)
    (b : Nat → Int) : SameGrid s { t with dct_tokens := d, dct_tokens_base := b } := by
  unfold SameGrid at h ⊢
  rw [h]

theorem SameGrid.grid_fields {s t : Vp3DecodeContext} (h : SameGrid s t) :
    t.block_width = s.block_width ∧ t.block_height = s.block_height ∧
    t.superblock_width = s.superblock_width ∧ t.superblock_height = s.superblock_height ∧
    t.linesize = s.linesize ∧ t.coded_blocks = s.coded_blocks ∧
    t.coded_blocks_off = s.coded_blocks_off := by
  unfold SameGrid at h
  rw [h]
  exact ⟨rfl, rfl, rfl, rfl, rfl, rfl, rfl⟩

theorem advance_tokens_grid {s t : Vp3DecodeContext} (h : SameGrid s t) (plane i : Nat) :
    SameGrid s (advance_tokens t plane i) :=
  h.grid_set _ t.dct_tokens_base

theorem end_of_block_grid {s t : Vp3DecodeContext} (h : SameGrid s t) (plane i : Nat) :
    SameGrid s (end_of_block t plane i) := by
  unfold end_of_block
  simp only
  split_ifs
  · exact advance_tokens_grid h plane i
  · exact h.grid_set t.dct_tokens _

theorem dequant_token_grid (perm : Nat → Nat) (dequantizer : Nat → Int) (plane : Nat)
    (s : Vp3DecodeContext) (st : DequantState) (h : SameGrid s st.s) :
    match dequant_token perm dequantizer plane st with
    | DequantStep.next st1 => SameGrid s st1.s
    | DequantStep.finish st1 => SameGrid s st1.s
    | DequantStep.invalid st1 => SameGrid s st1.s := by
  unfold dequant_token
  simp only
  split_ifs
  · exact end_of_block_grid h plane st.i
  · exact advance_tokens_grid h plane st.i
  · exact advance_tokens_grid h plane st.i
  · exact h

theorem dequant_loop_grid (perm : Nat → Nat) (dequantizer : Nat → Int) (plane : Nat)
    (s : Vp3DecodeContext) (k : Nat) :
    ∀ (st : DequantState) (r : DequantStep), SameGrid s st.s →
      dequant_loop perm dequantizer plane k st = some r →
      match r with
      | DequantStep.next st1 => SameGrid s st1.s
      | DequantStep.finish st1 => SameGrid s st1.s
      | DequantStep.invalid st1 => SameGrid s st1.s := by
  induction k with
  | zero =>
    intro st r _ h
    simp [dequant_loop] at h
  | succ k ih =>
    intro st r hs h
    have ht := dequant_token_grid perm dequantizer plane s st hs
    rw [dequant_loop] at h
    cases hd : dequant_token perm dequantizer plane st with
    | next st1 =>
      rw [hd] at h ht
      simp only at h ht
      split_ifs at h
      · exact ih st1 r ht h
      · cases h
        exact ht
    | finish st1 =>
      rw [hd] at h ht
      cases h
      exact ht
    | invalid st1 =>
      rw [hd] at h ht
      cases h
      exact ht

theorem dequant_grid (perm : Nat → Nat) (s t : Vp3DecodeContext) (block : Nat → Int)
    (plane inter block_i : Nat) (h : SameGrid s t) :
    SameGrid s ((dequant perm t block plane inter block_i).getD (t, block)).1 := by
  unfold dequant
  simp only
  cases hl : dequant_loop perm
      (t.qmat plane inter (t.blocks (t.coded_blocks (t.coded_blocks_off plane + block_i))).qpi)
      plane 64 (dequant_start t block) with
  | none => exact h
  | some r =>
    have hg := dequant_loop_grid perm _ plane s 64 (dequant_start t block) r h hl
    cases r with
    | next st1 => exact hg
    | finish st1 => exact hg
    | invalid st1 => exact hg

theorem SameGrid.grid_trans {s t u : Vp3DecodeContext} (h1 : SameGrid s t) (h2 : SameGrid t u) :
    SameGrid s u := by
  unfold SameGrid at h1 h2 ⊢
  rw [h2, h1]

theorem render_block_from {F : Type} (env : RenderEnv F) (st0 st : RenderState F)
    (plane sb_x sb_y i : Nat) (h : RenderedFrom env st0 st) :
    RenderedFrom env st0 (render_block env plane sb_x sb_y
      (env.data_offset plane + 32 * (sb_y : Int) * st0.s.linesize plane + 32 * (sb_x : Int))
      st i) := by
  obtain ⟨h1, h2⟩ := h
  refine ⟨dequant_grid env.permutated st0.s st.s st.block plane 0 st.block_i h1, ?_⟩
  intro c hc
  simp only [render_block, List.mem_append, List.mem_singleton] at hc
  rcases hc with hc | hc
  · exact h2 c hc
  · right
    rw [hc, h1.grid_fields.2.2.2.2.1]
    simp only [block_dst]
    ring

theorem render_macroblock_from {F : Type} (env : RenderEnv F) (st0 st : RenderState F)
    (sb_x sb_y mb_i : Nat) (h : RenderedFrom env st0 st) :
    RenderedFrom env st0 (render_macroblock env sb_x sb_y
      (env.data_offset 0 + 32 * (sb_y : Int) * st0.s.linesize 0 + 32 * (sb_x : Int))
      st mb_i) := by
  unfold render_macroblock
  split_ifs
  · exact h
  · refine foldl_keeps (fun t : RenderState F => RenderedFrom env st0 t) _ _ _ h ?_
    intro t i _ ht
    exact render_block_from env st0 t 0 sb_x sb_y (4 * mb_i + i) ht

theorem render_luma_superblock_from {F : Type} (env : RenderEnv F) (st0 st : RenderState F)
    (sb_x sb_y : Nat) (h : RenderedFrom env st0 st) :
    RenderedFrom env st0 (render_luma_superblock env sb_y st sb_x) := by
  unfold render_luma_superblock
  rw [h.1.grid_fields.2.2.2.2.1]
  refine foldl_keeps (fun t : RenderState F => RenderedFrom env st0 t) _ _ _ h ?_
  intro t mb_i _ ht
  exact render_macroblock_from env st0 t sb_x sb_y mb_i ht

theorem render_chroma_superblock_from {F : Type} (env : RenderEnv F) (st0 st : RenderState F)
    (plane sb_x sb_y : Nat) (h : RenderedFrom env st0 st) :
    RenderedFrom env st0 (render_chroma_superblock env plane sb_y st sb_x) := by
  unfold render_chroma_superblock
  rw [h.1.grid_fields.2.2.2.2.1]
  refine foldl_keeps (fun t : RenderState F => RenderedFrom env st0 t) _ _ _ h ?_
  intro t i _ ht
  unfold render_chroma_block
  split_ifs
  · exact ht
  · exact render_block_from env st0 t plane sb_x sb_y i ht

theorem render_chroma_plane_from {F : Type} (env : RenderEnv F) (st0 st : RenderState F)
    (plane sb_y : Nat) (h : RenderedFrom env st0 st) :
    RenderedFrom env st0 (render_chroma_plane env sb_y st plane) := by
  unfold render_chroma_plane
  refine foldl_keeps (fun t : RenderState F => RenderedFrom env st0 t) _ _ _ ⟨h.1, h.2⟩ ?_
  intro t sb_x _ ht
  exact render_chroma_superblock_from env st0 t plane sb_x sb_y ht

theorem render_slice_from {F : Type} (env : RenderEnv F) (st0 st : RenderState F) (sb_y : Nat)
    (h : RenderedFrom env st0 st) : RenderedFrom env st0 (render_slice env st sb_y) := by
  unfold render_slice
  have h1 : RenderedFrom env st0 ((List.range (st.s.superblock_width 0)).foldl
      (render_luma_superblock env sb_y) { st with block_i := sb_y * 4 * st.s.block_width 0 }) := by
    refine foldl_keeps (fun t : RenderState F => RenderedFrom env st0 t) _ _ _ ⟨h.1, h.2⟩ ?_
    intro t sb_x _ ht
    exact render_luma_superblock_from env st0 t sb_x sb_y ht
  simp only
  split_ifs
  · exact h1
  · refine foldl_keeps (fun t : RenderState F => RenderedFrom env st0 t) _ _ _ h1 ?_
    intro t plane _ ht
    exact render_chroma_plane_from env st0 t plane (sb_y >>> 1) ht

/-- C32, amended: every call that `render_slice` makes has the pointer
`data_offset[plane] + 32*sb_y*stride + 32*sb_x` (the base of the superblock)
`+ 8*Hx + 8*Hy*stride`, with Hx = `hilbert_offset[i][0]`, Hy =
`hilbert_offset[i][1]` and stride = `linesize[plane]`: the horizontal offset
counts bytes, the vertical one lines. -/
theorem render_slice_block_address {F : Type} (env : RenderEnv F) (st : RenderState F)
    (sb_y : Nat) :
    ∀ c ∈ (render_slice env st sb_y).calls, c ∈ st.calls ∨
      c.dst = env.data_offset c.plane + 32 * (c.sb_y : Int) * st.s.linesize c.plane
        + 32 * (c.sb_x : Int) + 8 * (hilbert_offset c.i 0 : Int)
        + 8 * (hilbert_offset c.i 1 : Int) * st.s.linesize c.plane :=
  (render_slice_from env st st sb_y ⟨SameGrid.grid_refl _, fun _ hc => Or.inl hc⟩).2

set_option maxRecDepth 100000 in
/-- Witness for C32: the call for the chroma block of plane 2 in the first
slice of a keyframe of 16x16 pixels. -/
theorem render_slice_block_address_witness :
    (⟨2, 0, 0, 0, 0, 0⟩ : RenderCall) ∈
      (render_slice example_render_env example_render_state 0).calls ∧
    ((⟨2, 0, 0, 0, 0, 0⟩ : RenderCall) ∈ example_render_state.calls ∨
      (0 : Int) = example_render_env.data_offset 2 + 32 * ((0 : Nat) : Int) *
          example_render_state.s.linesize 2 + 32 * ((0 : Nat) : Int)
        + 8 * (hilbert_offset 0 0 : Int)
        + 8 * (hilbert_offset 0 1 : Int) * example_render_state.s.linesize 2) :=
  ⟨by decide,
   render_slice_block_address example_render_env example_render_state 0 _ (by decide)⟩

set_option maxRecDepth 100000 in
/-- C32, counterexample: a keyframe of 16x16 pixels with a luma stride of 32.
The second call of `render_slice(s, 0)` is for entry 1 of `hilbert_offset`,
(Hx, Hy) = (1, 0), the block to the right of the first: its pointer is the
superblock base + 8, where the claim's formula gives base + 8*1*32 + 0 = 256. -/
theorem render_slice_address_transposed :
    hilbert_offset 1 0 = 1 ∧ hilbert_offset 1 1 = 0 ∧
    example_render_state.s.linesize 0 = 32 ∧
    (render_slice example_render_env example_render_state 0).calls[1]? =
      some ⟨0, 0, 0, 1, 1, 8⟩ ∧
    claimed_dst example_render_env.data_offset example_render_state.s.linesize
      ⟨0, 0, 0, 1, 1, 8⟩ = 256 :=
  ⟨by decide, by decide, by decide, by decide, by decide⟩

theorem set_bounding_value_array (b : BoundingValues) (x v t : Int) :
    (set_bounding_value b x v).array t = if t = 127 + x then v else b.array t := by
  simp only [set_bounding_value, Function.update_apply]

theorem set_bounding_value_written (b : BoundingValues) (x v : Int) :
    (set_bounding_value b x v).written = b.written ++ [127 + x] := rfl

theorem ramp_up_spec (b0 : BoundingValues) (n : Nat) :
    (∀ k : Int, ((List.range n).foldl ramp_up_step b0).array k =
      if -(n : Int) < k - 127 ∧ k - 127 < n then k - 127 else b0.array k) ∧
    ∀ i ∈ ((List.range n).foldl ramp_up_step b0).written,
      i ∈ b0.written ∨ (127 - (n : Int) < i ∧ i < 127 + n) := by
  induction n with
  | zero =>
    refine ⟨fun k => ?_, fun i hi => Or.inl hi⟩
    simp only [List.range_zero, List.foldl_nil]
    rw [if_neg]; push_cast; omega
  | succ n ih =>
    rw [List.range_succ, List.foldl_append]
    simp only [List.foldl_cons, List.foldl_nil]
    obtain ⟨h1, h2⟩ := ih
    constructor
    · intro k
      simp only [ramp_up_step, set_bounding_value, Function.update_apply, h1]
      push_cast
      split_ifs <;> omega
    · intro i hi
      simp only [ramp_up_step, set_bounding_value, List.mem_append, List.mem_singleton] at hi
      push_cast
      rcases hi with (hi | hi) | hi
      · rcases h2 i hi with h | h
        · exact Or.inl h
        · right; omega
      · right; omega
      · right; omega

theorem ramp_down_spec (k : Nat) : ∀ (x value n : Int) (b : BoundingValues),
    0 ≤ x → (x = 0 → value = 0) → x ≤ 128 → 0 ≤ value → 128 - x ≤ k →
    (n = 128 - x ∧ 128 - x ≤ value) ∨ (n = value ∧ value ≤ 128 - x) →
    ∃ r, ramp_down k x value b = some r ∧
      r.2 = value - n ∧
      (∀ t : Int, r.1.array t =
        if x ≤ t - 127 ∧ t - 127 < x + n then value - (t - 127 - x)
        else if x ≤ 127 - t ∧ 127 - t < x + n then -(value - (127 - t - x))
        else b.array t) ∧
      ∀ i ∈ r.1.written, i ∈ b.written ∨ (0 ≤ i ∧ i ≤ 254) := by
  induction k with
  | zero =>
    intro x value n b hx hx0 hx2 hv hk hn
    have hx128 : ¬ x < 128 := by omega
    refine ⟨(b, value), ?_, ?_, ?_, fun i hi => Or.inl hi⟩
    · simp only [ramp_down]; rw [if_neg]; intro h; exact hx128 h.1
    · simp only; omega
    · intro t; simp only
      rw [if_neg (by omega), if_neg (by omega)]
  | succ k ih =>
    intro x value n b hx hx0 hx2 hv hk hn
    by_cases hc : x < 128 ∧ value ≠ 0
    · have hx1 : 1 ≤ x := by
        rcases lt_or_ge 0 x with h | h
        · omega
        · exact absurd (hx0 (by omega)) hc.2
      obtain ⟨r, hr, hv2, harr, hw⟩ := ih (x + 1) (value - 1) (n - 1)
        (set_bounding_value (set_bounding_value b x value) (-x) (-value))
        (by omega) (by omega) (by omega) (by omega) (by push_cast at hk; omega) (by omega)
      refine ⟨r, ?_, ?_, ?_, ?_⟩
      · simp only [ramp_down]; rw [if_pos hc]; exact hr
      · rw [hv2]; omega
      · intro t
        rw [harr t]
        simp only [set_bounding_value, Function.update_apply]
        split_ifs <;> omega
      · intro i hi
        rcases hw i hi with h | h
        · simp only [set_bounding_value, List.mem_append, List.mem_singleton] at h
          rcases h with (h | h) | h
          · exact Or.inl h
          · right; omega
          · right; omega
        · exact Or.inr h
    · have hn0 : n = 0 := by
        rcases not_and_or.mp hc with h | h
        · omega
        · have : value = 0 := not_not.mp h
          omega
      refine ⟨(b, value), ?_, ?_, ?_, fun i hi => Or.inl hi⟩
      · simp only [ramp_down]; rw [if_neg hc]
      · simp only; omega
      · intro t; simp only
        rw [if_neg (by omega), if_neg (by omega)]

/-- C34: for a filter limit L in [0, 127] `init_loop_filter` returns, and in the
array it leaves, with `bounding_values[x]` the cell 127 + x: for 0 <= x <= 127,
`bounding_values[x]` is x when x < L, 2L - x when L <= x < 2L and 0 otherwise,
`bounding_values[-x] = -bounding_values[x]`, and both lie in [-L, L]; the cell
`bounding_values[128]` follows the same formula; every index written lies in
0..257. -/
theorem init_loop_filter_clamp_table (filter_limit_values : Int → Int) (s : Vp3DecodeContext)
    (array : Int → Int)
    (h0 : 0 ≤ filter_limit_values (s.qps 0)) (h1 : filter_limit_values (s.qps 0) ≤ 127) :
    ∃ b, init_loop_filter filter_limit_values s array = some b ∧
      (∀ x : Int, 0 ≤ x → x ≤ 127 →
        b.array (127 + x) =
          (if x < filter_limit_values (s.qps 0) then x
           else if x < 2 * filter_limit_values (s.qps 0)
             then 2 * filter_limit_values (s.qps 0) - x
           else 0) ∧
        b.array (127 - x) = -b.array (127 + x) ∧
        -filter_limit_values (s.qps 0) ≤ b.array (127 + x) ∧
        b.array (127 + x) ≤ filter_limit_values (s.qps 0) ∧
        -filter_limit_values (s.qps 0) ≤ b.array (127 - x) ∧
        b.array (127 - x) ≤ filter_limit_values (s.qps 0)) ∧
      b.array (127 + 128) =
        (if 2 * filter_limit_values (s.qps 0) > 128
          then 2 * filter_limit_values (s.qps 0) - 128 else 0) ∧
      ∀ i ∈ b.written, 0 ≤ i ∧ i ≤ 257 := by
  generalize hL : filter_limit_values (s.qps 0) = L at h0 h1
  have hup := ramp_up_spec (clear_bounding_values ⟨array, []⟩) L.toNat
  rw [Int.toNat_of_nonneg h0] at hup
  obtain ⟨hu1, hu2⟩ := hup
  obtain ⟨n, hn⟩ : ∃ n : Int, (n = 128 - L ∧ 128 - L ≤ L) ∨ (n = L ∧ L ≤ 128 - L) := by
    rcases le_total (128 - L) L with h | h
    · exact ⟨128 - L, Or.inl ⟨rfl, h⟩⟩
    · exact ⟨L, Or.inr ⟨rfl, h⟩⟩
  obtain ⟨r, hr, hv, harr, hw⟩ := ramp_down_spec 128 L L n
    ((List.range L.toNat).foldl ramp_up_step (clear_bounding_values ⟨array, []⟩))
    h0 (fun h => h) (by omega) h0 (by omega) hn
  have hclear : ∀ k : Int, (clear_bounding_values ⟨array, []⟩).array k =
      if 0 ≤ k ∧ k < 256 then 0 else array k := fun k => rfl
  have hcw : ∀ i ∈ (clear_bounding_values ⟨array, []⟩).written, 0 ≤ i ∧ i ≤ 257 := by
    intro i hi
    simp only [clear_bounding_values, List.nil_append, List.mem_map, List.mem_range] at hi
    obtain ⟨a, ha, rfl⟩ := hi
    omega
  have hrw : ∀ i ∈ r.1.written, 0 ≤ i ∧ i ≤ 257 := by
    intro i hi
    rcases hw i hi with h | h
    · rcases hu2 i h with h2 | h2
      · exact hcw i h2
      · omega
    · omega
  have hres : init_loop_filter filter_limit_values s array =
      some (set_bounding_value (set_bounding_value
        (if r.2 ≠ 0 then set_bounding_value r.1 128 r.2 else r.1) 130 (packed_limit L)) 129
        (packed_limit L)) := by
    simp only [init_loop_filter, hL, hr]
  have hb3 : ∀ t : Int, (if r.2 ≠ 0 then set_bounding_value r.1 128 r.2 else r.1).array t =
      if t = 255 ∧ r.2 ≠ 0 then r.2 else r.1.array t := by
    intro t
    by_cases hr2 : r.2 ≠ 0
    · rw [if_pos hr2]
      simp only [set_bounding_value, Function.update_apply]
      split_ifs <;> first | rfl | omega
    · rw [if_neg hr2, if_neg (fun h => hr2 h.2)]
  have hb3w : ∀ i ∈ (if r.2 ≠ 0 then set_bounding_value r.1 128 r.2 else r.1).written,
      0 ≤ i ∧ i ≤ 257 := by
    intro i hi
    by_cases hr2 : r.2 ≠ 0
    · rw [if_pos hr2] at hi
      simp only [set_bounding_value, List.mem_append, List.mem_singleton] at hi
      rcases hi with hi | hi
      · exact hrw i hi
      · omega
    · rw [if_neg hr2] at hi
      exact hrw i hi
  have hr1 : ∀ x : Int, 0 ≤ x → x ≤ 127 → r.1.array (127 + x) =
      if x < L then x else if x < 2 * L then 2 * L - x else 0 := by
    intro x hx0 hx1
    rw [harr, hu1, hclear]
    split_ifs <;> omega
  have hr2 : ∀ x : Int, 0 ≤ x → x ≤ 127 → r.1.array (127 - x) =
      -(if x < L then x else if x < 2 * L then 2 * L - x else 0) := by
    intro x hx0 hx1
    rw [harr, hu1, hclear]
    split_ifs <;> omega
  have hr3 : r.1.array (127 + 128) = 0 := by
    rw [harr, hu1, hclear]
    split_ifs <;> omega
  have hfin : ∀ t : Int, 0 ≤ t → t ≤ 254 →
      (set_bounding_value (set_bounding_value
        (if r.2 ≠ 0 then set_bounding_value r.1 128 r.2 else r.1) 130 (packed_limit L)) 129
        (packed_limit L)).array t = r.1.array t := by
    intro t ht0 ht1
    rw [set_bounding_value_array, set_bounding_value_array, hb3,
      if_neg (by omega), if_neg (by omega), if_neg (by omega)]
  refine ⟨_, hres, ?_, ?_, ?_⟩
  · intro x hx0 hx1
    rw [hfin _ (by omega) (by omega), hfin _ (by omega) (by omega), hr1 x hx0 hx1,
      hr2 x hx0 hx1]
    split_ifs <;> omega
  · rw [set_bounding_value_array, set_bounding_value_array, hb3,
      if_neg (by omega), if_neg (by omega), hr3]
    split_ifs <;> omega
  · intro i hi
    simp only [set_bounding_value_written, List.mem_append, List.mem_singleton] at hi
    rcases hi with (hi | hi) | hi
    · exact hb3w i hi
    · omega
    · omega

/-- Witness for C34: the limit 3 for every quality index. -/
theorem init_loop_filter_clamp_table_witness :
    (0 : Int) ≤ (fun _ => (3 : Int)) (example_context.qps 0) ∧
    (fun _ => (3 : Int)) (example_context.qps 0) ≤ 127 ∧
    ∃ b, init_loop_filter (fun _ => 3) example_context (fun _ => 9) = some b ∧
      b.array (127 + 2) = 2 ∧ b.array (127 - 2) = -2 ∧ b.array (127 + 4) = 2 ∧
      b.array (127 + 6) = 0 :=
  ⟨by decide, by decide,
   (init_loop_filter_clamp_table (fun _ => 3) example_context (fun _ => 9)
      (by decide) (by decide)).imp
     (fun b h => ⟨h.1, (h.2.1 2 (by decide) (by decide)).1,
       by rw [(h.2.1 2 (by decide) (by decide)).2.1, (h.2.1 2 (by decide) (by decide)).1]; rfl,
       (h.2.1 4 (by decide) (by decide)).1, (h.2.1 6 (by decide) (by decide)).1⟩)⟩

set_option maxRecDepth 100000 in
/-- C35, the code at the failing input: level 1 of plane 0 with one coded block
and a zero-run token whose run is 63. The test `zzi + zero_run > 64` does not
fire for 1 + 63 = 64, so the loop `for (i = zzi+1; i <= zzi+zero_run; i++)`
decrements `num_coded_blocks[0][64]`, the cell of flat index 64 (which is
`num_coded_blocks[1][0]`), and the token is stored with its run of 63 (packed
as 253). `dequant` for the block then reads the coefficient token of level 0,
reaches the run token with `i = 1`, adds 63 and writes `s->block[perm[64]]`:
with the identity permutation the cell 64, which held 7, holds 0 afterwards. -/
theorem zero_run_reaches_index_64 :
    num_coded example_run_context 0 1 = 1 ∧
    example_run_context.num_coded_blocks 64 = 1 ∧
    ∃ st, unpack_vlcs example_token_tables example_token_vlc 4 example_run_context
        example_run_bits 1 0 0 = some st ∧
      tokens_written st 3 = [253] ∧
      st.s.num_coded_blocks 63 = 0 ∧
      st.s.num_coded_blocks 64 = 0 ∧
      st.s.num_coded_blocks 65 = 1 ∧
      example_block_memory 64 = 7 ∧
      ∃ r, dequant (fun i => i) st.s example_block_memory 0 0 0 = some r ∧
        r.2 64 = 0 ∧ r.2 65 = 7 ∧ r.2 0 = 16 :=
  ⟨by decide, by decide, _, rfl, by decide, by decide, by decide, by decide, by decide,
   _, rfl, by decide, by decide, by decide⟩

end Vp3

namespace Dirac

open Vp3 (GetBitContext)

/-! ## Arithmetic decoder: the decode-bit step -/

theorem renorm_refill_contexts (mem : Nat → Nat) (a : dirac_arith) :
    (renorm_refill mem a).contexts = a.contexts := by
  simp only [renorm_refill]
  split_ifs <;> rfl

theorem renorm_step_contexts (mem : Nat → Nat) (a : dirac_arith) :
    (renorm_step mem a).contexts = a.contexts := by
  simp only [renorm_step]
  split_ifs
  · rw [renorm_refill_contexts]
  · rfl

theorem renorm_refill_range (mem : Nat → Nat) (a : dirac_arith) :
    (renorm_refill mem a).range = a.range := by
  simp only [renorm_refill]
  split_ifs <;> rfl

theorem renorm_step_range (mem : Nat → Nat) (a : dirac_arith) :
    (renorm_step mem a).range = wrap32 (a.range * 2) := by
  simp only [renorm_step]
  split_ifs
  · rw [renorm_refill_range]
  · rfl

theorem renorm_contexts (mem : Nat → Nat) (k : Nat) :
    ∀ a a2, renorm_arith_decoder mem k a = some a2 → a2.contexts = a.contexts := by
  induction k with
  | zero =>
    intro a a2 h
    rw [renorm_arith_decoder] at h
    split_ifs at h
    cases h
    rfl
  | succ k ih =>
    intro a a2 h
    rw [renorm_arith_decoder] at h
    split_ifs at h
    · rw [ih _ _ h, renorm_step_contexts]
    · cases h
      rfl

/-- The renormalisation loop ends within `k` iterations once `range * 2 ^ k`
exceeds `0x4000`. -/
theorem renorm_terminates (mem : Nat → Nat) (k : Nat) :
    ∀ a, 0x4000 < a.range * 2 ^ k → ∃ a2, renorm_arith_decoder mem k a = some a2 := by
  induction k with
  | zero =>
    intro a h
    rw [renorm_arith_decoder]
    have : ¬ a.range ≤ 0x4000 := by simpa using h
    rw [if_neg this]
    exact ⟨a, rfl⟩
  | succ k ih =>
    intro a h
    rw [renorm_arith_decoder]
    by_cases hr : a.range ≤ 0x4000
    · rw [if_pos hr]
      apply ih
      rw [renorm_step_range]
      have h2 : wrap32 (a.range * 2) = a.range * 2 := by
        rw [wrap32]
        omega
      rw [h2]
      rw [pow_succ] at h
      calc 0x4000 < a.range * (2 ^ k * 2) := h
        _ = a.range * 2 * 2 ^ k := by ring
    · rw [if_neg hr]
      exact ⟨a, rfl⟩

/-- With `range` and the context in 16 bits the product does not wrap, and
`r = (range * p) >> 16` is at most `range`. -/
theorem range_times_prob_facts (R p : Nat) (hR : R ≤ 0xFFFF) (hp : p < 65536) :
    wrap32 (R * p) / 65536 = R * p / 65536 ∧ R * p / 65536 ≤ R ∧
      (R = 0 ∨ R * p / 65536 < R) ∧
      ((R : Int) * (p : Int)) / 65536 = ((R * p / 65536 : Nat) : Int) := by
  have hX : R * p ≤ R * 65535 := Nat.mul_le_mul_left R (by omega)
  generalize hXd : R * p = X at hX
  have hc : ((R : Int) * (p : Int)) = (X : Int) := by
    rw [← hXd]
    push_cast
    rfl
  rw [hc, wrap32]
  refine ⟨by omega, by omega, by omega, by omega⟩

theorem decode_bit_spec_one (prob : Nat → Nat) (L R p : Nat) (hR : R ≤ 0xFFFF) (hp : p < 65536)
    (h : L / 65536 ≥ R * p / 65536) :
    decode_bit_spec prob L R p =
      (1, ((L - R * p / 65536 * 65536 : Nat) : Int), ((R - R * p / 65536 : Nat) : Int),
        (p : Int) - (prob (p / 256) : Int)) := by
  obtain ⟨_, h2, _, h4⟩ := range_times_prob_facts R p hR hp
  simp only [decode_bit_spec]
  rw [h4]
  generalize R * p / 65536 = r at *
  have hi : (p : Int) / 256 = ((p / 256 : Nat) : Int) := by omega
  rw [if_pos (by omega), hi, Int.toNat_natCast]
  have e1 : (L : Int) - (r : Int) * 65536 = ((L - r * 65536 : Nat) : Int) := by omega
  have e2 : (R : Int) - (r : Int) = ((R - r : Nat) : Int) := by omega
  rw [e1, e2]

theorem decode_bit_spec_zero (prob : Nat → Nat) (L R p : Nat) (hR : R ≤ 0xFFFF) (hp : p < 65536)
    (h : ¬ L / 65536 ≥ R * p / 65536) :
    decode_bit_spec prob L R p =
      (0, (L : Int), ((R * p / 65536 : Nat) : Int),
        (p : Int) + (prob (255 - p / 256) : Int)) := by
  obtain ⟨_, h2, _, h4⟩ := range_times_prob_facts R p hR hp
  simp only [decode_bit_spec]
  rw [h4]
  generalize R * p / 65536 = r at *
  have hi : (255 - (p : Int) / 256).toNat = 255 - p / 256 := by omega
  rw [if_neg (by omega), hi]

/-- C8: `dirac_get_arith_bit` implements the specified decode-bit step. With
`low` an `unsigned`, `range` at most `0xFFFF` and `p = contexts[c]` a 16-bit
value, the call returns the bit the step emits (the code's test
`(low >> 16) >= r` agrees with `low >= r << 16`), and the state it hands to
the renormalisation loop has the step's `low` and `range` (no wrap-around: both
are non-negative and stay within their bounds) and the step's `contexts[c]`
reduced to 16 bits; no other context is modified, by the step or by the
renormalisation that follows, and with `range >= 1` the call returns after at
most 15 renormalisation iterations. -/
theorem dirac_get_arith_bit_step (prob mem : Nat → Nat) (fuel : Nat) (a : dirac_arith) (c : Nat)
    (hlow : a.low < 4294967296) (hrange : a.range ≤ 0xFFFF) (hctx : a.contexts c < 65536) :
    dirac_get_arith_bit prob mem fuel a c =
        (renorm_arith_decoder mem fuel
          (spec_state a c (decode_bit_spec prob a.low a.range (a.contexts c)))).map
          (fun a2 => ((decode_bit_spec prob a.low a.range (a.contexts c)).1, a2)) ∧
      (a.low / 65536 ≥ a.range * a.contexts c / 65536 ↔
        a.low ≥ a.range * a.contexts c / 65536 * 65536) ∧
      (0 ≤ (decode_bit_spec prob a.low a.range (a.contexts c)).2.1 ∧
        (decode_bit_spec prob a.low a.range (a.contexts c)).2.1 < 4294967296 ∧
        0 ≤ (decode_bit_spec prob a.low a.range (a.contexts c)).2.2.1 ∧
        (decode_bit_spec prob a.low a.range (a.contexts c)).2.2.1 ≤ 0xFFFF) ∧
      (∀ r, dirac_get_arith_bit prob mem fuel a c = some r →
        ∀ c2, c2 ≠ c → r.2.contexts c2 = a.contexts c2) ∧
      (1 ≤ a.range → ∃ r, dirac_get_arith_bit prob mem 15 a c = some r) := by
  obtain ⟨h1, h2, h3, _⟩ := range_times_prob_facts a.range (a.contexts c) hrange hctx
  have hE : ∀ fuel, dirac_get_arith_bit prob mem fuel a c =
        (renorm_arith_decoder mem fuel
          (spec_state a c (decode_bit_spec prob a.low a.range (a.contexts c)))).map
          (fun a2 => ((decode_bit_spec prob a.low a.range (a.contexts c)).1, a2)) := by
    intro fuel
    simp only [dirac_get_arith_bit]
    rw [h1]
    by_cases h : a.low / 65536 ≥ a.range * a.contexts c / 65536
    · rw [decode_bit_spec_one prob _ _ _ hrange hctx h]
      simp only [if_pos h, spec_state, Int.toNat_natCast, ne_eq, one_ne_zero, not_false_eq_true,
        if_true]
      have e1 : sub32 a.low (a.range * a.contexts c / 65536 * 65536)
          = a.low - a.range * a.contexts c / 65536 * 65536 := by
        rw [sub32]
        omega
      have e2 : sub32 a.range (a.range * a.contexts c / 65536)
          = a.range - a.range * a.contexts c / 65536 := by
        rw [sub32]
        omega
      have e3 : (((a.contexts c : Int) - (prob (a.contexts c / 256) : Int)) % 65536).toNat
          = (a.contexts c + 65536 - prob (a.contexts c / 256) % 65536) % 65536 := by omega
      rw [e1, e2, e3]
    · rw [decode_bit_spec_zero prob _ _ _ hrange hctx h]
      simp only [if_neg h, spec_state, Int.toNat_natCast, ne_eq, not_true_eq_false, if_false]
      have e3 : (((a.contexts c : Int) + (prob (255 - a.contexts c / 256) : Int)) % 65536).toNat
          = (a.contexts c + prob (255 - a.contexts c / 256) % 65536) % 65536 := by omega
      rw [e3]
  refine ⟨hE fuel, by omega, ?_, ?_, ?_⟩
  · by_cases h : a.low / 65536 ≥ a.range * a.contexts c / 65536
    · rw [decode_bit_spec_one prob _ _ _ hrange hctx h]
      dsimp only
      omega
    · rw [decode_bit_spec_zero prob _ _ _ hrange hctx h]
      dsimp only
      omega
  · intro r hr c2 hc2
    rw [hE fuel] at hr
    cases hren : renorm_arith_decoder mem fuel
        (spec_state a c (decode_bit_spec prob a.low a.range (a.contexts c))) with
    | none =>
      rw [hren] at hr
      cases hr
    | some a2 =>
      rw [hren] at hr
      cases hr
      dsimp only
      rw [renorm_contexts mem fuel _ _ hren]
      simp only [spec_state]
      exact Function.update_noteq hc2 _ _
  · intro hpos
    rw [hE 15]
    have hspec : 1 ≤ (spec_state a c (decode_bit_spec prob a.low a.range (a.contexts c))).range := by
      by_cases h : a.low / 65536 ≥ a.range * a.contexts c / 65536
      · rw [decode_bit_spec_one prob _ _ _ hrange hctx h]
        simp only [spec_state, Int.toNat_natCast]
        omega
      · rw [decode_bit_spec_zero prob _ _ _ hrange hctx h]
        simp only [spec_state, Int.toNat_natCast]
        omega
    obtain ⟨a2, ha2⟩ := renorm_terminates mem 15 _
      (show 0x4000 < (spec_state a c (decode_bit_spec prob a.low a.range (a.contexts c))).range
        * 2 ^ 15 by omega)
    rw [ha2]
    exact ⟨_, rfl⟩

/-! ## Arithmetic decoder: refill past the end of the input -/

/-- Or-ing with a mask of `k` ones sets the low `k` bits and keeps the rest. -/
theorem or_mask (n k : Nat) : n ||| (2 ^ k - 1) = 2 ^ k * (n / 2 ^ k) + (2 ^ k - 1) := by
  have hpos : 0 < 2 ^ k := Nat.pos_of_ne_zero (by positivity)
  have hm : n % 2 ^ k ||| (2 ^ k - 1) = 2 ^ k - 1 := by
    apply Nat.eq_of_testBit_eq
    intro i
    simp only [Nat.testBit_or, Nat.testBit_mod_two_pow, Nat.testBit_two_pow_sub_one]
    by_cases h : i < k <;> simp [h]
  have hlt : 2 ^ k - 1 < 2 ^ k := by omega
  calc n ||| (2 ^ k - 1) = (2 ^ k * (n / 2 ^ k) + n % 2 ^ k) ||| (2 ^ k - 1) := by
        rw [Nat.div_add_mod]
    _ = (2 ^ k * (n / 2 ^ k) ||| n % 2 ^ k) ||| (2 ^ k - 1) := by
        rw [Nat.mul_add_lt_is_or (Nat.mod_lt _ hpos)]
    _ = 2 ^ k * (n / 2 ^ k) ||| (n % 2 ^ k ||| (2 ^ k - 1)) := Nat.or_assoc _ _ _
    _ = 2 ^ k * (n / 2 ^ k) ||| (2 ^ k - 1) := by rw [hm]
    _ = 2 ^ k * (n / 2 ^ k) + (2 ^ k - 1) := (Nat.mul_add_lt_is_or hlt _).symm

theorem or_ff (n : Nat) : n ||| 0xff = 256 * (n / 256) + 255 := by
  have h := or_mask n 8
  norm_num at h
  exact h

theorem or_ff_ff00 (n : Nat) : n ||| 0xff ||| 0xff00 = 65536 * (n / 65536) + 65535 := by
  have h := or_mask n 16
  norm_num at h
  rw [Nat.or_assoc]
  exact h

theorem AV_RB16_lt (mem : Nat → Nat) (p : Nat) : AV_RB16 mem p < 65536 := by
  rw [AV_RB16]
  omega

/-- One loop iteration keeps the cursor at or below `bytestream_end`. -/
theorem renorm_step_cursor (mem : Nat → Nat) (a : dirac_arith)
    (h : a.bytestream ≤ a.bytestream_end) :
    (renorm_step mem a).bytestream ≤ (renorm_step mem a).bytestream_end ∧
      (renorm_step mem a).bytestream_end = a.bytestream_end := by
  simp only [renorm_step, renorm_refill]
  split_ifs <;> dsimp only <;> omega

theorem renorm_cursor (mem : Nat → Nat) (k : Nat) :
    ∀ a a2, a.bytestream ≤ a.bytestream_end → renorm_arith_decoder mem k a = some a2 →
      a2.bytestream ≤ a2.bytestream_end ∧ a2.bytestream_end = a.bytestream_end := by
  induction k with
  | zero =>
    intro a a2 hc h
    rw [renorm_arith_decoder] at h
    split_ifs at h
    cases h
    exact ⟨hc, rfl⟩
  | succ k ih =>
    intro a a2 hc h
    rw [renorm_arith_decoder] at h
    split_ifs at h
    · obtain ⟨h1, h2⟩ := renorm_step_cursor mem a hc
      obtain ⟨h3, h4⟩ := ih _ _ h1 h
      exact ⟨h3, h4.trans h2⟩
    · cases h
      exact ⟨hc, rfl⟩

/-- C9: overread of the arithmetic decoder's input yields 1-bits. In a loop
iteration of `renorm_arith_decoder` that refills (`counter` is 1 before the
decrement): with no input byte left the low 16 bits of `low` become `0xFFFF`,
with exactly one byte left (and the low 15 bits of `low` zero, as they are at a
refill) they become that byte followed by `0xFF`; with the low bits zero the
upper 16 bits are the shifted old `low`; the cursor ends at `bytestream_end`,
`counter` is 16. The cursor never passes `bytestream_end`, and from any state
with `range >= 1` the loop returns within 15 iterations. -/
theorem renorm_overread_ones (mem : Nat → Nat) (a : dirac_arith) (hc : a.counter = 1) :
    (a.bytestream_end ≤ a.bytestream → (renorm_step mem a).low % 65536 = 0xFFFF) ∧
      (a.bytestream + 1 = a.bytestream_end → a.low % 32768 = 0 →
        (renorm_step mem a).low % 65536 = (mem a.bytestream % 256) * 256 + 0xFF) ∧
      (a.bytestream_end ≤ a.bytestream + 1 → a.low % 32768 = 0 →
        (renorm_step mem a).low / 65536 = wrap32 (a.low * 2) / 65536) ∧
      (a.bytestream_end ≤ a.bytestream + 1 →
        (renorm_step mem a).bytestream = a.bytestream_end) ∧
      (renorm_step mem a).bytestream_end = a.bytestream_end ∧
      (renorm_step mem a).counter = 16 ∧
      (renorm_step mem a).range = wrap32 (a.range * 2) ∧
      (a.bytestream ≤ a.bytestream_end → 1 ≤ a.range →
        ∃ a2, renorm_arith_decoder mem 15 a = some a2 ∧
          a2.bytestream ≤ a2.bytestream_end ∧ a2.bytestream_end = a.bytestream_end) := by
  have h0 : sub32 a.counter 1 = 0 := by
    rw [hc]
    rfl
  have hrb := AV_RB16_lt mem a.bytestream
  have hstep : renorm_step mem a = renorm_refill mem
      { a with low := wrap32 (a.low * 2), range := wrap32 (a.range * 2),
               counter := sub32 a.counter 1 } := by
    simp only [renorm_step]
    rw [if_pos h0]
  rw [hstep]
  refine ⟨?_, ?_, ?_, ?_, ?_, ?_, ?_, ?_⟩
  · intro h
    simp only [renorm_refill]
    rw [if_pos (by omega), if_pos (by omega), or_ff_ff00]
    dsimp only
    omega
  · intro h hs
    simp only [renorm_refill]
    rw [if_pos (by omega), if_neg (by omega), or_ff]
    dsimp only
    rw [AV_RB16] at *
    simp only [wrap32]
    omega
  · intro h hs
    simp only [renorm_refill]
    rw [if_pos (by omega)]
    dsimp only
    by_cases h2 : a.bytestream + 2 > a.bytestream_end + 1
    · rw [if_pos h2, or_ff_ff00]
      simp only [wrap32]
      omega
    · rw [if_neg h2, or_ff]
      simp only [wrap32]
      omega
  · intro h
    simp only [renorm_refill]
    rw [if_pos (by omega)]
  · simp only [renorm_refill]
    split_ifs <;> rfl
  · simp only [renorm_refill]
    split_ifs <;> rfl
  · rw [renorm_refill_range]
  · intro hcur hr
    obtain ⟨a2, ha2⟩ := renorm_terminates mem 15 a (by omega)
    exact ⟨a2, ha2, renorm_cursor mem 15 a a2 hcur ha2⟩

theorem SameGeom.geom_refl {A : Type} (s : DiracContext A) : SameGeom s s := by
  cases s
  rfl

theorem SameGeom.geom_set {A : Type} {s t : DiracContext A} (h : SameGeom s t) (g : GetBitContext)
    (a : A) : SameGeom s { t with gb := g, arith := a } := by
  cases s
  cases t
  simp only [SameGeom, DiracContext.mk.injEq] at *
  tauto

theorem SameGeom.geom_set_gb {A : Type} {s t : DiracContext A} (h : SameGeom s t) (g : GetBitContext) :
    SameGeom s { t with gb := g } :=
  h.geom_set g t.arith

theorem SameGeom.fields {A : Type} {s t : DiracContext A} (h : SameGeom s t) :
    t.padded_width = s.padded_width ∧ t.codeblocksh = s.codeblocksh ∧
      t.codeblocksv = s.codeblocksv ∧ t.refs = s.refs := by
  cases s
  cases t
  simp only [SameGeom, DiracContext.mk.injEq] at *
  tauto

theorem SameGeom.geom {A : Type} {env : DiracEnv A} (hg : GeometryOnly env) {s t : DiracContext A}
    (h : SameGeom s t) :
    (∀ l, env.subband_width t l = env.subband_width s l) ∧
    (∀ l, env.subband_height t l = env.subband_height s l) ∧
    (∀ l o v x, coeff_index env t l o v x = coeff_index env s l o v x) := by
  obtain ⟨h1, h2, h3, h4⟩ := hg s t.gb t.arith
  have hw := h.fields.1
  unfold SameGeom at h
  refine ⟨fun l => ?_, fun l => ?_, fun l o v x => ?_⟩
  · rw [h]
    exact h1 l
  · rw [h]
    exact h2 l
  · simp only [coeff_index, hw]
    rw [h, h3, h4]

/-! ## Subbands of length zero -/

/-- Folding a step that keeps an invariant keeps it. -/
theorem foldl_invariant {α β : Type} (P : α → Prop) (f : α → β → α) (l : List β) :
    ∀ a, P a → (∀ t b, b ∈ l → P t → P (f t b)) → P (l.foldl f a) := by
  induction l with
  | nil =>
    intro a ha _
    exact ha
  | cons x xs ih =>
    intro a ha hstep
    rw [List.foldl_cons]
    apply ih
    · exact hstep a x (List.mem_cons_self _ _) ha
    · intro t b hb ht
      exact hstep t b (List.mem_cons_of_mem _ hb) ht

theorem coeff_unpack_kept {A : Type} (env : DiracEnv A) (hg : GeometryOnly env)
    (s0 : DiracContext A) (d : Nat → Int) (j : Nat) (t : DiracContext A × (Nat → Int))
    (level orientation v h : Nat) (qoffset qfactor : Int)
    (hj : j ≠ coeff_index env s0 level orientation v h) (ht : Kept s0 d j t) :
    Kept s0 d j (coeff_unpack env t.1 t.2 level orientation v h qoffset qfactor) := by
  obtain ⟨h1, h2⟩ := ht
  have hidx := (h1.geom hg).2.2 level orientation v h
  simp only [coeff_unpack]
  split_ifs <;> refine ⟨h1.geom_set _ _, ?_⟩ <;> dsimp only <;>
    rw [hidx, Function.update_noteq hj, h2]

theorem unpack_row_kept {A : Type} (env : DiracEnv A) (hg : GeometryOnly env)
    (s0 : DiracContext A) (d : Nat → Int) (j : Nat) (t : DiracContext A × (Nat → Int))
    (level orientation v left right : Nat) (qoffset qfactor : Int)
    (hj : ∀ h, left ≤ h → h < right → j ≠ coeff_index env s0 level orientation v h)
    (ht : Kept s0 d j t) :
    Kept s0 d j (unpack_row env level orientation v left right qoffset qfactor t) := by
  unfold unpack_row
  apply foldl_invariant (Kept s0 d j) _ _ _ ht
  intro u h hh hu
  rw [List.mem_range'_1] at hh
  exact coeff_unpack_kept env hg s0 d j u level orientation v h qoffset qfactor
    (hj h hh.1 (by omega)) hu

/-- The column and row ranges of a codeblock lie inside the subband. -/
theorem codeblock_bound (w x n : Nat) (hx : x < n) : w * (x + 1) / n ≤ w := by
  apply Nat.div_le_of_le_mul
  rw [Nat.mul_comm n w]
  exact Nat.mul_le_mul_left w hx

theorem codeblock_kept {A : Type} (env : DiracEnv A) (hg : GeometryOnly env)
    (s0 : DiracContext A) (d : Nat → Int) (j : Nat) (t : DiracContext A × (Nat → Int))
    (level orientation x y : Nat) (qoffset qfactor : Int)
    (hx : x < s0.codeblocksh level) (hy : y < s0.codeblocksv level)
    (hj : ¬ in_subband env s0 level orientation j) (ht : Kept s0 d j t) :
    Kept s0 d j (codeblock env t.1 t.2 level orientation x y qoffset qfactor) := by
  obtain ⟨hw, hh, _⟩ := ht.1.geom hg
  obtain ⟨_, hch, hcv, _⟩ := ht.1.fields
  simp only [codeblock]
  generalize (if t.1.codeblocksh level + t.1.codeblocksv level = 2 then (0, t.1.arith, t.1.gb)
    else env.dirac_arith_get_bit t.1.arith t.1.gb env.ARITH_CONTEXT_ZERO_BLOCK) = b
  have hstart : Kept s0 d j ({ t.1 with arith := b.2.1, gb := b.2.2 }, t.2) :=
    ⟨ht.1.geom_set _ _, ht.2⟩
  split_ifs
  · exact hstart
  · apply foldl_invariant (Kept s0 d j) _ _ _ hstart
    intro u v hv hu
    rw [List.mem_range'_1] at hv
    apply unpack_row_kept env hg s0 d j u level orientation v _ _ qoffset qfactor _ hu
    intro h hl hr heq
    apply hj
    refine ⟨v, h, ?_, ?_, heq⟩
    · have := codeblock_bound (env.subband_height s0 level) y (s0.codeblocksv level) hy
      rw [hh, hcv] at hv
      omega
    · have := codeblock_bound (env.subband_width s0 level) x (s0.codeblocksh level) hx
      rw [hw, hch] at hr
      omega

theorem subband_zero_length {A : Type} (env : DiracEnv A) (s : DiracContext A) (d : Nat → Int)
    (level orientation : Nat) (h : (env.svq3_get_ue_golomb s.gb).1 = 0) :
    subband env s d level orientation =
      ({ s with gb := env.align_get_bits (env.svq3_get_ue_golomb s.gb).2 }, d) := by
  simp only [subband]
  rw [if_pos h]

theorem subband_dc_coeffs_zero_length {A : Type} (env : DiracEnv A) (s : DiracContext A)
    (d : Nat → Int) (h : (env.svq3_get_ue_golomb s.gb).1 = 0) :
    subband_dc_coeffs env s d =
      ({ s with gb := env.align_get_bits (env.svq3_get_ue_golomb s.gb).2 }, d) := by
  simp only [subband_dc_coeffs]
  rw [if_pos h]

theorem codeblocks_kept {A : Type} (env : DiracEnv A) (hg : GeometryOnly env)
    (s0 : DiracContext A) (d : Nat → Int) (j : Nat) (t : DiracContext A × (Nat → Int))
    (level orientation : Nat) (qoffset qfactor : Int)
    (hj : ¬ in_subband env s0 level orientation j) (ht : Kept s0 d j t) :
    Kept s0 d j (codeblocks env level orientation qoffset qfactor t) := by
  unfold codeblocks
  apply foldl_invariant (Kept s0 d j) _ _ _ ht
  intro u y hy hu
  apply foldl_invariant (Kept s0 d j) _ _ _ hu
  intro w x hx hw
  rw [List.mem_range] at hx hy
  rw [hu.1.fields.2.1] at hx
  rw [ht.1.fields.2.2.1] at hy
  exact codeblock_kept env hg s0 d j w level orientation x y _ _ hx hy hj hw

theorem dc_coeffs_kept {A : Type} (env : DiracEnv A) (hg : GeometryOnly env)
    (s0 : DiracContext A) (d : Nat → Int) (j : Nat) (t : DiracContext A × (Nat → Int))
    (qoffset qfactor : Int)
    (hj : ¬ in_subband env s0 0 env.subband_ll j) (ht : Kept s0 d j t) :
    Kept s0 d j (dc_coeffs env (env.subband_width s0 0) (env.subband_height s0 0)
      qoffset qfactor t) := by
  unfold dc_coeffs
  apply foldl_invariant (Kept s0 d j) _ _ _ ht
  intro u y hy hu
  rw [List.mem_range] at hy
  apply unpack_row_kept env hg s0 d j u 0 env.subband_ll y _ _ _ _ _ hu
  intro h _ hr heq
  exact hj ⟨y, h, hy, hr, heq⟩

theorem subband_kept {A : Type} (env : DiracEnv A) (hg : GeometryOnly env)
    (s0 : DiracContext A) (d : Nat → Int) (j : Nat) (t : DiracContext A × (Nat → Int))
    (level orientation : Nat)
    (hj : ¬ in_subband env s0 level orientation j ∨ (env.svq3_get_ue_golomb t.1.gb).1 = 0)
    (ht : Kept s0 d j t) :
    Kept s0 d j (subband env t.1 t.2 level orientation) := by
  by_cases hlen : (env.svq3_get_ue_golomb t.1.gb).1 = 0
  · rw [subband_zero_length env _ _ _ _ hlen]
    exact ⟨ht.1.geom_set_gb _, ht.2⟩
  · have hj2 : ¬ in_subband env s0 level orientation j := by
      cases hj with
      | inl h => exact h
      | inr h => exact absurd h hlen
    simp only [subband]
    rw [if_neg hlen]
    have hfold := codeblocks_kept env hg s0 d j
      ({ t.1 with
          gb := (env.dirac_arith_init t.1.arith
            (env.svq3_get_ue_golomb (env.svq3_get_ue_golomb t.1.gb).2).2
            (env.svq3_get_ue_golomb t.1.gb).1).2,
          arith := (env.dirac_arith_init t.1.arith
            (env.svq3_get_ue_golomb (env.svq3_get_ue_golomb t.1.gb).2).2
            (env.svq3_get_ue_golomb t.1.gb).1).1 }, t.2) level orientation
      ((env.coeff_quant_offset { t.1 with gb := (env.svq3_get_ue_golomb
          (env.svq3_get_ue_golomb t.1.gb).2).2 }
        (env.svq3_get_ue_golomb (env.svq3_get_ue_golomb t.1.gb).2).1 + 2 : Nat) : Int)
      ((env.coeff_quant_factor
        (env.svq3_get_ue_golomb (env.svq3_get_ue_golomb t.1.gb).2).1 : Nat) : Int)
      hj2 ⟨ht.1.geom_set _ _, ht.2⟩
    exact ⟨hfold.1.geom_set _ _, hfold.2⟩

theorem subband_dc_coeffs_kept {A : Type} (env : DiracEnv A) (hg : GeometryOnly env)
    (s0 : DiracContext A) (d : Nat → Int) (j : Nat) (t : DiracContext A × (Nat → Int))
    (hj : ¬ in_subband env s0 0 env.subband_ll j ∨ (env.svq3_get_ue_golomb t.1.gb).1 = 0)
    (ht : Kept s0 d j t) :
    Kept s0 d j (subband_dc_coeffs env t.1 t.2) := by
  by_cases hlen : (env.svq3_get_ue_golomb t.1.gb).1 = 0
  · rw [subband_dc_coeffs_zero_length env _ _ hlen]
    exact ⟨ht.1.geom_set_gb _, ht.2⟩
  · have hj2 : ¬ in_subband env s0 0 env.subband_ll j := by
      cases hj with
      | inl h => exact h
      | inr h => exact absurd h hlen
    simp only [subband_dc_coeffs]
    rw [if_neg hlen, (ht.1.geom hg).1, (ht.1.geom hg).2.1]
    have hfold := dc_coeffs_kept env hg s0 d j
      ({ t.1 with
          gb := (env.dirac_arith_init t.1.arith
            (env.svq3_get_ue_golomb (env.svq3_get_ue_golomb t.1.gb).2).2
            (env.svq3_get_ue_golomb t.1.gb).1).2,
          arith := (env.dirac_arith_init t.1.arith
            (env.svq3_get_ue_golomb (env.svq3_get_ue_golomb t.1.gb).2).2
            (env.svq3_get_ue_golomb t.1.gb).1).1 }, t.2)
      ((env.coeff_quant_offset { t.1 with gb := (env.svq3_get_ue_golomb
          (env.svq3_get_ue_golomb t.1.gb).2).2 }
        (env.svq3_get_ue_golomb (env.svq3_get_ue_golomb t.1.gb).2).1 + 2 : Nat) : Int)
      ((env.coeff_quant_factor
        (env.svq3_get_ue_golomb (env.svq3_get_ue_golomb t.1.gb).2).1 : Nat) : Int)
      hj2 ⟨ht.1.geom_set _ _, ht.2⟩
    exact ⟨hfold.1.geom_set _ _, hfold.2⟩

theorem intra_dc_prediction_kept {A : Type} (env : DiracEnv A) (s : DiracContext A)
    (d : Nat → Int) (j : Nat)
    (hj : ∀ y, y < env.subband_height s 0 → ∀ x, x < env.subband_width s 0 →
      j ≠ x + y * s.padded_width) :
    intra_dc_prediction env s d j = d j := by
  unfold intra_dc_prediction
  apply foldl_invariant (fun e : Nat → Int => e j = d j) _ _ _ rfl
  intro e y hy he
  apply foldl_invariant (fun e : Nat → Int => e j = d j) _ _ _ he
  intro f x hx hf
  rw [List.mem_range] at hx hy
  rw [Function.update_noteq (hj y hy x hx), hf]

theorem decode_subbands_kept {A : Type} (env : DiracEnv A) (hg : GeometryOnly env)
    (s0 : DiracContext A) (d : Nat → Int) (j : Nat) (subbands : List (Nat × Nat))
    (t : DiracContext A × (Nat → Int))
    (hj : ∀ lo, lo ∈ subbands → ¬ in_subband env s0 lo.1 lo.2 j) (ht : Kept s0 d j t) :
    Kept s0 d j (decode_subbands env t subbands) := by
  unfold decode_subbands
  apply foldl_invariant (Kept s0 d j) _ _ _ ht
  intro u lo hlo hu
  exact subband_kept env hg s0 d j u lo.1 lo.2 (Or.inl (hj lo hlo)) hu

theorem decode_subbands_split {A : Type} (env : DiracEnv A) (t : DiracContext A × (Nat → Int))
    (pre post : List (Nat × Nat)) (lo : Nat × Nat) :
    decode_subbands env t (pre ++ lo :: post) =
      decode_subbands env
        (subband env (decode_subbands env t pre).1 (decode_subbands env t pre).2 lo.1 lo.2) post := by
  simp only [decode_subbands, List.foldl_append, List.foldl_cons]

theorem not_in_subband_of_disjoint {A : Type} (env : DiracEnv A) (s : DiracContext A)
    (l1 o1 l2 o2 v h : Nat) (hv : v < env.subband_height s l1) (hh : h < env.subband_width s l1)
    (hd : SubbandsDisjoint env s l1 o1 l2 o2) :
    ¬ in_subband env s l2 o2 (coeff_index env s l1 o1 v h) := by
  rintro ⟨v2, h2, hv2, hh2, heq⟩
  exact hd v hv h hh v2 hv2 h2 hh2 heq

theorem subband_dc_kept {A : Type} (env : DiracEnv A) (hg : GeometryOnly env)
    (s0 : DiracContext A) (d : Nat → Int) (j : Nat) (t : DiracContext A × (Nat → Int))
    (hj : ¬ in_subband env s0 0 env.subband_ll j)
    (hp : s0.refs = 0 → ∀ y, y < env.subband_height s0 0 → ∀ x, x < env.subband_width s0 0 →
      j ≠ x + y * s0.padded_width)
    (ht : Kept s0 d j t) :
    Kept s0 d j (subband_dc env t.1 t.2) := by
  have hr := subband_dc_coeffs_kept env hg s0 d j t (Or.inl hj) ht
  simp only [subband_dc]
  by_cases hrefs : (subband_dc_coeffs env t.1 t.2).1.refs = 0
  · rw [if_pos hrefs]
    refine ⟨hr.1, ?_⟩
    dsimp only
    rw [intra_dc_prediction_kept, hr.2]
    intro y hy x hx
    rw [(hr.1.geom hg).2.1] at hy
    rw [(hr.1.geom hg).1] at hx
    rw [hr.1.fields.1]
    rw [hr.1.fields.2.2.2] at hrefs
    exact hp hrefs y hy x hx
  · rw [if_neg hrefs]
    exact hr

/-- C10: a Dirac subband whose byte length field is 0 is zero. When the length
read is 0, `subband` and the coefficient part of `subband_dc` return the
coefficient data as it was and the context with only the bit reader changed, to
the byte-aligned position after the length: no quantiser index is read and the
arithmetic decoder is not touched. In `dirac_decode_frame_internal`, which
clears the coefficient plane before `decode_component`: a zero-length DC
subband leaves the whole plane zero after its coefficient part, and for a
subband of `decode_component`'s level loop whose length field is 0, whose
coefficient positions are shared with no other subband and are not among those
rewritten by the intra DC prediction, every coefficient inside the plane is 0
when `decode_component` returns. -/
theorem zero_length_subband_is_zero {A : Type} (env : DiracEnv A) (s : DiracContext A)
    (coeffs : Nat → Int) (level orientation : Nat) (pre post : List (Nat × Nat))
    (hg : GeometryOnly env) (hres : s.zero_res = 0)
    (horder : subband_order env s = pre ++ (level, orientation) :: post)
    (hlen : (env.svq3_get_ue_golomb (decode_subbands env
      (subband_dc env { s with gb := env.align_get_bits s.gb } (clear_coeffs s coeffs)) pre).1.gb).1
        = 0)
    (hdc : SubbandsDisjoint env s level orientation 0 env.subband_ll)
    (hpred : s.refs = 0 → OutsidePrediction env s level orientation)
    (hdisj : ∀ lo, lo ∈ pre ++ post → SubbandsDisjoint env s level orientation lo.1 lo.2) :
    (∀ (t : DiracContext A) (d : Nat → Int) (l o : Nat), (env.svq3_get_ue_golomb t.gb).1 = 0 →
      subband env t d l o =
          ({ t with gb := env.align_get_bits (env.svq3_get_ue_golomb t.gb).2 }, d) ∧
        subband_dc_coeffs env t d =
          ({ t with gb := env.align_get_bits (env.svq3_get_ue_golomb t.gb).2 }, d)) ∧
      ((env.svq3_get_ue_golomb (env.align_get_bits s.gb)).1 = 0 →
        ∀ i, i < s.padded_width * s.padded_height →
          (subband_dc_coeffs env { s with gb := env.align_get_bits s.gb }
            (clear_coeffs s coeffs)).2 i = 0) ∧
      (∀ v, v < env.subband_height s level → ∀ h, h < env.subband_width s level →
        coeff_index env s level orientation v h < s.padded_width * s.padded_height →
          (decode_coeffs env s coeffs).2 (coeff_index env s level orientation v h) = 0) := by
  refine ⟨fun t d l o h0 => ⟨subband_zero_length env t d l o h0,
    subband_dc_coeffs_zero_length env t d h0⟩, ?_, ?_⟩
  · intro h0 i hi
    rw [subband_dc_coeffs_zero_length env _ _ h0]
    simp only [clear_coeffs]
    rw [if_pos hi]
  · intro v hv h hh hin
    have hzero : clear_coeffs s coeffs (coeff_index env s level orientation v h) = 0 := by
      simp only [clear_coeffs]
      rw [if_pos hin]
    have k0 : Kept s (clear_coeffs s coeffs) (coeff_index env s level orientation v h)
        ({ s with gb := env.align_get_bits s.gb }, clear_coeffs s coeffs) :=
      ⟨(SameGeom.geom_refl s).geom_set_gb _, rfl⟩
    have k1 := subband_dc_kept env hg s _ _ _
      (not_in_subband_of_disjoint env s level orientation 0 env.subband_ll v h hv hh hdc)
      (fun hr y hy x hx => hpred hr v hv h hh y hy x hx) k0
    have k2 := decode_subbands_kept env hg s _ _ pre _
      (fun lo hlo => not_in_subband_of_disjoint env s level orientation lo.1 lo.2 v h hv hh
        (hdisj lo (List.mem_append_left _ hlo))) k1
    have k3 := subband_kept env hg s _ _ _ level orientation (Or.inr hlen) k2
    have k4 := decode_subbands_kept env hg s _ _ post _
      (fun lo hlo => not_in_subband_of_disjoint env s level orientation lo.1 lo.2 v h hv hh
        (hdisj lo (List.mem_append_right _ hlo))) k3
    have hcomp : decode_coeffs env s coeffs =
        decode_subbands env (subband env
          (decode_subbands env (subband_dc env { s with gb := env.align_get_bits s.gb }
            (clear_coeffs s coeffs)) pre).1
          (decode_subbands env (subband_dc env { s with gb := env.align_get_bits s.gb }
            (clear_coeffs s coeffs)) pre).2 level orientation) post := by
      simp only [decode_coeffs, decode_component]
      rw [if_pos hres]
      have ho : subband_order env { s with gb := env.align_get_bits s.gb }
          = subband_order env s := rfl
      rw [ho, horder, decode_subbands_split]
    rw [hcomp, k4.2, hzero]

set_option maxRecDepth 100000 in
/-- Witness for C8: a step that emits 0 and renormalises twice. -/
theorem dirac_get_arith_bit_step_witness :
    example_arith.low < 4294967296 ∧ example_arith.range ≤ 0xFFFF ∧
      example_arith.contexts 0 < 65536 ∧
      decode_bit_spec example_prob example_arith.low example_arith.range
        (example_arith.contexts 0) = (0, 0x10000000, 0x1FFF, 8671) ∧
      dirac_get_arith_bit example_prob example_mem 15 example_arith 0 =
        (renorm_arith_decoder example_mem 15
          (spec_state example_arith 0 (decode_bit_spec example_prob example_arith.low
            example_arith.range (example_arith.contexts 0)))).map
          (fun a2 => ((decode_bit_spec example_prob example_arith.low example_arith.range
            (example_arith.contexts 0)).1, a2)) ∧
      ∃ r, dirac_get_arith_bit example_prob example_mem 15 example_arith 0 = some r ∧
        r.1 = 0 ∧ r.2.low = 0x40000000 ∧ r.2.range = 0x7FFC ∧ r.2.counter = 14 ∧
        r.2.contexts 0 = 8671 ∧ r.2.contexts 1 = 0x2000 :=
  ⟨by decide, by decide, by decide, by decide,
    (dirac_get_arith_bit_step example_prob example_mem 15 example_arith 0
      (by decide) (by decide) (by decide)).1,
    _, rfl, rfl, rfl, rfl, rfl, rfl, rfl⟩

set_option maxRecDepth 100000 in
/-- Witness for C9: a refill with one byte (0xAB) left, and one with none. -/
theorem renorm_overread_ones_witness :
    example_one_byte_left.counter = 1 ∧ example_no_byte_left.counter = 1 ∧
      (renorm_step example_mem example_one_byte_left).low % 65536 = 0xAB * 256 + 0xFF ∧
      (renorm_step example_mem example_one_byte_left).bytestream = 6 ∧
      (renorm_step example_mem example_no_byte_left).low % 65536 = 0xFFFF ∧
      (renorm_step example_mem example_no_byte_left).bytestream = 6 ∧
      (renorm_step example_mem example_no_byte_left).counter = 16 :=
  ⟨rfl, rfl,
    (renorm_overread_ones example_mem example_one_byte_left rfl).2.1 rfl (by decide),
    (renorm_overread_ones example_mem example_one_byte_left rfl).2.2.2.1 (by decide),
    (renorm_overread_ones example_mem example_no_byte_left rfl).1 (by decide),
    (renorm_overread_ones example_mem example_no_byte_left rfl).2.2.2.1 (by decide),
    (renorm_overread_ones example_mem example_no_byte_left rfl).2.2.2.2.2.1⟩

theorem example_geometry_only : GeometryOnly example_dirac_env :=
  fun _ _ _ => ⟨fun _ => rfl, fun _ => rfl, fun _ _ _ => rfl, fun _ _ _ => rfl⟩

set_option maxRecDepth 100000 in
/-- Witness for C10: in the example packet subband (1,2) has length 0; its
four coefficients, at indices 8, 9, 12 and 13 of the 4x4 plane, are 0 after
decoding although the plane held 7 everywhere before. -/
theorem zero_length_subband_is_zero_witness :
    GeometryOnly example_dirac_env ∧ example_dirac_context.zero_res = 0 ∧
      subband_order example_dirac_env example_dirac_context = [(1, 1)] ++ (1, 2) :: [(1, 3)] ∧
      (example_dirac_env.svq3_get_ue_golomb (decode_subbands example_dirac_env
        (subband_dc example_dirac_env
          { example_dirac_context with
            gb := example_dirac_env.align_get_bits example_dirac_context.gb }
          (clear_coeffs example_dirac_context (fun _ => 7))) [(1, 1)]).1.gb).1 = 0 ∧
      SubbandsDisjoint example_dirac_env example_dirac_context 1 2 0 example_dirac_env.subband_ll ∧
      (example_dirac_context.refs = 0 →
        OutsidePrediction example_dirac_env example_dirac_context 1 2) ∧
      (∀ lo, lo ∈ [(1, 1)] ++ [(1, 3)] →
        SubbandsDisjoint example_dirac_env example_dirac_context 1 2 lo.1 lo.2) ∧
      (decode_coeffs example_dirac_env example_dirac_context (fun _ => 7)).2 8 = 0 ∧
      (decode_coeffs example_dirac_env example_dirac_context (fun _ => 7)).2 13 = 0 :=
  ⟨example_geometry_only, rfl, by decide, by decide, by decide, fun _ => by decide, by decide,
    (zero_length_subband_is_zero example_dirac_env example_dirac_context (fun _ => 7) 1 2
      [(1, 1)] [(1, 3)] example_geometry_only rfl (by decide) (by decide) (by decide)
      (fun _ => by decide) (by decide)).2.2 0 (by decide) 0 (by decide) (by decide),
    (zero_length_subband_is_zero example_dirac_env example_dirac_context (fun _ => 7) 1 2
      [(1, 1)] [(1, 3)] example_geometry_only rfl (by decide) (by decide) (by decide)
      (fun _ => by decide) (by decide)).2.2 1 (by decide) 1 (by decide) (by decide)⟩

/-! ## Reference frame table: the lookup -/

theorem find_frame_ok (s : RefContext) (d : Int) :
    (find_frame s d = -1 ∧
      ∀ i : Nat, (i : Int) < s.refcnt → (s.refframes i).display_picture_number ≠ d) ∨
    (0 ≤ find_frame s d ∧ find_frame s d < s.refcnt ∧
      (s.refframes (find_frame s d).toNat).display_picture_number = d) := by
  unfold find_frame
  cases h : (List.range s.refcnt.toNat).find?
      (fun i => decide ((s.refframes i).display_picture_number = d)) with
  | none =>
    left
    refine ⟨rfl, ?_⟩
    intro i hi
    rw [List.find?_eq_none] at h
    have := h i (List.mem_range.mpr (by omega))
    simpa using this
  | some i =>
    right
    have h1 := List.find?_some h
    have h2 := List.mem_range.mp (List.mem_of_find?_eq_some h)
    simp only [decide_eq_true_eq] at h1
    refine ⟨by simp, by simp only; omega, ?_⟩
    simpa using h1

theorem example_lookup_ok : LookupOk example_ref_env := fun s d => find_frame_ok s d

/-- C15: a call with a zero-byte input. `dirac_decode_frame` returns 0 and
leaves the context, the reference table included, as it was. With a lookup
`dirac_reference_frame_idx` that finds a record by its display number: when the
table holds a record whose display number is `avctx->frame_number`, `*data_size`
is `sizeof(AVFrame)` and the frame output is that of such a record; when it
holds none, `*data_size` is 0 and no frame is output. -/
theorem zero_byte_input_replays (env : RefEnv) (s : RefContext) (frame_number : Int) (p : Packet)
    (hl : LookupOk env) (hp : p.buf_size = 0) :
    (dirac_decode_frame env s frame_number p).s = s ∧
    (dirac_decode_frame env s frame_number p).ret = 0 ∧
    ((∃ i : Nat, (i : Int) < s.refcnt ∧ (s.refframes i).display_picture_number = frame_number) →
      (dirac_decode_frame env s frame_number p).data_size = some env.sizeof_AVFrame ∧
      ∃ i : Nat, (i : Int) < s.refcnt ∧ (s.refframes i).display_picture_number = frame_number ∧
        (dirac_decode_frame env s frame_number p).picture = some (s.refframes i)) ∧
    ((∀ i : Nat, (i : Int) < s.refcnt → (s.refframes i).display_picture_number ≠ frame_number) →
      (dirac_decode_frame env s frame_number p).data_size = some 0 ∧
      (dirac_decode_frame env s frame_number p).picture = none) := by
  simp only [dirac_decode_frame]
  rw [if_pos hp]
  rcases hl s frame_number with ⟨h1, h2⟩ | ⟨h1, h2, h3⟩
  · rw [if_pos h1]
    refine ⟨rfl, rfl, ?_, fun _ => ⟨rfl, rfl⟩⟩
    rintro ⟨i, hi, hd⟩
    exact absurd hd (h2 i hi)
  · rw [if_neg (by omega)]
    refine ⟨rfl, rfl, fun _ => ⟨rfl, ?_⟩, ?_⟩
    · exact ⟨(env.dirac_reference_frame_idx s frame_number).toNat, by omega, h3, rfl⟩
    · intro hno
      exact absurd h3 (hno _ (by omega))

set_option maxRecDepth 100000 in
/-- Witness for C15: the table holds the picture numbered 5, the frame number is
5, the packet is empty. -/
theorem zero_byte_input_replays_witness :
    LookupOk example_ref_env ∧ empty_packet.buf_size = 0 ∧
    (dirac_decode_frame example_ref_env
      (decode_calls example_ref_env empty_context [(0, later_picture 5)]).1 5 empty_packet).ret = 0 ∧
    (dirac_decode_frame example_ref_env
      (decode_calls example_ref_env empty_context [(0, later_picture 5)]).1 5 empty_packet).picture
        = some ⟨105, 0, 5⟩ :=
  ⟨example_lookup_ok, rfl,
   (zero_byte_input_replays example_ref_env _ 5 empty_packet example_lookup_ok rfl).2.1,
   by decide⟩

/-! ## Reference frame table: the retirement phase -/

theorem clear_reference_display (f : AVFrame) :
    (clear_reference f).display_picture_number = f.display_picture_number := rfl

theorem clear_reference_idem (f : AVFrame) :
    clear_reference (clear_reference f) = clear_reference f := rfl

theorem clear_reference_of_zero (f : AVFrame) (h : f.reference = 0) : clear_reference f = f := by
  cases f
  simp only [clear_reference] at *
  rw [h]

/-- The indices below `n` other than `k`, as the loop
`for (j = idx; ...; j++) refframes[j] = refframes[j + 1]` visits them. -/
theorem range_skip (n k : Nat) (hk : k < n) :
    (List.range (n - 1)).map (fun j => if k ≤ j then j + 1 else j) =
      (List.range n).filter (fun i => decide (i ≠ k)) := by
  induction n with
  | zero => exact absurd hk (Nat.not_lt_zero k)
  | succ m ih =>
    rw [List.range_succ, List.filter_append]
    rcases Nat.lt_succ_iff_lt_or_eq.mp hk with h | h
    · have e : m + 1 - 1 = (m - 1) + 1 := by omega
      rw [e, List.range_succ, List.map_append, ih h]
      have e2 : m - 1 + 1 - 1 = m - 1 := by omega
      have hm : m ≠ k := by omega
      simp only [List.map_cons, List.map_nil, List.filter_cons, List.filter_nil, hm, ne_eq,
        not_false_eq_true, decide_True, if_true]
      rw [if_pos (by omega)]
      congr 2
      omega
    · subst h
      have e1 : (List.range k).filter (fun i => decide (i ≠ k)) = List.range k := by
        rw [List.filter_eq_self]
        intro i hi
        rw [List.mem_range] at hi
        simp only [ne_eq, decide_not, Bool.not_eq_true', decide_eq_false_iff_not]
        omega
      have e2 : (List.range k).map (fun j => if k ≤ j then j + 1 else j) = List.range k := by
        conv_rhs => rw [← List.map_id (List.range k)]
        apply List.map_congr_left
        intro j hj
        rw [List.mem_range] at hj
        rw [if_neg (by omega)]
        rfl
      simp only [Nat.add_sub_cancel, e1, e2, List.filter_cons, List.filter_nil, ne_eq,
        not_true_eq_false, decide_False, Bool.false_eq_true, if_false, List.append_nil]

theorem range_only (n k : Nat) (hk : k < n) :
    (List.range n).filter (fun i => decide (i = k)) = [k] := by
  induction n with
  | zero => exact absurd hk (Nat.not_lt_zero k)
  | succ m ih =>
    rw [List.range_succ, List.filter_append]
    rcases Nat.lt_succ_iff_lt_or_eq.mp hk with h | h
    · have hm : m ≠ k := by omega
      rw [ih h]
      simp [hm]
    · subst h
      have e1 : (List.range k).filter (fun i => decide (i = k)) = [] := by
        rw [List.filter_eq_nil_iff]
        intro i hi
        rw [List.mem_range] at hi
        simp only [decide_eq_true_eq]
        omega
      rw [e1]
      simp

/-- The second retirement loop on lists: of the records `T`, those whose display
number is below the frame number and in the retire list `L` are released, the
others stay in order, without their reference flag when `L` names them. -/
theorem retire_list_fold (frame_number : Int) (L : List Int) :
    ∀ (T R : List AVFrame), ∃ new : List AVFrame,
      L.foldl (retire_list frame_number) (T, R) =
        ((T.filter (fun f => decide (¬ (f.display_picture_number < frame_number ∧
            f.display_picture_number ∈ L)))).map
          (fun f => if f.display_picture_number ∈ L then clear_reference f else f),
         R ++ new) ∧
      ∀ f, f ∈ new ↔ f ∈ T ∧ f.display_picture_number < frame_number ∧
        f.display_picture_number ∈ L := by
  induction L with
  | nil =>
    intro T R
    refine ⟨[], ?_, ?_⟩
    · simp
    · intro f
      simp
  | cons d L ih =>
    intro T R
    rw [List.foldl_cons]
    by_cases hd : frame_number ≤ d
    · -- the request names a frame not yet displayed
      have hstep : retire_list frame_number (T, R) d =
          (T.map (fun f => if f.display_picture_number = d then clear_reference f else f), R) := by
        simp only [retire_list]
        rw [if_pos hd]
      rw [hstep]
      obtain ⟨new, h1, h2⟩ := ih
        (T.map (fun f => if f.display_picture_number = d then clear_reference f else f)) R
      refine ⟨new, ?_, ?_⟩
      · rw [h1]
        congr 1
        rw [List.filter_map, List.map_map]
        have hf : T.filter ((fun f => decide (¬ (f.display_picture_number < frame_number ∧
              f.display_picture_number ∈ L))) ∘
              (fun f => if f.display_picture_number = d then clear_reference f else f)) =
            T.filter (fun f => decide (¬ (f.display_picture_number < frame_number ∧
              f.display_picture_number ∈ d :: L))) := by
          apply List.filter_congr
          intro f _
          simp only [Function.comp]
          have e : (if f.display_picture_number = d then clear_reference f
              else f).display_picture_number = f.display_picture_number := by
            split_ifs <;> rfl
          rw [e]
          apply decide_eq_decide.mpr
          simp only [List.mem_cons]
          constructor
          · rintro h ⟨a, b | b⟩
            · omega
            · exact h ⟨a, b⟩
          · rintro h ⟨a, b⟩
            exact h ⟨a, Or.inr b⟩
        rw [hf]
        apply List.map_congr_left
        intro f _
        simp only [Function.comp]
        by_cases e : f.display_picture_number = d
        · rw [if_pos e, clear_reference_display, if_pos (List.mem_cons.mpr (Or.inl e))]
          split_ifs <;> rfl
        · rw [if_neg e]
          by_cases m : f.display_picture_number ∈ L
          · rw [if_pos m, if_pos (List.mem_cons.mpr (Or.inr m))]
          · rw [if_neg m, if_neg]
            rw [List.mem_cons]
            rintro (h | h)
            · exact e h
            · exact m h
      · intro f
        rw [h2, List.mem_map, List.mem_cons]
        constructor
        · rintro ⟨⟨g, hg, rfl⟩, a, b⟩
          have e : (if g.display_picture_number = d then clear_reference g
              else g).display_picture_number = g.display_picture_number := by
            split_ifs <;> rfl
          rw [e] at a b
          have hne : g.display_picture_number ≠ d := by omega
          rw [if_neg hne]
          exact ⟨hg, a, Or.inr b⟩
        · rintro ⟨hf, a, b⟩
          have hne : f.display_picture_number ≠ d := by omega
          refine ⟨⟨f, hf, by rw [if_neg hne]⟩, a, ?_⟩
          rcases b with b | b
          · exact absurd b hne
          · exact b
    · -- the request names a displayed frame
      have hstep : retire_list frame_number (T, R) d =
          (T.filter (fun f => decide (f.display_picture_number ≠ d)),
            R ++ T.filter (fun f => decide (f.display_picture_number = d))) := by
        simp only [retire_list]
        rw [if_neg hd]
      rw [hstep]
      obtain ⟨new, h1, h2⟩ := ih (T.filter (fun f => decide (f.display_picture_number ≠ d)))
        (R ++ T.filter (fun f => decide (f.display_picture_number = d)))
      refine ⟨T.filter (fun f => decide (f.display_picture_number = d)) ++ new, ?_, ?_⟩
      · rw [h1, List.append_assoc]
        congr 1
        rw [List.filter_filter]
        have hf : T.filter (fun f => decide (¬ (f.display_picture_number < frame_number ∧
              f.display_picture_number ∈ L)) && decide (f.display_picture_number ≠ d)) =
            T.filter (fun f => decide (¬ (f.display_picture_number < frame_number ∧
              f.display_picture_number ∈ d :: L))) := by
          apply List.filter_congr
          intro f _
          rw [← Bool.decide_and]
          apply decide_eq_decide.mpr
          simp only [List.mem_cons]
          constructor
          · rintro ⟨h, hne⟩ ⟨a, b | b⟩
            · exact hne b
            · exact h ⟨a, b⟩
          · intro h
            refine ⟨fun ⟨a, b⟩ => h ⟨a, Or.inr b⟩, ?_⟩
            intro e
            exact h ⟨by omega, Or.inl e⟩
        rw [hf]
        apply List.map_congr_left
        intro f hf
        rw [List.mem_filter] at hf
        have hp := hf.2
        simp only [List.mem_cons, decide_eq_true_eq] at hp
        by_cases m : f.display_picture_number ∈ L
        · rw [if_pos m, if_pos (List.mem_cons.mpr (Or.inr m))]
        · rw [if_neg m, if_neg]
          rw [List.mem_cons]
          rintro (h | h)
          · exact hp ⟨by omega, Or.inl h⟩
          · exact m h
      · intro f
        rw [List.mem_append, h2, List.mem_filter, List.mem_filter, List.mem_cons]
        simp only [decide_eq_true_eq]
        constructor
        · rintro (⟨a, b⟩ | ⟨⟨a, _⟩, b, c⟩)
          · exact ⟨a, by omega, Or.inl b⟩
          · exact ⟨a, b, Or.inr c⟩
        · rintro ⟨a, b, c | c⟩
          · exact Or.inl ⟨a, c⟩
          · by_cases e : f.display_picture_number = d
            · exact Or.inl ⟨a, e⟩
            · exact Or.inr ⟨⟨a, e⟩, b, c⟩

theorem requests_push (rf : Nat → Int) (c : Nat) (v : Int) :
    (List.range (c + 1)).map (Function.update rf c v) = (List.range c).map rf ++ [v] := by
  rw [List.range_succ, List.map_append]
  congr 1
  · apply List.map_congr_left
    intro i hi
    rw [List.mem_range] at hi
    rw [Function.update_noteq (by omega)]
  · simp

/-- The first retirement loop appends the display numbers of the displayed
non-reference records to the retire list and changes nothing else. -/
theorem mark_displayed_spec (frame_number : Int) (s : RefContext) :
    (mark_displayed frame_number s).refcnt = s.refcnt ∧
    (mark_displayed frame_number s).refframes = s.refframes ∧
    (mark_displayed frame_number s).released = s.released ∧
    requests (mark_displayed frame_number s) = requests s ++
      ((table s).filter (fun f => decide (f.reference = 0 ∧
        f.display_picture_number < frame_number))).map AVFrame.display_picture_number := by
  have key : ∀ (l : List Nat) (t : RefContext),
      (l.foldl (mark_frame frame_number) t).refcnt = t.refcnt ∧
      (l.foldl (mark_frame frame_number) t).refframes = t.refframes ∧
      (l.foldl (mark_frame frame_number) t).released = t.released ∧
      requests (l.foldl (mark_frame frame_number) t) = requests t ++
          ((l.map t.refframes).filter (fun f => decide (f.reference = 0 ∧
            f.display_picture_number < frame_number))).map AVFrame.display_picture_number := by
    intro l
    induction l with
    | nil =>
      intro t
      simp
    | cons i l ih =>
      intro t
      rw [List.foldl_cons]
      by_cases hp : (t.refframes i).reference = 0 ∧
          (t.refframes i).display_picture_number < frame_number
      · obtain ⟨a1, a2, a3, a4⟩ := ih (mark_frame frame_number t i)
        have e : mark_frame frame_number t i = { t with
            retireframe := (Function.update t.retireframe t.retirecnt (t.refframes i).display_picture_number),
            retirecnt := t.retirecnt + 1 } := by
          simp only [mark_frame]
          rw [if_pos hp]
        rw [a1, a2, a3, a4]
        rw [e]
        refine ⟨rfl, rfl, rfl, ?_⟩
        simp only [requests, requests_push, List.map_cons, List.filter_cons, hp, and_self,
          decide_True, if_true, List.append_assoc, List.singleton_append, List.map_cons]
      · obtain ⟨a1, a2, a3, a4⟩ := ih (mark_frame frame_number t i)
        have e : mark_frame frame_number t i = t := by
          simp only [mark_frame]
          rw [if_neg hp]
        rw [a1, a2, a3, a4, e]
        refine ⟨rfl, rfl, rfl, ?_⟩
        simp only [List.map_cons, List.filter_cons, hp, decide_False, Bool.false_eq_true,
          if_false]
  exact key (List.range s.refcnt.toNat) s

theorem table_index_unique (t : RefContext) (h : TableOk t) (i k : Nat)
    (hi : i < t.refcnt.toNat) (hk : k < t.refcnt.toNat)
    (he : (t.refframes i).display_picture_number = (t.refframes k).display_picture_number) :
    i = k := by
  have hn := h.2
  unfold table at hn
  rw [List.map_map] at hn
  exact List.inj_on_of_nodup_map hn (List.mem_range.mpr hi) (List.mem_range.mpr hk) he

/-- One iteration of the second retirement loop, on the lists. -/
theorem retire_frame_list (env : RefEnv) (hl : LookupOk env) (frame_number : Int)
    (t : RefContext) (i : Nat) (h : TableOk t) :
    (table (retire_frame env frame_number t i), (retire_frame env frame_number t i).released) =
      retire_list frame_number (table t, t.released) (t.retireframe i) ∧
    (retire_frame env frame_number t i).retireframe = t.retireframe ∧
    TableOk (retire_frame env frame_number t i) := by
  have hsub : ∀ (T : List AVFrame) (p : AVFrame → Bool),
      (T.map AVFrame.display_picture_number).Nodup →
      ((T.filter p).map AVFrame.display_picture_number).Nodup :=
    fun T p hn => List.Nodup.sublist (List.Sublist.map _ (List.filter_sublist T)) hn
  have hclear : ∀ (T : List AVFrame) (d : Int),
      (T.map (fun f => if f.display_picture_number = d then clear_reference f else f)).map
        AVFrame.display_picture_number = T.map AVFrame.display_picture_number := by
    intro T d
    rw [List.map_map]
    apply List.map_congr_left
    intro f _
    simp only [Function.comp]
    split_ifs <;> rfl
  rcases hl t (t.retireframe i) with ⟨h1, h2⟩ | ⟨h1, h2, h3⟩
  · -- no record has the number
    have e : retire_frame env frame_number t i = t := by
      simp only [retire_frame]
      rw [if_pos h1]
    rw [e]
    refine ⟨?_, rfl, h⟩
    have hmem : ∀ f, f ∈ table t → f.display_picture_number ≠ t.retireframe i := by
      intro f hf
      unfold table at hf
      obtain ⟨j, hj, rfl⟩ := List.mem_map.mp hf
      rw [List.mem_range] at hj
      exact h2 j (by omega)
    simp only [retire_list]
    split_ifs
    · congr 1
      conv_lhs => rw [← List.map_id (table t)]
      apply List.map_congr_left
      intro f hf
      rw [if_neg (hmem f hf)]
      rfl
    · have e1 : (table t).filter (fun f => decide (f.display_picture_number ≠ t.retireframe i))
          = table t := by
        rw [List.filter_eq_self]
        intro f hf
        simpa using hmem f hf
      have e2 : (table t).filter (fun f => decide (f.display_picture_number = t.retireframe i))
          = [] := by
        rw [List.filter_eq_nil_iff]
        intro f hf
        simpa using hmem f hf
      rw [e1, e2, List.append_nil]
  · -- the record `k` has the number
    generalize hk : (env.dirac_reference_frame_idx t (t.retireframe i)).toNat = k at h3
    have hidx : env.dirac_reference_frame_idx t (t.retireframe i) = (k : Int) := by omega
    have hkn : k < t.refcnt.toNat := by omega
    have huniq : ∀ j, j < t.refcnt.toNat →
        ((t.refframes j).display_picture_number = t.retireframe i ↔ j = k) := by
      intro j hj
      constructor
      · intro e
        exact table_index_unique t h j k hj hkn (e.trans h3.symm)
      · intro e
        rw [e]
        exact h3
    by_cases hd : frame_number ≤ t.retireframe i
    · -- not displayed yet: the flag is cleared
      have e : retire_frame env frame_number t i =
          { t with refframes := (Function.update t.refframes k (clear_reference (t.refframes k))) } := by
        simp only [retire_frame]
        rw [if_neg (by omega), hk, if_pos (by rw [h3]; exact hd)]
        rfl
      rw [e]
      have etab : table { t with refframes :=
            (Function.update t.refframes k (clear_reference (t.refframes k))) } =
          (table t).map (fun f => if f.display_picture_number = t.retireframe i
            then clear_reference f else f) := by
        unfold table
        rw [List.map_map]
        apply List.map_congr_left
        intro j hj
        rw [List.mem_range] at hj
        simp only [Function.comp]
        by_cases hjk : j = k
        · rw [hjk, Function.update_same, if_pos h3]
        · rw [Function.update_noteq hjk, if_neg (fun e => hjk ((huniq j hj).mp e))]
      refine ⟨?_, rfl, h.1, ?_⟩
      · simp only [retire_list]
        rw [if_pos hd, etab]
      · rw [etab, hclear]
        exact h.2
    · -- displayed: the record is released and removed
      have e : retire_frame env frame_number t i =
          { t with released := t.released ++ [t.refframes k],
                   refcnt := t.refcnt - 1,
                   refframes := (fun j => if (k : Int) ≤ (j : Int) ∧ (j : Int) < (k : Int) + (t.refcnt - 1) then t.refframes (j + 1) else t.refframes j) } := by
        simp only [retire_frame]
        rw [if_neg (by omega), hk, if_neg (by rw [h3]; omega), hidx]
      rw [e]
      have etab : table
          { t with released := t.released ++ [t.refframes k],
                   refcnt := t.refcnt - 1,
                   refframes := (fun j => if (k : Int) ≤ (j : Int) ∧ (j : Int) < (k : Int) + (t.refcnt - 1) then t.refframes (j + 1) else t.refframes j) } =
          (table t).filter (fun f => decide (f.display_picture_number ≠ t.retireframe i)) := by
        unfold table
        simp only
        have en : (t.refcnt - 1).toNat = t.refcnt.toNat - 1 := by omega
        rw [en, List.filter_map]
        have ef : (List.range t.refcnt.toNat).filter
            ((fun f => decide (f.display_picture_number ≠ t.retireframe i)) ∘ t.refframes) =
            (List.range t.refcnt.toNat).filter (fun j => decide (j ≠ k)) := by
          apply List.filter_congr
          intro j hj
          rw [List.mem_range] at hj
          simp only [Function.comp]
          apply decide_eq_decide.mpr
          exact not_congr (huniq j hj)
        rw [ef, ← range_skip _ _ hkn, List.map_map]
        apply List.map_congr_left
        intro j hj
        rw [List.mem_range] at hj
        simp only [Function.comp]
        by_cases hkj : k ≤ j
        · rw [if_pos ⟨by omega, by omega⟩, if_pos hkj]
        · rw [if_neg (fun hc => hkj (by omega)), if_neg hkj]
      have erel : (table t).filter (fun f => decide (f.display_picture_number = t.retireframe i))
          = [t.refframes k] := by
        unfold table
        rw [List.filter_map]
        have ef : (List.range t.refcnt.toNat).filter
            ((fun f => decide (f.display_picture_number = t.retireframe i)) ∘ t.refframes) =
            (List.range t.refcnt.toNat).filter (fun j => decide (j = k)) := by
          apply List.filter_congr
          intro j hj
          rw [List.mem_range] at hj
          simp only [Function.comp]
          apply decide_eq_decide.mpr
          exact huniq j hj
        rw [ef, range_only _ _ hkn]
        rfl
      refine ⟨?_, rfl, ?_, ?_⟩
      · simp only [retire_list]
        rw [if_neg hd, etab, erel]
      · show 0 ≤ t.refcnt - 1
        omega
      · rw [etab]
        exact hsub _ _ h.2

/-- The second retirement loop, on the lists. -/
theorem retire_loop_list (env : RefEnv) (hl : LookupOk env) (frame_number : Int) (l : List Nat) :
    ∀ t : RefContext, TableOk t →
      (table (l.foldl (retire_frame env frame_number) t),
          (l.foldl (retire_frame env frame_number) t).released) =
        (l.map t.retireframe).foldl (retire_list frame_number) (table t, t.released) := by
  induction l with
  | nil =>
    intro t _
    rfl
  | cons i l ih =>
    intro t ht
    obtain ⟨a1, a2, a3⟩ := retire_frame_list env hl frame_number t i ht
    rw [List.foldl_cons, List.map_cons, List.foldl_cons, ih _ a3, a1, a2]

/-- The retirement phase on a table whose records have pairwise distinct
display numbers, with a lookup that finds a record by its display number: a
record is released and removed exactly when its display number is below the
frame number and it is a non-reference frame or is named by a retire request;
the other records stay, in order; a record named by a retire request and not
yet displayed stays, with its reference flag cleared. -/
theorem retirement_releases_distinct (env : RefEnv) (s : RefContext) (frame_number : Int)
    (hl : LookupOk env) (h0 : 0 ≤ s.refcnt)
    (hd : ((table s).map AVFrame.display_picture_number).Nodup) :
    ∃ new : List AVFrame,
      (retire_frames env frame_number s).released = s.released ++ new ∧
      (∀ f, f ∈ new ↔ f ∈ table s ∧ f.display_picture_number < frame_number ∧
        (f.reference = 0 ∨ f.display_picture_number ∈ requests s)) ∧
      table (retire_frames env frame_number s) =
        ((table s).filter (fun f => decide (¬ (f.display_picture_number < frame_number ∧
          (f.reference = 0 ∨ f.display_picture_number ∈ requests s))))).map
          (fun f => if f.display_picture_number ∈ requests s then clear_reference f else f) ∧
      ∀ f, f ∈ table s → f.display_picture_number ∈ requests s →
        frame_number ≤ f.display_picture_number →
          clear_reference f ∈ table (retire_frames env frame_number s) ∧ f ∉ new := by
  obtain ⟨m1, m2, m3, m4⟩ := mark_displayed_spec frame_number s
  have etab : table (mark_displayed frame_number s) = table s := by
    unfold table
    rw [m1, m2]
  have hok : TableOk (mark_displayed frame_number s) := by
    refine ⟨by rw [m1]; exact h0, ?_⟩
    rw [etab]
    exact hd
  have hloop := retire_loop_list env hl frame_number
    (List.range (mark_displayed frame_number s).retirecnt) _ hok
  have hreq : (List.range (mark_displayed frame_number s).retirecnt).map
      (mark_displayed frame_number s).retireframe = requests (mark_displayed frame_number s) := rfl
  rw [hreq, m4, etab, m3] at hloop
  obtain ⟨new, h1, h2⟩ := retire_list_fold frame_number
    (requests s ++ ((table s).filter (fun f => decide (f.reference = 0 ∧
      f.display_picture_number < frame_number))).map AVFrame.display_picture_number)
    (table s) s.released
  rw [h1] at hloop
  have hres : table (retire_frames env frame_number s) = _ := congrArg Prod.fst hloop
  have hrel : (retire_frames env frame_number s).released = _ := congrArg Prod.snd hloop
  -- membership in the retire list
  have hL : ∀ f, f ∈ table s →
      (f.display_picture_number ∈ requests s ++ ((table s).filter (fun f => decide
          (f.reference = 0 ∧ f.display_picture_number < frame_number))).map
            AVFrame.display_picture_number ↔
        f.display_picture_number ∈ requests s ∨
          (f.reference = 0 ∧ f.display_picture_number < frame_number)) := by
    intro f hf
    rw [List.mem_append, List.mem_map]
    constructor
    · rintro (h | ⟨g, hg, he⟩)
      · exact Or.inl h
      · rw [List.mem_filter] at hg
        have : g = f := List.inj_on_of_nodup_map hd hg.1 hf he
        rw [← this]
        right
        simpa using hg.2
    · rintro (h | h)
      · exact Or.inl h
      · right
        refine ⟨f, ?_, rfl⟩
        rw [List.mem_filter]
        exact ⟨hf, by simpa using h⟩
  have hfilter : (table s).filter (fun f => decide (¬ (f.display_picture_number < frame_number ∧
        f.display_picture_number ∈ requests s ++ ((table s).filter (fun f => decide
          (f.reference = 0 ∧ f.display_picture_number < frame_number))).map
            AVFrame.display_picture_number))) =
      (table s).filter (fun f => decide (¬ (f.display_picture_number < frame_number ∧
        (f.reference = 0 ∨ f.display_picture_number ∈ requests s)))) := by
    apply List.filter_congr
    intro f hf
    apply decide_eq_decide.mpr
    rw [hL f hf]
    tauto
  have htable : table (retire_frames env frame_number s) =
      ((table s).filter (fun f => decide (¬ (f.display_picture_number < frame_number ∧
        (f.reference = 0 ∨ f.display_picture_number ∈ requests s))))).map
        (fun f => if f.display_picture_number ∈ requests s then clear_reference f else f) := by
    rw [hres]
    simp only
    rw [hfilter]
    apply List.map_congr_left
    intro f hf
    have hft : f ∈ table s := (List.mem_filter.mp hf).1
    by_cases hr : f.display_picture_number ∈ requests s
    · rw [if_pos hr, if_pos ((hL f hft).mpr (Or.inl hr))]
    · rw [if_neg hr]
      split_ifs with hm
      · rcases (hL f hft).mp hm with h | h
        · exact absurd h hr
        · exact clear_reference_of_zero f h.1
      · rfl
  have hnew : ∀ f, f ∈ new ↔ f ∈ table s ∧ f.display_picture_number < frame_number ∧
      (f.reference = 0 ∨ f.display_picture_number ∈ requests s) := by
    intro f
    rw [h2]
    constructor
    · rintro ⟨a, b, c⟩
      refine ⟨a, b, ?_⟩
      rcases (hL f a).mp c with h | h
      · exact Or.inr h
      · exact Or.inl h.1
    · rintro ⟨a, b, c⟩
      refine ⟨a, b, (hL f a).mpr ?_⟩
      rcases c with h | h
      · exact Or.inr ⟨h, b⟩
      · exact Or.inl h
  refine ⟨new, hrel, hnew, htable, ?_⟩
  intro f hf hr hge
  constructor
  · rw [htable, List.mem_map]
    refine ⟨f, ?_, by rw [if_pos hr]⟩
    rw [List.mem_filter]
    refine ⟨hf, ?_⟩
    simp only [decide_eq_true_eq]
    rintro ⟨a, _⟩
    omega
  · intro hn
    have := ((hnew f).mp hn).2.1
    omega

theorem range_split (n k : Nat) (hk : k < n) :
    List.range n = List.range k ++ k :: (List.range (n - k - 1)).map (fun j => k + 1 + j) := by
  have e : n = k + ((n - k - 1) + 1) := by omega
  conv_lhs => rw [e, List.range_add, List.range_succ_eq_map, List.map_cons]
  simp only [Nat.add_zero, List.map_map, List.cons.injEq, true_and, List.append_cancel_left_eq]
  apply List.map_congr_left
  intro j _
  simp only [Function.comp]
  omega

theorem numbered_split (d : Int) (A B : List AVFrame) (f : AVFrame) :
    numbered d (A ++ f :: B) =
      numbered d A + numbered d B + (if f.display_picture_number = d then 1 else 0) := by
  unfold numbered
  rw [List.countP_append, List.countP_cons]
  simp only [decide_eq_true_eq]
  omega

theorem numbered_append (d : Int) (A B : List AVFrame) :
    numbered d (A ++ B) = numbered d A + numbered d B := by
  unfold numbered
  rw [List.countP_append]

theorem numbered_single (d : Int) (f : AVFrame) :
    numbered d [f] = if f.display_picture_number = d then 1 else 0 := by
  unfold numbered
  rw [List.countP_cons, List.countP_nil]
  simp only [decide_eq_true_eq, Nat.zero_add]

theorem numbered_zero (d : Int) (T : List AVFrame)
    (h : ∀ f, f ∈ T → f.display_picture_number ≠ d) : numbered d T = 0 := by
  unfold numbered
  rw [List.countP_eq_zero]
  intro f hf
  simpa using h f hf

theorem numbered_pos (d : Int) (T : List AVFrame) (f : AVFrame) (hf : f ∈ T)
    (hd : f.display_picture_number = d) : 0 < numbered d T := by
  unfold numbered
  rw [List.countP_pos_iff]
  exact ⟨f, hf, by simpa using hd⟩

theorem count_push (L : List Int) (d e : Int) :
    (L ++ [d]).count e = L.count e + (if d = e then 1 else 0) := by
  rw [List.count_append, List.count_singleton]
  simp only [beq_iff_eq]

/-- The loop starts with nothing released. -/
theorem retired_start (frame_number : Int) (T0 : List AVFrame) :
    Retired frame_number T0 [] T0 [] := by
  refine ⟨fun f hf => absurd hf (List.not_mem_nil f), fun d _ => ?_, fun _ _ => rfl,
    fun f hf => Or.inl hf, fun d hd => absurd hd (List.not_mem_nil d), List.Sublist.refl _⟩
  refine ⟨?_, ?_, Or.inl ?_⟩
  · show numbered d [] + _ = _
    rw [show numbered d [] = 0 from rfl, Nat.zero_add]
  · exact Nat.zero_le _
  · rfl

/-- An entry for which the table holds no record. -/
theorem retired_skip (frame_number : Int) (T0 : List AVFrame) (L : List Int)
    (T N : List AVFrame) (d : Int) (h : Retired frame_number T0 L T N)
    (hnone : ∀ f, f ∈ T → f.display_picture_number ≠ d) :
    Retired frame_number T0 (L ++ [d]) T N := by
  obtain ⟨j1, j2, j3, j4, j5, j6⟩ := h
  refine ⟨?_, ?_, j3, ?_, ?_, j6⟩
  · intro f hf
    obtain ⟨a, b, c⟩ := j1 f hf
    exact ⟨a, b, List.mem_append_left _ c⟩
  · intro e he
    obtain ⟨a, b, c⟩ := j2 e he
    rw [count_push]
    refine ⟨a, by omega, ?_⟩
    by_cases hde : d = e
    · right
      rw [← hde]
      exact numbered_zero d T hnone
    · rw [if_neg hde, Nat.add_zero]
      exact c
  · intro f hf
    rcases j4 f hf with a | ⟨g, g1, g2, g3, g4⟩
    · exact Or.inl a
    · exact Or.inr ⟨g, g1, g2, List.mem_append_left _ g3, g4⟩
  · intro e he hfe hex
    rw [List.mem_append, List.mem_singleton] at he
    rcases he with he | he
    · exact j5 e he hfe hex
    · exfalso
      obtain ⟨g, hg, hgd⟩ := hex
      have hpos := numbered_pos e T0 g hg hgd
      rw [← j3 e hfe, he, numbered_zero d T hnone] at hpos
      omega

/-- An entry for a record not yet displayed: the record loses its flag. -/
theorem retired_clear (frame_number : Int) (T0 : List AVFrame) (L : List Int)
    (A B N : List AVFrame) (f : AVFrame) (d : Int)
    (h : Retired frame_number T0 L (A ++ f :: B) N) (hf : f.display_picture_number = d)
    (hd : frame_number ≤ d) :
    Retired frame_number T0 (L ++ [d]) (A ++ clear_reference f :: B) N := by
  obtain ⟨j1, j2, j3, j4, j5, j6⟩ := h
  have hnum : ∀ e, numbered e (A ++ clear_reference f :: B) = numbered e (A ++ f :: B) := by
    intro e
    rw [numbered_split, numbered_split, clear_reference_display]
  have hmem : ∀ g, g ∈ A ++ f :: B →
      g ∈ A ++ clear_reference f :: B ∨ g = f := by
    intro g hg
    rw [List.mem_append, List.mem_cons] at hg
    rcases hg with a | a | a
    · exact Or.inl (List.mem_append_left _ a)
    · exact Or.inr a
    · exact Or.inl (List.mem_append_right _ (List.mem_cons_of_mem _ a))
  have hself : clear_reference f ∈ A ++ clear_reference f :: B :=
    List.mem_append_right _ (List.mem_cons_self _ _)
  refine ⟨?_, ?_, ?_, ?_, ?_, ?_⟩
  · intro g hg
    obtain ⟨a, b, c⟩ := j1 g hg
    exact ⟨a, b, List.mem_append_left _ c⟩
  · intro e he
    obtain ⟨a, b, c⟩ := j2 e he
    rw [hnum, count_push, if_neg (by omega), Nat.add_zero]
    exact ⟨a, b, c⟩
  · intro e he
    rw [hnum]
    exact j3 e he
  · intro g hg
    rw [List.mem_append, List.mem_cons] at hg
    have hold : ∀ g, g ∈ A ++ f :: B → g ∈ T0 ∨ ∃ g0, g0 ∈ T0 ∧
        frame_number ≤ g0.display_picture_number ∧ g0.display_picture_number ∈ L ++ [d] ∧
        g = clear_reference g0 := by
      intro g hg
      rcases j4 g hg with a | ⟨g0, g1, g2, g3, g4⟩
      · exact Or.inl a
      · exact Or.inr ⟨g0, g1, g2, List.mem_append_left _ g3, g4⟩
    rcases hg with a | a | a
    · exact hold g (List.mem_append_left _ a)
    · right
      have hfm : f ∈ A ++ f :: B := List.mem_append_right _ (List.mem_cons_self _ _)
      rcases j4 f hfm with b | ⟨g0, g1, g2, _, g4⟩
      · exact ⟨f, b, by rw [hf]; exact hd,
          List.mem_append_right _ (by rw [hf]; exact List.mem_singleton_self d), a⟩
      · refine ⟨g0, g1, g2, List.mem_append_right _ ?_, ?_⟩
        · have : g0.display_picture_number = d := by
            rw [← hf, g4]
            rfl
          rw [this]
          exact List.mem_singleton_self d
        · rw [a, g4]
          rfl
    · exact hold g (List.mem_append_right _ (List.mem_cons_of_mem _ a))
  · intro e he hfe hex
    rw [List.mem_append, List.mem_singleton] at he
    rcases he with he | he
    · obtain ⟨g, g1, g2, g3⟩ := j5 e he hfe hex
      rcases hmem g g1 with a | a
      · exact ⟨g, a, g2, g3⟩
      · refine ⟨clear_reference f, hself, ?_, rfl⟩
        rw [clear_reference_display, ← a]
        exact g2
    · refine ⟨clear_reference f, hself, ?_, rfl⟩
      rw [clear_reference_display, he]
      exact hf
  · have e : (A ++ clear_reference f :: B).map clear_reference =
        (A ++ f :: B).map clear_reference := by
      rw [List.map_append, List.map_append, List.map_cons, List.map_cons, clear_reference_idem]
    rw [e]
    exact j6

/-- An entry for a displayed record: the record is released and removed. -/
theorem retired_release (frame_number : Int) (T0 : List AVFrame) (L : List Int)
    (A B N : List AVFrame) (f : AVFrame) (d : Int)
    (h : Retired frame_number T0 L (A ++ f :: B) N) (hf : f.display_picture_number = d)
    (hd : d < frame_number) :
    Retired frame_number T0 (L ++ [d]) (A ++ B) (N ++ [f]) := by
  obtain ⟨j1, j2, j3, j4, j5, j6⟩ := h
  have hfm : f ∈ A ++ f :: B := List.mem_append_right _ (List.mem_cons_self _ _)
  have hsub : ∀ g, g ∈ A ++ B → g ∈ A ++ f :: B := by
    intro g hg
    rw [List.mem_append] at hg
    rcases hg with a | a
    · exact List.mem_append_left _ a
    · exact List.mem_append_right _ (List.mem_cons_of_mem _ a)
  have hf0 : f ∈ T0 := by
    rcases j4 f hfm with a | ⟨g0, _, g2, _, g4⟩
    · exact a
    · exfalso
      have : f.display_picture_number = g0.display_picture_number := by
        rw [g4]
        rfl
      omega
  refine ⟨?_, ?_, ?_, ?_, ?_, ?_⟩
  · intro g hg
    rw [List.mem_append, List.mem_singleton] at hg
    rcases hg with a | a
    · obtain ⟨b1, b2, b3⟩ := j1 g a
      exact ⟨b1, b2, List.mem_append_left _ b3⟩
    · rw [a]
      exact ⟨hf0, by omega, List.mem_append_right _ (by rw [hf]; exact List.mem_singleton_self d)⟩
  · intro e he
    obtain ⟨a, b, c⟩ := j2 e he
    rw [numbered_split, hf] at a c
    rw [numbered_append, numbered_append, numbered_single, count_push, hf]
    by_cases hde : d = e
    · rw [if_pos hde] at a c ⊢
      refine ⟨by omega, by omega, ?_⟩
      rcases c with c | c
      · left
        omega
      · omega
    · rw [if_neg hde] at a c ⊢
      refine ⟨by omega, by omega, ?_⟩
      rcases c with c | c
      · left
        omega
      · right
        omega
  · intro e he
    have := j3 e he
    rw [numbered_split, hf, if_neg (by omega)] at this
    rw [numbered_append]
    omega
  · intro g hg
    rcases j4 g (hsub g hg) with a | ⟨g0, g1, g2, g3, g4⟩
    · exact Or.inl a
    · exact Or.inr ⟨g0, g1, g2, List.mem_append_left _ g3, g4⟩
  · intro e he hfe hex
    rw [List.mem_append, List.mem_singleton] at he
    rcases he with he | he
    · obtain ⟨g, g1, g2, g3⟩ := j5 e he hfe hex
      refine ⟨g, ?_, g2, g3⟩
      rw [List.mem_append, List.mem_cons] at g1
      rw [List.mem_append]
      rcases g1 with a | a | a
      · exact Or.inl a
      · exfalso
        rw [a] at g2
        omega
      · exact Or.inr a
    · omega
  · refine List.Sublist.trans ?_ j6
    apply List.Sublist.map
    exact List.Sublist.append (List.Sublist.refl A) (List.sublist_cons_self f B)

/-- One iteration of the second retirement loop, on the lists: when no record
has the number of the entry nothing changes; otherwise the record the lookup
finds, at some place of the table, is released and removed if it has been
displayed and loses its reference flag if not. -/
theorem retire_frame_split (env : RefEnv) (hl : LookupOk env) (frame_number : Int)
    (t : RefContext) (i : Nat) (h0 : 0 ≤ t.refcnt) :
    (retire_frame env frame_number t i).retireframe = t.retireframe ∧
    0 ≤ (retire_frame env frame_number t i).refcnt ∧
    (((∀ f, f ∈ table t → f.display_picture_number ≠ t.retireframe i) ∧
        table (retire_frame env frame_number t i) = table t ∧
        (retire_frame env frame_number t i).released = t.released) ∨
      ∃ A f B, table t = A ++ f :: B ∧ f.display_picture_number = t.retireframe i ∧
        ((frame_number ≤ t.retireframe i ∧
            table (retire_frame env frame_number t i) = A ++ clear_reference f :: B ∧
            (retire_frame env frame_number t i).released = t.released) ∨
          (t.retireframe i < frame_number ∧
            table (retire_frame env frame_number t i) = A ++ B ∧
            (retire_frame env frame_number t i).released = t.released ++ [f]))) := by
  rcases hl t (t.retireframe i) with ⟨h1, h2⟩ | ⟨h1, h2, h3⟩
  · -- no record has the number
    have e : retire_frame env frame_number t i = t := by
      simp only [retire_frame]
      rw [if_pos h1]
    rw [e]
    refine ⟨rfl, h0, Or.inl ⟨?_, rfl, rfl⟩⟩
    intro f hf
    unfold table at hf
    obtain ⟨j, hj, rfl⟩ := List.mem_map.mp hf
    rw [List.mem_range] at hj
    exact h2 j (by omega)
  · -- the record `k` has the number
    generalize hk : (env.dirac_reference_frame_idx t (t.retireframe i)).toNat = k at h3
    have hidx : env.dirac_reference_frame_idx t (t.retireframe i) = (k : Int) := by omega
    have hkn : k < t.refcnt.toNat := by omega
    have hsplit : table t = (List.range k).map t.refframes ++ t.refframes k ::
        ((List.range (t.refcnt.toNat - k - 1)).map (fun j => k + 1 + j)).map t.refframes := by
      unfold table
      rw [range_split _ _ hkn, List.map_append, List.map_cons]
    by_cases hd : frame_number ≤ t.retireframe i
    · -- not displayed yet: the flag is cleared
      have e : retire_frame env frame_number t i =
          { t with refframes := (Function.update t.refframes k (clear_reference (t.refframes k))) } := by
        simp only [retire_frame]
        rw [if_neg (by omega), hk, if_pos (by rw [h3]; exact hd)]
        rfl
      rw [e]
      refine ⟨rfl, h0, Or.inr ⟨_, _, _, hsplit, h3, Or.inl ⟨hd, ?_, rfl⟩⟩⟩
      unfold table
      simp only
      rw [range_split _ _ hkn, List.map_append, List.map_cons, Function.update_same]
      congr 1
      · apply List.map_congr_left
        intro j hj
        rw [List.mem_range] at hj
        rw [Function.update_noteq (by omega)]
      · congr 1
        rw [List.map_map, List.map_map]
        apply List.map_congr_left
        intro j _
        simp only [Function.comp]
        rw [Function.update_noteq (by omega)]
    · -- displayed: the record is released and removed
      have e : retire_frame env frame_number t i =
          { t with released := t.released ++ [t.refframes k],
                   refcnt := t.refcnt - 1,
                   refframes := (fun j => if (k : Int) ≤ (j : Int) ∧ (j : Int) < (k : Int) + (t.refcnt - 1) then t.refframes (j + 1) else t.refframes j) } := by
        simp only [retire_frame]
        rw [if_neg (by omega), hk, if_neg (by rw [h3]; omega), hidx]
      rw [e]
      refine ⟨rfl, by show 0 ≤ t.refcnt - 1; omega,
        Or.inr ⟨_, _, _, hsplit, h3, Or.inr ⟨by omega, ?_, rfl⟩⟩⟩
      unfold table
      simp only
      have en : (t.refcnt - 1).toNat = k + (t.refcnt.toNat - k - 1) := by omega
      rw [en, List.range_add, List.map_append]
      congr 1
      · apply List.map_congr_left
        intro j hj
        rw [List.mem_range] at hj
        rw [if_neg (by omega)]
      · rw [List.map_map, List.map_map]
        apply List.map_congr_left
        intro j hj
        rw [List.mem_range] at hj
        simp only [Function.comp]
        rw [if_pos ⟨by omega, by omega⟩]
        congr 1
        omega

/-- The second retirement loop keeps the list invariant. -/
theorem retire_loop_retired (env : RefEnv) (hl : LookupOk env) (frame_number : Int)
    (T0 R0 : List AVFrame) (l : List Nat) :
    ∀ (t : RefContext) (L : List Int) (N : List AVFrame), 0 ≤ t.refcnt →
      Retired frame_number T0 L (table t) N → t.released = R0 ++ N →
      ∃ N2, (l.foldl (retire_frame env frame_number) t).released = R0 ++ N2 ∧
        Retired frame_number T0 (L ++ l.map t.retireframe)
          (table (l.foldl (retire_frame env frame_number) t)) N2 := by
  induction l with
  | nil =>
    intro t L N _ hr hrel
    refine ⟨N, hrel, ?_⟩
    rw [List.map_nil, List.append_nil]
    exact hr
  | cons i l ih =>
    intro t L N h0 hr hrel
    obtain ⟨s1, s2, s3⟩ := retire_frame_split env hl frame_number t i h0
    rw [List.foldl_cons, List.map_cons]
    have hL : L ++ t.retireframe i :: l.map t.retireframe =
        (L ++ [t.retireframe i]) ++
          l.map (retire_frame env frame_number t i).retireframe := by
      rw [s1, List.append_assoc, List.singleton_append]
    rw [hL]
    rcases s3 with ⟨n1, n2, n3⟩ | ⟨A, f, B, e1, e2, ⟨c1, c2, c3⟩ | ⟨c1, c2, c3⟩⟩
    · apply ih _ _ N s2
      · rw [n2]
        exact retired_skip frame_number T0 L _ N _ hr n1
      · rw [n3]
        exact hrel
    · apply ih _ _ N s2
      · rw [c2]
        rw [e1] at hr
        exact retired_clear frame_number T0 L A B N f _ hr e2 c1
      · rw [c3]
        exact hrel
    · apply ih _ _ (N ++ [f]) s2
      · rw [c2]
        rw [e1] at hr
        exact retired_release frame_number T0 L A B N f _ hr e2 c1
      · rw [c3, hrel, List.append_assoc]

theorem count_marks (frame_number d : Int) (T : List AVFrame) (hd : d < frame_number) :
    ((T.filter (fun f => decide (f.reference = 0 ∧
      f.display_picture_number < frame_number))).map AVFrame.display_picture_number).count d =
      unreferenced d T := by
  unfold unreferenced
  induction T with
  | nil => rfl
  | cons f T ih =>
    rw [List.filter_cons, List.countP_cons]
    by_cases hp : f.reference = 0 ∧ f.display_picture_number < frame_number
    · rw [if_pos (by simpa using hp), List.map_cons, List.count_cons, ih]
      congr 1
      by_cases he : f.display_picture_number = d
      · simp [he, hp.1]
      · simp [he]
    · rw [if_neg (by simpa using hp), ih]
      have : ¬ (f.reference = 0 ∧ f.display_picture_number = d) := by
        rintro ⟨a, b⟩
        exact hp ⟨a, by omega⟩
      simp [this]

theorem mem_marks (frame_number d : Int) (T : List AVFrame) :
    d ∈ (T.filter (fun f => decide (f.reference = 0 ∧
      f.display_picture_number < frame_number))).map AVFrame.display_picture_number ↔
      ∃ g, g ∈ T ∧ g.reference = 0 ∧ g.display_picture_number < frame_number ∧
        g.display_picture_number = d := by
  rw [List.mem_map]
  constructor
  · rintro ⟨g, hg, he⟩
    rw [List.mem_filter] at hg
    have := hg.2
    simp only [decide_eq_true_eq] at this
    exact ⟨g, hg.1, this.1, this.2, he⟩
  · rintro ⟨g, h1, h2, h3, h4⟩
    refine ⟨g, ?_, h4⟩
    rw [List.mem_filter]
    exact ⟨h1, by simpa using ⟨h2, h3⟩⟩

/-- C14, amended: what the retirement phase of `dirac_decode_frame` releases,
for every table and a lookup that finds a record by its display number. The
retire list is the retire request followed by the display number of every
displayed non-reference record; every entry releases (and removes) one record
with its number if that number is below the frame number, reference or not,
and otherwise clears the reference flag of one such record, which stays. So:
a released record is a displayed record of the table whose number is that of a
retire request or of a non-reference record; of the records with a displayed
number `d` as many are released as the list has entries for `d`, or all of
them, and all of them when none is a reference; the records not yet displayed
all stay; the records that stay keep their order and lose their flag at most
when a request names them; a request for a number not yet displayed leaves a
record with that number without its flag; and when the display numbers of the
table are pairwise distinct, a record is released exactly when it has been
displayed and is a non-reference frame or named by a retire request. -/
theorem retirement_phase_releases (env : RefEnv) (s : RefContext) (frame_number : Int)
    (hl : LookupOk env) (h0 : 0 ≤ s.refcnt) :
    ∃ new : List AVFrame,
      (retire_frames env frame_number s).released = s.released ++ new ∧
      (∀ f, f ∈ new → f ∈ table s ∧ f.display_picture_number < frame_number ∧
        (f.display_picture_number ∈ requests s ∨
          ∃ g, g ∈ table s ∧ g.reference = 0 ∧
            g.display_picture_number = f.display_picture_number)) ∧
      (∀ d, d < frame_number →
        numbered d new + numbered d (table (retire_frames env frame_number s)) =
          numbered d (table s) ∧
        numbered d new ≤ (requests s).count d + unreferenced d (table s) ∧
        (numbered d new = (requests s).count d + unreferenced d (table s) ∨
          numbered d (table (retire_frames env frame_number s)) = 0)) ∧
      (∀ d, d < frame_number →
        (∀ g, g ∈ table s → g.display_picture_number = d → g.reference = 0) →
          numbered d (table (retire_frames env frame_number s)) = 0) ∧
      (∀ d, frame_number ≤ d →
        numbered d (table (retire_frames env frame_number s)) = numbered d (table s)) ∧
      ((table (retire_frames env frame_number s)).map clear_reference).Sublist
        ((table s).map clear_reference) ∧
      (∀ f, f ∈ table (retire_frames env frame_number s) →
        f ∈ table s ∨ ∃ g, g ∈ table s ∧ frame_number ≤ g.display_picture_number ∧
          g.display_picture_number ∈ requests s ∧ f = clear_reference g) ∧
      (∀ d, d ∈ requests s → frame_number ≤ d →
        (∃ g, g ∈ table s ∧ g.display_picture_number = d) →
          ∃ f, f ∈ table (retire_frames env frame_number s) ∧
            f.display_picture_number = d ∧ f.reference = 0) ∧
      (((table s).map AVFrame.display_picture_number).Nodup →
        (∀ f, f ∈ new ↔ f ∈ table s ∧ f.display_picture_number < frame_number ∧
          (f.reference = 0 ∨ f.display_picture_number ∈ requests s)) ∧
        table (retire_frames env frame_number s) =
          ((table s).filter (fun f => decide (¬ (f.display_picture_number < frame_number ∧
            (f.reference = 0 ∨ f.display_picture_number ∈ requests s))))).map
            (fun f => if f.display_picture_number ∈ requests s then clear_reference f else f) ∧
        ∀ f, f ∈ table s → f.display_picture_number ∈ requests s →
          frame_number ≤ f.display_picture_number →
            clear_reference f ∈ table (retire_frames env frame_number s) ∧ f ∉ new) := by
  obtain ⟨m1, m2, m3, m4⟩ := mark_displayed_spec frame_number s
  have etab : table (mark_displayed frame_number s) = table s := by
    unfold table
    rw [m1, m2]
  have hstart : Retired frame_number (table s) [] (table (mark_displayed frame_number s)) [] := by
    rw [etab]
    exact retired_start frame_number (table s)
  obtain ⟨new, hrel, hret⟩ := retire_loop_retired env hl frame_number (table s) s.released
    (List.range (mark_displayed frame_number s).retirecnt) (mark_displayed frame_number s) [] []
    (by rw [m1]; exact h0) hstart (by rw [m3, List.append_nil])
  have hreq : (List.range (mark_displayed frame_number s).retirecnt).map
      (mark_displayed frame_number s).retireframe = requests (mark_displayed frame_number s) := rfl
  rw [List.nil_append, hreq, m4] at hret
  have hfinal : (List.range (mark_displayed frame_number s).retirecnt).foldl
      (retire_frame env frame_number) (mark_displayed frame_number s) =
      retire_frames env frame_number s := rfl
  rw [hfinal] at hrel hret
  obtain ⟨j1, j2, j3, j4, j5, j6⟩ := hret
  have hcount : ∀ d, d < frame_number →
      (requests s ++ ((table s).filter (fun f => decide (f.reference = 0 ∧
        f.display_picture_number < frame_number))).map AVFrame.display_picture_number).count d =
        (requests s).count d + unreferenced d (table s) := by
    intro d hd
    rw [List.count_append, count_marks frame_number d (table s) hd]
  have hB : ∀ d, d < frame_number →
      numbered d new + numbered d (table (retire_frames env frame_number s)) =
        numbered d (table s) ∧
      numbered d new ≤ (requests s).count d + unreferenced d (table s) ∧
      (numbered d new = (requests s).count d + unreferenced d (table s) ∨
        numbered d (table (retire_frames env frame_number s)) = 0) := by
    intro d hd
    have := j2 d hd
    rw [hcount d hd] at this
    exact this
  refine ⟨new, hrel, ?_, hB, ?_, j3, j6, ?_, ?_, ?_⟩
  · intro f hf
    obtain ⟨a, b, c⟩ := j1 f hf
    refine ⟨a, b, ?_⟩
    rw [List.mem_append, mem_marks] at c
    rcases c with c | ⟨g, g1, g2, _, g4⟩
    · exact Or.inl c
    · exact Or.inr ⟨g, g1, g2, g4⟩
  · intro d hd hall
    obtain ⟨a, b, c⟩ := hB d hd
    have hu : unreferenced d (table s) = numbered d (table s) := by
      unfold unreferenced numbered
      apply List.countP_congr
      intro g hg
      simp only [decide_eq_true_eq]
      exact ⟨fun h => h.2, fun h => ⟨hall g hg h, h⟩⟩
    rcases c with c | c
    · omega
    · exact c
  · intro f hf
    rcases j4 f hf with a | ⟨g, g1, g2, g3, g4⟩
    · exact Or.inl a
    · right
      refine ⟨g, g1, g2, ?_, g4⟩
      rw [List.mem_append, mem_marks] at g3
      rcases g3 with c | ⟨g0, _, _, c3, c4⟩
      · exact c
      · omega
  · intro d hd hfd hex
    exact j5 d (List.mem_append_left _ hd) hfd hex
  · intro hnd
    obtain ⟨new2, d1, d2, d3, d4⟩ := retirement_releases_distinct env s frame_number hl h0 hnd
    have e : new2 = new := List.append_cancel_left (d1.symm.trans hrel)
    rw [e] at d2 d4
    exact ⟨d2, d3, d4⟩

set_option maxRecDepth 100000 in
/-- Witness for C14: the table after the non-reference pictures 5 and 1 have been
decoded at frame number 0 holds each of them twice; at frame number 2 the
retirement phase releases both records numbered 1 and keeps those numbered 5. -/
theorem retirement_phase_releases_witness :
    LookupOk example_ref_env ∧
    0 ≤ (decode_calls example_ref_env empty_context
      [(0, later_picture 5), (0, later_picture 1)]).1.refcnt ∧
    table (decode_calls example_ref_env empty_context
      [(0, later_picture 5), (0, later_picture 1)]).1 =
        [⟨105, 0, 5⟩, ⟨105, 0, 5⟩, ⟨101, 0, 1⟩, ⟨101, 0, 1⟩] ∧
    numbered 1 (table (retire_frames example_ref_env 2
      (decode_calls example_ref_env empty_context
        [(0, later_picture 5), (0, later_picture 1)]).1)) = 0 ∧
    table (retire_frames example_ref_env 2 (decode_calls example_ref_env empty_context
      [(0, later_picture 5), (0, later_picture 1)]).1) = [⟨105, 0, 5⟩, ⟨105, 0, 5⟩] ∧
    (retire_frames example_ref_env 2 (decode_calls example_ref_env empty_context
      [(0, later_picture 5), (0, later_picture 1)]).1).released =
        [⟨101, 0, 1⟩, ⟨101, 0, 1⟩] :=
  ⟨example_lookup_ok, by decide, by decide,
   (retirement_phase_releases example_ref_env
      (decode_calls example_ref_env empty_context
        [(0, later_picture 5), (0, later_picture 1)]).1 2 example_lookup_ok
      (by decide)).elim (fun _ h => h.2.2.2.1 1 (by decide) (by decide)),
   by decide, by decide⟩

set_option maxRecDepth 100000 in
/-- C14, counterexample. First: frame number 3, the table holds the reference
frame numbered 1 (`reference` is 1), which is the state `dirac_decode_frame`
reaches for that picture on an empty table, and the retire request names it;
the frame has been displayed, so the retirement phase releases it, reference
or not. Second: after the reference picture numbered 1 and a non-reference
picture with the same number have been decoded at frame number 0 the table
holds the records (reference 1, number 1), (0, 1), (0, 1); at frame number 2
the retire list has the two entries 1, 1 of the non-reference records and no
retire request; the lookup (the first record with the number) finds the
reference record for the first entry, so the reference record and one
non-reference record are released, and a displayed non-reference record
stays. -/
theorem retire_lookup_releases_reference :
    (example_retire_context.refframes 0).reference = 1 ∧
    (example_retire_context.refframes 0).display_picture_number < 3 ∧
    (retire_frames example_ref_env 3 example_retire_context).released = [⟨101, 1, 1⟩] ∧
    (retire_frames example_ref_env 3 example_retire_context).refcnt = 0 ∧
    (dirac_decode_frame example_ref_env empty_context 3 (retiring_picture 1)).s.released
      = [⟨101, 1, 1⟩] ∧
    table (decode_calls example_ref_env empty_context (example_renumbered_calls.take 2)).1 =
      [⟨101, 1, 1⟩, ⟨101, 0, 1⟩, ⟨101, 0, 1⟩] ∧
    (decode_calls example_ref_env empty_context (example_renumbered_calls.take 2)).1.released
      = [] ∧
    (decode_calls example_ref_env empty_context example_renumbered_calls).2 = [20, 20, 20] ∧
    (decode_calls example_ref_env empty_context example_renumbered_calls).1.released =
      [⟨101, 1, 1⟩, ⟨101, 0, 1⟩] ∧
    table (decode_calls example_ref_env empty_context example_renumbered_calls).1 =
      [⟨101, 0, 1⟩] :=
  ⟨by decide, by decide, by decide, by decide, by decide, by decide, rfl, by decide, by decide,
   by decide⟩

/-- With no displayed non-reference record in the table the first retirement
loop changes nothing. -/
theorem mark_displayed_none (frame_number : Int) (s : RefContext)
    (h : ∀ i : Nat, (i : Int) < s.refcnt →
      ¬ ((s.refframes i).reference = 0 ∧ (s.refframes i).display_picture_number < frame_number)) :
    mark_displayed frame_number s = s := by
  have key : ∀ l : List Nat, (∀ i, i ∈ l → (i : Int) < s.refcnt) →
      l.foldl (mark_frame frame_number) s = s := by
    intro l
    induction l with
    | nil =>
      intro _
      rfl
    | cons i l ih =>
      intro hl
      have e : mark_frame frame_number s i = s := by
        simp only [mark_frame]
        rw [if_neg (h i (hl i (List.mem_cons_self _ _)))]
      rw [List.foldl_cons, e]
      exact ih (fun j hj => hl j (List.mem_cons_of_mem _ hj))
  apply key
  intro i hi
  rw [List.mem_range] at hi
  omega

/-- A picture to be shown later that is not a reference is stored twice by one
call, whatever the capacity: when the guard `refcnt + 1 == REFFRAME_CNT` does not
fire and the table holds no displayed non-reference record, the call succeeds,
`refcnt` grows by 2 and the records `refcnt` and `refcnt + 1` hold the picture. -/
theorem later_picture_stored_twice (env : RefEnv) (s : RefContext) (frame_number : Int)
    (p : Packet) (d : Nat)
    (hsize : p.buf_size ≠ 0) (hcode : p.parse_code ≠ env.pc_seq_header)
    (hpic : p.parse_code &&& 0x08 = 0x08) (href : p.parse_code &&& 0x0C ≠ 0x0C)
    (hparse : p.parse_ok = true) (hdim : p.dimensions_ok = true) (hbuf : p.buffer = some d)
    (hdec : p.decode_ok = true) (hlater : frame_number < p.picnum)
    (hguard : s.refcnt + 1 ≠ env.REFFRAME_CNT) (h0 : 0 ≤ s.refcnt)
    (hnone : ∀ i : Nat, (i : Int) < s.refcnt →
      ¬ ((s.refframes i).reference = 0 ∧ (s.refframes i).display_picture_number < frame_number)) :
    (dirac_decode_frame env s frame_number p).ret = p.buf_size ∧
    (dirac_decode_frame env s frame_number p).s.refcnt = s.refcnt + 2 ∧
    (dirac_decode_frame env s frame_number p).s.refframes s.refcnt.toNat = ⟨d, 0, p.picnum⟩ ∧
    (dirac_decode_frame env s frame_number p).s.refframes (s.refcnt.toNat + 1)
      = ⟨d, 0, p.picnum⟩ := by
  -- the context when the table code is reached
  have e3 : dirac_decode_frame env s frame_number p =
      output_frame env frame_number p.buf_size (with_buffer (parsed_picture s p) d) := by
    simp only [dirac_decode_frame]
    rw [if_neg hsize, if_neg hcode, if_neg (by rw [hpic]; simp), if_neg (by rw [hparse]; simp),
      if_neg (by rw [hdim]; simp), hbuf]
    simp only
    rw [if_neg (by rw [hdec]; simp)]
  have hparsed : parsed_picture s p =
      { s with refs := p.parse_code &&& 0x03, picture := { s.picture with reference := 0 },
               picnum := p.picnum, retirecnt := 0 } := by
    simp only [parsed_picture, parse_frame]
    rw [if_neg href]
    simp
  generalize hs3 : with_buffer (parsed_picture s p) d = s3 at e3
  have c1 : s3.refcnt = s.refcnt := by rw [← hs3, hparsed]; rfl
  have c2 : s3.refframes = s.refframes := by rw [← hs3, hparsed]; rfl
  have c3 : s3.retirecnt = 0 := by rw [← hs3, hparsed]; rfl
  have c4 : s3.picnum = p.picnum := by rw [← hs3, hparsed]; rfl
  have c5 : s3.picture.reference = 0 := by rw [← hs3, hparsed]; rfl
  have c6 : s3.picture.data = d := by rw [← hs3, hparsed]; rfl
  rw [e3]
  -- the first insertion
  have hstore : store_reference env frame_number
      { s3 with picture := { s3.picture with display_picture_number := s3.picnum } } =
      some (insert_picture
        { s3 with picture := { s3.picture with display_picture_number := s3.picnum } }) := by
    simp only [store_reference]
    rw [if_pos (Or.inr (by show s3.picnum ≠ frame_number; omega)),
      if_neg (by show ¬ (s3.refcnt + 1 = env.REFFRAME_CNT); rw [c1]; exact hguard)]
  -- nothing to retire
  have hmark : mark_displayed frame_number (insert_picture
      { s3 with picture := { s3.picture with display_picture_number := s3.picnum } }) =
      insert_picture
        { s3 with picture := { s3.picture with display_picture_number := s3.picnum } } := by
    apply mark_displayed_none
    intro i hi
    simp only [insert_picture] at hi ⊢
    by_cases hic : i = s3.refcnt.toNat
    · rw [hic, Function.update_same]
      simp only
      omega
    · rw [Function.update_noteq hic, c2]
      exact hnone i (by omega)
  have hretire : retire_frames env frame_number (insert_picture
      { s3 with picture := { s3.picture with display_picture_number := s3.picnum } }) =
      insert_picture
        { s3 with picture := { s3.picture with display_picture_number := s3.picnum } } := by
    simp only [retire_frames]
    rw [hmark]
    have : (insert_picture
        { s3 with picture := { s3.picture with display_picture_number := s3.picnum } }).retirecnt
        = 0 := c3
    rw [this]
    rfl
  simp only [output_frame]
  rw [hstore]
  simp only
  rw [hretire]
  have hpicture : (insert_picture
      { s3 with picture := { s3.picture with display_picture_number := s3.picnum } }).picture =
      ⟨d, 0, p.picnum⟩ := by
    simp only [insert_picture]
    cases hp : s3.picture
    rw [hp] at c5 c6
    simp only at c5 c6
    rw [c4, c5, c6]
  have hshow : ∃ q, show_picture env frame_number (insert_picture
      { s3 with picture := { s3.picture with display_picture_number := s3.picnum } }) =
      (insert_picture (insert_picture
        { s3 with picture := { s3.picture with display_picture_number := s3.picnum } }), q) := by
    simp only [show_picture]
    rw [hpicture]
    simp only
    rw [if_pos hlater]
    split_ifs <;> exact ⟨_, rfl⟩
  obtain ⟨q, hq⟩ := hshow
  rw [hq]
  dsimp only
  have hfinal : (insert_picture (insert_picture
      { s3 with picture := { s3.picture with display_picture_number := s3.picnum } })).picture =
      ⟨d, 0, p.picnum⟩ := hpicture
  rw [hfinal]
  dsimp only
  rw [if_neg (by
    rintro (h | h)
    · exact h rfl
    · omega)]
  refine ⟨trivial, ?_, ?_, ?_⟩
  · simp only [insert_picture]
    rw [c1]
    omega
  · simp only [insert_picture]
    have e1 : (s3.refcnt + 1).toNat = s3.refcnt.toNat + 1 := by omega
    rw [e1, c1, Function.update_noteq (by omega), Function.update_same]
    cases hp : s3.picture
    rw [hp] at c5 c6
    simp only at c5 c6
    rw [c4, c5, c6]
  · simp only [insert_picture]
    have e1 : (s3.refcnt + 1).toNat = s3.refcnt.toNat + 1 := by omega
    rw [e1, c1, Function.update_same]
    cases hp : s3.picture
    rw [hp] at c5 c6
    simp only at c5 c6
    rw [c4, c5, c6]

set_option maxRecDepth 100000 in
/-- C13, the code at the failing input: capacity 8, empty table, frame number 0.
Each of the pictures 5, 6, 7, 8 (to be shown later, not references) is stored
twice, by the guarded insertion and by the unguarded one of the "shown at a
later time" branch: every call succeeds and `refcnt` is 8, not below the
capacity. The call for picture 9 then passes the guard (`8 + 1 == 8` is false),
succeeds, and writes the records 8 and 9. -/
theorem reference_table_overrun :
    example_ref_env.REFFRAME_CNT = 8 ∧
    (decode_calls example_ref_env empty_context example_later_calls).2 = [20, 20, 20, 20] ∧
    (decode_calls example_ref_env empty_context example_later_calls).1.refcnt = 8 ∧
    (decode_calls example_ref_env empty_context example_later_calls).1.refframes 8 = ⟨0, 0, 0⟩ ∧
    (dirac_decode_frame example_ref_env
      (decode_calls example_ref_env empty_context example_later_calls).1 0 (later_picture 9)).ret
        = 20 ∧
    (dirac_decode_frame example_ref_env
      (decode_calls example_ref_env empty_context example_later_calls).1 0 (later_picture 9)).s.refcnt
        = 10 ∧
    (dirac_decode_frame example_ref_env
      (decode_calls example_ref_env empty_context example_later_calls).1 0
        (later_picture 9)).s.refframes 8 = ⟨109, 0, 9⟩ ∧
    (dirac_decode_frame example_ref_env
      (decode_calls example_ref_env empty_context example_later_calls).1 0
        (later_picture 9)).s.refframes 9 = ⟨109, 0, 9⟩ :=
  ⟨by decide, by decide, by decide, by decide, by decide, by decide, by decide, by decide⟩

/-- A decoded bit is 0 or 1. -/
theorem arith_bit_le_one (prob : Nat → Nat) (mem : Nat → Nat) (fuel : Nat) (a : dirac_arith)
    (ctx b : Nat) (a1 : dirac_arith)
    (h : dirac_get_arith_bit prob mem fuel a ctx = some (b, a1)) : b ≤ 1 := by
  unfold dirac_get_arith_bit at h
  simp only [Option.map_eq_some'] at h
  obtain ⟨a2, _, h2⟩ := h
  have hb := congrArg Prod.fst h2
  simp only [] at hb
  rw [← hb]
  split_ifs <;> omega

/-- The data bits of an exp-Golomb value are 0 or 1. -/
theorem read_golomb_bits_le_one (next : Nat → Nat) (prob : Nat → Nat) (mem : Nat → Nat)
    (fuel data_ctx : Nat) :
    ∀ (n follow_ctx : Nat) (a : dirac_arith) (ds : List Nat) (a' : dirac_arith),
      read_golomb_bits next prob mem fuel data_ctx n follow_ctx a = some (ds, a') →
      ∀ d, d ∈ ds → d ≤ 1 := by
  intro n
  induction n with
  | zero =>
    intro follow_ctx a ds a' h
    rw [read_golomb_bits] at h
    cases h
  | succ n ih =>
    intro follow_ctx a ds a' h
    rw [read_golomb_bits] at h
    cases h1 : dirac_get_arith_bit prob mem fuel a follow_ctx with
    | none =>
      rw [h1] at h
      cases h
    | some r1 =>
      obtain ⟨b, a1⟩ := r1
      rw [h1] at h
      simp only [] at h
      by_cases hb : b ≠ 0
      · rw [if_pos hb] at h
        cases h
        intro d hd
        cases hd
      · rw [if_neg hb] at h
        cases h2 : dirac_get_arith_bit prob mem fuel a1 data_ctx with
        | none =>
          rw [h2] at h
          cases h
        | some r2 =>
          obtain ⟨d0, a2⟩ := r2
          rw [h2] at h
          simp only [Option.map_eq_some'] at h
          obtain ⟨r, hr, hr2⟩ := h
          obtain ⟨ds1, a3⟩ := r
          cases hr2
          intro d hd
          rcases List.mem_cons.mp hd with h0 | h0
          · rw [h0]
            exact arith_bit_le_one prob mem fuel a1 data_ctx d0 a2 h2
          · exact ih (next follow_ctx) a2 ds1 a3 hr d h0

/-- The loop of `dirac_get_arith_uint` folds the data bits read into `ret`. -/
theorem arith_uint_loop_reads (next : Nat → Nat) (prob : Nat → Nat) (mem : Nat → Nat)
    (fuel data_ctx : Nat) :
    ∀ (n follow_ctx : Nat) (a : dirac_arith) (ds : List Nat) (a' : dirac_arith),
      read_golomb_bits next prob mem fuel data_ctx n follow_ctx a = some (ds, a') →
      ∀ ret, arith_uint_loop next prob mem fuel data_ctx n ret follow_ctx a =
        some (ds.foldl golomb_step ret, a') := by
  intro n
  induction n with
  | zero =>
    intro follow_ctx a ds a' h
    rw [read_golomb_bits] at h
    cases h
  | succ n ih =>
    intro follow_ctx a ds a' h ret
    rw [read_golomb_bits] at h
    rw [arith_uint_loop]
    cases h1 : dirac_get_arith_bit prob mem fuel a follow_ctx with
    | none =>
      rw [h1] at h
      cases h
    | some r1 =>
      obtain ⟨b, a1⟩ := r1
      rw [h1] at h
      simp only [] at h ⊢
      by_cases hb : b ≠ 0
      · rw [if_pos hb] at h ⊢
        cases h
        rfl
      · rw [if_neg hb] at h ⊢
        cases h2 : dirac_get_arith_bit prob mem fuel a1 data_ctx with
        | none =>
          rw [h2] at h
          cases h
        | some r2 =>
          obtain ⟨d0, a2⟩ := r2
          rw [h2] at h
          simp only [Option.map_eq_some'] at h ⊢
          obtain ⟨r, hr, hr2⟩ := h
          obtain ⟨ds1, a3⟩ := r
          cases hr2
          rw [ih (next follow_ctx) a2 ds1 a3 hr]
          rfl

/-- As long as the value stays below `2 ^ 31` the updates of `ret` do not
wrap: `ret` is the binary number formed from its start value and the bits. -/
theorem golomb_step_exact :
    ∀ (ds : List Nat) (r : Int), 1 ≤ r → (∀ d, d ∈ ds → d ≤ 1) →
      (r + 1) * 2 ^ ds.length ≤ 2147483648 →
      ds.foldl golomb_step r = ds.foldl (fun (acc : Int) (d : Nat) => 2 * acc + (d : Int)) r ∧
      1 ≤ ds.foldl (fun (acc : Int) (d : Nat) => 2 * acc + (d : Int)) r ∧
      ds.foldl (fun (acc : Int) (d : Nat) => 2 * acc + (d : Int)) r + 1 ≤ 2147483648 := by
  intro ds
  induction ds with
  | nil =>
    intro r h1 _ h2
    simp only [List.foldl_nil, List.length_nil, pow_zero, mul_one] at h2 ⊢
    exact ⟨trivial, h1, h2⟩
  | cons d ds ih =>
    intro r h1 hd h2
    rw [List.foldl_cons, List.foldl_cons]
    have hd1 : d ≤ 1 := hd d (List.mem_cons_self _ _)
    have hP : (1 : Int) ≤ 2 ^ ds.length := one_le_pow₀ (by norm_num)
    rw [List.length_cons, pow_succ] at h2
    have h3 : (r + 1) * 2 ≤ 2147483648 := by nlinarith
    have hstep : golomb_step r d = 2 * r + (d : Int) := by
      unfold golomb_step wrap_int
      omega
    rw [hstep]
    apply ih
    · omega
    · intro e he
      exact hd e (List.mem_cons_of_mem _ he)
    · have h4 : 2 * r + (d : Int) + 1 ≤ (r + 1) * 2 := by omega
      have := mul_le_mul_of_nonneg_right h4 (show (0 : Int) ≤ 2 ^ ds.length by omega)
      nlinarith

/-- C27 (amended): when the follow bits read are `k ≤ 30` zeros and then a one,
with the data bits `d1 .. dk` read from `data_ctx` after each zero and the
follow context replaced by `ff_dirac_next_ctx[follow_ctx]` each time,
`dirac_get_arith_uint` returns the binary number `1 d1 ... dk` minus 1;
`dirac_get_arith_int` reads no further bit when this magnitude is 0 and
returns 0, and otherwise reads one bit from the context `data_ctx + 1` and
returns the magnitude, negated exactly when that bit is 1. -/
theorem arith_int_exp_golomb (next : Nat → Nat) (prob : Nat → Nat) (mem : Nat → Nat)
    (fuel data_ctx n follow_ctx : Nat) (a : dirac_arith) (ds : List Nat) (a' : dirac_arith)
    (hreads : read_golomb_bits next prob mem fuel data_ctx n follow_ctx a = some (ds, a'))
    (hk : ds.length ≤ 30) :
    dirac_get_arith_uint next prob mem fuel n a follow_ctx data_ctx
      = some (golomb_value ds, a') ∧
    0 ≤ golomb_value ds ∧
    (golomb_value ds = 0 →
      dirac_get_arith_int next prob mem fuel n a follow_ctx data_ctx = some (0, a')) ∧
    (golomb_value ds ≠ 0 → ∀ (sign : Nat) (a2 : dirac_arith),
      dirac_get_arith_bit prob mem fuel a' (data_ctx + 1) = some (sign, a2) →
      dirac_get_arith_int next prob mem fuel n a follow_ctx data_ctx
        = some ((if sign = 1 then - golomb_value ds else golomb_value ds), a2)) := by
  have hbits := read_golomb_bits_le_one next prob mem fuel data_ctx n follow_ctx a ds a' hreads
  have hloop := arith_uint_loop_reads next prob mem fuel data_ctx n follow_ctx a ds a' hreads 1
  have hpow : (2 : Int) ^ ds.length ≤ 2 ^ 30 := pow_le_pow_right₀ (by norm_num) hk
  obtain ⟨e1, e2, e3⟩ := golomb_step_exact ds 1 (le_refl _) hbits (by norm_num at hpow ⊢; omega)
  have huint : dirac_get_arith_uint next prob mem fuel n a follow_ctx data_ctx
      = some (golomb_value ds, a') := by
    unfold dirac_get_arith_uint
    rw [hloop, e1]
    simp only [Option.map_some']
    unfold golomb_value wrap_int
    congr 2
    omega
  have h0 : 0 ≤ golomb_value ds := by
    unfold golomb_value
    omega
  have hlt : golomb_value ds < 2147483648 := by
    unfold golomb_value
    omega
  refine ⟨huint, h0, ?_, ?_⟩
  · intro hz
    unfold dirac_get_arith_int
    rw [huint]
    simp only [hz, ne_eq, not_true_eq_false, if_false]
  · intro hnz sign a2 hsign
    have hs := arith_bit_le_one prob mem fuel a' (data_ctx + 1) sign a2 hsign
    unfold dirac_get_arith_int
    rw [huint]
    simp only [ne_eq, hnz, not_false_eq_true, if_true, hsign]
    by_cases h1 : sign = 1
    · rw [if_pos (by omega), if_pos h1]
      unfold wrap_int
      congr 2
      omega
    · rw [if_neg (by omega), if_neg h1]

set_option maxRecDepth 100000 in
/-- C27 (amended) for the packet `1f 00 00 00`: the follow bits are 0, 0, 1, the
data bits 0, 1, so the magnitude is binary 101 minus 1, and the sign bit is 1. -/
theorem arith_int_exp_golomb_witness :
    (dirac_get_arith_uint (fun _ => 0) (fun _ => 0) (example_stream [0x1f, 0, 0, 0]) 40 100
      (example_decoder [0x1f, 0, 0, 0]) 1 0).map Prod.fst = some 4 ∧
    (dirac_get_arith_int (fun _ => 0) (fun _ => 0) (example_stream [0x1f, 0, 0, 0]) 40 100
      (example_decoder [0x1f, 0, 0, 0]) 1 0).map Prod.fst = some (-4) := by
  have h := arith_int_exp_golomb (fun _ => 0) (fun _ => 0) (example_stream [0x1f, 0, 0, 0]) 40 0
    100 1 (example_decoder [0x1f, 0, 0, 0]) [0, 1] _ rfl (by decide)
  refine ⟨?_, ?_⟩
  · rw [h.1]
    rfl
  · rw [h.2.2.2 (by decide) 1 _ rfl]
    rfl

set_option maxRecDepth 1000000 in
/-- C27 (counterexample): for the packet `example_long_value` the follow bits
read are 31 zeros and a one, the data bits 30 zeros and a one, so the binary
number `1 d1 ... d31` minus 1 is 2147483648; `dirac_get_arith_uint` returns
-2147483648, and so does `dirac_get_arith_int`. -/
theorem arith_int_long_value_wraps :
    (read_golomb_bits (fun _ => 0) (fun _ => 0) (example_stream example_long_value) 40 0 100 1
      (example_decoder example_long_value)).map Prod.fst
      = some (List.replicate 30 0 ++ [1]) ∧
    golomb_value (List.replicate 30 0 ++ [1]) = 2147483648 ∧
    (dirac_get_arith_uint (fun _ => 0) (fun _ => 0) (example_stream example_long_value) 40 100
      (example_decoder example_long_value) 1 0).map Prod.fst = some (-2147483648) ∧
    (dirac_get_arith_int (fun _ => 0) (fun _ => 0) (example_stream example_long_value) 40 100
      (example_decoder example_long_value) 1 0).map Prod.fst = some (-2147483648) := by
  refine ⟨by decide, by decide, by decide, by decide⟩

/-- The value `dirac_idwt` returns is 0 for every wavelet index and every input. -/
theorem dirac_idwt_returns_zero {A : Type} (env : DiracEnv A) (ienv : IdwtEnv A)
    (s : DiracContext A) (wavelet_idx : Nat) (b : IdwtBuffers) :
    (dirac_idwt env ienv s wavelet_idx b).1 = 0 := rfl

/-- For a wavelet index other than 0 and 1 `dirac_idwt` leaves the buffers as
they are. -/
theorem dirac_idwt_unknown_index {A : Type} (env : DiracEnv A) (ienv : IdwtEnv A)
    (s : DiracContext A) (wavelet_idx : Nat) (b : IdwtBuffers) (h : 2 ≤ wavelet_idx) :
    (dirac_idwt env ienv s wavelet_idx b).2 = b := by
  have hstep : ∀ (c : IdwtBuffers) (level : Nat), idwt_level env ienv s wavelet_idx c level = c := by
    intro c level
    match wavelet_idx, h with
    | n + 2, _ => rfl
  show (List.range' 1 s.wavelet_depth).foldl (idwt_level env ienv s wavelet_idx) b = b
  induction (List.range' 1 s.wavelet_depth) with
  | nil => rfl
  | cons x xs ih => rw [List.foldl_cons, hstep, ih]

set_option maxRecDepth 100000 in
/-- C28 (the code at the failing input): an intra picture with wavelet index 2
passes the test of `parse_frame`; `dirac_idwt` returns 0 for it, although one
wavelet level is to be transformed and no transform runs (`synth` stays
cleared, where the index 0 writes it), and `dirac_decode_frame_internal`
returns 0. -/
theorem idwt_unknown_wavelet_succeeds :
    wavelet_idx_accepted 2 = true ∧
    example_dirac_context.wavelet_depth = 1 ∧
    (dirac_idwt example_dirac_env example_idwt_env example_dirac_context 2
      example_idwt_buffers).1 = 0 ∧
    (dirac_idwt example_dirac_env example_idwt_env example_dirac_context 2
      example_idwt_buffers).2.synth 1 = 0 ∧
    (dirac_idwt example_dirac_env example_idwt_env example_dirac_context 0
      example_idwt_buffers).2.synth 1 = 97 ∧
    dirac_decode_frame_internal example_dirac_env example_idwt_env example_dirac_context 2
      example_idwt_buffers = 0 ∧
    (∀ idx, idx < 7 → wavelet_idx_accepted idx = true ∧
      dirac_decode_frame_internal example_dirac_env example_idwt_env example_dirac_context idx
        example_idwt_buffers = 0) := by
  refine ⟨rfl, rfl, rfl, rfl, rfl, ?_, ?_⟩
  · decide
  · decide

/-- The low two bits of a parse code, `parse_code & 0x03`, are its residue
modulo 4. -/
theorem and_three (n : Nat) : n &&& 0x03 = n % 4 :=
  Nat.and_pow_two_sub_one_eq_mod n 2

/-- The test `(parse_code & 0x0C) == 0x0C` holds exactly when bits 2 and 3 are
both set. -/
theorem and_twelve (n : Nat) :
    n &&& 0x0C = 0x0C ↔ (n.testBit 2 = true ∧ n.testBit 3 = true) := by
  constructor
  · intro h
    have h2 : (n &&& 0x0C).testBit 2 = true := by rw [h]; rfl
    have h3 : (n &&& 0x0C).testBit 3 = true := by rw [h]; rfl
    rw [Nat.testBit_and] at h2 h3
    simp only [Bool.and_eq_true] at h2 h3
    exact ⟨h2.1, h3.1⟩
  · intro h
    apply Nat.eq_of_testBit_eq
    intro i
    rw [Nat.testBit_and]
    by_cases h2 : i = 2
    · subst h2
      rw [h.1]
      rfl
    · by_cases h3 : i = 3
      · subst h3
        rw [h.2]
        rfl
      · have h12 : Nat.testBit 0x0C i = false := by
          by_cases hlt : i < 4
          · interval_cases i
            · rfl
            · rfl
            · exact absurd rfl h2
            · exact absurd rfl h3
          · apply Nat.testBit_eq_false_of_lt
            calc 0x0C < 2 ^ 4 := by norm_num
              _ ≤ 2 ^ i := Nat.pow_le_pow_right (by norm_num) (by omega)
        rw [h12, Bool.and_false]

/-- The retirement phase leaves `refs` alone. -/
theorem retire_frames_refs (env : RefEnv) (frame_number : Int) (s : RefContext) :
    (retire_frames env frame_number s).refs = s.refs := by
  have h1 : (mark_displayed frame_number s).refs = s.refs := by
    apply foldl_invariant (fun t : RefContext => t.refs = s.refs) _ _ s rfl
    intro t i _ ht
    show (mark_frame frame_number t i).refs = s.refs
    rw [mark_frame]
    split_ifs
    · exact ht
    · exact ht
  show ((List.range (mark_displayed frame_number s).retirecnt).foldl (retire_frame env frame_number)
    (mark_displayed frame_number s)).refs = s.refs
  apply foldl_invariant (fun t : RefContext => t.refs = s.refs) _ _ _ h1
  intro t i _ ht
  show (retire_frame env frame_number t i).refs = s.refs
  simp only [retire_frame]
  split_ifs
  · exact ht
  · exact ht
  · exact ht

/-- The output phase leaves `refs` alone. -/
theorem output_frame_refs (env : RefEnv) (frame_number : Int) (buf_size : Nat) (s : RefContext) :
    (output_frame env frame_number buf_size s).s.refs = s.refs := by
  simp only [output_frame]
  cases hst : store_reference env frame_number
      { s with picture := { s.picture with display_picture_number := s.picnum } } with
  | none => rfl
  | some s2 =>
    have h2 : s2.refs = s.refs := by
      simp only [store_reference] at hst
      split_ifs at hst
      · cases hst
        rfl
      · cases hst
        rfl
    have h3 : (show_picture env frame_number (retire_frames env frame_number s2)).1.refs
        = s.refs := by
      rw [← h2, ← retire_frames_refs env frame_number s2]
      simp only [show_picture]
      split_ifs <;> rfl
    simp only []
    split_ifs
    · exact h3
    · exact h3

/-- The lines that take the parse code apart set `refs` to its low two bits. -/
theorem parsed_picture_refs (s : RefContext) (p : Packet) :
    (parsed_picture s p).refs = p.parse_code % 4 := by
  rw [← and_three]
  simp only [parsed_picture, parse_frame]
  split_ifs <;> rfl

/-- The lines that take the parse code apart set the reference flag from bits
2 and 3. -/
theorem parsed_picture_reference (s : RefContext) (p : Packet) :
    (parsed_picture s p).picture.reference
      = if p.parse_code &&& 0x0C = 0x0C then 1 else 0 := by
  simp only [parsed_picture, parse_frame]
  split_ifs <;> rfl

/-- A picture packet leaves `refs` at the low two bits of its parse code on
every path of `dirac_decode_frame`. -/
theorem decode_frame_refs (env : RefEnv) (s : RefContext) (frame_number : Int) (p : Packet)
    (hsize : p.buf_size ≠ 0) (hseq : p.parse_code ≠ env.pc_seq_header)
    (hpic : p.parse_code &&& 0x08 = 0x08) :
    (dirac_decode_frame env s frame_number p).s.refs = p.parse_code % 4 := by
  rw [dirac_decode_frame, if_neg hsize, if_neg hseq, if_neg (not_not.mpr hpic)]
  by_cases h1 : p.parse_ok = false
  · rw [if_pos h1]
    exact parsed_picture_refs s p
  · rw [if_neg h1]
    by_cases h2 : p.dimensions_ok = false
    · rw [if_pos h2]
      exact parsed_picture_refs s p
    · rw [if_neg h2]
      cases p.buffer with
      | none => exact parsed_picture_refs s p
      | some d =>
        show (if p.decode_ok = false then _ else _ : DecodeResult).s.refs = _
        by_cases h3 : p.decode_ok = false
        · rw [if_pos h3]
          exact parsed_picture_refs s p
        · rw [if_neg h3, output_frame_refs]
          exact parsed_picture_refs s p

/-- The residue of a number modulo 4 is 3 exactly when bits 0 and 1 are set. -/
theorem mod_four_eq_three (n : Nat) :
    n % 4 = 3 ↔ (n.testBit 0 = true ∧ n.testBit 1 = true) := by
  rw [show (1 : Nat) = 0 + 1 from rfl, Nat.testBit_succ, Nat.testBit_zero, Nat.testBit_zero]
  simp only [decide_eq_true_eq]
  omega

/-- C29 (amended): for a packet with the picture bit (bit 3) set in its parse
code, the reference count `dirac_decode_frame` leaves in `refs` is the low two
bits of the parse code, a value 0, 1, 2 or 3 (3 exactly when bits 0 and 1 are
both set), and the reference flag of the picture is set exactly when bits 2
and 3 are both set. -/
theorem parse_code_reference_count (env : RefEnv) (s : RefContext) (frame_number : Int)
    (p : Packet) (hsize : p.buf_size ≠ 0) (hseq : p.parse_code ≠ env.pc_seq_header)
    (hpic : p.parse_code &&& 0x08 = 0x08) :
    (dirac_decode_frame env s frame_number p).s.refs = p.parse_code % 4 ∧
    (dirac_decode_frame env s frame_number p).s.refs ≤ 3 ∧
    ((dirac_decode_frame env s frame_number p).s.refs = 3 ↔
      (p.parse_code.testBit 0 = true ∧ p.parse_code.testBit 1 = true)) ∧
    ((parsed_picture s p).picture.reference ≠ 0 ↔
      (p.parse_code.testBit 2 = true ∧ p.parse_code.testBit 3 = true)) := by
  have h := decode_frame_refs env s frame_number p hsize hseq hpic
  refine ⟨h, ?_, ?_, ?_⟩
  · rw [h]
    omega
  · rw [h]
    exact mod_four_eq_three _
  · rw [parsed_picture_reference, ← and_twelve]
    split_ifs with h12
    · simp [h12]
    · simp [h12]

/-- C29 (amended), at a packet with parse code 0x0D: one reference, reference
flag set. -/
theorem parse_code_reference_count_witness :
    (retiring_picture 1).buf_size ≠ 0 ∧
    ({ retiring_picture 1 with parse_code := 0x0D } : Packet).parse_code &&& 0x08 = 0x08 ∧
    (dirac_decode_frame example_ref_env empty_context 0
        { retiring_picture 1 with parse_code := 0x0D }).s.refs = 1 ∧
    (parsed_picture empty_context { retiring_picture 1 with parse_code := 0x0D }).picture.reference
      ≠ 0 :=
  have h := parse_code_reference_count example_ref_env empty_context 0
    { retiring_picture 1 with parse_code := 0x0D } (by decide) (by decide) (by decide)
  ⟨by decide, by decide, h.1, h.2.2.2.mpr ⟨by decide, by decide⟩⟩

/-- C29 (counterexample): the parse code 0x0B has the picture bit set, and the
reference count `dirac_decode_frame` derives from it is 3. -/
theorem parse_code_three_references :
    three_reference_picture.parse_code &&& 0x08 = 0x08 ∧
    three_reference_picture.parse_code ≠ example_ref_env.pc_seq_header ∧
    (dirac_decode_frame example_ref_env empty_context 0 three_reference_picture).s.refs = 3 ∧
    (dirac_decode_frame example_ref_env empty_context 0
      { later_picture 1 with parse_code := 0x0F }).s.refs = 3 := by
  refine ⟨by decide, by decide, rfl, rfl⟩

theorem renorm_step_well_formed (mem : Nat → Nat) (a : dirac_arith)
    (h : arith_renormalising a) (hr : a.range ≤ 0x4000) :
    arith_renormalising (renorm_step mem a) ∧ (renorm_step mem a).range = a.range * 2 := by
  obtain ⟨low, range, counter, bs, be, ctxs⟩ := a
  obtain ⟨h1, h2, h3, h4, h5, h6⟩ := h
  simp only at h1 h2 h3 h4 h5 h6 hr
  have hrb := AV_RB16_lt mem bs
  have hff := or_ff (wrap32 (wrap32 (low * 2) + AV_RB16 mem bs))
  have hffff := or_ff_ff00 (wrap32 (wrap32 (low * 2) + AV_RB16 mem bs))
  rw [hff] at hffff
  simp only [arith_renormalising, renorm_step, renorm_refill, sub32]
  simp only [wrap32] at hff hffff ⊢
  interval_cases counter
  all_goals (simp only [Nat.reduceSub, Nat.reducePow, Nat.reduceMod, Nat.reduceAdd,
    Nat.reduceEqDiff, if_true, if_false] at h6 ⊢)
  all_goals first
    | omega
    | (split_ifs <;> simp only [hff, hffff] <;> omega)

theorem renorm_well_formed (mem : Nat → Nat) (k : Nat) :
    ∀ a, arith_renormalising a → 0x4000 < a.range * 2 ^ k →
      ∃ a2, renorm_arith_decoder mem k a = some a2 ∧ arith_well_formed a2 := by
  induction k with
  | zero =>
    intro a ha h
    rw [renorm_arith_decoder]
    have hr : ¬ a.range ≤ 0x4000 := by simpa using h
    rw [if_neg hr]
    exact ⟨a, rfl, by omega, ha.2⟩
  | succ k ih =>
    intro a ha h
    rw [renorm_arith_decoder]
    by_cases hr : a.range ≤ 0x4000
    · rw [if_pos hr]
      obtain ⟨h1, h2⟩ := renorm_step_well_formed mem a ha hr
      apply ih _ h1
      rw [h2]
      rw [pow_succ] at h
      calc 0x4000 < a.range * (2 ^ k * 2) := h
        _ = a.range * 2 * 2 ^ k := by ring
    · rw [if_neg hr]
      exact ⟨a, rfl, by omega, ha.2⟩

theorem renorm_fuel_mono (mem : Nat → Nat) (k : Nat) :
    ∀ a a2, renorm_arith_decoder mem k a = some a2 →
      ∀ m, k ≤ m → renorm_arith_decoder mem m a = some a2 := by
  induction k with
  | zero =>
    intro a a2 h m _
    rw [renorm_arith_decoder] at h
    split_ifs at h with hr
    cases m with
    | zero => rw [renorm_arith_decoder, if_neg hr, h]
    | succ m => rw [renorm_arith_decoder, if_neg hr, h]
  | succ k ih =>
    intro a a2 h m hm
    obtain ⟨m, rfl⟩ : ∃ n, m = n + 1 := ⟨m - 1, by omega⟩
    rw [renorm_arith_decoder] at h ⊢
    by_cases hr : a.range ≤ 0x4000
    · rw [if_pos hr] at h ⊢
      exact ih _ _ h m (by omega)
    · rw [if_neg hr] at h ⊢
      exact h

/-- The state after the branch of `dirac_get_arith_bit`, before the
renormalisation: the subtractions do not wrap and `range` is at least 1. -/
theorem arith_bit_branch (low range counter p : Nat)
    (h1 : 0x4000 < range) (h2 : range ≤ 0xFFFF) (h3 : low / 65536 < range)
    (h4 : 1 ≤ counter) (h5 : counter ≤ 16) (h6 : low % 2 ^ (16 - counter) = 0)
    (hp : p ≤ 0xFFFF) :
    (low / 65536 ≥ wrap32 (range * p) / 65536 →
      wrap32 (range * p) / 65536 * 65536 ≤ low ∧
      sub32 low (wrap32 (range * p) / 65536 * 65536)
        = low - wrap32 (range * p) / 65536 * 65536 ∧
      wrap32 (range * p) / 65536 < range ∧
      sub32 range (wrap32 (range * p) / 65536) = range - wrap32 (range * p) / 65536 ∧
      (low - wrap32 (range * p) / 65536 * 65536) / 65536
        < range - wrap32 (range * p) / 65536 ∧
      (low - wrap32 (range * p) / 65536 * 65536) % 2 ^ (16 - counter) = 0) ∧
    (¬ low / 65536 ≥ wrap32 (range * p) / 65536 →
      1 ≤ wrap32 (range * p) / 65536 ∧ wrap32 (range * p) / 65536 ≤ 0xFFFF) := by
  obtain ⟨f1, f2, f3, _⟩ := range_times_prob_facts range p h2 (by omega)
  rw [f1]
  generalize range * p / 65536 = r at f2 f3
  simp only [sub32]
  interval_cases counter <;> simp only [Nat.reduceSub, Nat.reducePow] at h6 ⊢ <;>
    refine ⟨fun h => ⟨?_, ?_, ?_, ?_, ?_, ?_⟩, fun h => ⟨?_, ?_⟩⟩ <;> omega

/-- C36: from a well-formed state (0x4000 < range <= 0xFFFF, low >> 16 < range,
1 <= counter <= 16, the lowest 16 - counter bits of low zero) and a context
value of at most 0xFFFF, for every input memory and every position of the read
pointer, `dirac_get_arith_bit` returns with at most 15 passes through the
renormalisation loop (and the same result for any larger bound); when the bit
is 1 the subtraction from `low` does not wrap (`range_times_prob << 16` is at
most `low`) and `range_times_prob` is below `range`, so the new `range` is at
least 1; when the bit is 0 the new `range`, `range_times_prob`, is at least 1;
and the state afterwards is well-formed. -/
theorem arith_bit_keeps_well_formed (prob mem : Nat → Nat) (a : dirac_arith) (ctx : Nat)
    (hwf : arith_well_formed a) (hp : a.contexts ctx ≤ 0xFFFF) :
    ∃ r, dirac_get_arith_bit prob mem 15 a ctx = some r ∧
      (∀ fuel, 15 ≤ fuel → dirac_get_arith_bit prob mem fuel a ctx = some r) ∧
      r.1 = (if a.low / 65536 ≥ wrap32 (a.range * a.contexts ctx) / 65536 then 1 else 0) ∧
      (a.low / 65536 ≥ wrap32 (a.range * a.contexts ctx) / 65536 →
        wrap32 (a.range * a.contexts ctx) / 65536 * 65536 ≤ a.low ∧
        wrap32 (a.range * a.contexts ctx) / 65536 < a.range) ∧
      (¬ a.low / 65536 ≥ wrap32 (a.range * a.contexts ctx) / 65536 →
        1 ≤ wrap32 (a.range * a.contexts ctx) / 65536) ∧
      arith_well_formed r.2 := by
  obtain ⟨h1, h2, h3, h4, h5, h6⟩ := hwf
  obtain ⟨b1, b2⟩ := arith_bit_branch a.low a.range a.counter (a.contexts ctx) h1 h2 h3 h4 h5 h6 hp
  have hpow : ∀ n : Nat, 1 ≤ n → 0x4000 < n * 2 ^ 15 := by
    intro n hn
    norm_num
    omega
  by_cases h : a.low / 65536 ≥ wrap32 (a.range * a.contexts ctx) / 65536
  · obtain ⟨c1, c2, c3, c4, c5, c6⟩ := b1 h
    have hren : arith_renormalising
        { a with low := sub32 a.low (wrap32 (a.range * a.contexts ctx) / 65536 * 65536),
                 range := sub32 a.range (wrap32 (a.range * a.contexts ctx) / 65536),
                 contexts := Function.update a.contexts ctx
                   ((a.contexts ctx + 65536 - prob (a.contexts ctx / 256) % 65536) % 65536) } := by
      refine ⟨?_, ?_, ?_, h4, h5, ?_⟩
      · show 1 ≤ sub32 a.range _
        rw [c4]; omega
      · show sub32 a.range _ ≤ 0xFFFF
        rw [c4]; omega
      · show sub32 a.low _ / 65536 < sub32 a.range _
        rw [c2, c4]; exact c5
      · show sub32 a.low _ % 2 ^ (16 - a.counter) = 0
        rw [c2]; exact c6
    obtain ⟨a2, e2, w2⟩ := renorm_well_formed mem 15 _ hren (hpow _ hren.1)
    refine ⟨(1, a2), ?_, fun fuel hf => ?_, ?_, fun _ => ⟨c1, c3⟩, fun hn => absurd h hn, w2⟩
    · simp only [dirac_get_arith_bit, if_pos h, ne_eq, one_ne_zero, not_false_eq_true, if_true,
        e2, Option.map_some']
    · simp only [dirac_get_arith_bit, if_pos h, ne_eq, one_ne_zero, not_false_eq_true, if_true,
        renorm_fuel_mono mem 15 _ _ e2 fuel hf, Option.map_some']
    · rw [if_pos h]
  · obtain ⟨c1, c2⟩ := b2 h
    have hlt : a.low / 65536 < wrap32 (a.range * a.contexts ctx) / 65536 := by omega
    have hren : arith_renormalising
        { a with range := wrap32 (a.range * a.contexts ctx) / 65536,
                 contexts := Function.update a.contexts ctx
                   ((a.contexts ctx + prob (255 - a.contexts ctx / 256) % 65536) % 65536) } :=
      ⟨c1, c2, hlt, h4, h5, h6⟩
    obtain ⟨a2, e2, w2⟩ := renorm_well_formed mem 15 _ hren (hpow _ hren.1)
    refine ⟨(0, a2), ?_, fun fuel hf => ?_, ?_, fun hn => absurd hn h, fun _ => c1, w2⟩
    · simp only [dirac_get_arith_bit, if_neg h, ne_eq, not_true_eq_false, if_false,
        e2, Option.map_some']
    · simp only [dirac_get_arith_bit, if_neg h, ne_eq, not_true_eq_false, if_false,
        renorm_fuel_mono mem 15 _ _ e2 fuel hf, Option.map_some']
    · rw [if_neg h]

set_option maxRecDepth 100000 in
/-- Witness for C36: the initial state of the decoder with every context at
0x2000. -/
theorem arith_bit_keeps_well_formed_witness :
    arith_well_formed example_arith ∧ example_arith.contexts 3 ≤ 0xFFFF ∧
    ∃ r, dirac_get_arith_bit example_prob example_mem 15 example_arith 3 = some r ∧
      arith_well_formed r.2 :=
  ⟨by decide, by decide,
   (arith_bit_keeps_well_formed example_prob example_mem example_arith 3 (by decide)
      (by decide)).imp (fun _ h => ⟨h.1, h.2.2.2.2.2⟩)⟩

set_option maxRecDepth 100000 in
/-- C37, the code at the failing input: frame number 3 and a table of n = 3
records whose record at index 2, the displayed non-reference frame numbered 1,
is retired. The table afterwards holds the two records 0 and 1, unchanged, as
the claim says; the compaction loop `for (j = idx; j < idx + s->refcnt; j++)`
runs for j = 2 and j = 3, so that slot 2 receives the former slot 3 and slot 3
the former slot 4: it reads the slots 3 and 4 and writes the slot 3, all at an
index >= n. The same happens in whole calls: after the pictures 5 and 1 have
been stored (twice each) at frame number 0, the call at frame number 2 retires
the records 2 and 3 of a table of four and leaves in slot 2 the content of a
slot past the table, not the former record 3. -/
theorem compaction_reads_past_table :
    example_compaction_context.refcnt = 3 ∧
    example_ref_env.dirac_reference_frame_idx
      (mark_displayed 3 example_compaction_context)
      ((mark_displayed 3 example_compaction_context).retireframe 0) = 2 ∧
    (mark_displayed 3 example_compaction_context).retirecnt = 1 ∧
    (retire_frames example_ref_env 3 example_compaction_context).refcnt = 2 ∧
    (retire_frames example_ref_env 3 example_compaction_context).released = [⟨101, 0, 1⟩] ∧
    (retire_frames example_ref_env 3 example_compaction_context).refframes 0 = ⟨105, 1, 5⟩ ∧
    (retire_frames example_ref_env 3 example_compaction_context).refframes 1 = ⟨106, 1, 6⟩ ∧
    example_compaction_context.refframes 3 = ⟨77, 0, 70⟩ ∧
    example_compaction_context.refframes 4 = ⟨88, 0, 80⟩ ∧
    (retire_frames example_ref_env 3 example_compaction_context).refframes 2 = ⟨77, 0, 70⟩ ∧
    (retire_frames example_ref_env 3 example_compaction_context).refframes 3 = ⟨88, 0, 80⟩ ∧
    (decode_calls example_ref_env empty_context (example_reordered_calls.take 2)).1.refcnt = 4 ∧
    (decode_calls example_ref_env empty_context (example_reordered_calls.take 2)).1.refframes 3
      = ⟨101, 0, 1⟩ ∧
    (decode_calls example_ref_env empty_context example_reordered_calls).2 = [20, 20, 20] ∧
    (decode_calls example_ref_env empty_context example_reordered_calls).1.refcnt = 2 ∧
    (decode_calls example_ref_env empty_context example_reordered_calls).1.released
      = [⟨101, 0, 1⟩, ⟨101, 0, 1⟩] ∧
    (decode_calls example_ref_env empty_context example_reordered_calls).1.refframes 2
      = ⟨0, 0, 0⟩ :=
  ⟨by decide, by decide, by decide, by decide, rfl, rfl, rfl, rfl, rfl, by decide, by decide,
   by decide, by decide, rfl, by decide, rfl, by decide⟩

theorem foldl_flatMap_map {α β γ δ : Type} (f : α → δ → α) (l : List β) (g : β → List γ)
    (k : β → γ → δ) : ∀ a : α,
    (l.flatMap (fun b => (g b).map (k b))).foldl f a =
      l.foldl (fun t b => (g b).foldl (fun u c => f u (k b c)) t) a := by
  induction l with
  | nil => intro a; rfl
  | cons b l ih =>
    intro a
    rw [List.flatMap_cons, List.foldl_append, List.foldl_cons, List.foldl_map, ih]

theorem count_pairs (C : List Nat) (v0 v h : Nat) :
    (C.map (fun h0 => (v0, h0))).count (v, h) = if v0 = v then C.count h else 0 := by
  induction C with
  | nil => simp
  | cons c C ih =>
    rw [List.map_cons, List.count_cons, ih, List.count_cons]
    by_cases hv : v0 = v
    · subst hv
      simp only [if_true, beq_iff_eq, Prod.mk.injEq, true_and]
    · simp only [if_neg hv, beq_iff_eq, Prod.mk.injEq, hv, false_and, if_false]

theorem count_product (R C : List Nat) (v h : Nat) :
    (R.flatMap (fun v0 => C.map (fun h0 => (v0, h0)))).count (v, h) = R.count v * C.count h := by
  induction R with
  | nil => simp
  | cons r R ih =>
    rw [List.flatMap_cons, List.count_append, ih, count_pairs, List.count_cons]
    by_cases hv : r = v
    · subst hv
      simp only [if_true, beq_self_eq_true]
      ring
    · simp only [if_neg hv, beq_iff_eq, hv, if_false]
      ring

theorem count_grid (rows cols : Nat → List Nat) (Ys Xs : List Nat) (v h : Nat) :
    ((Ys.flatMap (fun y => Xs.map (fun x => (x, y)))).flatMap
      (fun p => (rows p.2).flatMap (fun v0 => (cols p.1).map (fun h0 => (v0, h0))))).count (v, h)
    = (Ys.flatMap rows).count v * (Xs.flatMap cols).count h := by
  have inner : ∀ (y : Nat) (l : List Nat),
      ((l.map (fun x => (x, y))).flatMap
        (fun p => (rows p.2).flatMap (fun v0 => (cols p.1).map (fun h0 => (v0, h0))))).count
          (v, h)
      = (rows y).count v * (l.flatMap cols).count h := by
    intro y l
    induction l with
    | nil => simp
    | cons x l ih =>
      rw [List.map_cons, List.flatMap_cons, List.count_append, ih, count_product,
        List.flatMap_cons, List.count_append]
      ring
  induction Ys with
  | nil => simp
  | cons y Ys ih =>
    rw [List.flatMap_cons, List.flatMap_append, List.count_append, ih, inner,
      List.flatMap_cons, List.count_append]
    ring

/-- The flat indices `j * blwidth + i` of the motion blocks of a square. -/
theorem mem_square_flat (bw step x y k : Nat) :
    k ∈ (square_cells step x y).map (fun c => c.1 * bw + c.2) ↔
      ∃ j i, y ≤ j ∧ j < y + step ∧ x ≤ i ∧ i < x + step ∧ k = j * bw + i := by
  simp only [square_cells, List.mem_map, List.mem_flatMap, List.mem_range'_1, Prod.exists]
  constructor
  · rintro ⟨a, b, ⟨j, hj, i, hi, hji⟩, rfl⟩
    simp only [Prod.mk.injEq] at hji
    obtain ⟨rfl, rfl⟩ := hji
    exact ⟨j, i, hj.1, hj.2, hi.1, hi.2, rfl⟩
  · rintro ⟨j, i, h1, h2, h3, h4, rfl⟩
    exact ⟨j, i, ⟨j, ⟨h1, h2⟩, i, ⟨h3, h4⟩, rfl⟩, rfl⟩

theorem propagate_row_spec {A : Type} (x y j : Nat) (l : List Nat) :
    ∀ u : MotionContext A,
      (l.foldl (copy_block x y j) u).blwidth = u.blwidth ∧
      ∀ k, (l.foldl (copy_block x y j) u).blmotion k =
        if ∃ i ∈ l, k = j * u.blwidth + i then u.blmotion (y * u.blwidth + x)
        else u.blmotion k := by
  induction l with
  | nil =>
    intro u
    refine ⟨rfl, fun k => ?_⟩
    simp only [List.foldl_nil, List.not_mem_nil, false_and, exists_false, if_false]
  | cons i l ih =>
    intro u
    rw [List.foldl_cons]
    obtain ⟨h1, h2⟩ := ih (copy_block x y j u i)
    have hw : (copy_block x y j u i).blwidth = u.blwidth := rfl
    have hb : ∀ k, (copy_block x y j u i).blmotion k =
        if k = j * u.blwidth + i then u.blmotion (y * u.blwidth + x) else u.blmotion k := by
      intro k
      simp only [copy_block, Function.update_apply]
    refine ⟨h1.trans hw, fun k => ?_⟩
    rw [h2 k, hw, hb, hb]
    simp only [List.mem_cons, exists_eq_or_imp]
    by_cases ha : ∃ a ∈ l, k = j * u.blwidth + a
    · rw [if_pos ha, if_pos (Or.inr ha)]
      split_ifs <;> rfl
    · rw [if_neg ha]
      by_cases hk : k = j * u.blwidth + i
      · rw [if_pos hk, if_pos (Or.inl hk)]
      · rw [if_neg hk, if_neg (fun h => h.elim hk ha)]

theorem propagate_rows_spec {A : Type} (step x y : Nat) (l : List Nat) :
    ∀ u : MotionContext A,
      (l.foldl (fun t j => (List.range' x step).foldl (copy_block x y j) t) u).blwidth
        = u.blwidth ∧
      ∀ k, (l.foldl (fun t j => (List.range' x step).foldl (copy_block x y j) t) u).blmotion k =
        if ∃ j ∈ l, ∃ i ∈ List.range' x step, k = j * u.blwidth + i
        then u.blmotion (y * u.blwidth + x) else u.blmotion k := by
  induction l with
  | nil =>
    intro u
    refine ⟨rfl, fun k => ?_⟩
    simp only [List.foldl_nil, List.not_mem_nil, false_and, exists_false, if_false]
  | cons j l ih =>
    intro u
    rw [List.foldl_cons]
    obtain ⟨r1, r2⟩ := propagate_row_spec x y j (List.range' x step) u
    obtain ⟨h1, h2⟩ := ih ((List.range' x step).foldl (copy_block x y j) u)
    refine ⟨h1.trans r1, fun k => ?_⟩
    rw [h2 k, r1, r2, r2]
    simp only [List.mem_cons, exists_eq_or_imp]
    by_cases ha : ∃ a ∈ l, ∃ i ∈ List.range' x step, k = a * u.blwidth + i
    · rw [if_pos ha, if_pos (Or.inr ha)]
      split_ifs <;> rfl
    · rw [if_neg ha]
      by_cases hk : ∃ i ∈ List.range' x step, k = j * u.blwidth + i
      · rw [if_pos hk, if_pos (Or.inl hk)]
      · rw [if_neg hk, if_neg (fun h => h.elim hk ha)]

/-- `propagate_block_data` copies the block at (x, y) over its square and
writes nothing else. -/
theorem propagate_block_data_spec {A : Type} (s : MotionContext A) (step x y : Nat) :
    (propagate_block_data s step x y).blwidth = s.blwidth ∧
    ∀ k, (propagate_block_data s step x y).blmotion k =
      if k ∈ (square_cells step x y).map (fun c => c.1 * s.blwidth + c.2)
      then s.blmotion (y * s.blwidth + x) else s.blmotion k := by
  obtain ⟨h1, h2⟩ := propagate_rows_spec step x y (List.range' y step) s
  refine ⟨h1, fun k => ?_⟩
  unfold propagate_block_data
  rw [h2 k]
  have hiff : (∃ j ∈ List.range' y step, ∃ i ∈ List.range' x step, k = j * s.blwidth + i) ↔
      k ∈ (square_cells step x y).map (fun c => c.1 * s.blwidth + c.2) := by
    rw [mem_square_flat]
    simp only [List.mem_range'_1]
    constructor
    · rintro ⟨j, hj, i, hi, rfl⟩
      exact ⟨j, i, hj.1, hj.2, hi.1, hi.2, rfl⟩
    · rintro ⟨j, i, a, b, c, d, rfl⟩
      exact ⟨j, ⟨a, b⟩, i, ⟨c, d⟩, rfl⟩
  by_cases hk : k ∈ (square_cells step x y).map (fun c => c.1 * s.blwidth + c.2)
  · rw [if_pos hk, if_pos (hiff.2 hk)]
  · rw [if_neg hk, if_neg (fun h => hk (hiff.1 h))]

/-- Decoding the block at the origin of a square and copying it: the square
holds the decoded block, every other motion block is as before. -/
theorem unpack_square_spec {A : Type} (unpack : MotionContext A → Nat → Nat → MotionContext A)
    (hU : WritesOrigin unpack) (step x y : Nat) (hstep : 1 ≤ step) (u : MotionContext A)
    (c : Nat × Nat) :
    (unpack_square unpack step x y u c).blwidth = u.blwidth ∧
    ∀ k, (unpack_square unpack step x y u c).blmotion k =
      if k ∈ (square_cells step (4 * x + c.1 * step) (4 * y + c.2 * step)).map
          (fun c => c.1 * u.blwidth + c.2)
      then (unpack u (4 * x + c.1 * step) (4 * y + c.2 * step)).blmotion
          ((4 * y + c.2 * step) * u.blwidth + (4 * x + c.1 * step))
      else u.blmotion k := by
  obtain ⟨hw, hk⟩ := hU u (4 * x + c.1 * step) (4 * y + c.2 * step)
  obtain ⟨h1, h2⟩ := propagate_block_data_spec
    (unpack u (4 * x + c.1 * step) (4 * y + c.2 * step)) step
    (4 * x + c.1 * step) (4 * y + c.2 * step)
  refine ⟨by unfold unpack_square; rw [h1, hw], fun k => ?_⟩
  unfold unpack_square
  rw [h2 k, hw]
  by_cases hm : k ∈ (square_cells step (4 * x + c.1 * step) (4 * y + c.2 * step)).map
      (fun c => c.1 * u.blwidth + c.2)
  · rw [if_pos hm, if_pos hm]
  · rw [if_neg hm, if_neg hm]
    apply hk
    intro hko
    apply hm
    rw [mem_square_flat]
    exact ⟨_, _, le_refl _, by omega, le_refl _, by omega, hko⟩

/-- A run of squares whose flat indices do not overlap: what is outside every
square is kept, and every square holds the block decoded at its origin. -/
theorem unpack_squares_spec {A : Type} (unpack : MotionContext A → Nat → Nat → MotionContext A)
    (hU : WritesOrigin unpack) (step x y bw : Nat) (hstep : 1 ≤ step) (cs : List (Nat × Nat)) :
    ∀ u : MotionContext A, u.blwidth = bw →
      cs.Pairwise (fun a b => ∀ k,
        k ∈ (square_cells step (4 * x + a.1 * step) (4 * y + a.2 * step)).map
          (fun c => c.1 * bw + c.2) →
        k ∉ (square_cells step (4 * x + b.1 * step) (4 * y + b.2 * step)).map
          (fun c => c.1 * bw + c.2)) →
      (cs.foldl (unpack_square unpack step x y) u).blwidth = bw ∧
      (∀ k, (∀ c ∈ cs, k ∉ (square_cells step (4 * x + c.1 * step) (4 * y + c.2 * step)).map
          (fun c => c.1 * bw + c.2)) →
        (cs.foldl (unpack_square unpack step x y) u).blmotion k = u.blmotion k) ∧
      ∀ n c, cs[n]? = some c →
        ∀ k ∈ (square_cells step (4 * x + c.1 * step) (4 * y + c.2 * step)).map
          (fun c => c.1 * bw + c.2),
        (cs.foldl (unpack_square unpack step x y) u).blmotion k =
          (unpack ((cs.take n).foldl (unpack_square unpack step x y) u)
            (4 * x + c.1 * step) (4 * y + c.2 * step)).blmotion
            ((4 * y + c.2 * step) * bw + (4 * x + c.1 * step)) := by
  induction cs with
  | nil =>
    intro u hu _
    refine ⟨hu, fun k _ => rfl, fun n c hc => ?_⟩
    simp at hc
  | cons a cs ih =>
    intro u hu hp
    rw [List.pairwise_cons] at hp
    obtain ⟨s1, s2⟩ := unpack_square_spec unpack hU step x y hstep u a
    rw [hu] at s1 s2
    obtain ⟨i1, i2, i3⟩ := ih (unpack_square unpack step x y u a) s1 hp.2
    rw [List.foldl_cons]
    refine ⟨i1, fun k hk => ?_, fun n c hc k hkc => ?_⟩
    · rw [i2 k (fun c hc => hk c (List.mem_cons_of_mem _ hc)), s2 k,
        if_neg (hk a (List.mem_cons_self _ _))]
    · cases n with
      | zero =>
        simp only [List.getElem?_cons_zero, Option.some.injEq] at hc
        subst hc
        rw [i2 k (fun c hc => hp.1 c hc k hkc), s2 k, if_pos hkc]
        rfl
      | succ n =>
        simp only [List.getElem?_cons_succ] at hc
        rw [i3 n c hc k hkc]
        rfl

theorem blockmode_prediction_spec {A : Type} (env : MotionEnv A) (u : MotionContext A)
    (x y : Nat) :
    (blockmode_prediction env u x y).blwidth = u.blwidth ∧
    ∀ k, k ≠ y * u.blwidth + x → (blockmode_prediction env u x y).blmotion k = u.blmotion k := by
  simp only [blockmode_prediction, or_use_ref]
  split_ifs <;> refine ⟨rfl, fun k hk => ?_⟩ <;> simp only [Function.update_apply, if_neg hk]

theorem blockglob_prediction_spec {A : Type} (env : MotionEnv A) (u : MotionContext A)
    (x y : Nat) :
    (blockglob_prediction env u x y).blwidth = u.blwidth ∧
    ∀ k, k ≠ y * u.blwidth + x → (blockglob_prediction env u x y).blmotion k = u.blmotion k := by
  simp only [blockglob_prediction, or_use_ref]
  split_ifs <;> refine ⟨rfl, fun k hk => ?_⟩ <;>
    first | rfl | simp only [Function.update_apply, if_neg hk]

/-- The block decoding of the prediction mode pass writes the block at its
position only. -/
theorem unpack_block_mode_writes_origin {A : Type} (env : MotionEnv A) :
    WritesOrigin (unpack_block_mode env) := by
  intro u x y
  obtain ⟨m1, m2⟩ := blockmode_prediction_spec env u x y
  obtain ⟨g1, g2⟩ := blockglob_prediction_spec env (blockmode_prediction env u x y) x y
  refine ⟨g1.trans m1, fun k hk => ?_⟩
  unfold unpack_block_mode
  rw [g2 k (by rw [m1]; exact hk), m2 k hk]

theorem ranges_concat (a step : Nat) (n : Nat) :
    (List.range n).flatMap (fun q => List.range' (a + q * step) step) =
      List.range' a (n * step) := by
  induction n with
  | zero => simp
  | succ n ih =>
    rw [List.range_succ, List.flatMap_append, ih, List.flatMap_singleton,
      List.range'_append_1, Nat.succ_mul, Nat.add_comm]

theorem count_range' (a n v : Nat) :
    (List.range' a n).count v = if a ≤ v ∧ v < a + n then 1 else 0 := by
  by_cases hv : a ≤ v ∧ v < a + n
  · rw [if_pos hv]
    exact List.count_eq_one_of_mem (List.nodup_range' a n) (List.mem_range'_1.2 hv)
  · rw [if_neg hv]
    exact List.count_eq_zero_of_not_mem (fun h => hv (List.mem_range'_1.1 h))

/-- The squares of a superblock cover each of its 4x4 motion blocks once, and
nothing else. -/
theorem square_cells_count (blk step x y : Nat) (h4 : blk * step = 4) (j i : Nat) :
    (((List.range blk).flatMap (fun q => (List.range blk).map (fun p => (p, q)))).flatMap
      (fun c => square_cells step (4 * x + c.1 * step) (4 * y + c.2 * step))).count (j, i) =
      if 4 * y ≤ j ∧ j < 4 * y + 4 ∧ 4 * x ≤ i ∧ i < 4 * x + 4 then 1 else 0 := by
  unfold square_cells
  rw [count_grid (fun q => List.range' (4 * y + q * step) step)
    (fun p => List.range' (4 * x + p * step) step), ranges_concat, ranges_concat, h4,
    count_range', count_range']
  split_ifs <;> simp_all

theorem mem_squares (blk : Nat) (c : Nat × Nat)
    (hc : c ∈ (List.range blk).flatMap (fun q => (List.range blk).map (fun p => (p, q)))) :
    c.1 < blk ∧ c.2 < blk := by
  simp only [List.mem_flatMap, List.mem_map, List.mem_range] at hc
  obtain ⟨q, hq, p, hp, rfl⟩ := hc
  exact ⟨hp, hq⟩

/-- A flat index of a square of the superblock (x, y) is the index of one of
the 4x4 motion blocks of the superblock. -/
theorem square_in_superblock (blk step x y bw : Nat)
    (hcase : (blk = 1 ∧ step = 4) ∨ (blk = 2 ∧ step = 2) ∨ (blk = 4 ∧ step = 1))
    (c : Nat × Nat) (hc1 : c.1 < blk) (hc2 : c.2 < blk) (k : Nat)
    (hk : k ∈ (square_cells step (4 * x + c.1 * step) (4 * y + c.2 * step)).map
      (fun c => c.1 * bw + c.2)) :
    ∃ j i, 4 * y ≤ j ∧ j < 4 * y + 4 ∧ 4 * x ≤ i ∧ i < 4 * x + 4 ∧ k = j * bw + i ∧
      c.1 * step ≤ i - 4 * x ∧ i - 4 * x < c.1 * step + step ∧
      c.2 * step ≤ j - 4 * y ∧ j - 4 * y < c.2 * step + step := by
  rw [mem_square_flat] at hk
  obtain ⟨j, i, h1, h2, h3, h4, rfl⟩ := hk
  refine ⟨j, i, ?_, ?_, ?_, ?_, rfl, ?_, ?_, ?_, ?_⟩ <;>
    rcases hcase with ⟨rfl, rfl⟩ | ⟨rfl, rfl⟩ | ⟨rfl, rfl⟩ <;> omega

theorem squares_pairwise (blk step x y bw : Nat)
    (hcase : (blk = 1 ∧ step = 4) ∨ (blk = 2 ∧ step = 2) ∨ (blk = 4 ∧ step = 1))
    (hbw : 4 * x + 4 ≤ bw) :
    ((List.range blk).flatMap (fun q => (List.range blk).map (fun p => (p, q)))).Pairwise
      (fun a b => ∀ k,
        k ∈ (square_cells step (4 * x + a.1 * step) (4 * y + a.2 * step)).map
          (fun c => c.1 * bw + c.2) →
        k ∉ (square_cells step (4 * x + b.1 * step) (4 * y + b.2 * step)).map
          (fun c => c.1 * bw + c.2)) := by
  apply List.Nodup.pairwise_of_forall_ne
  · rcases hcase with ⟨rfl, _⟩ | ⟨rfl, _⟩ | ⟨rfl, _⟩ <;> decide
  · intro a ha b hb hab k hka hkb
    obtain ⟨a1, a2⟩ := mem_squares blk a ha
    obtain ⟨b1, b2⟩ := mem_squares blk b hb
    obtain ⟨j, i, p1, p2, p3, p4, rfl, p5, p6, p7, p8⟩ :=
      square_in_superblock blk step x y bw hcase a a1 a2 k hka
    obtain ⟨j2, i2, q1, q2, q3, q4, hq, q5, q6, q7, q8⟩ :=
      square_in_superblock blk step x y bw hcase b b1 b2 _ hkb
    obtain ⟨hi, hj⟩ := Vp3.raster_index_unique bw i j i2 j2 (by omega) (by omega) hq
    subst hi
    subst hj
    apply hab
    apply Prod.ext <;> rcases hcase with ⟨rfl, rfl⟩ | ⟨rfl, rfl⟩ | ⟨rfl, rfl⟩ <;> omega

theorem split_cases (split : Nat) (hs : split ≤ 2) :
    (1 <<< split = 1 ∧ 4 >>> split = 4) ∨ (1 <<< split = 2 ∧ 4 >>> split = 2) ∨
      (1 <<< split = 4 ∧ 4 >>> split = 1) := by
  interval_cases split <;> decide

/-- The loops over q and p of a superblock as the run of its squares. -/
theorem unpack_superblock_squares {A : Type}
    (unpack : MotionContext A → Nat → Nat → MotionContext A) (s : MotionContext A) (x y : Nat) :
    unpack_superblock unpack s x y =
      (superblock_squares (s.sbsplit (y * s.sbwidth + x))).foldl
        (unpack_square unpack (4 >>> s.sbsplit (y * s.sbwidth + x)) x y) s := by
  unfold unpack_superblock superblock_squares
  rw [foldl_flatMap_map]
  rfl

/-- C39: for a superblock (x, y) with x < sbwidth, `blwidth = sbwidth << 2` and a
split level of at most 2, and a block decoding that writes only the block at
its position: the loops over q and p are the run of the squares (p, q); the
cells of the squares, taken together, hold each of the 4x4 motion blocks of the
superblock exactly once and no other block; `propagate_block_data` copies the
block at (x, y) over its square and writes nothing else; after the pass every
motion block that is not one of the 4x4 of the superblock is as before, and
every motion block of a square equals the block decoded at the origin of the
square. -/
theorem superblock_squares_partition {A : Type}
    (unpack : MotionContext A → Nat → Nat → MotionContext A) (hU : WritesOrigin unpack)
    (s : MotionContext A) (x y : Nat) (hx : x < s.sbwidth) (hbw : s.blwidth = s.sbwidth <<< 2)
    (hs : s.sbsplit (y * s.sbwidth + x) ≤ 2) :
    unpack_superblock unpack s x y =
      (superblock_squares (s.sbsplit (y * s.sbwidth + x))).foldl
        (unpack_square unpack (4 >>> s.sbsplit (y * s.sbwidth + x)) x y) s ∧
    (∀ j i, ((superblock_squares (s.sbsplit (y * s.sbwidth + x))).flatMap
        (fun c => square_cells (4 >>> s.sbsplit (y * s.sbwidth + x))
          (4 * x + c.1 * (4 >>> s.sbsplit (y * s.sbwidth + x)))
          (4 * y + c.2 * (4 >>> s.sbsplit (y * s.sbwidth + x))))).count (j, i) =
      if 4 * y ≤ j ∧ j < 4 * y + 4 ∧ 4 * x ≤ i ∧ i < 4 * x + 4 then 1 else 0) ∧
    (∀ (u : MotionContext A) (step xb yb k : Nat),
      (propagate_block_data u step xb yb).blmotion k =
        if k ∈ (square_cells step xb yb).map (fun c => c.1 * u.blwidth + c.2)
        then u.blmotion (yb * u.blwidth + xb) else u.blmotion k) ∧
    (∀ k, (∀ j i, 4 * y ≤ j → j < 4 * y + 4 → 4 * x ≤ i → i < 4 * x + 4 →
        k ≠ j * s.blwidth + i) →
      (unpack_superblock unpack s x y).blmotion k = s.blmotion k) ∧
    ∀ n c, (superblock_squares (s.sbsplit (y * s.sbwidth + x)))[n]? = some c →
      ∀ cell ∈ square_cells (4 >>> s.sbsplit (y * s.sbwidth + x))
          (4 * x + c.1 * (4 >>> s.sbsplit (y * s.sbwidth + x)))
          (4 * y + c.2 * (4 >>> s.sbsplit (y * s.sbwidth + x))),
        (unpack_superblock unpack s x y).blmotion (cell.1 * s.blwidth + cell.2) =
          (unpack (((superblock_squares (s.sbsplit (y * s.sbwidth + x))).take n).foldl
              (unpack_square unpack (4 >>> s.sbsplit (y * s.sbwidth + x)) x y) s)
            (4 * x + c.1 * (4 >>> s.sbsplit (y * s.sbwidth + x)))
            (4 * y + c.2 * (4 >>> s.sbsplit (y * s.sbwidth + x)))).blmotion
            ((4 * y + c.2 * (4 >>> s.sbsplit (y * s.sbwidth + x))) * s.blwidth +
              (4 * x + c.1 * (4 >>> s.sbsplit (y * s.sbwidth + x)))) := by
  have hsq := unpack_superblock_squares unpack s x y
  have hcase := split_cases _ hs
  have hbw4 : 4 * x + 4 ≤ s.blwidth := by
    rw [hbw, Nat.shiftLeft_eq]
    omega
  have h4 : 1 <<< s.sbsplit (y * s.sbwidth + x) * 4 >>> s.sbsplit (y * s.sbwidth + x) = 4 := by
    rcases hcase with ⟨h1, h2⟩ | ⟨h1, h2⟩ | ⟨h1, h2⟩ <;> rw [h1, h2]
  have hstep : 1 ≤ 4 >>> s.sbsplit (y * s.sbwidth + x) := by
    rcases hcase with ⟨_, h2⟩ | ⟨_, h2⟩ | ⟨_, h2⟩ <;> rw [h2] <;> decide
  obtain ⟨_, p2, p3⟩ := unpack_squares_spec unpack hU (4 >>> s.sbsplit (y * s.sbwidth + x)) x y
    s.blwidth hstep (superblock_squares (s.sbsplit (y * s.sbwidth + x))) s rfl
    (squares_pairwise _ _ x y s.blwidth hcase hbw4)
  refine ⟨hsq, square_cells_count _ _ x y h4, fun u step xb yb k =>
    (propagate_block_data_spec u step xb yb).2 k, fun k hk => ?_, fun n c hc cell hcell => ?_⟩
  · rw [hsq]
    apply p2 k
    intro c hc hmem
    obtain ⟨c1, c2⟩ := mem_squares _ c hc
    obtain ⟨j, i, a1, a2, a3, a4, a5, _⟩ :=
      square_in_superblock _ _ x y s.blwidth hcase c c1 c2 k hmem
    exact hk j i a1 a2 a3 a4 a5
  · rw [hsq]
    exact p3 n c hc _ (List.mem_map_of_mem _ hcell)

set_option maxRecDepth 100000 in
/-- Witness for C39: the prediction mode pass on a superblock split into four
squares; the block (row 1, column 3) holds what was decoded at (row 0, column 2). -/
theorem superblock_squares_partition_witness :
    WritesOrigin (unpack_block_mode example_motion_env) ∧
    0 < example_motion_context.sbwidth ∧
    example_motion_context.blwidth = example_motion_context.sbwidth <<< 2 ∧
    example_motion_context.sbsplit (0 * example_motion_context.sbwidth + 0) ≤ 2 ∧
    superblock_squares 1 = [(0, 0), (1, 0), (0, 1), (1, 1)] ∧
    (1, 3) ∈ square_cells 2 2 0 ∧
    (unpack_superblock (unpack_block_mode example_motion_env) example_motion_context 0 0).blmotion
        (1 * example_motion_context.blwidth + 3) =
      (unpack_block_mode example_motion_env
        (unpack_square (unpack_block_mode example_motion_env) 2 0 0 example_motion_context (0, 0))
        2 0).blmotion (0 * example_motion_context.blwidth + 2) :=
  ⟨unpack_block_mode_writes_origin example_motion_env, by decide, by decide, by decide,
   by decide, by decide,
   (superblock_squares_partition (unpack_block_mode example_motion_env)
      (unpack_block_mode_writes_origin example_motion_env) example_motion_context 0 0
      (by decide) (by decide) (by decide)).2.2.2.2 1 (1, 0) (by decide) (1, 3) (by decide)⟩

end Dirac

namespace Avc

/-- A byte loop that has ended at its test has come to its limit. -/
theorem byte_scan_passed (mem : Int → Nat) (limit : Int) :
    ∀ (k : Nat) (p q : Int), (limit - p).toNat ≤ k →
      byte_scan mem limit k p = Scan.passed q → limit ≤ q := by
  intro k
  induction k with
  | zero =>
    intro p q hk h
    rw [byte_scan] at h
    cases h
    omega
  | succ k ih =>
    intro p q hk h
    rw [byte_scan] at h
    by_cases hp : p < limit
    · rw [if_pos hp] at h
      by_cases hs : startcode_at mem p = true
      · rw [if_pos hs] at h
        cases h
      · rw [if_neg hs] at h
        exact ih (p + 1) q (by omega) h
    · rw [if_neg hp] at h
      cases h
      omega

/-- The word loop, if it ends at its test, has come to its limit. -/
theorem word_scan_passed (mem : Int → Nat) (limit : Int) :
    ∀ (k : Nat) (p q : Int), (limit - p).toNat ≤ k →
      word_scan mem limit k p = Scan.passed q → limit ≤ q := by
  intro k
  induction k with
  | zero =>
    intro p q hk h
    rw [word_scan] at h
    cases h
    omega
  | succ k ih =>
    intro p q hk h
    rw [word_scan] at h
    by_cases hp : p < limit
    · rw [if_pos hp] at h
      by_cases hc : (word_check mem p).isSome = true
      · rw [if_pos hc] at h
        cases h
      · rw [if_neg hc] at h
        exact ih (p + 4) q (by omega) h
    · rw [if_neg hp] at h
      cases h
      omega

set_option maxRecDepth 100000 in
/-- C40 (the code at the failing input): for the 12 bytes
`01 01 01 01 00 00 01 09 01 01 01 01` at the aligned address 8, whose first
start code stands at 12, `avc_find_startcode` returns 11, the address of a byte
that is not 0; the byte loop before the word loop has passed the addresses
8..11, and the word loop returns one less than the position it has tested. -/
theorem avc_find_startcode_off_by_one :
    naive_startcode example_buffer 8 20 = 12 ∧
    avc_find_startcode example_buffer 8 20 = 11 ∧
    example_buffer 11 = 1 ∧
    byte_scan example_buffer (min (8 + 4 - 8 % 4) (20 - 3)) 12 8 = Scan.passed 12 ∧
    word_check example_buffer 12 = some 11 ∧
    startcode_at example_buffer 12 = true ∧ startcode_at example_buffer 11 = false := by
  refine ⟨by decide, by decide, by decide, by decide, by decide, by decide, by decide⟩

end Avc
